import Mathlib

/-!
# Configuration model of the consensus core

A shallow embedding of `StableConfiguration`
(`plugin/raft_replication/raft/consensus/algorithm/configuration.cc`).

* `std::string` is a `List Char` (one `Char` per byte).
* `ServerRef` (a `std::shared_ptr<Server>`) is an `Option Server`; `none` is `nullptr`.
* `std::vector<ServerRef>` is a `List (Option Server)`.
* `uint64_t` values are natural numbers; a wrap-around is written out where the
  code can reach one.
* An operation that can throw, abort or read out of bounds returns an `Option`.
-/

namespace alisql

/-- The constant `UINT64_MAX`. -/
def UINT64_MAX : Nat := 2 ^ 64 - 1

/-- The fields of `Server` / `RemoteServer` that `configuration.cc` reads or writes. -/
structure Server where
  serverId : Nat
  strAddr : List Char
  electionWeight : Nat
  forceSync : Bool
  learnerSource : Nat
  isLearner : Bool
  appliedIndex : Nat
  lastAckEpoch : Nat
  flowControl : Int
deriving DecidableEq, Repr

/-- `Configuration::ServerRef`: a shared pointer that may be null. -/
abbrev ServerRef := Option Server

/-- `StableConfiguration::getServerNum`: the number of non-null slots. -/
def getServerNum (servers : List ServerRef) : Nat :=
  servers.foldl (fun cnt it => if it.isSome then cnt + 1 else cnt) 0

/-- `StableConfiguration::quorumAll`. -/
def quorumAll (servers : List ServerRef) (predicate : Server → Bool) : Bool :=
  if servers.isEmpty then true
  else
    let count := servers.foldl
      (fun count it =>
        match it with
        | some s => if predicate s then count + 1 else count
        | none => count) 0
    decide (count ≥ getServerNum servers / 2 + 1)

/-- The loop of `quorumMin` that collects the values of the non-null members. -/
def collectValues (servers : List ServerRef) (getValue : Server → Nat) : List Nat :=
  servers.foldl
    (fun values it =>
      match it with
      | some s => values ++ [getValue s]
      | none => values) []

/-- `StableConfiguration::quorumMin`. `values.size() - 1` is computed in `size_t`
and wraps when `values` is empty; `values.at` throws when the index is out of range
(`none`). -/
def quorumMin (servers : List ServerRef) (getValue : Server → Nat) : Option Nat :=
  if servers.isEmpty then some 0
  else
    let values := collectValues servers getValue
    let sorted := values.insertionSort (· ≤ ·)
    let last := if sorted.length = 0 then UINT64_MAX else sorted.length - 1
    sorted[last / 2]?

/-- `StableConfiguration::forceMin`. -/
def forceMin (servers : List ServerRef) (getValue : Server → Nat) : Nat :=
  if servers.isEmpty then 0
  else
    servers.foldl
      (fun value it =>
        match it with
        | some s =>
          if s.forceSync then
            let tmp := getValue s
            if tmp < value then tmp else value
          else value
        | none => value) UINT64_MAX

/-- `StableConfiguration::allMin`. -/
def allMin (servers : List ServerRef) (getValue : Server → Nat) : Nat :=
  if servers.isEmpty then 0
  else
    servers.foldl
      (fun value it =>
        match it with
        | some s =>
          let tmp := getValue s
          if tmp < value then tmp else value
        | none => value) UINT64_MAX

/-! ## Concrete servers used in examples -/

/-- A server with the given id, address, weight and force-sync flag. -/
def mkMember (id : Nat) (addr : List Char) (w : Nat) (fs : Bool) : Server :=
  { serverId := id, strAddr := addr, electionWeight := w, forceSync := fs,
    learnerSource := 0, isLearner := false, appliedIndex := 0, lastAckEpoch := 0,
    flowControl := 0 }

/-- The three-member configuration `A#5, B#5S, C#9`. -/
def exampleServers : List ServerRef :=
  [some (mkMember 1 ['A'] 5 false), some (mkMember 2 ['B'] 5 true),
   some (mkMember 3 ['C'] 9 false)]

/-- The non-null members of a slot list, in slot order. -/
def members (servers : List ServerRef) : List Server :=
  servers.filterMap id

/-- The values of the non-null members, sorted ascending (the spec's wording). -/
def sortedValues (servers : List ServerRef) (getValue : Server → Nat) : List Nat :=
  ((members servers).map getValue).insertionSort (· ≤ ·)


/-- The minimum of `f` over a list of servers with the sentinel `UINT64_MAX` for the
empty list (the spec's wording). -/
def IsMinOver (S : List Server) (f : Server → Nat) (r : Nat) : Prop :=
  (S = [] → r = UINT64_MAX) ∧
  (S ≠ [] → (∃ m ∈ S, r = f m) ∧ ∀ m ∈ S, r ≤ f m)


/-! ## Strings -/

/-- `std::to_string` of an unsigned integer: its decimal digits. -/
def to_string (n : Nat) : List Char := Nat.toDigits 10 n

/-- `std::string::find(c, start)`: the first position at or after `start` that holds
`c`; `none` is `std::string::npos`. -/
def find (str : List Char) (c : Char) (start : Nat) : Option Nat :=
  let k := (str.drop start).indexOf c
  if k < (str.drop start).length then some (start + k) else none

/-- `std::string::substr(start, n)` for `start ≤ size`; `n = none` stands for a count
computed from `npos`, which reaches the end of the string. -/
def substr (str : List Char) (start : Nat) (n : Option Nat) : List Char :=
  match n with
  | some n => (str.drop start).take n
  | none => str.drop start

/-- `isspace` in the C locale. -/
def isspace (c : Char) : Bool :=
  c.toNat = 32 || (9 ≤ c.toNat && c.toNat ≤ 13)

/-- The value of a run of decimal digits, most significant first. -/
def digitsValue (cs : List Char) : Nat :=
  cs.foldl (fun acc c => 10 * acc + (c.toNat - 48)) 0

/-- The optional sign accepted by `strtoull`: whether it is a minus, and the rest. -/
def stripSign : List Char → Bool × List Char
  | '+' :: t => (false, t)
  | '-' :: t => (true, t)
  | s => (false, s)

/-- `std::stoull` (base 10) of the C++ standard library: skips leading white space,
accepts one sign, converts the longest run of digits, ignores the rest. `none` is the
exception it throws (`invalid_argument` without a digit, `out_of_range` above
`UINT64_MAX`); a minus sign negates in `unsigned long long`. -/
def stoull (str : List Char) : Option Nat :=
  let s := str.dropWhile isspace
  let signed := stripSign s
  let digits := signed.2.takeWhile Char.isDigit
  if digits.isEmpty then none
  else
    let v := digitsValue digits
    if v > UINT64_MAX then none
    else some (if signed.1 then (2 ^ 64 - v) % 2 ^ 64 else v)

/-- Conversion of a `size_t` value to `int` (32-bit two's complement). -/
def toInt32 (n : Nat) : Int :=
  let r : Nat := n % 2 ^ 32
  if r < 2 ^ 31 then (r : Int) else (r : Int) - 2 ^ 32

/-- The character appended by `ret += server->electionWeight + '0'`: the sum is
converted to `char`. -/
def weightChar (electionWeight : Nat) : Char :=
  Char.ofNat ((electionWeight + 48) % 256)

/-- `StableConfiguration::memberToString`. -/
def memberToString (server : Server) : List Char :=
  let ret : List Char := []
  let ret := ret ++ server.strAddr
  let ret := ret ++ ['#']
  let ret := ret ++ [weightChar server.electionWeight]
  let ret := ret ++ (if server.forceSync then ['S'] else [])
  ret

/-- `StableConfiguration::learnerToString`. -/
def learnerToString (server : Server) : List Char :=
  let ret : List Char := []
  let ret := ret ++ server.strAddr
  let ret := ret ++ ['$']
  let ret := ret ++ to_string server.learnerSource
  ret

/-- One iteration of the loop of `configToString`; the state is `(ret, localIndex, i)`. -/
def configToStringStep (localAddr : List Char) (forceMember : Bool)
    (st : List Char × Nat × Nat) (server : ServerRef) : List Char × Nat × Nat :=
  match server with
  | some srv =>
    let ret :=
      if localAddr ≠ [] ∨ forceMember = true then st.1 ++ memberToString srv
      else st.1 ++ learnerToString srv
    let ret := ret ++ [';']
    let localIndex := if localAddr ≠ [] ∧ srv.strAddr = localAddr then st.2.2 else st.2.1
    (ret, localIndex, st.2.2 + 1)
  | none => (st.1 ++ ['0', ';'], st.2.1, st.2.2 + 1)

/-- `StableConfiguration::configToString`. -/
def configToString (servers : List ServerRef) (localAddr : List Char)
    (forceMember : Bool) : List Char :=
  let st := servers.foldl (configToStringStep localAddr forceMember) ([], 0, 1)
  let ret := st.1
  let localIndex := st.2.1
  let i := st.2.2
  if i ≠ 1 then
    if localAddr ≠ [] ∧ localIndex > 0 then
      ret.set (ret.length - 1) '@' ++ to_string localIndex
    else ret.take (ret.length - 1)
  else ret

/-- The digit loop of the learner branch of `initServerFromString`; the state is
`(resultLearnerSource, stopped)`, `stopped` being set by the `break`. -/
def learnerSourceLoop (str : List Char) (pos infoDigitsLen : Nat) : Nat :=
  ((List.range infoDigitsLen).foldl
    (fun (st : Nat × Bool) i =>
      if st.2 then st
      else
        let c := str.getD (pos + infoDigitsLen - i) (Char.ofNat 0)
        if c.toNat < 48 ∨ c.toNat > 57 then (0, true)
        else (st.1 + (c.toNat - 48) * 10 ^ i, false)) (0, false)).1

/-- `StableConfiguration::initServerFromString`. Every `str.at` of the source is in
range on the branch that reaches it. -/
def initServerFromString (server : Server) (str : List Char) (isLearner : Bool) : Server :=
  let size := str.length
  match find str '#' 0 with
  | some found =>
    let infoDigitsLen := toInt32 (size - found - 1)
    let server :=
      if infoDigitsLen > 2 ∨ infoDigitsLen < 1 then
        { server with forceSync := false, electionWeight := 5 }
      else
        let forceSync := decide (str.getD (size - 1) (Char.ofNat 0) = 'S')
        let cElectionWeight := str.getD (size - infoDigitsLen.toNat) (Char.ofNat 0)
        let electionWeight :=
          if 48 ≤ cElectionWeight.toNat ∧ cElectionWeight.toNat < 58 then
            cElectionWeight.toNat - 48
          else 5
        { server with forceSync := forceSync, electionWeight := electionWeight }
    { server with strAddr := str.take found }
  | none =>
    match find str '$' 0 with
    | some pos =>
      let infoDigitsLen := toInt32 (size - pos - 1)
      let resultLearnerSource :=
        if infoDigitsLen > 3 ∨ infoDigitsLen ≤ 0 then 0
        else learnerSourceLoop str pos infoDigitsLen.toNat
      { server with
        learnerSource := resultLearnerSource, forceSync := false, electionWeight := 5,
        strAddr := str.take pos }
    | none =>
      { server with
        forceSync := false, electionWeight := if isLearner then 0 else 5,
        strAddr := str }

/-- The `do ... while` loop of `stringToVector`; the state is `(ret, start)`. Each
iteration that does not leave the loop moves `start` forward, so `str.length + 1`
iterations are enough; `none` is returned when the fuel runs out. -/
def stringToVectorLoop (str : List Char) :
    Nat → List (List Char) → Nat → Option (List (List Char) × Nat)
  | 0, _, _ => none
  | fuel + 1, ret, start =>
    match find str ';' start with
    | none => some (ret, start)
    | some stop =>
      let stop2 :=
        if stop > 1 ∧ str.getD (stop - 1) (Char.ofNat 0) = '$' then find str ';' (stop + 1)
        else some stop
      match stop2 with
      | none => some (ret, start)
      | some stop => stringToVectorLoop str fuel (ret ++ [substr str start (some (stop - start))])
          (stop + 1)

/-- `StableConfiguration::stringToVector`; the result is the returned vector and the
final value of the reference parameter `currentIndex`. `none` is an exception of
`std::stoull`. -/
def stringToVector (str : List Char) (currentIndex : Nat) :
    Option (List (List Char) × Nat) :=
  match stringToVectorLoop str (str.length + 1) [] 0 with
  | none => none
  | some (ret, start) =>
    match find str '@' start with
    | none =>
      some (if str.length ≠ 0 then ret ++ [substr str start none] else ret, currentIndex)
    | some stop =>
      if stop > 1 ∧ str.getD (stop - 1) (Char.ofNat 0) = '$' then
        some (if str.length ≠ 0 then ret ++ [substr str start (some (stop - start))] else ret,
          currentIndex)
      else
        match stoull (substr str (stop + 1) none) with
        | none => none
        | some v => some (ret ++ [substr str start (some (stop - start))], v)

/-! ## The configuration and its mutations -/

/-- The state of a `StableConfiguration`: the member slots, the learner slots and the
atomic member counter `serversNum` (a 64-bit unsigned counter). -/
structure StableConfiguration where
  servers : List ServerRef
  learners : List ServerRef
  serversNum : Nat
deriving DecidableEq, Repr

/-- Modelled from the spec: the constructor `RemoteServer(serverId)` / `LocalServer(serverId)`,
declared in a header that is not part of the sources at hand. The data model gives the
defaults: election weight 5, learner source 0 (the leader), progress counters 0. -/
def Server_new (serverId : Nat) : Server :=
  { serverId := serverId, strAddr := [], electionWeight := 5, forceSync := false,
    learnerSource := 0, isLearner := false, appliedIndex := 0, lastAckEpoch := 0,
    flowControl := 0 }

/-- Modelled from the spec: the default of the parameter `useAppend` of `addServer`,
declared in a header that is not part of the sources at hand; `add_member` "reuses a
null slot before appending". -/
def addServer_useAppend_default : Bool := false

/-- Modelled from the spec: the default of the parameter `isLearner` of
`initServerFromString`, declared in a header that is not part of the sources at hand. -/
def initServerFromString_isLearner_default : Bool := false

/-- The loop of `addServer`; `id` counts the slots passed. The result is the new slot
list and the server with its `serverId` set (the object the filled slot points to). -/
def addServerLoop (newServer : Server) (useAppend : Bool) :
    List ServerRef → Nat → List ServerRef × Server
  | [], id =>
    let id := id + 1
    ([some { newServer with serverId := id }], { newServer with serverId := id })
  | it :: rest, id =>
    let id := id + 1
    if useAppend = false ∧ it = none then
      (some { newServer with serverId := id } :: rest, { newServer with serverId := id })
    else
      let r := addServerLoop newServer useAppend rest id
      (it :: r.1, r.2)

/-- `StableConfiguration::addServer`. -/
def addServer (servers : List ServerRef) (newServer : Server) (useAppend : Bool) :
    List ServerRef × Server :=
  addServerLoop newServer useAppend servers 0

/-- `StableConfiguration::initServerDefault`. -/
def initServerDefault (server : Server) : Server :=
  { server with isLearner := false, forceSync := false, electionWeight := 5, appliedIndex := 0 }

/-- The loop `while (v.size() > 0 && v[v.size() - 1] == nullptr) v.resize(v.size() - 1);`
with one unit of fuel per iteration. -/
def trimLoop : Nat → List ServerRef → List ServerRef
  | 0, v => v
  | fuel + 1, v =>
    if v.length > 0 ∧ v[v.length - 1]? = some none then trimLoop fuel (v.take (v.length - 1))
    else v

/-- The guarded trimming loop of `addMember` and `delLearners`; every iteration drops
one slot, so `v.length` iterations are enough. -/
def trimTrailingNull (v : List ServerRef) : List ServerRef :=
  trimLoop v.length v

/-- The loop `while (v[v.size() - 1] == nullptr) v.resize(v.size() - 1);` of `delMember`
and `delAllRemoteServer`, which reads `v[v.size() - 1]` without a size check: on an
empty vector the read is out of bounds (`none`). -/
def trimUncheckedLoop : Nat → List ServerRef → Option (List ServerRef)
  | 0, _ => none
  | fuel + 1, v =>
    if v.length = 0 then none
    else if v[v.length - 1]? = some none then trimUncheckedLoop fuel (v.take (v.length - 1))
    else some v

/-- The unguarded trimming loop; every iteration drops one slot, so the fuel
`v.length + 1` never runs out before the vector is empty. -/
def trimTrailingNullUnchecked (v : List ServerRef) : Option (List ServerRef) :=
  trimUncheckedLoop (v.length + 1) v

/-- The first non-null slot whose server has the address: its position and server.
This is the search of the `for` loops of `addMember`, `delMember` and `delLearners`. -/
def findAddr (strAddr : List Char) : List ServerRef → Option (Nat × Server)
  | [] => none
  | none :: rest => (findAddr strAddr rest).map (fun r => (r.1 + 1, r.2))
  | some s :: rest =>
    if s.strAddr = strAddr then some (0, s)
    else (findAddr strAddr rest).map (fun r => (r.1 + 1, r.2))

/-- The first non-null learner slot whose server has the id: its position and server.
This is the search loop of the learner branch of `getServer`. -/
def findId (serverId : Nat) : List ServerRef → Option (Nat × Server)
  | [] => none
  | none :: rest => (findId serverId rest).map (fun r => (r.1 + 1, r.2))
  | some s :: rest =>
    if s.serverId = serverId then some (0, s)
    else (findId serverId rest).map (fun r => (r.1 + 1, r.2))

/-- `StableConfiguration::getServer`. -/
def getServer (cfg : StableConfiguration) (serverId : Nat) : ServerRef :=
  if serverId = 0 then none
  else if serverId < 100 then
    let serverId := serverId - 1
    if cfg.servers.length > serverId then (cfg.servers[serverId]?).join else none
  else (findId serverId cfg.learners).map (fun r => r.2)

/-- A write through the pointer returned by `getServer`: the slot that `getServer`
read now holds the updated server. -/
def updateServer (cfg : StableConfiguration) (serverId : Nat) (f : Server → Server) :
    StableConfiguration :=
  match getServer cfg serverId with
  | none => cfg
  | some server =>
    if serverId < 100 then { cfg with servers := cfg.servers.set (serverId - 1) (some (f server)) }
    else
      match findId serverId cfg.learners with
      | none => cfg
      | some r => { cfg with learners := cfg.learners.set r.1 (some (f server)) }

/-- One iteration of the loop of `installConfig`; the state is `(i, servers, serversNum)`.
The slot `i - 1` of the resized vector is written in each iteration, so the vector is
built from left to right. -/
def installConfigStep (current : Nat) (localServer : Option Server)
    (st : Nat × List ServerRef × Nat) (str : List Char) : Nat × List ServerRef × Nat :=
  let i := st.1 + 1
  if str = ['0'] then (i, st.2.1 ++ [none], st.2.2)
  else
    let serversNum := (st.2.2 + 1) % 2 ^ 64
    if i ≠ current then
      let ptrR := initServerFromString (Server_new i) str initServerFromString_isLearner_default
      (i, st.2.1 ++ [some ptrR], serversNum)
    else
      let tmpServer := match localServer with
        | some l => l
        | none => Server_new i
      let tmpServer := { tmpServer with serverId := i }
      let ptrL := initServerFromString tmpServer str initServerFromString_isLearner_default
      (i, st.2.1 ++ [some ptrL], serversNum)

/-- `StableConfiguration::installConfig`. -/
def installConfig (cfg : StableConfiguration) (strConfig : List (List Char)) (current : Nat)
    (localServer : Option Server) : StableConfiguration :=
  let st := strConfig.foldl (installConfigStep current localServer) (0, [], 0)
  { cfg with servers := st.2.1, serversNum := st.2.2 }

/-- `StableConfiguration::addMember`; the first component is the return value. The
calls `beginLeadership`, `stepDown` and `connect` act on connection state outside this
model. -/
def addMember (cfg : StableConfiguration) (strAddr : List Char) : Int × StableConfiguration :=
  match findAddr strAddr cfg.learners with
  | none => (-1, cfg)
  | some (j, server) =>
    let serversNum := (cfg.serversNum + 1) % 2 ^ 64
    let r := addServer cfg.servers server addServer_useAppend_default
    let learners := cfg.learners.set j none
    let server := initServerDefault r.2
    let servers := r.1.set (r.2.serverId - 1) (some server)
    let learners := trimTrailingNull learners
    (0, { servers := servers, learners := learners, serversNum := serversNum })

/-- `StableConfiguration::delMember`; the first component is the return value and
`none` is the out-of-bounds read of the unguarded trimming loop. -/
def delMember (cfg : StableConfiguration) (strAddr : List Char) :
    Option (Int × StableConfiguration) :=
  match findAddr strAddr cfg.servers with
  | none => some (-1, cfg)
  | some (i, server) =>
    let serverId := server.serverId
    let serversNum := (cfg.serversNum + 2 ^ 64 - 1) % 2 ^ 64
    let servers := cfg.servers.set i none
    if serverId = servers.length ∧ servers.length > 0 then
      match trimTrailingNullUnchecked servers with
      | none => none
      | some servers => some (0, { cfg with servers := servers, serversNum := serversNum })
    else some (0, { cfg with servers := servers, serversNum := serversNum })

/-- `StableConfiguration::configureLearner`. -/
def configureLearner (cfg : StableConfiguration) (serverId source : Nat) :
    Int × StableConfiguration :=
  (0, updateServer cfg serverId (fun server => { server with learnerSource := source }))

/-- `StableConfiguration::configureMember`. -/
def configureMember (cfg : StableConfiguration) (serverId : Nat) (forceSync : Bool)
    (electionWeight : Nat) : Int × StableConfiguration :=
  (0, updateServer cfg serverId
    (fun server => { server with forceSync := forceSync, electionWeight := electionWeight }))

/-- One iteration of the loop of `addLearners`; the state is `(i, learners)`. The
`assert` of the source is not modelled as a stop, so the state reached without it is
covered as well. -/
def addLearnersStep (replaceAll : Bool) (st : Nat × List ServerRef) (str : List Char) :
    Nat × List ServerRef :=
  let i := st.1 + 1
  if str = ['0'] then
    if st.2.length ≥ i then (i, st.2.set (i - 1) none)
    else (i, st.2 ++ [none])
  else
    let r := addServer st.2 (Server_new 0) replaceAll
    let ptrR := { r.2 with serverId := r.2.serverId + 100 }
    let ptrR := { ptrR with isLearner := true }
    let ptrR := initServerFromString ptrR str initServerFromString_isLearner_default
    let ptrR := { ptrR with appliedIndex := 0 }
    (i, r.1.set (r.2.serverId - 1) (some ptrR))

/-- `StableConfiguration::addLearners`. -/
def addLearners (cfg : StableConfiguration) (strConfig : List (List Char))
    (replaceAll : Bool) : StableConfiguration :=
  if strConfig.length = 0 then cfg
  else { cfg with learners := (strConfig.foldl (addLearnersStep replaceAll) (0, cfg.learners)).2 }

/-- `StableConfiguration::delLearners`. -/
def delLearners (cfg : StableConfiguration) (strConfig : List (List Char)) :
    StableConfiguration :=
  let learners := strConfig.foldl
    (fun learners str =>
      match findAddr str learners with
      | some r => learners.set r.1 none
      | none => learners) cfg.learners
  { cfg with learners := trimTrailingNull learners }

/-- A freshly constructed configuration. -/
def emptyConfiguration : StableConfiguration :=
  { servers := [], learners := [], serversNum := 0 }

/-! ## The membership string in the spec's words -/

/-- A voting member rendered as `addr#weight[S]`. -/
def renderMember (s : Server) : List Char :=
  s.strAddr ++ ['#', weightChar s.electionWeight] ++ (if s.forceSync then ['S'] else [])

/-- A learner rendered as `addr$source`. -/
def renderLearner (s : Server) : List Char :=
  s.strAddr ++ '$' :: to_string s.learnerSource

/-- One slot of the membership string: `0` for a vacated slot. -/
def renderSlot (asMember : Bool) : ServerRef → List Char
  | none => ['0']
  | some s => if asMember then renderMember s else renderLearner s

/-- The strings joined with a separator between neighbours and none at the end. -/
def joinWith (sep : Char) : List (List Char) → List Char
  | [] => []
  | [t] => t
  | t :: t2 :: ts => t ++ sep :: joinWith sep (t2 :: ts)

/-- The strings each followed by the separator. -/
def joinTrailing (sep : Char) : List (List Char) → List Char
  | [] => []
  | t :: ts => t ++ sep :: joinTrailing sep ts

/-- Whether a slot holds a server with the given address. -/
def isLocalSlot (localAddr : List Char) : ServerRef → Bool
  | none => false
  | some m => decide (m.strAddr = localAddr)

/-- The slot at 0-based position `j` is the last one that holds the address. -/
def IsLastLocal (servers : List ServerRef) (localAddr : List Char) (j : Nat) : Prop :=
  (∃ m, servers[j]? = some (some m) ∧ m.strAddr = localAddr) ∧
  ∀ j2 m2, j < j2 → servers[j2]? = some (some m2) → m2.strAddr ≠ localAddr

/-- A valid address: non-empty, not `0`, and free of `#`, `$`, `;` and `@`. -/
def ValidAddr (a : List Char) : Prop :=
  a ≠ [] ∧ a ≠ ['0'] ∧ '#' ∉ a ∧ '$' ∉ a ∧ ';' ∉ a ∧ '@' ∉ a

/-- A valid voting member: a valid address and an election weight in `0..9`. -/
def ValidMember (m : Server) : Prop :=
  ValidAddr m.strAddr ∧ m.electionWeight ≤ 9

/-- A valid learner whose source has at most three decimal digits. -/
def ValidLearner (m : Server) : Prop :=
  ValidAddr m.strAddr ∧ m.learnerSource ≤ 999

/-- A learner `A` whose source is the four-digit id 1000. -/
def learner1000 : Server :=
  { serverId := 101, strAddr := ['A'], electionWeight := 5, forceSync := false,
    learnerSource := 1000, isLearner := true, appliedIndex := 0, lastAckEpoch := 0,
    flowControl := 0 }

/-- A learner `L` that replicates from member 2. -/
def learnerL : Server :=
  { serverId := 101, strAddr := ['L'], electionWeight := 5, forceSync := false,
    learnerSource := 2, isLearner := true, appliedIndex := 0, lastAckEpoch := 0,
    flowControl := 0 }

/-! ## Words of the spec about slots -/

/-- The slots `t` are the slots `v` without a trailing run of vacated slots: a prefix
of `v`, everything cut off is vacated, and the last slot kept is not vacated. -/
def IsTrimOf (v t : List ServerRef) : Prop :=
  ∃ n, t = v.take n ∧ n ≤ v.length ∧
    (∀ k, n ≤ k → k < v.length → v[k]? = some none) ∧ t.getLast? ≠ some none

/-- Position `j` holds the first server of `v` with the address, and that server is `s`. -/
def IsFirstWithAddr (v : List ServerRef) (strAddr : List Char) (j : Nat) (s : Server) : Prop :=
  v[j]? = some (some s) ∧ s.strAddr = strAddr ∧
    ∀ j2 s2, j2 < j → v[j2]? = some (some s2) → s2.strAddr ≠ strAddr

/-- Position `i` is the lowest vacated slot of `v`, or the end of `v` when no slot is
vacated. -/
def IsLowestVacant (v : List ServerRef) (i : Nat) : Prop :=
  (i < v.length ∧ v[i]? = some none ∧ ∀ i2 : Nat, i2 < i → v[i2]? ≠ some none) ∨
  (i = v.length ∧ ∀ i2 : Nat, v[i2]? ≠ some none)

/-- The slot list with `x` written at position `i`: in place when the position exists,
appended otherwise. -/
def placeAt (v : List ServerRef) (i : Nat) (x : ServerRef) : List ServerRef :=
  if i < v.length then v.set i x else v ++ [x]

/-- Every non-null slot at 0-based position `i` holds a server with id `i + off`. -/
def Positional (off : Nat) (v : List ServerRef) : Prop :=
  ∀ i m, v[i]? = some (some m) → m.serverId = i + off

/-- The positional-id invariant: members are numbered from 1, learners from 101. -/
def PositionalIds (cfg : StableConfiguration) : Prop :=
  Positional 1 cfg.servers ∧ Positional 101 cfg.learners

/-- The configurations reachable from `installConfig` on a fresh object by
`installConfig`, `addLearners`, `delLearners`, `addMember`, `delMember`,
`configureMember` and `configureLearner`. -/
inductive Reachable : StableConfiguration → Prop
  | install (strConfig : List (List Char)) (current : Nat) (localServer : Option Server) :
      Reachable (installConfig emptyConfiguration strConfig current localServer)
  | reinstall (cfg : StableConfiguration) (strConfig : List (List Char)) (current : Nat)
      (localServer : Option Server) :
      Reachable cfg → Reachable (installConfig cfg strConfig current localServer)
  | addLearners (cfg : StableConfiguration) (strConfig : List (List Char)) (replaceAll : Bool) :
      Reachable cfg → Reachable (addLearners cfg strConfig replaceAll)
  | delLearners (cfg : StableConfiguration) (strConfig : List (List Char)) :
      Reachable cfg → Reachable (delLearners cfg strConfig)
  | addMember (cfg : StableConfiguration) (strAddr : List Char) :
      Reachable cfg → Reachable (addMember cfg strAddr).2
  | delMember (cfg cfg2 : StableConfiguration) (strAddr : List Char) (ret : Int) :
      Reachable cfg → delMember cfg strAddr = some (ret, cfg2) → Reachable cfg2
  | configureMember (cfg : StableConfiguration) (serverId : Nat) (forceSync : Bool)
      (electionWeight : Nat) :
      Reachable cfg → Reachable (configureMember cfg serverId forceSync electionWeight).2
  | configureLearner (cfg : StableConfiguration) (serverId source : Nat) :
      Reachable cfg → Reachable (configureLearner cfg serverId source).2

/-! ## Further words of the spec and concrete configurations -/

/-- The configuration `A#5, 0, C#9` with the learner list `L$2`. -/
def exampleConfiguration : StableConfiguration :=
  addLearners (installConfig emptyConfiguration ["A#5".toList, "0".toList, "C#9".toList] 1 none)
    ["L$2".toList] false

/-- The learner list `L$2, 0`, produced by `addLearners` on a fresh configuration. -/
def trailingLearnerConfiguration : StableConfiguration :=
  addLearners emptyConfiguration ["L$2".toList, "0".toList] false

/-- The single-member configuration `A#5`. -/
def singleMemberConfiguration : StableConfiguration :=
  installConfig emptyConfiguration ["A#5".toList] 1 none

/-- A string of decimal digit characters. -/
def AllDigits (cs : List Char) : Prop :=
  ∀ c ∈ cs, ∃ k, k < 10 ∧ c = Nat.digitChar k

/-- A slot string that `stringToVector` returns whole: non-empty, free of the two
separators and not ending in `$`. -/
def TokenOK (t : List Char) : Prop :=
  t ≠ [] ∧ ';' ∉ t ∧ '@' ∉ t ∧ t.getLast? ≠ some '$'

/-! ## Weighted leader preference -/

/-- `StableConfiguration::needWeightElection`. -/
def needWeightElection (servers : List ServerRef) (localWeight : Nat) : Bool :=
  servers.any (fun it =>
    match it with
    | some s => decide (s.electionWeight > localWeight)
    | none => false)

/-- One iteration of the loop of `getMaxWeightServerId`; the state is `(ret, priv)` and
`lastAckEpoch` is the value `getLastAckEpoch()` returns. -/
def getMaxWeightServerIdStep (baseEpoch : Nat) (st : Nat × Nat) (it : ServerRef) : Nat × Nat :=
  match it with
  | none => st
  | some s =>
    if s.electionWeight > st.2 ∧ s.lastAckEpoch > baseEpoch then (s.serverId, s.electionWeight)
    else st

/-- `StableConfiguration::getMaxWeightServerId`. -/
def getMaxWeightServerId (servers : List ServerRef) (baseEpoch : Nat) (localServer : Server) :
    Nat :=
  (servers.foldl (getMaxWeightServerIdStep baseEpoch)
    (localServer.serverId, localServer.electionWeight)).1

/-- The member in slot `i` is the preferred one: it has acknowledged an epoch after
`baseEpoch`, no member that has done so is heavier, and every such member in a lower
slot is lighter. -/
def IsFirstHeaviest (servers : List ServerRef) (baseEpoch : Nat) (i : Nat) (m : Server) : Prop :=
  servers[i]? = some (some m) ∧ m.lastAckEpoch > baseEpoch ∧
  (∀ (j : Nat) (m2 : Server), servers[j]? = some (some m2) → m2.lastAckEpoch > baseEpoch →
    m2.electionWeight ≤ m.electionWeight) ∧
  (∀ (j : Nat) (m2 : Server), j < i → servers[j]? = some (some m2) →
    m2.lastAckEpoch > baseEpoch → m2.electionWeight < m.electionWeight)

/-- The members `A` (weight 5, epoch 3), `B` (weight 9, epoch 0), `C` (weight 7, epoch 4)
and `D` (weight 7, epoch 5). -/
def epochServers : List ServerRef :=
  [some { mkMember 1 ['A'] 5 false with lastAckEpoch := 3 },
   some { mkMember 2 ['B'] 9 false with lastAckEpoch := 0 },
   some { mkMember 3 ['C'] 7 false with lastAckEpoch := 4 },
   some { mkMember 4 ['D'] 7 false with lastAckEpoch := 5 }]

/-! ## The log entry codec

A byte buffer is a `List Nat` (one number below 256 per byte). -/

/-- Modelled from the spec: the size of the "fixed-size header" of a binlog event,
declared in `binlog_event.h`, which is not part of the sources at hand. -/
def LOG_EVENT_HEADER_LEN : Nat := 19

/-- Modelled from the spec: the offset of the length field in the event header, declared
in `binlog_event.h`, which is not part of the sources at hand. -/
def EVENT_LEN_OFFSET : Nat := 9

/-- Modelled from the spec: the offset of the end-offset field in the event header,
declared in `binlog_event.h`, which is not part of the sources at hand. -/
def LOG_POS_OFFSET : Nat := 13

/-- Modelled from the spec: the size of the checksum trailer, declared in
`binlog_event.h`, which is not part of the sources at hand. -/
def BINLOG_CHECKSUM_LEN : Nat := 4

/-- One bit step of the CRC-32 (reflected polynomial `0xEDB88320`). -/
def crc32Bit (c : Nat) : Nat :=
  if c % 2 = 1 then (c / 2) ^^^ 0xEDB88320 else c / 2

/-- One byte step of the CRC-32. -/
def crc32Byte (c b : Nat) : Nat :=
  crc32Bit (crc32Bit (crc32Bit (crc32Bit (crc32Bit (crc32Bit (crc32Bit (crc32Bit (c ^^^ b))))))))

/-- `my_checksum(crc, buf, len)` / `checksum_crc32`: the CRC-32 of zlib, continued from
the value `crc`. -/
def my_checksum (crc : Nat) (buf : List Nat) : Nat :=
  (buf.foldl crc32Byte (crc ^^^ 0xFFFFFFFF)) ^^^ 0xFFFFFFFF

/-- `uint4korr(p + off)`: the little-endian 32-bit value at offset `off`. -/
def uint4korr (p : List Nat) (off : Nat) : Nat :=
  p.getD off 0 + 256 * p.getD (off + 1) 0 + 65536 * p.getD (off + 2) 0
    + 16777216 * p.getD (off + 3) 0

/-- The four little-endian bytes that `int4store` writes for the value `v`. -/
def int4storeBytes (v : Nat) : List Nat :=
  [v % 256, v / 256 % 256, v / 65536 % 256, v / 16777216 % 256]

/-- `int4store(p + off, v)` on a buffer that holds the four bytes. -/
def int4store (p : List Nat) (off v : Nat) : List Nat :=
  p.take off ++ int4storeBytes v ++ p.drop (off + 4)

/-- The members of `Consensuslog_event_writer`; the stream `m_ostream` is kept beside
the writer. -/
structure Consensuslog_event_writer where
  have_checksum : Bool
  have_footer : Bool
  write_ostream : Bool
  initial_checksum : Nat
  checksum : Nat
  end_log_pos : Nat
  header : List Nat
  header_len : Nat
  event_len : Nat
deriving DecidableEq, Repr

/-- The constructor of `Consensuslog_event_writer`. The array `header` is filled before
it is read; it starts as 19 zero bytes here. -/
def Consensuslog_event_writer.new (have_checksum : Bool) (end_log_pos : Nat)
    (write_ostream : Bool) (have_footer : Bool) : Consensuslog_event_writer :=
  { have_checksum := have_checksum, have_footer := have_footer,
    write_ostream := write_ostream, initial_checksum := my_checksum 0 [],
    checksum := my_checksum 0 [], end_log_pos := end_log_pos % 2 ^ 32,
    header := List.replicate LOG_EVENT_HEADER_LEN 0, header_len := 0, event_len := 0 }

/-- `Consensuslog_event_writer::update_header`; the second component is the header
buffer after the call. -/
def update_header (w : Consensuslog_event_writer) (header_ptr : List Nat) :
    Consensuslog_event_writer × List Nat :=
  let event_len := uint4korr header_ptr EVENT_LEN_OFFSET % 2 ^ 32
  let end_log_pos := (w.end_log_pos + event_len) % 2 ^ 32
  let r : List Nat × Nat :=
    if w.have_checksum = true ∧ w.have_footer = false then
      (int4store header_ptr EVENT_LEN_OFFSET ((event_len + BINLOG_CHECKSUM_LEN) % 2 ^ 32),
        (end_log_pos + BINLOG_CHECKSUM_LEN) % 2 ^ 32)
    else (header_ptr, end_log_pos)
  let header_ptr := int4store r.1 LOG_POS_OFFSET r.2
  let checksum :=
    if w.have_checksum then my_checksum w.checksum (header_ptr.take w.header_len)
    else w.checksum
  ({ w with event_len := event_len, end_log_pos := r.2, checksum := checksum }, header_ptr)

/-- The writer together with the bytes written to `m_ostream` so far and the value
stored through `out_crc`. -/
structure WriteState where
  w : Consensuslog_event_writer
  ostream : List Nat
  out_crc : Option Nat
deriving DecidableEq, Repr

/-- One iteration of the loop of `Consensuslog_event_writer::write` on the non-empty rest
of the buffer; the result is the new state and the rest of the buffer. `none` is a read
beyond the end of the buffer. Errors of `m_ostream->write` are not modelled. -/
def writeStep (st : WriteState) (buffer : List Nat) : Option (WriteState × List Nat) :=
  let w := st.w
  if w.event_len = 0 then
    let header_incr := min ((LOG_EVENT_HEADER_LEN - w.header_len) % 2 ^ 32) (buffer.length % 2 ^ 32)
    let header := w.header.take w.header_len ++ buffer.take header_incr
      ++ w.header.drop (w.header_len + header_incr)
    let w := { w with header := header, header_len := w.header_len + header_incr }
    let buffer := buffer.drop header_incr
    if w.header_len = LOG_EVENT_HEADER_LEN then
      let r := update_header w w.header
      let w := { r.1 with header := r.2 }
      let ostream := if w.write_ostream then st.ostream ++ w.header.take w.header_len
        else st.ostream
      let w := { w with
        event_len := (w.event_len + 2 ^ 32 - w.header_len % 2 ^ 32) % 2 ^ 32, header_len := 0 }
      some ({ st with w := w, ostream := ostream }, buffer)
    else some ({ st with w := w }, buffer)
  else
    let write_bytes := min buffer.length w.event_len
    let write_checksum := w.have_checksum && decide (w.event_len = write_bytes)
    let write_bytes :=
      if write_checksum && w.have_footer then (write_bytes + 2 ^ 64 - BINLOG_CHECKSUM_LEN) % 2 ^ 64
      else write_bytes
    if write_bytes > buffer.length then none
    else
      let ostream := if w.write_ostream then st.ostream ++ buffer.take write_bytes
        else st.ostream
      let checksum :=
        if w.have_checksum then my_checksum w.checksum (buffer.take write_bytes)
        else w.checksum
      if write_checksum then
        let ostream := if w.write_ostream then ostream ++ int4storeBytes checksum else ostream
        let write_bytes :=
          if w.have_footer then (write_bytes + BINLOG_CHECKSUM_LEN) % 2 ^ 64 else write_bytes
        let w := { w with
          checksum := w.initial_checksum,
          event_len := (w.event_len + 2 ^ 32 - write_bytes % 2 ^ 32) % 2 ^ 32 }
        some ({ w := w, ostream := ostream, out_crc := some checksum }, buffer.drop write_bytes)
      else
        let w := { w with
          checksum := checksum,
          event_len := (w.event_len + 2 ^ 32 - write_bytes % 2 ^ 32) % 2 ^ 32 }
        some ({ st with w := w, ostream := ostream }, buffer.drop write_bytes)

/-- The loop `while (length > 0)` of `write` with one unit of fuel per iteration; `none`
is a read beyond the buffer or a loop that does not end. -/
def writeLoop : Nat → WriteState → List Nat → Option WriteState
  | _, st, [] => some st
  | 0, _, _ :: _ => none
  | fuel + 1, st, b :: bs =>
    match writeStep st (b :: bs) with
    | none => none
    | some r => writeLoop fuel r.1 r.2

/-- `Consensuslog_event_writer::write(buffer, length, out_crc)` on the writer `w` whose
stream holds `ostream`. An iteration that makes progress consumes a byte, so
`buffer.length` units of fuel are enough. The call returns `false` whenever it returns. -/
def write (w : Consensuslog_event_writer) (ostream : List Nat) (buffer : List Nat) :
    Option WriteState :=
  writeLoop buffer.length { w := w, ostream := ostream, out_crc := none } buffer

/-- The state of `revise_buffer`: the writer, the part of the buffer already revised and
the value stored through `out_crc`. -/
structure ReviseState where
  w : Consensuslog_event_writer
  revised : List Nat
  out_crc : Option Nat
deriving DecidableEq, Repr

/-- One iteration of the loop of `Consensuslog_event_writer::revise_buffer` on the
non-empty rest of the buffer. `none` is an access beyond the end of the buffer. -/
def reviseStep (st : ReviseState) (buffer : List Nat) : Option (ReviseState × List Nat) :=
  let w := st.w
  if w.event_len = 0 then
    if buffer.length < LOG_EVENT_HEADER_LEN then none
    else
      let w := { w with header_len := LOG_EVENT_HEADER_LEN }
      let r := update_header w (buffer.take LOG_EVENT_HEADER_LEN)
      let w := { r.1 with
        event_len := (r.1.event_len + 2 ^ 32 - LOG_EVENT_HEADER_LEN) % 2 ^ 32 }
      some ({ st with w := w, revised := st.revised ++ r.2 }, buffer.drop LOG_EVENT_HEADER_LEN)
  else
    let scan_bytes := min buffer.length w.event_len
    let fill_checksum := w.have_checksum && decide (w.event_len = scan_bytes)
    let scan_bytes :=
      if fill_checksum && w.have_footer then (scan_bytes + 2 ^ 64 - BINLOG_CHECKSUM_LEN) % 2 ^ 64
      else scan_bytes
    if scan_bytes > buffer.length then none
    else
      let checksum :=
        if w.have_checksum then my_checksum w.checksum (buffer.take scan_bytes)
        else w.checksum
      if fill_checksum then
        if w.have_footer = true ∧ scan_bytes + BINLOG_CHECKSUM_LEN > buffer.length then none
        else
          let buffer := if w.have_footer then int4store buffer scan_bytes checksum else buffer
          let scan_bytes :=
            if w.have_footer then (scan_bytes + BINLOG_CHECKSUM_LEN) % 2 ^ 64 else scan_bytes
          let w := { w with
            checksum := w.initial_checksum,
            event_len := (w.event_len + 2 ^ 32 - scan_bytes % 2 ^ 32) % 2 ^ 32 }
          some ({ w := w, revised := st.revised ++ buffer.take scan_bytes,
                  out_crc := some checksum }, buffer.drop scan_bytes)
      else
        let w := { w with
          checksum := checksum,
          event_len := (w.event_len + 2 ^ 32 - scan_bytes % 2 ^ 32) % 2 ^ 32 }
        some ({ st with w := w, revised := st.revised ++ buffer.take scan_bytes },
          buffer.drop scan_bytes)

/-- The loop `while (length > 0)` of `revise_buffer` with one unit of fuel per iteration. -/
def reviseLoop : Nat → ReviseState → List Nat → Option ReviseState
  | _, st, [] => some st
  | 0, _, _ :: _ => none
  | fuel + 1, st, b :: bs =>
    match reviseStep st (b :: bs) with
    | none => none
    | some r => reviseLoop fuel r.1 r.2

/-- `Consensuslog_event_writer::revise_buffer(buffer, length, out_crc)`: the buffer is
rewritten in place and no stream is touched; the call returns `false` whenever it returns.
The two `assert`s of the source are not modelled as a stop. -/
def revise_buffer (w : Consensuslog_event_writer) (buffer : List Nat) : Option ReviseState :=
  reviseLoop buffer.length { w := w, revised := [], out_crc := none } buffer

/-- A 25-byte event: a 19-byte header whose length field is 25, two body bytes and a
four-byte footer. -/
def smallEvent : List Nat :=
  [1, 2, 3, 4, 5, 6, 7, 8, 9, 25, 0, 0, 0, 0, 0, 0, 0, 0, 0, 65, 66, 0, 0, 0, 0]

/-! ## Events in the spec's words -/

/-- A complete event: longer than its header, with the length field equal to its byte
length. -/
def WellFormedEvent (e : List Nat) : Prop :=
  LOG_EVENT_HEADER_LEN < e.length ∧ uint4korr e EVENT_LEN_OFFSET = e.length

/-- A writer between two events: no header bytes pending, no event open, the running
checksum at its initial value. -/
def cleanWriter (have_checksum have_footer write_ostream : Bool) (end_log_pos : Nat)
    (header : List Nat) : Consensuslog_event_writer :=
  { have_checksum := have_checksum, have_footer := have_footer,
    write_ostream := write_ostream, initial_checksum := my_checksum 0 [],
    checksum := my_checksum 0 [], end_log_pos := end_log_pos,
    header := header, header_len := 0, event_len := 0 }

/-- The header of the event `e` as the writer emits it: the length field grows by the
trailer when a trailer is added, and the end-offset field is `endPos`. -/
def emittedHeader (have_checksum have_footer : Bool) (endPos : Nat) (e : List Nat) : List Nat :=
  int4store
    (if have_checksum = true ∧ have_footer = false then
      int4store (e.take LOG_EVENT_HEADER_LEN) EVENT_LEN_OFFSET (e.length + BINLOG_CHECKSUM_LEN)
    else e.take LOG_EVENT_HEADER_LEN)
    LOG_POS_OFFSET endPos

/-- The body of the event `e` as the writer emits it: without the old footer when the
event came with one. -/
def emittedBody (have_checksum have_footer : Bool) (e : List Nat) : List Nat :=
  if have_checksum = true ∧ have_footer = true then
    (e.drop LOG_EVENT_HEADER_LEN).take (e.length - LOG_EVENT_HEADER_LEN - BINLOG_CHECKSUM_LEN)
  else e.drop LOG_EVENT_HEADER_LEN

/-- The CRC-32 of the emitted header followed by the emitted body. -/
def emittedCrc (have_checksum have_footer : Bool) (endPos : Nat) (e : List Nat) : Nat :=
  my_checksum 0 (emittedHeader have_checksum have_footer endPos e
    ++ emittedBody have_checksum have_footer e)

/-- The bytes emitted for the event `e`: header, body and, with checksums, the trailer. -/
def emittedEvent (have_checksum have_footer : Bool) (endPos : Nat) (e : List Nat) : List Nat :=
  emittedHeader have_checksum have_footer endPos e ++ emittedBody have_checksum have_footer e
    ++ (if have_checksum then int4storeBytes (emittedCrc have_checksum have_footer endPos e)
        else [])

/-- The number of bytes by which the end offset advances for the event `e`. -/
def emittedAdvance (have_checksum have_footer : Bool) (e : List Nat) : Nat :=
  e.length + (if have_checksum = true ∧ have_footer = false then BINLOG_CHECKSUM_LEN else 0)

/-- The bytes emitted for a sequence of events that starts at offset `P + sum`; the end
offset of an event is `P` plus the advances up to and including it, modulo `2 ^ 32`. -/
def emittedStream (have_checksum have_footer : Bool) (P : Nat) : Nat → List (List Nat) → List Nat
  | _, [] => []
  | sum, e :: es =>
    emittedEvent have_checksum have_footer
        ((P + (sum + emittedAdvance have_checksum have_footer e)) % 2 ^ 32) e
      ++ emittedStream have_checksum have_footer P
          (sum + emittedAdvance have_checksum have_footer e) es

/-- The sum of the advances of a sequence of events. -/
def emittedTotal (have_checksum have_footer : Bool) (events : List (List Nat)) : Nat :=
  (events.map (emittedAdvance have_checksum have_footer)).sum

/-- The bytes `revise_buffer` leaves in place of the event `e`: the emitted header and
body, and the checksum in the footer when the event has one. -/
def revisedEvent (have_checksum have_footer : Bool) (endPos : Nat) (e : List Nat) : List Nat :=
  emittedHeader have_checksum have_footer endPos e ++ emittedBody have_checksum have_footer e
    ++ (if have_checksum = true ∧ have_footer = true then
          int4storeBytes (emittedCrc have_checksum have_footer endPos e)
        else [])

/-- The buffer after `revise_buffer` has passed the events `events`, the first of which
starts `sum` bytes after the start offset `P`. -/
def revisedStream (have_checksum have_footer : Bool) (P : Nat) :
    Nat → List (List Nat) → List Nat
  | _, [] => []
  | sum, e :: es =>
    revisedEvent have_checksum have_footer
        ((P + (sum + emittedAdvance have_checksum have_footer e)) % 2 ^ 32) e
      ++ revisedStream have_checksum have_footer P
          (sum + emittedAdvance have_checksum have_footer e) es

/-- The spec's revision of an event that ends in a checksum footer: the end-offset field
becomes `endPos`, the last four bytes become the CRC32 of all bytes before them, and
every other byte stays. -/
def footerRevised (endPos : Nat) (e : List Nat) : List Nat :=
  int4store (e.take (e.length - BINLOG_CHECKSUM_LEN)) LOG_POS_OFFSET endPos
    ++ int4storeBytes
        (my_checksum 0
          (int4store (e.take (e.length - BINLOG_CHECKSUM_LEN)) LOG_POS_OFFSET endPos))

/-- The spec's revision of a concatenation of events with footers, the first of which
starts `sum` bytes after the start offset `P`. -/
def footerRevisedStream (P : Nat) : Nat → List (List Nat) → List Nat
  | _, [] => []
  | sum, e :: es =>
    footerRevised ((P + (sum + e.length)) % 2 ^ 32) e
      ++ footerRevisedStream P (sum + e.length) es

/-- A complete event that ends in a four-byte checksum footer. -/
def FooterEvent (e : List Nat) : Prop :=
  LOG_EVENT_HEADER_LEN + BINLOG_CHECKSUM_LEN ≤ e.length ∧ e.length < 2 ^ 32
    ∧ uint4korr e EVENT_LEN_OFFSET = e.length

/-! ## Splitting a large event into frames -/

/-- Modelled from the spec: the bits of `Consensus_log_event_flag` that the flush
functions set. The enum is declared outside the sources at hand; each enumerator is taken
to be a bit of its own, so a flag word is one `Bool` per enumerator. -/
structure Consensus_log_event_flag where
  large_trx : Bool
  large_trx_end : Bool
  blob : Bool
  blob_start : Bool
  blob_end : Bool
  rotate : Bool
deriving DecidableEq, Repr

/-- The flag word `0`. -/
def FLAG_NONE : Consensus_log_event_flag :=
  { large_trx := false, large_trx_end := false, blob := false, blob_start := false,
    blob_end := false, rotate := false }

/-- The flag word `Consensus_log_event_flag::FLAG_LARGE_TRX`. -/
def FLAG_LARGE_TRX : Consensus_log_event_flag := { FLAG_NONE with large_trx := true }

/-- The flag word `Consensus_log_event_flag::FLAG_LARGE_TRX_END`. -/
def FLAG_LARGE_TRX_END : Consensus_log_event_flag := { FLAG_NONE with large_trx_end := true }

/-- The flag word `Consensus_log_event_flag::FLAG_BLOB`. -/
def FLAG_BLOB : Consensus_log_event_flag := { FLAG_NONE with blob := true }

/-- The flag word `Consensus_log_event_flag::FLAG_BLOB_START`. -/
def FLAG_BLOB_START : Consensus_log_event_flag := { FLAG_NONE with blob_start := true }

/-- The flag word `Consensus_log_event_flag::FLAG_BLOB_END`. -/
def FLAG_BLOB_END : Consensus_log_event_flag := { FLAG_NONE with blob_end := true }

/-- The flag word `Consensus_log_event_flag::FLAG_ROTATE`. -/
def FLAG_ROTATE : Consensus_log_event_flag := { FLAG_NONE with rotate := true }

/-- The bitwise or of two flag words (`flag |= ...`). -/
def Consensus_log_event_flag.or (a b : Consensus_log_event_flag) : Consensus_log_event_flag :=
  { large_trx := a.large_trx || b.large_trx,
    large_trx_end := a.large_trx_end || b.large_trx_end,
    blob := a.blob || b.blob,
    blob_start := a.blob_start || b.blob_start,
    blob_end := a.blob_end || b.blob_end,
    rotate := a.rotate || b.rotate }

/-- One physical frame as the flush functions produce it: the arguments of
`write_consensus_log_event` (with the index the event is built with), the bytes handed to
the binlog file after the consensus log event, and the arguments of `add_log_to_cache`. -/
structure LogFrame where
  flag : Consensus_log_event_flag
  index : Nat
  length : Nat
  checksum : Nat
  payload : List Nat
  cache_index : Nat
  batch_size : Nat
  cache_buffer : List Nat
deriving DecidableEq, Repr

/-- `memcpy(dst, src + off, n)`; `none` is an access beyond `src` or `dst`. -/
def memcpy (dst src : List Nat) (off n : Nat) : Option (List Nat) :=
  if off + n ≤ src.length ∧ n ≤ dst.length then some ((src.drop off).take n ++ dst.drop n)
  else none

/-- The loop header and the advance step of the batch loop of `large_event_flush`
(`while (start_pos < total_event_len)` and the two assignments that end the body): the
pairs `(start_pos, end_pos)` of the iterations, in order. The two variables do not depend
on the rest of the body. `none` is a loop that does not end within the fuel. -/
def batchRanges (split_size total_event_len : Nat) : Nat → Nat → Nat → Option (List (Nat × Nat))
  | fuel, start_pos, end_pos =>
    if start_pos < total_event_len then
      match fuel with
      | 0 => none
      | fuel + 1 =>
        (batchRanges split_size total_event_len fuel end_pos
            (if (end_pos + split_size) % 2 ^ 64 > total_event_len then total_event_len
             else (end_pos + split_size) % 2 ^ 64)).map
          (fun rest => (start_pos, end_pos) :: rest)
    else some []

/-- The values `large_event_flush` takes from its surroundings: the system variables
`opt_consensus_large_event_split_size` and `opt_consensus_checksum`, the start offset
`event_start_pos` (computed from the file position and the sizes of the consensus log
events, which are declared outside the sources at hand) and the empty log event. -/
structure FlushEnv where
  opt_consensus_large_event_split_size : Nat
  opt_consensus_checksum : Bool
  event_start_pos : Nat
  empty_log : List Nat
deriving DecidableEq, Repr

/-- The variables the batch loop updates: the batch buffer, `total_batch_size`, the
current index and the first-event mark of the log manager, and the frames produced so
far. -/
structure FlushState where
  buffer : List Nat
  total_batch_size : Nat
  current_index : Nat
  first_event_in_file : Bool
  frames : List LogFrame
deriving DecidableEq, Repr

/-- The part of the loop body that fills the batch buffer: for the last batch of an
event with a checksum, `memcpy(buffer, ev->temp_buf + start_pos, batch_size - 4)`
followed by `memcpy(buffer, &ev_crc, 4)` (the checksum lies in memory little-endian);
for every other batch `memcpy(buffer, ev->temp_buf + start_pos, batch_size)`. -/
def fillBatchBuffer (buffer temp_buf : List Nat) (ev_crc total_event_len : Nat)
    (have_checksum : Bool) (start_pos end_pos : Nat) : Option (List Nat) :=
  let batch_size := (end_pos + 2 ^ 64 - start_pos) % 2 ^ 64
  if end_pos = total_event_len ∧ have_checksum = true then
    (memcpy buffer temp_buf start_pos
        ((batch_size + 2 ^ 64 - BINLOG_CHECKSUM_LEN) % 2 ^ 64)).bind
      (fun b => memcpy b (int4storeBytes ev_crc) 0 BINLOG_CHECKSUM_LEN)
  else memcpy buffer temp_buf start_pos batch_size

/-- The part of the loop body that sets `flag`, from the updated `total_batch_size`. -/
def batchFlag (total_size total_event_len total_batch_size : Nat)
    (first_event_in_file : Bool) (start_pos end_pos : Nat) : Consensus_log_event_flag :=
  let flag := if total_batch_size = total_size then FLAG_LARGE_TRX_END else FLAG_LARGE_TRX
  let flag :=
    if end_pos = total_event_len then flag.or FLAG_BLOB_END
    else if start_pos = 0 then flag.or (FLAG_BLOB.or FLAG_BLOB_START)
    else flag.or FLAG_BLOB
  if first_event_in_file then flag.or FLAG_ROTATE else flag

/-- The frame one iteration produces from the filled batch buffer: the consensus log
event is built with the current index, `batch_crc` is computed over the batch buffer when
`opt_consensus_checksum` is set, a batch that is not the last is followed by the empty log
event (recorded as it is before `empty_log_writer` rewrites it), the last batch by the
whole revised event and its checksum, and the batch buffer goes to the log cache. -/
def batchFrame (env : FlushEnv) (temp_buf : List Nat) (ev_crc event_len total_event_len : Nat)
    (have_checksum : Bool) (flag : Consensus_log_event_flag) (current_index : Nat)
    (buffer : List Nat) (start_pos end_pos : Nat) : LogFrame :=
  let batch_size := (end_pos + 2 ^ 64 - start_pos) % 2 ^ 64
  let consensus_index := current_index
  let batch_crc :=
    if env.opt_consensus_checksum then my_checksum 0 (buffer.take batch_size) else 0
  if end_pos ≠ total_event_len then
    { flag := flag, index := current_index, length := env.empty_log.length,
      checksum := batch_crc, payload := env.empty_log,
      cache_index := consensus_index, batch_size := batch_size,
      cache_buffer := buffer.take batch_size }
  else
    { flag := flag, index := current_index, length := total_event_len,
      checksum := batch_crc,
      payload := temp_buf.take event_len
        ++ (if have_checksum then int4storeBytes ev_crc else []),
      cache_index := consensus_index, batch_size := batch_size,
      cache_buffer := buffer.take batch_size }

/-- The body of the batch loop of `large_event_flush` for one pair
`(start_pos, end_pos)`. `temp_buf` is the revised event, `ev_crc` its checksum. `none` is
an access beyond a buffer. Errors of the file operations are not modelled. -/
def flushBatch (env : FlushEnv) (total_size : Nat) (temp_buf : List Nat) (ev_crc : Nat)
    (event_len total_event_len : Nat) (have_checksum : Bool) (st : FlushState)
    (start_pos end_pos : Nat) : Option FlushState :=
  let batch_size := (end_pos + 2 ^ 64 - start_pos) % 2 ^ 64
  match fillBatchBuffer st.buffer temp_buf ev_crc total_event_len have_checksum
      start_pos end_pos with
  | none => none
  | some buffer =>
    if batch_size > buffer.length ∨ event_len > temp_buf.length then none
    else
      let total_batch_size := (st.total_batch_size + batch_size) % 2 ^ 64
      let flag := batchFlag total_size total_event_len total_batch_size
        st.first_event_in_file start_pos end_pos
      some { buffer := buffer, total_batch_size := total_batch_size,
             current_index := st.current_index + 1, first_event_in_file := false,
             frames := st.frames
               ++ [batchFrame env temp_buf ev_crc event_len total_event_len have_checksum
                     flag st.current_index buffer start_pos end_pos] }

/-- The batch loop of `large_event_flush` over the pairs `(start_pos, end_pos)`. -/
def flushLoop (env : FlushEnv) (total_size : Nat) (temp_buf : List Nat) (ev_crc : Nat)
    (event_len total_event_len : Nat) (have_checksum : Bool) :
    List (Nat × Nat) → FlushState → Option FlushState
  | [], st => some st
  | r :: rs, st =>
    match flushBatch env total_size temp_buf ev_crc event_len total_event_len have_checksum
        st r.1 r.2 with
    | none => none
    | some st2 =>
      flushLoop env total_size temp_buf ev_crc event_len total_event_len have_checksum rs st2

/-- `large_event_flush(thd, total_size, ev, event_len, total_event_len, have_checksum,
binlog_file, total_batch_size, flushed_size)`: `ev` is `ev->temp_buf`; the buffer
allocated with `my_malloc` starts as `buffer`; `current_index` and `first_event_in_file`
are the state of the log manager. The result holds the frames in order. `none` is an
access beyond a buffer or a loop that does not end. The counter `flushed_size` and the
term are left out. -/
def large_event_flush (env : FlushEnv) (total_size : Nat) (ev : List Nat)
    (event_len total_event_len : Nat) (have_checksum : Bool) (total_batch_size : Nat)
    (buffer : List Nat) (current_index : Nat) (first_event_in_file : Bool) :
    Option FlushState :=
  if event_len > ev.length then none
  else
    match revise_buffer
        (Consensuslog_event_writer.new have_checksum env.event_start_pos false false)
        (ev.take event_len) with
    | none => none
    | some rs =>
      let temp_buf := rs.revised ++ ev.drop event_len
      let ev_crc := rs.out_crc.getD 0
      match batchRanges env.opt_consensus_large_event_split_size total_event_len
          total_event_len 0 env.opt_consensus_large_event_split_size with
      | none => none
      | some ranges =>
        flushLoop env total_size temp_buf ev_crc event_len total_event_len have_checksum
          ranges
          { buffer := buffer, total_batch_size := total_batch_size,
            current_index := current_index, first_event_in_file := first_event_in_file,
            frames := [] }

/-- A 28-byte event: a 19-byte header whose length field is 28 and nine body bytes. -/
def event28 : List Nat :=
  [1, 2, 3, 4, 5, 6, 7, 8, 9, 28, 0, 0, 0, 0, 0, 0, 0, 0, 0,
   65, 66, 67, 68, 69, 70, 71, 72, 73]

/-- A split size of 16 bytes, consensus checksums on, start offset 1000 and a 23-byte
empty log event. -/
def env16 : FlushEnv :=
  { opt_consensus_large_event_split_size := 16, opt_consensus_checksum := true,
    event_start_pos := 1000, empty_log := List.replicate 23 0 }

/-- What the frame `fr` of the iteration `(start_pos, end_pos)` run at the index `idx`
carries, whatever the batch buffer holds. -/
def FrameFor (env : FlushEnv) (temp_buf : List Nat) (ev_crc event_len total_event_len : Nat)
    (have_checksum : Bool) (idx start_pos end_pos : Nat) (fr : LogFrame) : Prop :=
  fr.index = idx ∧ fr.cache_index = idx
  ∧ fr.checksum = (if env.opt_consensus_checksum then my_checksum 0 fr.cache_buffer else 0)
  ∧ fr.flag.blob_end = decide (end_pos = total_event_len)
  ∧ fr.flag.blob = decide (end_pos ≠ total_event_len)
  ∧ fr.flag.blob_start = decide (end_pos ≠ total_event_len ∧ start_pos = 0)
  ∧ fr.flag.large_trx = !fr.flag.large_trx_end
  ∧ fr.payload
      = (if end_pos = total_event_len then
          temp_buf.take event_len ++ (if have_checksum then int4storeBytes ev_crc else [])
        else env.empty_log)
  ∧ fr.length = (if end_pos = total_event_len then total_event_len else env.empty_log.length)

/-- The frames `frs` are those of the iterations `ranges`, run at the indices `idx`,
`idx + 1`, ... -/
def FramesFor (env : FlushEnv) (temp_buf : List Nat) (ev_crc event_len total_event_len : Nat)
    (have_checksum : Bool) : Nat → List (Nat × Nat) → List LogFrame → Prop
  | _, [], [] => True
  | idx, r :: rs, fr :: frs =>
    FrameFor env temp_buf ev_crc event_len total_event_len have_checksum idx r.1 r.2 fr
      ∧ FramesFor env temp_buf ev_crc event_len total_event_len have_checksum (idx + 1) rs frs
  | _, _, _ => False

/-- An iteration `(start_pos, end_pos)` whose copies stay inside the batch buffer of
`size` bytes and inside `temp_buf`. -/
def RangeOK (temp_buf : List Nat) (total_event_len : Nat) (have_checksum : Bool) (size : Nat)
    (r : Nat × Nat) : Prop :=
  r.1 ≤ r.2 ∧ r.2 < 2 ^ 64 ∧ r.2 - r.1 ≤ size
  ∧ (r.2 = total_event_len → have_checksum = true →
      BINLOG_CHECKSUM_LEN ≤ r.2 - r.1 ∧ r.2 - BINLOG_CHECKSUM_LEN ≤ temp_buf.length)
  ∧ (¬ (r.2 = total_event_len ∧ have_checksum = true) → r.2 ≤ temp_buf.length)

/-! ## Flushing a large transaction in frames -/

/-- The values `large_trx_flush` takes from its surroundings: the system variables
`opt_consensus_max_log_size`, `opt_consensus_large_event_split_size` and
`opt_consensus_checksum`, the empty log event, and the two event sizes
`Consensus_log_event::get_event_length()` and
`Consensus_empty_log_event::get_event_length()`, which are declared outside the sources
at hand. -/
structure TrxEnv where
  opt_consensus_max_log_size : Nat
  opt_consensus_large_event_split_size : Nat
  opt_consensus_checksum : Bool
  consensus_log_event_length : Nat
  consensus_empty_log_event_length : Nat
  empty_log : List Nat
deriving DecidableEq, Repr

/-- The variables of `large_trx_flush`: the writer into the log cache, the log cache, the
mark `fisrt_event_in_batch`, `total_batch_size`, the current index and the first-event
mark of the log manager, the position of the binlog file, and the frames written so
far. -/
structure TrxState where
  consensus_writer : Consensuslog_event_writer
  log_cache : List Nat
  fisrt_event_in_batch : Bool
  total_batch_size : Nat
  current_index : Nat
  first_event_in_file : Bool
  binlog_pos : Nat
  frames : List LogFrame
deriving DecidableEq, Repr

/-- `calc_consensus_crc(log_cache, crc)`: `crc` is set to the checksum of the empty
buffer; the loop over the cache calls `checksum_crc32(crc, buffer, length)` and drops the
value it returns, so `crc` stays what it was. -/
def calc_consensus_crc (log_cache : List Nat) : Nat :=
  let crc := my_checksum 0 []
  let _dropped := my_checksum crc log_cache
  crc

/-- `large_trx_flush_log_cache(thd, log_cache, binlog_file, flag)`, called with
`thd->consensus_context.consensus_index` set to the current index: one frame whose
payload and cache buffer are the content of the log cache. The file position moves by the
size of the consensus log event and its footer and by the payload. Errors of the file
operations are not modelled. -/
def large_trx_flush_log_cache (env : TrxEnv) (have_checksum : Bool) (st : TrxState)
    (flag : Consensus_log_event_flag) : TrxState :=
  let ev_footer_size := if have_checksum then BINLOG_CHECKSUM_LEN else 0
  let batch_size := st.log_cache.length
  let flag := if st.first_event_in_file then flag.or FLAG_ROTATE else flag
  let crc32 := if env.opt_consensus_checksum then calc_consensus_crc st.log_cache else 0
  { st with
    first_event_in_file := false,
    current_index := st.current_index + 1,
    binlog_pos := st.binlog_pos + (env.consensus_log_event_length + ev_footer_size) + batch_size,
    frames := st.frames ++
      [{ flag := flag, index := st.current_index, length := batch_size, checksum := crc32,
         payload := st.log_cache, cache_index := st.current_index, batch_size := batch_size,
         cache_buffer := st.log_cache }] }

/-- The body of the loop of `large_trx_flush` for the event whose `temp_buf` is `ev`.
`none` is an access beyond a buffer, a division by a split size of zero or a loop that
does not end. -/
def large_trx_flush_event (env : TrxEnv) (total_size : Nat) (have_checksum : Bool)
    (st : TrxState) (ev : List Nat) : Option TrxState :=
  let ev_footer_size := if have_checksum then BINLOG_CHECKSUM_LEN else 0
  let event_len := uint4korr ev EVENT_LEN_OFFSET
  let event_total_len := event_len + ev_footer_size
  let batch_size := st.log_cache.length
  let st :=
    if batch_size > 0 ∧ batch_size + event_total_len > env.opt_consensus_max_log_size then
      let st := { st with total_batch_size := (st.total_batch_size + batch_size) % 2 ^ 64 }
      let st := large_trx_flush_log_cache env have_checksum st FLAG_LARGE_TRX
      { st with fisrt_event_in_batch := true, log_cache := [] }
    else st
  if event_total_len > env.opt_consensus_max_log_size then
    if env.opt_consensus_large_event_split_size = 0 then none
    else
      let batches :=
        (event_total_len + env.opt_consensus_large_event_split_size - 1)
          / env.opt_consensus_large_event_split_size % 2 ^ 32
      let event_start_pos :=
        st.binlog_pos + batches * (env.consensus_log_event_length + ev_footer_size)
          + (batches - 1) * (env.consensus_empty_log_event_length + ev_footer_size)
      match large_event_flush
          { opt_consensus_large_event_split_size := env.opt_consensus_large_event_split_size,
            opt_consensus_checksum := env.opt_consensus_checksum,
            event_start_pos := event_start_pos, empty_log := env.empty_log }
          total_size ev event_len event_total_len have_checksum st.total_batch_size
          (List.replicate env.opt_consensus_large_event_split_size 0) st.current_index
          st.first_event_in_file with
      | none => none
      | some fs =>
        let flush_size :=
          (fs.frames.map
            (fun fr => fr.length + (env.consensus_log_event_length + ev_footer_size))).sum
        some { st with
          consensus_writer :=
            { st.consensus_writer with
              end_log_pos := (st.consensus_writer.end_log_pos + flush_size) % 2 ^ 32 },
          total_batch_size := fs.total_batch_size,
          current_index := fs.current_index,
          first_event_in_file := fs.first_event_in_file,
          binlog_pos := st.binlog_pos + flush_size,
          frames := st.frames ++ fs.frames }
  else
    let w :=
      if st.fisrt_event_in_batch then
        { st.consensus_writer with
          end_log_pos :=
            (st.consensus_writer.end_log_pos
              + (env.consensus_log_event_length + ev_footer_size)) % 2 ^ 32 }
      else st.consensus_writer
    if event_len > ev.length then none
    else
      match write w st.log_cache (ev.take event_len) with
      | none => none
      | some ws =>
        some { st with consensus_writer := ws.w, log_cache := ws.ostream,
                       fisrt_event_in_batch := false }

/-- The loop of `large_trx_flush` over the events read from the binlog cache. -/
def large_trx_flush_loop (env : TrxEnv) (total_size : Nat) (have_checksum : Bool) :
    List (List Nat) → TrxState → Option TrxState
  | [], st => some st
  | ev :: evs, st =>
    match large_trx_flush_event env total_size have_checksum st ev with
    | none => none
    | some st2 => large_trx_flush_loop env total_size have_checksum evs st2

/-- `large_trx_flush(thd, total_size, have_checksum, gtid_event, cache_data,
binlog_file)`: `gtid` holds the bytes `gtid_event.write` hands to the writer (taken as
one call of `write`), `events` the `temp_buf` of the events read from the binlog cache,
`binlog_pos` the position of the binlog file; the result holds the frames in order. -/
def large_trx_flush (env : TrxEnv) (total_size : Nat) (have_checksum : Bool)
    (gtid : List Nat) (events : List (List Nat)) (binlog_pos current_index : Nat)
    (first_event_in_file : Bool) : Option TrxState :=
  let ev_footer_size := if have_checksum then BINLOG_CHECKSUM_LEN else 0
  let consensus_writer := Consensuslog_event_writer.new have_checksum
    (binlog_pos + (env.consensus_log_event_length + ev_footer_size)) true false
  match write consensus_writer [] gtid with
  | none => none
  | some ws =>
    match large_trx_flush_loop env total_size have_checksum events
        { consensus_writer := ws.w, log_cache := ws.ostream, fisrt_event_in_batch := false,
          total_batch_size := 0, current_index := current_index,
          first_event_in_file := first_event_in_file, binlog_pos := binlog_pos,
          frames := [] } with
    | none => none
    | some st =>
      if st.log_cache.length > 0 then
        some { large_trx_flush_log_cache env have_checksum st FLAG_LARGE_TRX_END with
               log_cache := [] }
      else some st

/-- A log size limit of 60 bytes with a split size of 16, consensus checksums on, and
consensus log events of 30 and 23 bytes. -/
def env60 : TrxEnv :=
  { opt_consensus_max_log_size := 60, opt_consensus_large_event_split_size := 16,
    opt_consensus_checksum := true, consensus_log_event_length := 30,
    consensus_empty_log_event_length := 23, empty_log := List.replicate 23 0 }

/-- The bytes `o` are the event `e` as the writer into the log cache emits it, for some
end offset. -/
def EmittedAs (have_checksum : Bool) (e o : List Nat) : Prop :=
  ∃ p, o = emittedEvent have_checksum false p e

/-- The state of `large_trx_flush` between two events, after the events `done` (the gtid
event first): the writer is between two events, the payloads of the frames written so
far are groups of complete emitted events, the log cache holds the complete emitted
events `cur` and is neither empty nor above the limit, every frame written so far is
flagged `LARGE_TRX` only and within the limit, and no byte is lost. -/
def TrxInv (env : TrxEnv) (have_checksum : Bool) (done : List (List Nat)) (st : TrxState) :
    Prop :=
  (∃ p h, st.consensus_writer = cleanWriter have_checksum false true p h
      ∧ h.length = LOG_EVENT_HEADER_LEN)
  ∧ ∃ (groups : List (List (List Nat))) (cur : List (List Nat)),
      st.frames.map LogFrame.payload = groups.map List.flatten
      ∧ st.log_cache = cur.flatten
      ∧ (∀ g ∈ groups, g ≠ [])
      ∧ cur ≠ []
      ∧ List.Forall₂ (EmittedAs have_checksum) done (groups.flatten ++ cur)
      ∧ 0 < st.log_cache.length
      ∧ st.log_cache.length ≤ env.opt_consensus_max_log_size
      ∧ (∀ fr ∈ st.frames, fr.flag.large_trx = true ∧ fr.flag.large_trx_end = false
          ∧ fr.payload.length ≤ env.opt_consensus_max_log_size)
      ∧ (done.map (emittedAdvance have_checksum false)).sum
          = (st.frames.map (fun fr => fr.payload.length)).sum + st.log_cache.length

/-! ## The state-change worker -/

/-- Modelled from the spec: the roles `StateType` that the consensus driver reports. The
enum is declared outside the sources at hand; the worker only tells `LEADER` and
`CANDIDATE` from the rest. -/
inductive StateType
  | FOLLOWER
  | CANDIDATE
  | LEADER
  | LEARNER
  | NOROLE
deriving DecidableEq, Repr

/-- `enum Consensus_Log_System_Status`: the relay log is working (log follower) or the
binlog is working (log owner). -/
inductive Consensus_Log_System_Status
  | RELAY_LOG_WORKING
  | BINLOG_WORKING
deriving DecidableEq, Repr

/-- `struct ConsensusStateChange`. -/
structure ConsensusStateChange where
  state : StateType
  term : Nat
  index : Nat
deriving DecidableEq, Repr

/-- The calls on locks and on the prefetch manager that `wait_leader_degraded` and
`wait_follower_upgraded` make: `channel_map.rdlock()` / `.unlock()`,
`rli_info->mi->channel_wrlock()` / `channel_unlock()`, the write lock and the unlock of
`LOCK_consensuslog_status` and of `LOCK_consensuslog_commit`, the data locks, the log
lock and the index lock of the binlog, and the two calls on the prefetch channels. -/
inductive LockEvent
  | channel_map_rdlock
  | channel_map_unlock
  | channel_wrlock
  | channel_unlock
  | status_wrlock
  | status_unlock
  | commit_wrlock
  | commit_unlock
  | mi_data_lock
  | mi_data_unlock
  | rli_data_lock
  | rli_data_unlock
  | log_lock
  | log_unlock
  | index_lock
  | index_unlock
  | disable_all_prefetch_channels
  | enable_all_prefetch_channels
deriving DecidableEq, Repr

/-- The members of `ConsensusStateProcess` that the worker reads and writes, and the
calls on locks made so far. -/
structure ConsensusStateProcess where
  status : Consensus_Log_System_Status
  current_term : Nat
  current_state_degrade_term : Nat
  consensus_state_change_is_running : Bool
  consensus_state_change_queue : List ConsensusStateChange
  calls : List LockEvent
deriving DecidableEq, Repr

/-- The answers of the surroundings during one role transition: the option
`opt_cluster_log_type_instance`, the sync index of the log manager, and the results of
the calls that can fail (`flush_info`, `save_gtids_of_last_binlog_into_table`, the two
resets of the previous gtid set, `start_consensus_apply_threads`, `open_index_file`,
`open_exist_consensus_binlog`). -/
structure StateEnv where
  opt_cluster_log_type_instance : Bool
  sync_index : Nat
  flush_info_error : Bool
  save_gtids_error : Bool
  reset_previous_gtid_set_of_consensus_log_error : Bool
  reset_previous_logged_gtids_relaylog_error : Bool
  start_consensus_apply_threads_error : Int
  open_index_file_error : Bool
  open_exist_consensus_binlog_error : Bool
deriving DecidableEq, Repr

/-- The calls `evs` are made, in order. -/
def ConsensusStateProcess.call (p : ConsensusStateProcess) (evs : List LockEvent) :
    ConsensusStateProcess :=
  { p with calls := p.calls ++ evs }

/-- The code after the label `end` of `wait_leader_degraded`. -/
def wait_leader_degraded_end (error : Int) (p : ConsensusStateProcess) :
    Int × ConsensusStateProcess :=
  (error, p.call [LockEvent.channel_unlock, LockEvent.channel_map_unlock,
    LockEvent.enable_all_prefetch_channels])

/-- `ConsensusStateProcess::wait_leader_degraded(term, index)`; the first component is
the value returned. The `assert` on the status is not modelled as a stop. -/
def wait_leader_degraded (env : StateEnv) (p : ConsensusStateProcess) (term index : Nat) :
    Int × ConsensusStateProcess :=
  let p := p.call [LockEvent.disable_all_prefetch_channels]
  if env.opt_cluster_log_type_instance = false ∧ env.flush_info_error = true then
    wait_leader_degraded_end 1 p
  else
    let p :=
      if env.opt_cluster_log_type_instance = false then
        { p with current_state_degrade_term := term }
      else p
    let p := p.call [LockEvent.channel_map_rdlock, LockEvent.channel_wrlock,
      LockEvent.status_wrlock, LockEvent.commit_wrlock, LockEvent.commit_unlock,
      LockEvent.mi_data_lock, LockEvent.rli_data_lock, LockEvent.rli_data_unlock,
      LockEvent.mi_data_unlock]
    let p := { p with current_term := term,
                      status := Consensus_Log_System_Status.RELAY_LOG_WORKING }
    if env.opt_cluster_log_type_instance = false then
      if env.save_gtids_error = true
          ∨ (if index < env.sync_index then
              env.reset_previous_gtid_set_of_consensus_log_error
            else env.reset_previous_logged_gtids_relaylog_error) = true then
        wait_leader_degraded_end 1 (p.call [LockEvent.status_unlock])
      else
        let p := { p with current_state_degrade_term := 0 }
        wait_leader_degraded_end env.start_consensus_apply_threads_error
          (p.call [LockEvent.status_unlock])
    else wait_leader_degraded_end 0 (p.call [LockEvent.status_unlock])

/-- The code after the label `end` of `wait_follower_upgraded`. -/
def wait_follower_upgraded_end (error : Int) (p : ConsensusStateProcess) :
    Int × ConsensusStateProcess :=
  (error, p.call [LockEvent.channel_unlock, LockEvent.channel_map_unlock,
    LockEvent.enable_all_prefetch_channels])

/-- `ConsensusStateProcess::wait_follower_upgraded(term, index)`; the first component is
the value returned. The `assert` on the status is not modelled as a stop. -/
def wait_follower_upgraded (env : StateEnv) (p : ConsensusStateProcess) (term _index : Nat) :
    Int × ConsensusStateProcess :=
  if env.opt_cluster_log_type_instance = false
      ∧ p.consensus_state_change_is_running = false then (0, p)
  else
    let p := p.call [LockEvent.disable_all_prefetch_channels, LockEvent.channel_map_rdlock,
      LockEvent.channel_wrlock, LockEvent.status_wrlock, LockEvent.rli_data_lock,
      LockEvent.rli_data_unlock, LockEvent.log_lock, LockEvent.index_lock]
    if env.open_index_file_error = true then
      wait_follower_upgraded_end 1
        (p.call [LockEvent.index_unlock, LockEvent.log_unlock, LockEvent.status_unlock])
    else if env.open_exist_consensus_binlog_error = true then
      wait_follower_upgraded_end 2
        (p.call [LockEvent.index_unlock, LockEvent.log_unlock, LockEvent.status_unlock])
    else
      let p := p.call [LockEvent.index_unlock, LockEvent.log_unlock]
      let p := { p with status := Consensus_Log_System_Status.BINLOG_WORKING,
                        current_term := term }
      if env.flush_info_error = true then
        wait_follower_upgraded_end 3 (p.call [LockEvent.status_unlock])
      else wait_follower_upgraded_end 0 (p.call [LockEvent.status_unlock])

/-- `ConsensusStateProcess::wait_follower_change_term(term)`. -/
def wait_follower_change_term (p : ConsensusStateProcess) (term : Nat) :
    Int × ConsensusStateProcess :=
  (0, { p with current_term := term })

/-- `ConsensusStateProcess::add_state_change_request(state_change)`. -/
def add_state_change_request (p : ConsensusStateProcess) (state_change : ConsensusStateChange) :
    ConsensusStateProcess :=
  { p with consensus_state_change_queue := p.consensus_state_change_queue ++ [state_change] }

/-- `ConsensusStateProcess::get_stage_change_from_queue()` on a queue that is not empty,
which is the only way the worker calls it; `none` is the empty queue, for which the
source returns a value that was never set. -/
def get_stage_change_from_queue (p : ConsensusStateProcess) :
    Option (ConsensusStateChange × ConsensusStateProcess) :=
  match p.consensus_state_change_queue with
  | [] => none
  | state_change :: rest => some (state_change, { p with consensus_state_change_queue := rest })

/-- One iteration of the loop of `run_consensus_stage_change` that finds the queue not
empty: the event at the front is taken and handled; the first component is `error` (0
when the iteration starts, since a value other than 0 ends in `abort()`). `none` is the
empty queue, for which the iteration does nothing. -/
def run_consensus_stage_change_step (env : StateEnv) (p : ConsensusStateProcess) :
    Option (Int × ConsensusStateProcess) :=
  match get_stage_change_from_queue p with
  | none => none
  | some (state_change, p) =>
    if state_change.state ≠ StateType.LEADER then
      if p.status = Consensus_Log_System_Status.BINLOG_WORKING then
        some (wait_leader_degraded env p state_change.term state_change.index)
      else if state_change.state ≠ StateType.CANDIDATE then
        some (wait_follower_change_term p state_change.term)
      else some (0, p)
    else some (wait_follower_upgraded env p state_change.term state_change.index)

/-- `ConsensusStateProcess::is_state_machine_ready()`; `driver_term` is the value of
`rpl_consensus_get_term()`. The `assert` is not modelled as a stop. -/
def is_state_machine_ready (p : ConsensusStateProcess) (driver_term : Nat) : Bool :=
  decide (p.status = Consensus_Log_System_Status.BINLOG_WORKING)
    && decide (driver_term = p.current_term)

/-- The number of times the lock was acquired minus the number of times it was released
after the calls `evs`, starting from `depth`; `none` when a release finds the lock not
acquired. -/
def lockDepth (acquire release : LockEvent) : List LockEvent → Nat → Option Nat
  | [], depth => some depth
  | ev :: evs, depth =>
    if ev = acquire then lockDepth acquire release evs (depth + 1)
    else if ev = release then
      match depth with
      | 0 => none
      | d + 1 => lockDepth acquire release evs d
    else lockDepth acquire release evs depth

/-- A log follower with term 3 whose worker is being stopped and whose queue holds an
event `LEADER` with term 5. -/
def stoppingFollower : ConsensusStateProcess :=
  { status := Consensus_Log_System_Status.RELAY_LOG_WORKING, current_term := 3,
    current_state_degrade_term := 0, consensus_state_change_is_running := false,
    consensus_state_change_queue := [{ state := StateType.LEADER, term := 5, index := 10 }],
    calls := [] }

/-- A log owner with term 3, running, with an empty queue. -/
def runningOwner : ConsensusStateProcess :=
  { status := Consensus_Log_System_Status.BINLOG_WORKING, current_term := 3,
    current_state_degrade_term := 0, consensus_state_change_is_running := true,
    consensus_state_change_queue := [], calls := [] }

/-- Surroundings in which no call fails, on an instance that is not a log-type
instance. -/
def quietEnv : StateEnv :=
  { opt_cluster_log_type_instance := false, sync_index := 0, flush_info_error := false,
    save_gtids_error := false, reset_previous_gtid_set_of_consensus_log_error := false,
    reset_previous_logged_gtids_relaylog_error := false,
    start_consensus_apply_threads_error := 0, open_index_file_error := false,
    open_exist_consensus_binlog_error := false }

/-- The two-member configuration `A#5, B#5`. -/
def twoMemberConfiguration : StableConfiguration :=
  installConfig emptyConfiguration ["A#5".toList, "B#5".toList] 1 none

/-- A 29-byte event: a 19-byte header whose length field is 29 and ten body bytes. -/
def event29 : List Nat :=
  [1, 2, 3, 4, 5, 6, 7, 8, 9, 29, 0, 0, 0, 0, 0, 0, 0, 0, 0,
   65, 66, 67, 68, 69, 70, 71, 72, 73, 74]

/-! ## Reading a split event back -/

/-- `fetch_binlog_by_offset(binlog_file_reader, start_pos, end_pos, NULL, log_content)`:
the bytes `[start_pos, end_pos)` of the file, with the size kept in an `unsigned int`;
`none` is a read beyond the end of the file. -/
def fetch_binlog_by_offset (file : List Nat) (start_pos end_pos : Nat) : Option (List Nat) :=
  if start_pos = end_pos then some []
  else
    let buf_size := (end_pos + 2 ^ 64 - start_pos) % 2 ^ 64 % 2 ^ 32
    if start_pos + buf_size ≤ file.length then some ((file.drop start_pos).take buf_size)
    else none

/-- The advance of `blob_end_pos` at the end of an iteration of the slicing loops. -/
def nextBlobEnd (split_len end_pos blob_end_pos : Nat) : Nat :=
  if (blob_end_pos + split_len) % 2 ^ 64 > end_pos then end_pos
  else (blob_end_pos + split_len) % 2 ^ 64

/-- The loop over `blob_index_list` in `prefetch_logs_of_file`, entered at the `BLOB_END`
frame whose payload is `[start_pos, end_pos)`: the pairs of index and content offered to
`add_log_to_prefetch_cache`, in order. An index outside the window is skipped, and the
loop ends when the cache answers `INTERRUPT` (`interrupt`). The lists of terms, flags
and checksums run in parallel with the list of indices and are left out. -/
def prefetchBlobLoop (file : List Nat) (split_len end_pos window_size start_index : Nat)
    (interrupt : Nat → Bool) : List Nat → Nat → Nat → Option (List (Nat × List Nat))
  | [], _, _ => some []
  | index :: rest, blob_start_pos, blob_end_pos =>
    if index + window_size ≥ start_index then
      match fetch_binlog_by_offset file blob_start_pos blob_end_pos with
      | none => none
      | some log_content =>
        if interrupt index then some [(index, log_content)]
        else
          (prefetchBlobLoop file split_len end_pos window_size start_index interrupt rest
              blob_end_pos (nextBlobEnd split_len end_pos blob_end_pos)).map
            (fun more => (index, log_content) :: more)
    else
      prefetchBlobLoop file split_len end_pos window_size start_index interrupt rest
        blob_end_pos (nextBlobEnd split_len end_pos blob_end_pos)

/-- The blob slicing of `prefetch_logs_of_file` for the indices `blob_index_list`. -/
def prefetchBlob (file : List Nat) (split_len start_pos end_pos window_size start_index : Nat)
    (interrupt : Nat → Bool) (blob_index_list : List Nat) : Option (List (Nat × List Nat)) :=
  prefetchBlobLoop file split_len end_pos window_size start_index interrupt blob_index_list
    start_pos ((start_pos + split_len) % 2 ^ 64)

/-- The loop over `blob_index_list` in `read_log_by_consensus_index`: the content
fetched for `consensus_index`; `some none` when the index is not in the list. -/
def readBlobLoop (file : List Nat) (split_len end_pos consensus_index : Nat) :
    List Nat → Nat → Nat → Option (Option (List Nat))
  | [], _, _ => some none
  | index :: rest, blob_start_pos, blob_end_pos =>
    if index = consensus_index then
      (fetch_binlog_by_offset file blob_start_pos blob_end_pos).map some
    else
      readBlobLoop file split_len end_pos consensus_index rest blob_end_pos
        (nextBlobEnd split_len end_pos blob_end_pos)

/-- The blob slicing of `read_log_by_consensus_index` for the indices
`blob_index_list`. -/
def readBlob (file : List Nat) (split_len start_pos end_pos consensus_index : Nat)
    (blob_index_list : List Nat) : Option (Option (List Nat)) :=
  readBlobLoop file split_len end_pos consensus_index blob_index_list
    start_pos ((start_pos + split_len) % 2 ^ 64)

/-- The slice `[i * S, min ((i + 1) * S, L))` of a payload of `L` bytes. -/
def blobSlice (payload : List Nat) (S i : Nat) : List Nat :=
  (payload.drop (i * S)).take (min ((i + 1) * S) payload.length - i * S)

/-! ## Committing a transaction to the consensus log -/

/-- Modelled from the spec: the error codes of `Consensus_binlog_context_info` that the
commit path stores in `thd->consensus_context.consensus_error`. The enum is declared
outside the sources at hand; the enumerators are those the sources name. -/
inductive Consensus_error
  | CSS_NONE
  | CSS_SHUTDOWN
  | CSS_LEADERSHIP_CHANGE
  | CSS_LOG_TOO_LARGE
deriving DecidableEq, Repr

/-- The members of `thd` that `write_cache_consensus_log` reads and writes: the consensus
context and the mark set by `mark_transaction_to_rollback`. -/
structure ThdContext where
  consensus_term : Nat
  consensus_index : Nat
  consensus_error : Consensus_error
  transaction_rollback : Bool
deriving DecidableEq, Repr

/-- The log as `write_cache_consensus_log` sees it: the current index and the first-event
mark of the log manager, the position of the binlog file, and the frames written. -/
structure CommitLog where
  current_index : Nat
  first_event_in_file : Bool
  binlog_pos : Nat
  frames : List LogFrame
deriving DecidableEq, Repr

/-- The value `total_size` that `write_cache_consensus_log` computes, in `ulonglong`:
the length of the binlog cache, the length of the gtid event and, with checksums, four
bytes for each event and for the gtid event. -/
def totalSize (cache_length gtid_event_length event_counter : Nat) (have_checksum : Bool) :
    Nat :=
  (cache_length + gtid_event_length
    + (if have_checksum then (event_counter + 1) * BINLOG_CHECKSUM_LEN % 2 ^ 64 else 0))
    % 2 ^ 64

/-- `write_cache_consensus_log(thd, gtid_event, cache_data, binlog_file, have_checksum)`:
`gtid` holds the bytes `gtid_event.write` hands to the writer, `events` the events of
the binlog cache (`cache_storage->length()` is the length of their concatenation),
`gtid_event_length` and `event_counter` the values of `gtid_event.get_event_length()`
and `binlog_cache_get_event_counter`, `log_term` and `driver_term` those of
`rpl_consensus_log_get_term()` and `rpl_consensus_get_term()`. The first component of
the result is the value returned. The gtid event and the cache go through the writer in
one call of `write` each. `none` is an access beyond a buffer in one of the writers.
Errors of the file operations are not modelled. -/
def write_cache_consensus_log (env : TrxEnv) (opt_consensus_large_trx : Bool)
    (log_term driver_term : Nat) (thd : ThdContext) (log : CommitLog)
    (gtid : List Nat) (gtid_event_length : Nat) (events : List (List Nat))
    (event_counter : Nat) (have_checksum : Bool) : Option (Int × ThdContext × CommitLog) :=
  let total_size := totalSize events.flatten.length gtid_event_length event_counter
    have_checksum
  let is_large_trx := decide (total_size > env.opt_consensus_max_log_size)
  if opt_consensus_large_trx = false ∧ is_large_trx = true then
    some (0, { thd with transaction_rollback := true,
                        consensus_error := Consensus_error.CSS_LOG_TOO_LARGE }, log)
  else if log_term ≠ thd.consensus_term ∨ driver_term ≠ thd.consensus_term then
    some (0, { thd with transaction_rollback := true,
                        consensus_error := Consensus_error.CSS_LEADERSHIP_CHANGE }, log)
  else if is_large_trx = false then
    let flag := if log.first_event_in_file then FLAG_NONE.or FLAG_ROTATE else FLAG_NONE
    let thd := { thd with consensus_index := log.current_index }
    let ev_footer_size := if have_checksum then BINLOG_CHECKSUM_LEN else 0
    let consensus_writer := Consensuslog_event_writer.new have_checksum log.binlog_pos true false
    let consensus_writer :=
      { consensus_writer with
        end_log_pos :=
          (consensus_writer.end_log_pos
            + (env.consensus_log_event_length + ev_footer_size)) % 2 ^ 32 }
    match write consensus_writer [] gtid with
    | none => none
    | some ws =>
      match write ws.w ws.ostream events.flatten with
      | none => none
      | some ws2 =>
        let payload := ws2.ostream
        let payload_size := payload.length
        let crc32 := if env.opt_consensus_checksum then calc_consensus_crc payload else 0
        some (0, thd,
          { current_index := log.current_index + 1, first_event_in_file := false,
            binlog_pos :=
              log.binlog_pos + (env.consensus_log_event_length + ev_footer_size)
                + payload_size,
            frames := log.frames ++
              [{ flag := flag, index := log.current_index, length := payload_size,
                 checksum := crc32, payload := payload,
                 cache_index := thd.consensus_index, batch_size := payload_size,
                 cache_buffer := payload }] })
  else
    match large_trx_flush env total_size have_checksum gtid events log.binlog_pos
        log.current_index log.first_event_in_file with
    | none => none
    | some ts =>
      let thd :=
        match ts.frames.getLast? with
        | some fr => { thd with consensus_index := fr.cache_index }
        | none => thd
      some (0, thd,
        { current_index := ts.current_index, first_event_in_file := ts.first_event_in_file,
          binlog_pos := ts.binlog_pos, frames := log.frames ++ ts.frames })

/-- A thread context with term 3 and no error. -/
def thd3 : ThdContext :=
  { consensus_term := 3, consensus_index := 0, consensus_error := Consensus_error.CSS_NONE,
    transaction_rollback := false }

/-- An empty log whose next index is 7. -/
def log7 : CommitLog :=
  { current_index := 7, first_event_in_file := false, binlog_pos := 4, frames := [] }

/-! ## Appending entries to the consensus log -/

/-- `struct ConsensusLogEntry`; `buf_size` is the length of `buffer`. -/
structure ConsensusLogEntry where
  term : Nat
  index : Nat
  buffer : List Nat
  outer : Bool
  flag : Consensus_log_event_flag
  checksum : Nat
deriving DecidableEq, Repr

/-- A frame in the log file: the consensus log event written by
`write_consensus_log_event` and the bytes written to the file after it. -/
structure FileFrame where
  flag : Consensus_log_event_flag
  term : Nat
  index : Nat
  length : Nat
  checksum : Nat
  payload : List Nat
deriving DecidableEq, Repr

/-- The log store: the current index and the sync index of the log manager, the term of
the consensus log (`rpl_consensus_log_get_term()`), the position of the binlog file, the
log cache, the frames in the file and the entries handed to `add_log_to_cache` by the
append functions. -/
structure LogStore where
  current_index : Nat
  sync_index : Nat
  log_term : Nat
  binlog_pos : Nat
  log_cache : List Nat
  frames : List FileFrame
  fifo_cache : List (Nat × List Nat)
deriving DecidableEq, Repr

/-- The values the append functions take from their surroundings: whether
`binlog_checksum_options` is not `BINLOG_CHECKSUM_ALG_OFF`, the system variable
`opt_consensus_checksum`, the size `Consensus_log_event::get_event_length()`, the empty
log event, the event timestamp of the log manager, and the bytes that
`Consensus_cluster_info_log_event::write` hands to the writer for a buffer (the last
three are declared outside the sources at hand). -/
structure AppendEnv where
  binlog_checksum : Bool
  opt_consensus_checksum : Bool
  consensus_log_event_length : Nat
  empty_log : List Nat
  event_timestamp : Nat
  cluster_info_event : List Nat → List Nat

/-- `write_consensus_log_event(binlog_file, flag, term, length, checksum,
consensus_append)`: an event built with the current index is written to the file, and
the current index is incremented (`incr_current_index`, declared outside the sources at
hand, is taken to add one). The file position moves by the size of the event and its
footer. The error of `binary_event_serialize` is not modelled. -/
def write_consensus_log_event (env : AppendEnv) (st : LogStore)
    (flag : Consensus_log_event_flag) (term length checksum : Nat) : LogStore :=
  { st with
    frames := st.frames ++
      [{ flag := flag, term := term, index := st.current_index, length := length,
         checksum := checksum, payload := [] }],
    binlog_pos := st.binlog_pos
      + (env.consensus_log_event_length
        + (if env.binlog_checksum then BINLOG_CHECKSUM_LEN else 0)),
    current_index := st.current_index + 1 }

/-- The bytes `bytes` are added to the payload of the last frame. -/
def appendToLast : List FileFrame → List Nat → List FileFrame
  | [], _ => []
  | [fr], bytes => [{ fr with payload := fr.payload ++ bytes }]
  | fr :: fr2 :: rest, bytes => fr :: appendToLast (fr2 :: rest) bytes

/-- A write of `bytes` to the binlog file after the consensus log event of the last
frame. -/
def binlog_write (st : LogStore) (bytes : List Nat) : LogStore :=
  { st with frames := appendToLast st.frames bytes,
            binlog_pos := st.binlog_pos + bytes.length }

/-- Modelled from the spec: `consensus_log_manager.set_sync_index_if_greater(index)`,
declared outside the sources at hand; the sync index is advanced and never moved
backward. -/
def set_sync_index_if_greater (st : LogStore) (index : Nat) : LogStore :=
  if index > st.sync_index then { st with sync_index := index } else st

/-- The result of `append_consensue_log_entry`: the value returned, the store, the flag
`add_cache` and the entry, whose buffer and checksum the function may rewrite. -/
structure EntryResult where
  error : Int
  store : LogStore
  add_cache : Bool
  log : ConsensusLogEntry
deriving DecidableEq, Repr

/-- `append_consensue_log_entry(log, binlog_file, add_cache, rli)`. Each writer takes its
input in one call of `write`. In the branch for a cluster-info entry
`calc_consensus_crc` returns `false` when it succeeds, so the test
`!calc_consensus_crc(...)` sets `error = 1` whenever `opt_consensus_checksum` is set.
`none` is an access beyond a buffer in a writer. The timestamps taken from the payload
and the errors of the file operations are not modelled. -/
def append_consensue_log_entry (env : AppendEnv) (st : LogStore) (log : ConsensusLogEntry) :
    Option EntryResult :=
  let payload_start_pos :=
    st.binlog_pos
      + (env.consensus_log_event_length
        + (if env.binlog_checksum then BINLOG_CHECKSUM_LEN else 0))
  if log.outer then
    let consensus_cache_writer :=
      Consensuslog_event_writer.new env.binlog_checksum payload_start_pos true false
    match write consensus_cache_writer [] (env.cluster_info_event log.buffer) with
    | none => none
    | some ws =>
      let st := { st with log_cache := ws.ostream }
      if env.opt_consensus_checksum then
        some { error := 1, store := st, add_cache := true, log := log }
      else
        let st := write_consensus_log_event env st log.flag log.term st.log_cache.length
          log.checksum
        let st := binlog_write st st.log_cache
        some { error := 0, store := st, add_cache := true, log := log }
  else if log.flag.blob then
    let empty_log_writer :=
      Consensuslog_event_writer.new env.binlog_checksum payload_start_pos true true
    let st := if log.flag.blob_start then { st with log_cache := [] } else st
    let st := { st with log_cache := st.log_cache ++ log.buffer }
    let empty_log := int4store env.empty_log 0 env.event_timestamp
    let st := write_consensus_log_event env st log.flag log.term empty_log.length log.checksum
    match write empty_log_writer [] empty_log with
    | none => none
    | some ws =>
      let st := binlog_write st ws.ostream
      some { error := 0, store := st, add_cache := !env.opt_consensus_checksum, log := log }
  else if log.flag.blob_end then
    let consensus_log_writer :=
      Consensuslog_event_writer.new env.binlog_checksum payload_start_pos true true
    let st := { st with log_cache := st.log_cache ++ log.buffer }
    let st := write_consensus_log_event env st log.flag log.term st.log_cache.length
      log.checksum
    match write consensus_log_writer [] st.log_cache with
    | none => none
    | some ws =>
      let st := binlog_write st ws.ostream
      let st := { st with log_cache := [] }
      some { error := 0, store := st, add_cache := !env.opt_consensus_checksum, log := log }
  else
    let payload_reviser :=
      Consensuslog_event_writer.new env.binlog_checksum payload_start_pos false true
    match revise_buffer payload_reviser log.buffer with
    | none => none
    | some rs =>
      let log := { log with buffer := rs.revised }
      let log :=
        { log with
          checksum := if env.opt_consensus_checksum then my_checksum 0 log.buffer else 0 }
      let st := write_consensus_log_event env st log.flag log.term log.buffer.length
        log.checksum
      let st := binlog_write st log.buffer
      some { error := 0, store := st, add_cache := true, log := log }

/-- The result of `append_consensus_log`: the value returned, the value stored through
`index`, and the store. -/
structure AppendResult where
  error : Int
  index : Nat
  store : LogStore
deriving DecidableEq, Repr

/-- `append_consensus_log(binlog, log, index, rli, with_check)`. The error of
`flush_and_sync` is not modelled. -/
def append_consensus_log (env : AppendEnv) (st : LogStore) (log : ConsensusLogEntry)
    (with_check : Bool) : Option AppendResult :=
  if with_check = true ∧ st.log_term ≠ log.term then
    some { error := 0, index := 0, store := st }
  else
    let index := st.current_index
    if index ≠ log.index ∧ log.index ≠ 0 then
      some { error := 0, index := 0, store := st }
    else
      match append_consensue_log_entry env st log with
      | none => none
      | some r =>
        if r.error ≠ 0 then some { error := r.error, index := index, store := r.store }
        else
          let st := r.store
          let st :=
            if r.add_cache then
              { st with fifo_cache := st.fifo_cache ++ [(index, r.log.buffer)] }
            else st
          let st := set_sync_index_if_greater st index
          some { error := 0, index := index, store := st }

/-- The state of the loop of `append_multi_consensus_logs`: `error`, `max_index` (`none`
while nothing was stored through the pointer), `flush_index` and the store. -/
structure MultiState where
  error : Int
  max_index : Option Nat
  flush_index : Nat
  store : LogStore
deriving DecidableEq, Repr

/-- The loop of `append_multi_consensus_logs` over the entries. -/
def append_multi_loop (env : AppendEnv) : List ConsensusLogEntry → MultiState →
    Option MultiState
  | [], ms => some ms
  | log :: rest, ms =>
    if ms.store.current_index ≠ log.index then some { ms with max_index := some 0 }
    else
      let flush_index := ms.store.current_index
      match append_consensue_log_entry env ms.store log with
      | none => none
      | some r =>
        if r.error ≠ 0 then
          some { ms with error := r.error, flush_index := flush_index, store := r.store }
        else
          let st := r.store
          let st :=
            if r.add_cache then
              { st with fifo_cache := st.fifo_cache ++ [(flush_index, r.log.buffer)] }
            else st
          append_multi_loop env rest
            { error := 0, max_index := some flush_index, flush_index := flush_index,
              store := st }

/-- `append_multi_consensus_logs(binlog, logs, max_index, rli)`. The error of
`flush_and_sync` is not modelled. -/
def append_multi_consensus_logs (env : AppendEnv) (st : LogStore)
    (logs : List ConsensusLogEntry) : Option MultiState :=
  match append_multi_loop env logs
      { error := 0, max_index := none, flush_index := 0, store := st } with
  | none => none
  | some ms =>
    if ms.error ≠ 0 then some ms
    else some { ms with store := set_sync_index_if_greater ms.store ms.flush_index }

/-- `consensus_truncate_log(log, consensus_index)`: `offset` is the number of frames
before the position that `consensus_find_log_by_index` and `consensus_find_pos_by_index`
find for the index (`none` when one of them fails), `truncate_error` the result of
`truncate_log`. `none` is `abort()`. `set_sync_index` and `set_current_index`, declared
outside the sources at hand, are taken to store their argument; the position map of the
file index, declared there as well, is left out. -/
def consensus_truncate_log (st : LogStore) (consensus_index : Nat) (offset : Option Nat)
    (truncate_error : Bool) : Option LogStore :=
  match offset with
  | none => none
  | some frames_before =>
    if truncate_error then none
    else
      some { st with
        frames := st.frames.take frames_before,
        sync_index := (consensus_index + 2 ^ 64 - 1) % 2 ^ 64,
        current_index := consensus_index }

/-- One call of an append function: `append_consensus_log` with its entry and
`with_check`, or `append_multi_consensus_logs` with its entries. -/
inductive AppendCall
  | single (log : ConsensusLogEntry) (with_check : Bool)
  | multi (logs : List ConsensusLogEntry)

/-- The store after one call of an append function. -/
def runAppendCall (env : AppendEnv) (st : LogStore) : AppendCall → Option LogStore
  | AppendCall.single log with_check => (append_consensus_log env st log with_check).map
      AppendResult.store
  | AppendCall.multi logs => (append_multi_consensus_logs env st logs).map MultiState.store

/-- The store after a sequence of calls of the append functions. -/
def runAppendCalls (env : AppendEnv) : List AppendCall → LogStore → Option LogStore
  | [], st => some st
  | call :: rest, st =>
    match runAppendCall env st call with
    | none => none
    | some st2 => runAppendCalls env rest st2

/-- The frames carry the consecutive indices that end just below `current_index`. -/
def ConsecutiveIndices (indices : List Nat) (current_index : Nat) : Prop :=
  indices.length ≤ current_index
    ∧ indices = List.range' (current_index - indices.length) indices.length

/-- Surroundings with binlog checksums, without consensus checksums, consensus log events
of 30 bytes and a 23-byte empty log event. -/
def appendEnv : AppendEnv :=
  { binlog_checksum := true, opt_consensus_checksum := false,
    consensus_log_event_length := 30, empty_log := List.replicate 23 0,
    event_timestamp := 0, cluster_info_event := fun buffer => buffer }

/-- A store with term 3 whose file holds the frames 1 to 4. -/
def store5 : LogStore :=
  { current_index := 5, sync_index := 4, log_term := 3, binlog_pos := 400, log_cache := [],
    frames := (List.range' 1 4).map
      (fun i => { flag := FLAG_NONE, term := 3, index := i, length := 0, checksum := 0,
                  payload := [] }),
    fifo_cache := [] }

/-- A plain entry of term 3 with index 0 whose buffer is the event `smallEvent`. -/
def plainEntry : ConsensusLogEntry :=
  { term := 3, index := 0, buffer := smallEvent, outer := false, flag := FLAG_NONE,
    checksum := 0 }

/-- The store `st2` is `st` after exactly one more frame, built with the current index of
`st`, with the current index incremented and the sync index untouched. -/
def FrameWritten (st st2 : LogStore) : Prop :=
  st2.sync_index = st.sync_index
    ∧ (∃ fr, st2.frames = st.frames ++ [fr] ∧ fr.index = st.current_index)
    ∧ st2.current_index = st.current_index + 1


/-- From the frames `frames1` and the current index `index1` to the frames `frames2` and
the current index `index2`, frames were only added, each built with the current index of
its time, which it incremented by one. -/
def FramesAdded (frames1 : List LogFrame) (index1 : Nat) (frames2 : List LogFrame)
    (index2 : Nat) : Prop :=
  ∃ frs : List LogFrame, frames2 = frames1 ++ frs
    ∧ frs.map LogFrame.index = List.range' index1 frs.length
    ∧ index2 = index1 + frs.length

/-- From the store `st` to the store `st2`, frames were only added, each built with the
current index of its time, which it incremented by one, and the sync index did not
decrease. -/
def StoreAdvance (st st2 : LogStore) : Prop :=
  ∃ frs : List FileFrame, st2.frames = st.frames ++ frs
    ∧ frs.map FileFrame.index = List.range' st.current_index frs.length
    ∧ st2.current_index = st.current_index + frs.length
    ∧ st.sync_index ≤ st2.sync_index

/-- The surroundings `appendEnv` with consensus checksums. -/
def checksumEnv : AppendEnv :=
  { appendEnv with opt_consensus_checksum := true }

/-- A cluster-info entry of term 3 with index 5 whose event is written as the bytes of
`smallEvent`. -/
def clusterInfoEntry : ConsensusLogEntry :=
  { term := 3, index := 5, buffer := smallEvent, outer := true, flag := FLAG_NONE,
    checksum := 0 }


/-- The first part of a split event: a `BLOB` entry of term 3 with index 6 that starts
the event and carries the first ten bytes of `smallEvent`. -/
def blobStartEntry : ConsensusLogEntry :=
  { term := 3, index := 6, buffer := smallEvent.take 10, outer := false,
    flag := FLAG_BLOB.or FLAG_BLOB_START, checksum := 0 }

/-- The last part of the split event: a `BLOB_END` entry of term 3 with index 7 that
carries the remaining bytes of `smallEvent`. -/
def blobEndEntry : ConsensusLogEntry :=
  { term := 3, index := 7, buffer := smallEvent.drop 10, outer := false,
    flag := FLAG_BLOB_END, checksum := 0 }

/-- Calls that pass through every branch of `append_consensue_log_entry`: a plain entry,
the two parts of a split event in one call of `append_multi_consensus_logs`, and a
cluster-info entry with index 0. -/
def sampleCalls : List AppendCall :=
  [AppendCall.single plainEntry true,
   AppendCall.multi [blobStartEntry, blobEndEntry],
   AppendCall.single { clusterInfoEntry with index := 0 } false]


/-- A slot list whose only member carries the id 1 with weight 9 and has acknowledged
epoch 3. -/
def twinServers : List ServerRef :=
  [some { mkMember 1 ['A'] 9 false with lastAckEpoch := 3 }]


/-- A 32-byte event: a 19-byte header whose length field is 32, nine body bytes and a
four-byte footer. -/
def event32 : List Nat :=
  [1, 2, 3, 4, 5, 6, 7, 8, 9, 32, 0, 0, 0, 0, 0, 0, 0, 0, 0,
   65, 66, 67, 68, 69, 70, 71, 72, 73, 0, 0, 0, 0]

/-- The event `event32` repeated `2 ^ 27` times: a buffer of `2 ^ 32` bytes. -/
def events4G : List (List Nat) := List.replicate (2 ^ 27) event32


/-! ## Splitting the membership string, in the spec's words -/

/-- The text before the first `c` and the text after it; `none` when there is no `c`. -/
def cutAt (c : Char) : List Char → Option (List Char × List Char)
  | [] => none
  | x :: xs =>
    if x = c then some ([], xs)
    else
      match cutAt c xs with
      | none => none
      | some r => some (x :: r.1, r.2)

/-- The elements that end at a `;`, read from left to right: `cs` is the text from
position `pos` on, `acc` the text of the current element read so far, and `skipped` says
that a `;` of the current element has been kept inside it. A `;` ends the current element,
unless it is the first `;` of the element, lies at a position above 1 and directly
follows `$`: then it is kept inside the element, which ends at the next `;` whatever
precedes that one. The result holds the elements that a `;` ends and the remainder, the
text of the element that no `;` ends. -/
def splitScan : Nat → List Char → List Char → Bool → List (List Char) × List Char
  | _, [], acc, _ => ([], acc)
  | pos, c :: cs, acc, skipped =>
    if c = ';' then
      if skipped = false ∧ pos > 1 ∧ acc.getLast? = some '$' then
        splitScan (pos + 1) cs (acc ++ [';']) true
      else
        let r := splitScan (pos + 1) cs [] false
        (acc :: r.1, r.2)
    else splitScan (pos + 1) cs (acc ++ [c]) skipped

/-- What `stringToVector` returns, in the spec's words: `res` is its result for the string
`str` and the index `currentIndex` (`none` when `std::stoull` throws). The vector starts
with the elements that end at a `;`; the rest of the string is the remainder. Without `@`
the remainder is the last element (of a non-empty string) and the index stays. When the
first `@` of the remainder lies at a position above 1 and directly follows `$`, the
index stays and one more element is returned. Otherwise the text before that `@` is the
last element and the index becomes the number read from the text after it. -/
def StringToVectorSpec (str : List Char) (currentIndex : Nat)
    (res : Option (List (List Char) × Nat)) : Prop :=
  let r := splitScan 0 str [] false
  match cutAt '@' r.2 with
  | none => res = some (if str ≠ [] then r.1 ++ [r.2] else r.1, currentIndex)
  | some (a, t) =>
    if str.length - r.2.length + a.length > 1 ∧ a.getLast? = some '$' then
      ∃ last, res = some (r.1 ++ [last], currentIndex)
    else res = (stoull t).map (fun v => (r.1 ++ [a], v))

/-! # Theorems -/

/-! ## Quorum arithmetic -/

@[simp] theorem members_nil : members [] = [] := rfl

@[simp] theorem members_cons_none (t : List ServerRef) :
    members (none :: t) = members t := rfl

@[simp] theorem members_cons_some (s : Server) (t : List ServerRef) :
    members (some s :: t) = s :: members t := rfl

theorem foldl_count_add (q : ServerRef → Bool) (servers : List ServerRef) (n : Nat) :
    servers.foldl (fun cnt it => if q it then cnt + 1 else cnt) n
      = n + servers.countP q := by
  induction servers generalizing n with
  | nil => simp
  | cons a t ih =>
    simp only [List.foldl_cons, ih, List.countP_cons]
    split <;> omega

theorem countP_members (p : Server → Bool) (servers : List ServerRef) :
    servers.countP (fun it => match it with | some s => p s | none => false)
      = (members servers).countP p := by
  induction servers with
  | nil => rfl
  | cons a t ih =>
    cases a with
    | none => simpa using ih
    | some s => simp [List.countP_cons, ih]

theorem getServerNum_eq (servers : List ServerRef) :
    getServerNum servers = (members servers).length := by
  unfold getServerNum
  rw [foldl_count_add (fun it => it.isSome) servers 0]
  induction servers with
  | nil => rfl
  | cons a t ih =>
    cases a with
    | none => simpa using ih
    | some s => simpa using ih

theorem quorumCount_eq (p : Server → Bool) (servers : List ServerRef) :
    servers.foldl
      (fun count it =>
        match it with
        | some s => if p s then count + 1 else count
        | none => count) 0 = (members servers).countP p := by
  have h := foldl_count_add (fun it => match it with | some s => p s | none => false)
    servers 0
  rw [countP_members, Nat.zero_add] at h
  rw [← h]
  congr 1
  funext count it
  cases it <;> simp

theorem quorumAll_eq (servers : List ServerRef) (p : Server → Bool) :
    quorumAll servers p
      = (servers.isEmpty
          || decide ((members servers).countP p ≥ (members servers).length / 2 + 1)) := by
  unfold quorumAll
  rw [quorumCount_eq, getServerNum_eq]
  cases servers <;> simp

theorem collectValues_eq (servers : List ServerRef) (f : Server → Nat) :
    collectValues servers f = (members servers).map f := by
  unfold collectValues
  have h : ∀ (l : List ServerRef) (acc : List Nat),
      l.foldl (fun values it => match it with
        | some s => values ++ [f s]
        | none => values) acc = acc ++ (members l).map f := by
    intro l
    induction l with
    | nil => intro acc; simp
    | cons a t ih =>
      intro acc
      cases a with
      | none => simpa using ih acc
      | some s => simp [ih]
  simpa using h servers []

/-! ## The element of a sorted list at a given rank -/

theorem sorted_le_getElem_iff (l : List Nat) (hs : l.Sorted (· ≤ ·)) (k : Nat)
    (hk : k < l.length) (v : Nat) :
    v ≤ l[k] ↔ l.length - k ≤ l.countP (fun x => decide (v ≤ x)) := by
  induction l generalizing k with
  | nil => simp at hk
  | cons a t ih =>
    rw [List.sorted_cons] at hs
    obtain ⟨ha, ht⟩ := hs
    have hall : v ≤ a → t.countP (fun x => decide (v ≤ x)) = t.length := by
      intro hva
      rw [List.countP_eq_length]
      intro b hb
      simpa using le_trans hva (ha b hb)
    have hle : t.countP (fun x => decide (v ≤ x)) ≤ t.length := List.countP_le_length _
    cases k with
    | zero =>
      simp only [List.getElem_cons_zero, List.length_cons, Nat.sub_zero, List.countP_cons]
      by_cases hva : v ≤ a
      · simp [hva, hall hva]
      · simp only [hva, decide_False, Bool.false_eq_true, if_false, false_iff]
        omega
    | succ k =>
      have hk2 : k < t.length := by simpa using hk
      have := ih ht k hk2
      simp only [List.getElem_cons_succ, List.length_cons, List.countP_cons]
      by_cases hva : v ≤ a
      · have h1 : a ≤ t[k] := ha _ (List.getElem_mem _)
        simp only [hva, decide_True, if_true, hall hva]
        constructor
        · intro _; omega
        · intro _; omega
      · simp only [hva, decide_False, Bool.false_eq_true, if_false, Nat.add_zero]
        rw [this]
        omega

theorem sortedValues_sorted (servers : List ServerRef) (f : Server → Nat) :
    (sortedValues servers f).Sorted (· ≤ ·) :=
  List.sorted_insertionSort _ _

theorem sortedValues_perm (servers : List ServerRef) (f : Server → Nat) :
    (sortedValues servers f).Perm ((members servers).map f) :=
  List.perm_insertionSort _ _

theorem sortedValues_length (servers : List ServerRef) (f : Server → Nat) :
    (sortedValues servers f).length = (members servers).length := by
  simpa using (sortedValues_perm servers f).length_eq

theorem sortedValues_countP (servers : List ServerRef) (f : Server → Nat) (v : Nat) :
    (sortedValues servers f).countP (fun x => decide (v ≤ x))
      = (members servers).countP (fun m => decide (v ≤ f m)) := by
  rw [(sortedValues_perm servers f).countP_eq, List.countP_map]
  rfl

theorem quorumMin_eq (servers : List ServerRef) (f : Server → Nat)
    (hM : 1 ≤ (members servers).length) :
    quorumMin servers f = (sortedValues servers f)[((members servers).length - 1) / 2]? := by
  have hne : servers ≠ [] := by
    rintro rfl
    simp at hM
  unfold quorumMin
  rw [collectValues_eq]
  have hlen := sortedValues_length servers f
  unfold sortedValues at hlen
  simp only [List.isEmpty_iff, hne, if_false, sortedValues, hlen]
  rw [if_neg (by omega)]

/-- The value of rank `k` among the member values, characterised by counting. -/
theorem sortedValues_rank (servers : List ServerRef) (f : Server → Nat) (k : Nat)
    (hk : k < (members servers).length) :
    ∃ a, (sortedValues servers f)[k]? = some a ∧
      ∀ v, v ≤ a ↔
        (members servers).length - k ≤ (members servers).countP (fun m => decide (v ≤ f m)) := by
  have hk2 : k < (sortedValues servers f).length := by
    rw [sortedValues_length]; exact hk
  refine ⟨(sortedValues servers f)[k], List.getElem?_eq_getElem hk2, ?_⟩
  intro v
  rw [sorted_le_getElem_iff _ (sortedValues_sorted servers f) k hk2 v,
    sortedValues_length, sortedValues_countP]

theorem sortedValues_rank_mono (servers : List ServerRef) (f g : Server → Nat) (k : Nat)
    (hfg : ∀ m ∈ members servers, f m ≤ g m) (a b : Nat)
    (ha : (sortedValues servers f)[k]? = some a)
    (hb : (sortedValues servers g)[k]? = some b) : a ≤ b := by
  have hk : k < (members servers).length := by
    have := (List.getElem?_eq_some_iff.1 ha).1
    rwa [sortedValues_length] at this
  obtain ⟨a2, ha2, hfa⟩ := sortedValues_rank servers f k hk
  obtain ⟨b2, hb2, hgb⟩ := sortedValues_rank servers g k hk
  rw [ha] at ha2
  rw [hb] at hb2
  cases ha2
  cases hb2
  rw [hgb]
  refine le_trans ((hfa a).1 le_rfl) (List.countP_mono_left ?_)
  intro m hm h
  simp only [decide_eq_true_eq] at h ⊢
  exact le_trans h (hfg m hm)

theorem sortedValues_rank_le (servers : List ServerRef) (f : Server → Nat) (j k : Nat)
    (hjk : j ≤ k) (a b : Nat)
    (ha : (sortedValues servers f)[j]? = some a)
    (hb : (sortedValues servers f)[k]? = some b) : a ≤ b := by
  obtain ⟨hj, rfl⟩ := List.getElem?_eq_some_iff.1 ha
  obtain ⟨hk, rfl⟩ := List.getElem?_eq_some_iff.1 hb
  exact (sortedValues_sorted servers f).rel_get_of_le (a := ⟨j, hj⟩) (b := ⟨k, hk⟩) hjk

theorem getElem?_mem_members (servers : List ServerRef) (i : Nat) (m : Server)
    (h : servers[i]? = some (some m)) : m ∈ members servers := by
  unfold members
  rw [List.mem_filterMap]
  exact ⟨some m, List.getElem?_mem h, rfl⟩

theorem mem_members_iff (servers : List ServerRef) (m : Server) :
    m ∈ members servers ↔ some m ∈ servers := by
  unfold members
  simp [List.mem_filterMap]

/-! ## Settled claims: quorum arithmetic -/

/-- C1: `quorumAll` is true exactly when the slot list is empty or the predicate holds
for at least `N / 2 + 1` of the `N` non-null members (vacated slots count on neither
side); on `A#5, B#5S, C#9` with the predicate "is B or C" it is true. -/
theorem C1_quorumAll_majority :
    (∀ (servers : List ServerRef) (p : Server → Bool),
      quorumAll servers p = true ↔
        (servers = [] ∨
          (members servers).length / 2 + 1 ≤ (members servers).countP p)) ∧
    quorumAll exampleServers
      (fun s => decide (s.strAddr = ['B']) || decide (s.strAddr = ['C'])) = true := by
  refine ⟨?_, by decide⟩
  intro servers p
  rw [quorumAll_eq]
  cases servers <;> simp

/-- C2: with `M ≥ 1` non-null members `quorumMin` returns the element of rank
`(M - 1) / 2` of the ascending-sorted member values, and this is the greatest value
that at least `M / 2 + 1` members reach: `quorumAll` holds for the threshold
`quorumMin` and fails for every larger threshold. -/
theorem C2_quorumMin_majority (servers : List ServerRef) (getValue : Server → Nat)
    (hM : 1 ≤ (members servers).length) :
    ∃ v, quorumMin servers getValue = some v ∧
      (∃ sorted : List Nat, sorted.Perm ((members servers).map getValue) ∧
        sorted.Sorted (· ≤ ·) ∧
        sorted[((members servers).length - 1) / 2]? = some v) ∧
      (members servers).length / 2 + 1
        ≤ (members servers).countP (fun m => decide (v ≤ getValue m)) ∧
      (∀ w, v < w →
        (members servers).countP (fun m => decide (w ≤ getValue m))
          < (members servers).length / 2 + 1) ∧
      quorumAll servers (fun m => decide (v ≤ getValue m)) = true ∧
      (∀ w, v < w → quorumAll servers (fun m => decide (w ≤ getValue m)) = false) := by
  have hk : ((members servers).length - 1) / 2 < (members servers).length := by omega
  obtain ⟨v, hv, hiff⟩ := sortedValues_rank servers getValue _ hk
  have hnum : (members servers).length - ((members servers).length - 1) / 2
      = (members servers).length / 2 + 1 := by omega
  rw [hnum] at hiff
  have hne : servers ≠ [] := by
    rintro rfl
    simp at hM
  have h1 := (hiff v).1 le_rfl
  have h2 : ∀ w, v < w →
      (members servers).countP (fun m => decide (w ≤ getValue m))
        < (members servers).length / 2 + 1 := by
    intro w hw
    by_contra hcon
    have := (hiff w).2 (by omega)
    omega
  refine ⟨v, ?_, ⟨_, sortedValues_perm servers getValue,
    sortedValues_sorted servers getValue, hv⟩, h1, h2, ?_, ?_⟩
  · rw [quorumMin_eq servers getValue hM, hv]
  · rw [quorumAll_eq]
    simp [h1]
  · intro w hw
    rw [quorumAll_eq]
    have := h2 w hw
    simp [hne]
    omega

/-- C2 applied to the configuration `A#5, B#5S, C#9` with the election weight as value. -/
theorem C2_quorumMin_majority_witness :
    1 ≤ (members exampleServers).length ∧
    ∃ v, quorumMin exampleServers (fun s => s.electionWeight) = some v ∧
      (∃ sorted : List Nat,
        sorted.Perm ((members exampleServers).map (fun s => s.electionWeight)) ∧
        sorted.Sorted (· ≤ ·) ∧
        sorted[((members exampleServers).length - 1) / 2]? = some v) ∧
      (members exampleServers).length / 2 + 1
        ≤ (members exampleServers).countP (fun m => decide (v ≤ m.electionWeight)) ∧
      (∀ w, v < w →
        (members exampleServers).countP (fun m => decide (w ≤ m.electionWeight))
          < (members exampleServers).length / 2 + 1) ∧
      quorumAll exampleServers (fun m => decide (v ≤ m.electionWeight)) = true ∧
      (∀ w, v < w →
        quorumAll exampleServers (fun m => decide (w ≤ m.electionWeight)) = false) :=
  ⟨by decide, C2_quorumMin_majority exampleServers (fun s => s.electionWeight) (by decide)⟩

theorem quorumMin_nil (f : Server → Nat) : quorumMin [] f = some 0 := rfl

theorem quorumMin_no_member (servers : List ServerRef) (f : Server → Nat)
    (hne : servers ≠ []) (hM : (members servers).length = 0) :
    quorumMin servers f = none := by
  unfold quorumMin
  rw [collectValues_eq]
  have h0 : members servers = [] := List.length_eq_zero.1 hM
  simp [hne, h0]

theorem pointwise_of_single_change (servers : List ServerRef) (f g : Server → Nat) (i : Nat)
    (hagree : ∀ j m, j ≠ i → servers[j]? = some (some m) → f m = g m)
    (hlow : ∀ m, servers[i]? = some (some m) → f m ≤ g m) :
    ∀ m ∈ members servers, f m ≤ g m := by
  intro m hm
  rw [mem_members_iff] at hm
  obtain ⟨j, hj⟩ := List.mem_iff_getElem?.1 hm
  by_cases hji : j = i
  · subst hji
    exact hlow m hj
  · exact le_of_eq (hagree j m hji hj)

/-- C3: lowering the value of a single member (all other members keep their value)
never raises `quorumMin`, and `quorumMin` never exceeds the upper median, the element
of rank `M / 2` of the ascending-sorted member values. -/
theorem C3_quorumMin_monotone (servers : List ServerRef) (f g : Server → Nat) (i : Nat)
    (hagree : ∀ j m, j ≠ i → servers[j]? = some (some m) → f m = g m)
    (hlow : ∀ m, servers[i]? = some (some m) → f m ≤ g m) :
    (∀ a b, quorumMin servers f = some a → quorumMin servers g = some b → a ≤ b) ∧
    (1 ≤ (members servers).length →
      ∃ a b ua ub, quorumMin servers f = some a ∧ quorumMin servers g = some b ∧ a ≤ b ∧
        (sortedValues servers f)[(members servers).length / 2]? = some ua ∧ a ≤ ua ∧
        (sortedValues servers g)[(members servers).length / 2]? = some ub ∧ b ≤ ub) := by
  have hfg := pointwise_of_single_change servers f g i hagree hlow
  have hmono : 1 ≤ (members servers).length →
      ∀ a b, quorumMin servers f = some a → quorumMin servers g = some b → a ≤ b := by
    intro hM a b ha hb
    rw [quorumMin_eq servers f hM] at ha
    rw [quorumMin_eq servers g hM] at hb
    exact sortedValues_rank_mono servers f g _ hfg a b ha hb
  constructor
  · intro a b ha hb
    by_cases hM : 1 ≤ (members servers).length
    · exact hmono hM a b ha hb
    · by_cases hne : servers = []
      · subst hne
        rw [quorumMin_nil] at ha hb
        cases ha
        cases hb
        exact le_rfl
      · rw [quorumMin_no_member servers f hne (by omega)] at ha
        cases ha
  · intro hM
    have hk : ((members servers).length - 1) / 2 < (members servers).length := by omega
    have hu : (members servers).length / 2 < (members servers).length := by omega
    obtain ⟨a, ha, _⟩ := sortedValues_rank servers f _ hk
    obtain ⟨b, hb, _⟩ := sortedValues_rank servers g _ hk
    obtain ⟨ua, hua, _⟩ := sortedValues_rank servers f _ hu
    obtain ⟨ub, hub, _⟩ := sortedValues_rank servers g _ hu
    have hqa : quorumMin servers f = some a := by rw [quorumMin_eq servers f hM, ha]
    have hqb : quorumMin servers g = some b := by rw [quorumMin_eq servers g hM, hb]
    refine ⟨a, b, ua, ub, hqa, hqb, hmono hM a b hqa hqb, hua, ?_, hub, ?_⟩
    · exact sortedValues_rank_le servers f _ _ (by omega) a ua ha hua
    · exact sortedValues_rank_le servers g _ _ (by omega) b ub hb hub

/-- C3 applied to `A#5, B#5S, C#9`: the value of the member in slot 2 drops from its
election weight to zero. -/
theorem C3_quorumMin_monotone_witness :
    (∀ a b,
      quorumMin exampleServers
        (fun s => if s.serverId = 3 then 0 else s.electionWeight) = some a →
      quorumMin exampleServers (fun s => s.electionWeight) = some b → a ≤ b) ∧
    (1 ≤ (members exampleServers).length →
      ∃ a b ua ub,
        quorumMin exampleServers
          (fun s => if s.serverId = 3 then 0 else s.electionWeight) = some a ∧
        quorumMin exampleServers (fun s => s.electionWeight) = some b ∧ a ≤ b ∧
        (sortedValues exampleServers
          (fun s => if s.serverId = 3 then 0 else s.electionWeight))[
            (members exampleServers).length / 2]? = some ua ∧ a ≤ ua ∧
        (sortedValues exampleServers (fun s => s.electionWeight))[
            (members exampleServers).length / 2]? = some ub ∧ b ≤ ub) :=
  C3_quorumMin_monotone exampleServers
    (fun s => if s.serverId = 3 then 0 else s.electionWeight) (fun s => s.electionWeight) 2
    (by
      intro j m hj h
      have hj3 : j < 3 := by
        have := (List.getElem?_eq_some_iff.1 h).1
        simpa [exampleServers] using this
      have hcases : j = 0 ∨ j = 1 := by omega
      rcases hcases with rfl | rfl
      · simp [exampleServers, mkMember] at h
        subst h
        rfl
      · simp [exampleServers, mkMember] at h
        subst h
        rfl)
    (by
      intro m _
      dsimp only
      split
      · exact Nat.zero_le _
      · exact le_rfl)

/-! ## Minimum over the members -/

theorem minFold_spec (vals : List Nat) (v0 : Nat) :
    vals.foldl (fun value tmp => if tmp < value then tmp else value) v0 ≤ v0 ∧
    (∀ x ∈ vals, vals.foldl (fun value tmp => if tmp < value then tmp else value) v0 ≤ x) ∧
    (vals.foldl (fun value tmp => if tmp < value then tmp else value) v0 = v0 ∨
      vals.foldl (fun value tmp => if tmp < value then tmp else value) v0 ∈ vals) := by
  induction vals generalizing v0 with
  | nil => simp
  | cons a t ih =>
    simp only [List.foldl_cons, List.mem_cons, forall_eq_or_imp]
    by_cases hav : a < v0
    · simp only [hav, if_true]
      obtain ⟨h1, h2, h3⟩ := ih a
      refine ⟨by omega, ⟨h1, h2⟩, ?_⟩
      rcases h3 with h | h
      · right; left; exact h
      · right; right; exact h
    · simp only [hav, if_false]
      obtain ⟨h1, h2, h3⟩ := ih v0
      refine ⟨h1, ⟨by omega, h2⟩, ?_⟩
      rcases h3 with h | h
      · left; exact h
      · right; right; exact h

theorem allMin_fold (f : Server → Nat) (servers : List ServerRef) (v0 : Nat) :
    servers.foldl
      (fun value it =>
        match it with
        | some s =>
          let tmp := f s
          if tmp < value then tmp else value
        | none => value) v0
      = ((members servers).map f).foldl
          (fun value tmp => if tmp < value then tmp else value) v0 := by
  induction servers generalizing v0 with
  | nil => rfl
  | cons a t ih =>
    cases a with
    | none => simpa using ih v0
    | some s => simpa using ih _

theorem forceMin_fold (f : Server → Nat) (servers : List ServerRef) (v0 : Nat) :
    servers.foldl
      (fun value it =>
        match it with
        | some s =>
          if s.forceSync then
            let tmp := f s
            if tmp < value then tmp else value
          else value
        | none => value) v0
      = (((members servers).filter (fun s => s.forceSync)).map f).foldl
          (fun value tmp => if tmp < value then tmp else value) v0 := by
  induction servers generalizing v0 with
  | nil => rfl
  | cons a t ih =>
    cases a with
    | none => simpa using ih v0
    | some s =>
      by_cases hs : s.forceSync = true
      · simpa [hs, List.filter_cons] using ih _
      · simpa [hs, List.filter_cons] using ih _

theorem isMinOver_fold (S : List Server) (f : Server → Nat)
    (hv : ∀ m ∈ S, f m ≤ UINT64_MAX) :
    IsMinOver S f
      ((S.map f).foldl (fun value tmp => if tmp < value then tmp else value) UINT64_MAX) := by
  obtain ⟨h1, h2, h3⟩ := minFold_spec (S.map f) UINT64_MAX
  constructor
  · rintro rfl
    rfl
  · intro hne
    have hall : ∀ m ∈ S,
        (S.map f).foldl (fun value tmp => if tmp < value then tmp else value) UINT64_MAX
          ≤ f m := fun m hm => h2 (f m) (List.mem_map_of_mem f hm)
    refine ⟨?_, hall⟩
    rcases h3 with h | h
    · obtain ⟨m, hm⟩ := List.exists_mem_of_ne_nil S hne
      refine ⟨m, hm, ?_⟩
      have := hall m hm
      have := hv m hm
      omega
    · obtain ⟨m, hm, hfm⟩ := List.mem_map.1 h
      exact ⟨m, hm, hfm.symm⟩

/-- C4 (as stated, refuted): on the empty slot list `allMin` and `forceMin` return 0,
not the sentinel `UINT64_MAX`, although the set of members is empty. -/
theorem C4_min_counterexample :
    members ([] : List ServerRef) = [] ∧
    allMin [] (fun s => s.appliedIndex) = 0 ∧
    forceMin [] (fun s => s.appliedIndex) = 0 ∧
    allMin [] (fun s => s.appliedIndex) ≠ UINT64_MAX ∧
    forceMin [] (fun s => s.appliedIndex) ≠ UINT64_MAX := by
  decide

/-- C4 (amended): on a non-empty slot list `allMin` is the minimum of `getValue` over
the non-null members and `forceMin` the minimum over the non-null members with
`forceSync` set, each being `UINT64_MAX` when its set is empty; on the empty slot list
both return 0. -/
theorem C4_min_amended :
    (∀ getValue : Server → Nat, allMin [] getValue = 0 ∧ forceMin [] getValue = 0) ∧
    (∀ (servers : List ServerRef) (getValue : Server → Nat),
      servers ≠ [] →
      (∀ m ∈ members servers, getValue m ≤ UINT64_MAX) →
      IsMinOver (members servers) getValue (allMin servers getValue) ∧
      IsMinOver ((members servers).filter (fun s => s.forceSync)) getValue
        (forceMin servers getValue)) := by
  refine ⟨fun _ => ⟨rfl, rfl⟩, ?_⟩
  intro servers getValue hne hv
  constructor
  · unfold allMin
    rw [allMin_fold]
    simp only [List.isEmpty_iff, hne, if_false]
    exact isMinOver_fold _ _ hv
  · unfold forceMin
    rw [forceMin_fold]
    simp only [List.isEmpty_iff, hne, if_false]
    exact isMinOver_fold _ _ (fun m hm => hv m (List.mem_of_mem_filter hm))

/-- C4 (amended) applied to `A#5, B#5S, C#9` with the election weight as value. -/
theorem C4_min_amended_witness :
    exampleServers ≠ [] ∧
    (∀ m ∈ members exampleServers, m.electionWeight ≤ UINT64_MAX) ∧
    IsMinOver (members exampleServers) (fun s => s.electionWeight)
      (allMin exampleServers (fun s => s.electionWeight)) ∧
    IsMinOver ((members exampleServers).filter (fun s => s.forceSync))
      (fun s => s.electionWeight) (forceMin exampleServers (fun s => s.electionWeight)) :=
  ⟨by decide, by decide,
    C4_min_amended.2 exampleServers (fun s => s.electionWeight) (by decide) (by decide)⟩

/-! ## Serialization -/

theorem joinTrailing_append (c : Char) (ts : List (List Char)) (t : List Char) :
    joinTrailing c (ts ++ [t]) = joinTrailing c ts ++ (t ++ [c]) := by
  induction ts with
  | nil => simp [joinTrailing]
  | cons a r ih => simp [joinTrailing, ih]

theorem joinTrailing_eq_joinWith (c : Char) (ts : List (List Char)) (h : ts ≠ []) :
    joinTrailing c ts = joinWith c ts ++ [c] := by
  induction ts with
  | nil => exact absurd rfl h
  | cons a r ih =>
    cases r with
    | nil => simp [joinTrailing, joinWith]
    | cons b r2 =>
      have := ih (by simp)
      simp only [joinTrailing, joinWith, List.append_assoc, List.cons_append] at this ⊢
      rw [this]

theorem joinWith_append_singleton (c : Char) (ts : List (List Char)) (t : List Char) :
    joinWith c (ts ++ [t]) = joinTrailing c ts ++ t := by
  induction ts with
  | nil => simp [joinTrailing, joinWith]
  | cons a r ih =>
    cases r with
    | nil => simp [joinTrailing, joinWith]
    | cons b r2 =>
      have h : joinWith c (a :: b :: (r2 ++ [t]))
          = a ++ c :: joinWith c (b :: (r2 ++ [t])) := rfl
      rw [List.cons_append, List.cons_append, h, ← List.cons_append, ih]
      simp [joinTrailing]

theorem memberToString_eq (s : Server) : memberToString s = renderMember s := by
  simp [memberToString, renderMember]

theorem learnerToString_eq (s : Server) : learnerToString s = renderLearner s := by
  simp [learnerToString, renderLearner]

theorem configToStringStep_eq (localAddr : List Char) (forceMember : Bool)
    (st : List Char × Nat × Nat) (slot : ServerRef) :
    configToStringStep localAddr forceMember st slot
      = (st.1 ++ (renderSlot (decide (localAddr ≠ [] ∨ forceMember = true)) slot ++ [';']),
          if localAddr ≠ [] ∧ isLocalSlot localAddr slot = true then st.2.2 else st.2.1,
          st.2.2 + 1) := by
  cases slot with
  | none => simp [configToStringStep, renderSlot, isLocalSlot]
  | some srv =>
    by_cases h : localAddr ≠ [] ∨ forceMember = true
    · simp [configToStringStep, renderSlot, isLocalSlot, h, memberToString_eq]
    · simp [configToStringStep, renderSlot, isLocalSlot, h, learnerToString_eq]

theorem configToString_fold_ret (localAddr : List Char) (forceMember : Bool)
    (servers : List ServerRef) (st : List Char × Nat × Nat) :
    (servers.foldl (configToStringStep localAddr forceMember) st).1
        = st.1 ++ joinTrailing ';'
            (servers.map (renderSlot (decide (localAddr ≠ [] ∨ forceMember = true)))) ∧
    (servers.foldl (configToStringStep localAddr forceMember) st).2.2
        = st.2.2 + servers.length := by
  induction servers generalizing st with
  | nil => simp [joinTrailing]
  | cons a t ih =>
    obtain ⟨h1, h2⟩ := ih (configToStringStep localAddr forceMember st a)
    rw [List.foldl_cons, h1, h2, configToStringStep_eq]
    constructor
    · simp [joinTrailing]
    · simp only [List.length_cons]
      omega

theorem configToString_fold_local (localAddr : List Char) (forceMember : Bool)
    (hla : localAddr ≠ []) (servers : List ServerRef) (st : List Char × Nat × Nat) :
    ((∀ x ∈ servers, isLocalSlot localAddr x = false) →
      (servers.foldl (configToStringStep localAddr forceMember) st).2.1 = st.2.1) ∧
    ((∃ x ∈ servers, isLocalSlot localAddr x = true) →
      ∃ j, j < servers.length ∧
        (servers.foldl (configToStringStep localAddr forceMember) st).2.1 = st.2.2 + j ∧
        IsLastLocal servers localAddr j) := by
  induction servers using List.reverseRecOn with
  | nil => simp
  | append_singleton init x ih =>
    obtain ⟨ih1, ih2⟩ := ih
    have hi := (configToString_fold_ret localAddr forceMember init st).2
    simp only [List.foldl_append, List.foldl_cons, List.foldl_nil, configToStringStep_eq,
      List.mem_append, List.mem_singleton, hi]
    by_cases hx : isLocalSlot localAddr x = true
    · simp only [hla, hx, ne_eq, not_false_eq_true, and_self, if_true]
      constructor
      · intro h
        have := h x (Or.inr rfl)
        rw [hx] at this
        cases this
      · intro _
        refine ⟨init.length, by simp, rfl, ?_, ?_⟩
        · cases x with
          | none => simp [isLocalSlot] at hx
          | some m =>
            refine ⟨m, by simp, ?_⟩
            simpa [isLocalSlot] using hx
        · intro j2 m2 hj h
          have := (List.getElem?_eq_some_iff.1 h).1
          simp at this
          omega
    · have hx2 : isLocalSlot localAddr x = false := by simpa using hx
      simp only [hx2, Bool.false_eq_true, and_false, if_false]
      constructor
      · intro h
        exact ih1 (fun y hy => h y (Or.inl hy))
      · rintro ⟨y, hy | hy, hyl⟩
        · obtain ⟨j, hj, hr, ⟨m, hm, hma⟩, hlast⟩ := ih2 ⟨y, hy, hyl⟩
          refine ⟨j, by simp; omega, hr, ⟨m, ?_, hma⟩, ?_⟩
          · rw [List.getElem?_append_left hj]
            exact hm
          · intro j2 m2 hj2 h
            by_cases hlt : j2 < init.length
            · rw [List.getElem?_append_left hlt] at h
              exact hlast j2 m2 hj2 h
            · have hlen := (List.getElem?_eq_some_iff.1 h).1
              simp at hlen
              have hj2e : j2 = init.length := by omega
              subst hj2e
              simp at h
              subst h
              simpa [isLocalSlot] using hx2
        · subst hy
          rw [hx2] at hyl
          cases hyl

theorem set_last_append (l : List Char) (c d : Char) :
    (l ++ [c]).set ((l ++ [c]).length - 1) d = l ++ [d] := by
  induction l with
  | nil => rfl
  | cons a t ih =>
    simp only [List.cons_append, List.length_cons, List.length_append, List.length_nil,
      Nat.add_sub_cancel] at ih ⊢
    rw [show t.length + 0 + 1 = (t.length + 0) + 1 from rfl, List.set_cons_succ]
    simp [ih]

theorem take_last_append (l : List Char) (c : Char) :
    (l ++ [c]).take ((l ++ [c]).length - 1) = l := by
  simp

/-- The result of `configToString` on a non-empty slot list, by the final value of
`localIndex`. -/
theorem configToString_eq (servers : List ServerRef) (localAddr : List Char)
    (forceMember : Bool) (hne : servers ≠ []) :
    configToString servers localAddr forceMember
      = if localAddr ≠ [] ∧
            (servers.foldl (configToStringStep localAddr forceMember) ([], 0, 1)).2.1 > 0 then
          joinWith ';'
              (servers.map (renderSlot (decide (localAddr ≠ [] ∨ forceMember = true))))
            ++ '@' :: to_string
              (servers.foldl (configToStringStep localAddr forceMember) ([], 0, 1)).2.1
        else
          joinWith ';'
            (servers.map (renderSlot (decide (localAddr ≠ [] ∨ forceMember = true)))) := by
  obtain ⟨h1, h2⟩ := configToString_fold_ret localAddr forceMember servers ([], 0, 1)
  have hlen : 0 < servers.length := List.length_pos.2 hne
  have hmap : servers.map (renderSlot (decide (localAddr ≠ [] ∨ forceMember = true))) ≠ [] := by
    simpa using hne
  unfold configToString
  simp only [h1, h2, List.nil_append, joinTrailing_eq_joinWith _ _ hmap,
    set_last_append, take_last_append]
  rw [if_pos (by omega)]
  split <;> simp

/-- The output format of `configToString`, shared by the serialization results. -/
theorem configToString_format :
    (∀ (servers : List ServerRef) (localAddr : List Char) (forceMember : Bool),
      servers ≠ [] → localAddr ≠ [] →
      ((∃ m, some m ∈ servers ∧ m.strAddr = localAddr) →
        ∃ k, 1 ≤ k ∧ k ≤ servers.length ∧ IsLastLocal servers localAddr (k - 1) ∧
          configToString servers localAddr forceMember
            = joinWith ';' (servers.map (renderSlot true)) ++ '@' :: to_string k) ∧
      ((¬ ∃ m, some m ∈ servers ∧ m.strAddr = localAddr) →
        configToString servers localAddr forceMember
          = joinWith ';' (servers.map (renderSlot true)))) ∧
    (∀ servers : List ServerRef, servers ≠ [] →
      configToString servers [] false = joinWith ';' (servers.map (renderSlot false))) ∧
    (∀ w, w ≤ 9 → weightChar w = Nat.digitChar w) ∧
    configToString exampleServers ['A'] false = "A#5;B#5S;C#9@1".toList := by
  refine ⟨?_, ?_, ?_, by decide⟩
  · intro servers localAddr forceMember hne hla
    have heq := configToString_eq servers localAddr forceMember hne
    obtain ⟨h1, h2⟩ := configToString_fold_local localAddr forceMember hla servers ([], 0, 1)
    have hmode : decide (localAddr ≠ [] ∨ forceMember = true) = true := by simp [hla]
    rw [hmode] at heq
    constructor
    · rintro ⟨m, hm, hma⟩
      obtain ⟨j, hj, hr, hlast⟩ := h2 ⟨some m, hm, by simp [isLocalSlot, hma]⟩
      change _ = 1 + j at hr
      refine ⟨1 + j, by omega, by omega, by simpa using hlast, ?_⟩
      rw [heq, hr, if_pos ⟨hla, by omega⟩]
    · intro hno
      have hr := h1 (by
        intro x hx
        cases x with
        | none => rfl
        | some m =>
          by_contra hc
          exact hno ⟨m, hx, by simpa [isLocalSlot] using hc⟩)
      rw [heq, hr, if_neg (by simp)]
  · intro servers hne
    have heq := configToString_eq servers [] false hne
    simpa using heq
  · intro w hw
    interval_cases w <;> rfl

/-- C6: on a non-empty slot list with a non-empty local address every member renders
as `addr#w` followed by `S` iff force-sync is set (`w` the character `weight + '0'`, a
decimal digit for weights up to 9), a vacated slot renders as `0`, the slots are joined
with `;` without trailing separator, and `@k` is appended exactly when a slot holds the
local address, `k` being the 1-based position of the last such slot; with an empty local
address and `forceMember = false` every slot renders as `addr$source` and nothing is
appended. `A#5, B#5S, C#9` with local address `A` gives `A#5;B#5S;C#9@1`. -/
theorem C6_configToString_format :
    (∀ (servers : List ServerRef) (localAddr : List Char) (forceMember : Bool),
      servers ≠ [] → localAddr ≠ [] →
      ((∃ m, some m ∈ servers ∧ m.strAddr = localAddr) →
        ∃ k, 1 ≤ k ∧ k ≤ servers.length ∧ IsLastLocal servers localAddr (k - 1) ∧
          configToString servers localAddr forceMember
            = joinWith ';' (servers.map (renderSlot true)) ++ '@' :: to_string k) ∧
      ((¬ ∃ m, some m ∈ servers ∧ m.strAddr = localAddr) →
        configToString servers localAddr forceMember
          = joinWith ';' (servers.map (renderSlot true)))) ∧
    (∀ servers : List ServerRef, servers ≠ [] →
      configToString servers [] false = joinWith ';' (servers.map (renderSlot false))) ∧
    (∀ w, w ≤ 9 → weightChar w = Nat.digitChar w) ∧
    configToString exampleServers ['A'] false = "A#5;B#5S;C#9@1".toList :=
  configToString_format

/-- C6 applied to `A#5, B#5S, C#9` with local address `A`. -/
theorem C6_configToString_format_witness :
    (∃ m, some m ∈ exampleServers ∧ m.strAddr = ['A']) ∧
    ∃ k, 1 ≤ k ∧ k ≤ exampleServers.length ∧ IsLastLocal exampleServers ['A'] (k - 1) ∧
      configToString exampleServers ['A'] false
        = joinWith ';' (exampleServers.map (renderSlot true)) ++ '@' :: to_string k :=
  ⟨⟨mkMember 1 ['A'] 5 false, by decide, rfl⟩,
    (C6_configToString_format.1 exampleServers ['A'] false (by decide) (by decide)).1
      ⟨mkMember 1 ['A'] 5 false, by decide, rfl⟩⟩

/-! ## Decimal digits -/

theorem digitChar_props (k : Nat) (hk : k < 10) :
    (Nat.digitChar k).isDigit = true ∧ (Nat.digitChar k).toNat - 48 = k ∧
    48 ≤ (Nat.digitChar k).toNat ∧ (Nat.digitChar k).toNat ≤ 57 ∧
    isspace (Nat.digitChar k) = false ∧
    Nat.digitChar k ≠ '+' ∧ Nat.digitChar k ≠ '-' ∧ Nat.digitChar k ≠ ';' ∧
    Nat.digitChar k ≠ '@' ∧ Nat.digitChar k ≠ '$' ∧ Nat.digitChar k ≠ '#' := by
  interval_cases k <;> decide

theorem digitsValue_append_singleton (cs : List Char) (c : Char) :
    digitsValue (cs ++ [c]) = 10 * digitsValue cs + (c.toNat - 48) := by
  simp [digitsValue, List.foldl_append]

theorem toDigitsCore_spec (fuel : Nat) :
    ∀ (n : Nat) (ds : List Char), n < fuel →
      ∃ pre, Nat.toDigitsCore 10 fuel n ds = pre ++ ds ∧ pre ≠ [] ∧ AllDigits pre ∧
        digitsValue pre = n ∧ ∀ e, 0 < e → n < 10 ^ e → pre.length ≤ e := by
  induction fuel with
  | zero => intro n ds h; omega
  | succ fuel ih =>
    intro n ds hn
    have hd := digitChar_props (n % 10) (Nat.mod_lt _ (by decide))
    simp only [Nat.toDigitsCore]
    by_cases h0 : n / 10 = 0
    · simp only [h0, if_true]
      refine ⟨[Nat.digitChar (n % 10)], rfl, by simp, ?_, ?_, ?_⟩
      · intro c hc
        simp only [List.mem_singleton] at hc
        exact ⟨n % 10, Nat.mod_lt _ (by decide), hc⟩
      · simp only [digitsValue, List.foldl_cons, List.foldl_nil, hd.2.1]
        omega
      · intro e he _
        simpa using he
    · simp only [h0, if_false]
      obtain ⟨pre, hpre, _, hall, hval, hlen⟩ :=
        ih (n / 10) (Nat.digitChar (n % 10) :: ds) (by omega)
      refine ⟨pre ++ [Nat.digitChar (n % 10)], by simp [hpre], by simp, ?_, ?_, ?_⟩
      · intro c hc
        rcases List.mem_append.1 hc with h | h
        · exact hall c h
        · simp only [List.mem_singleton] at h
          exact ⟨n % 10, Nat.mod_lt _ (by decide), h⟩
      · rw [digitsValue_append_singleton, hval, hd.2.1]
        omega
      · intro e he hne
        cases e with
        | zero => omega
        | succ e =>
          have hepos : 0 < e := by
            rcases Nat.eq_zero_or_pos e with h | h
            · subst h
              simp at hne
              omega
            · exact h
          have : n / 10 < 10 ^ e := by
            rw [Nat.pow_succ] at hne
            omega
          have := hlen e hepos this
          simp
          omega

theorem to_string_spec (n : Nat) :
    to_string n ≠ [] ∧ AllDigits (to_string n) ∧ digitsValue (to_string n) = n ∧
    ∀ e, 0 < e → n < 10 ^ e → (to_string n).length ≤ e := by
  obtain ⟨pre, hpre, h1, h2, h3, h4⟩ := toDigitsCore_spec (n + 1) n [] (by omega)
  have : to_string n = pre := by
    simpa [to_string, Nat.toDigits] using hpre
  rw [this]
  exact ⟨h1, h2, h3, h4⟩

theorem allDigits_not_mem (cs : List Char) (h : AllDigits cs) :
    ';' ∉ cs ∧ '@' ∉ cs ∧ '$' ∉ cs ∧ '#' ∉ cs := by
  refine ⟨?_, ?_, ?_, ?_⟩ <;>
  · intro hc
    obtain ⟨k, hk, hck⟩ := h _ hc
    have := digitChar_props k hk
    simp [← hck] at this

theorem takeWhile_allDigits (cs : List Char) (h : AllDigits cs) :
    cs.takeWhile Char.isDigit = cs := by
  rw [List.takeWhile_eq_self_iff]
  intro c hc
  obtain ⟨k, hk, rfl⟩ := h c hc
  exact (digitChar_props k hk).1

theorem stoull_digits (cs : List Char) (hne : cs ≠ []) (h : AllDigits cs)
    (hv : digitsValue cs ≤ UINT64_MAX) : stoull cs = some (digitsValue cs) := by
  cases cs with
  | nil => exact absurd rfl hne
  | cons d ds =>
    obtain ⟨k, hk, hdk⟩ := h d (List.mem_cons_self _ _)
    have hp := digitChar_props k hk
    rw [← hdk] at hp
    have hdrop : (d :: ds).dropWhile isspace = d :: ds := by
      simp [List.dropWhile_cons, hp.2.2.2.2.1]
    have hsign : stripSign (d :: ds) = (false, d :: ds) := by
      unfold stripSign
      split
      · rename_i heq
        simp only [List.cons.injEq] at heq
        exact absurd heq.1 hp.2.2.2.2.2.1
      · rename_i heq
        simp only [List.cons.injEq] at heq
        exact absurd heq.1 hp.2.2.2.2.2.2.1
      · rfl
    unfold stoull
    simp only [hdrop, hsign, takeWhile_allDigits _ h]
    simp [Nat.not_lt.2 hv]

theorem stoull_to_string (n : Nat) (hn : n ≤ UINT64_MAX) : stoull (to_string n) = some n := by
  obtain ⟨h1, h2, h3, _⟩ := to_string_spec n
  have := stoull_digits (to_string n) h1 h2 (by rw [h3]; exact hn)
  rw [this, h3]

/-! ## Parsing the membership string -/

theorem find_append_hit (pre tok rest : List Char) (c : Char) (h : c ∉ tok) :
    find (pre ++ (tok ++ c :: rest)) c pre.length = some (pre.length + tok.length) := by
  unfold find
  rw [List.drop_left, List.indexOf_append_of_not_mem h, List.indexOf_cons_self]
  simp

theorem find_append_miss (pre tok : List Char) (c : Char) (h : c ∉ tok) :
    find (pre ++ tok) c pre.length = none := by
  unfold find
  rw [List.drop_left, List.indexOf_eq_length.2 h]
  simp

theorem getD_append_last (pre tok rest : List Char) (d : Char) (h : tok ≠ []) :
    (pre ++ (tok ++ rest)).getD (pre.length + tok.length - 1) d
      = tok.getLast h := by
  have hpos : 0 < tok.length := List.length_pos.2 h
  rw [List.getD_eq_getElem?_getD, List.getElem?_append_right (by omega),
    List.getElem?_append_left (by omega), List.getLast_eq_getElem]
  rw [List.getElem?_eq_getElem (by omega)]
  simp only [Option.getD_some]
  congr 1
  omega

theorem not_dollar_before (pre tok rest : List Char) (h : TokenOK tok) :
    ¬ (pre.length + tok.length > 1 ∧
        (pre ++ (tok ++ rest)).getD (pre.length + tok.length - 1) (Char.ofNat 0) = '$') := by
  rintro ⟨_, h2⟩
  rw [getD_append_last pre tok rest _ h.1] at h2
  apply h.2.2.2
  rw [List.getLast?_eq_getLast _ h.1, h2]

theorem substr_mid (pre tok rest : List Char) :
    substr (pre ++ (tok ++ rest)) pre.length (some (pre.length + tok.length - pre.length))
      = tok := by
  simp [substr]

theorem substr_tail (pre rest : List Char) :
    substr (pre ++ rest) pre.length none = rest := by
  simp [substr]

theorem joinTrailing_length (c : Char) (ts : List (List Char)) :
    ts.length ≤ (joinTrailing c ts).length := by
  induction ts with
  | nil => simp [joinTrailing]
  | cons a t ih =>
    simp only [joinTrailing, List.length_append, List.length_cons]
    omega

theorem stringToVectorLoop_tokens (ts : List (List Char)) :
    ∀ (pre final str : List Char) (ret : List (List Char)) (fuel : Nat),
      (∀ t ∈ ts, TokenOK t) → ';' ∉ final → ts.length < fuel →
      str = pre ++ (joinTrailing ';' ts ++ final) →
      stringToVectorLoop str fuel ret pre.length
        = some (ret ++ ts, pre.length + (joinTrailing ';' ts).length) := by
  induction ts with
  | nil =>
    intro pre final str ret fuel _ hfin hfuel hstr
    cases fuel with
    | zero => omega
    | succ fuel =>
      subst hstr
      simp only [joinTrailing, List.nil_append, stringToVectorLoop,
        find_append_miss pre final ';' hfin]
      simp
  | cons t ts ih =>
    intro pre final str ret fuel htok hfin hfuel hstr
    cases fuel with
    | zero => omega
    | succ fuel =>
      have ht : TokenOK t := htok t (List.mem_cons_self _ _)
      have hstr2 : str = pre ++ (t ++ ';' :: (joinTrailing ';' ts ++ final)) := by
        rw [hstr]
        simp [joinTrailing]
      have hfind := find_append_hit pre t (joinTrailing ';' ts ++ final) ';' ht.2.1
      have hnd := not_dollar_before pre t (';' :: (joinTrailing ';' ts ++ final)) ht
      have hsub := substr_mid pre t (';' :: (joinTrailing ';' ts ++ final))
      rw [← hstr2] at hfind hnd hsub
      have hnext := ih (pre ++ (t ++ [';'])) final str (ret ++ [t]) fuel
        (fun x hx => htok x (List.mem_cons_of_mem _ hx)) hfin
        (by simp only [List.length_cons] at hfuel; omega)
        (by rw [hstr2]; simp)
      simp only [stringToVectorLoop, hfind, if_neg hnd, hsub]
      have hlen : (pre ++ (t ++ [';'])).length = pre.length + t.length + 1 := by
        simp
        omega
      rw [hlen] at hnext
      rw [hnext]
      simp [joinTrailing]
      omega

/-- Parsing `t₁;…;tₙ@k`. -/
theorem stringToVector_with_index (ts : List (List Char)) (hne : ts ≠ [])
    (htok : ∀ t ∈ ts, TokenOK t) (k : Nat) (hk : k ≤ UINT64_MAX) (cur : Nat) :
    stringToVector (joinWith ';' ts ++ '@' :: to_string k) cur = some (ts, k) := by
  obtain ⟨init, last, rfl⟩ : ∃ init last, ts = init ++ [last] :=
    ⟨ts.dropLast, ts.getLast hne, (List.dropLast_append_getLast hne).symm⟩
  have hlast : TokenOK last := htok last (by simp)
  obtain ⟨hd1, hd2, _, _⟩ := to_string_spec k
  have hdig := allDigits_not_mem _ hd2
  have hstr : joinWith ';' (init ++ [last]) ++ '@' :: to_string k
      = [] ++ (joinTrailing ';' init ++ (last ++ '@' :: to_string k)) := by
    rw [joinWith_append_singleton]
    simp
  have hfin : ';' ∉ last ++ '@' :: to_string k := by
    simp only [List.mem_append, List.mem_cons, not_or]
    exact ⟨hlast.2.1, by decide, hdig.1⟩
  have hloop := stringToVectorLoop_tokens init [] (last ++ '@' :: to_string k)
    (joinWith ';' (init ++ [last]) ++ '@' :: to_string k) []
    ((joinWith ';' (init ++ [last]) ++ '@' :: to_string k).length + 1)
    (fun x hx => htok x (by simp [hx])) hfin
    (by
      rw [hstr]
      have := joinTrailing_length ';' init
      simp only [List.nil_append, List.length_append]
      omega)
    hstr
  simp only [List.length_nil, Nat.zero_add, List.nil_append] at hloop
  have hstr2 : joinWith ';' (init ++ [last]) ++ '@' :: to_string k
      = joinTrailing ';' init ++ (last ++ '@' :: to_string k) := by
    simpa using hstr
  have hfind := find_append_hit (joinTrailing ';' init) last (to_string k) '@' hlast.2.2.1
  have hnd := not_dollar_before (joinTrailing ';' init) last ('@' :: to_string k) hlast
  have hsub := substr_mid (joinTrailing ';' init) last ('@' :: to_string k)
  have hrest : substr (joinTrailing ';' init ++ (last ++ '@' :: to_string k))
      ((joinTrailing ';' init).length + last.length + 1) none = to_string k := by
    have e : joinTrailing ';' init ++ (last ++ '@' :: to_string k)
        = (joinTrailing ';' init ++ (last ++ ['@'])) ++ to_string k := by simp
    have l : (joinTrailing ';' init).length + last.length + 1
        = (joinTrailing ';' init ++ (last ++ ['@'])).length := by
      simp only [List.length_append, List.length_cons, List.length_nil]
      omega
    rw [e, l]
    exact substr_tail _ _
  rw [← hstr2] at hfind hnd hsub hrest
  unfold stringToVector
  simp only [hloop, hfind, if_neg hnd, hrest, stoull_to_string k hk, hsub]

/-- Parsing `t₁;…;tₙ` without a local index. -/
theorem stringToVector_no_index (ts : List (List Char)) (hne : ts ≠ [])
    (htok : ∀ t ∈ ts, TokenOK t) (cur : Nat) :
    stringToVector (joinWith ';' ts) cur = some (ts, cur) := by
  obtain ⟨init, last, rfl⟩ : ∃ init last, ts = init ++ [last] :=
    ⟨ts.dropLast, ts.getLast hne, (List.dropLast_append_getLast hne).symm⟩
  have hlast : TokenOK last := htok last (by simp)
  have hstr : joinWith ';' (init ++ [last]) = [] ++ (joinTrailing ';' init ++ last) := by
    rw [joinWith_append_singleton]
    simp
  have hloop := stringToVectorLoop_tokens init [] last
    (joinWith ';' (init ++ [last])) [] ((joinWith ';' (init ++ [last])).length + 1)
    (fun x hx => htok x (by simp [hx])) hlast.2.1
    (by
      rw [hstr]
      have := joinTrailing_length ';' init
      simp only [List.nil_append, List.length_append]
      omega)
    hstr
  simp only [List.length_nil, Nat.zero_add, List.nil_append] at hloop
  have hstr2 : joinWith ';' (init ++ [last]) = joinTrailing ';' init ++ last := by
    simpa using hstr
  have hfind := find_append_miss (joinTrailing ';' init) last '@' hlast.2.2.1
  have hsub := substr_tail (joinTrailing ';' init) last
  have hlen : (joinTrailing ';' init ++ last).length ≠ 0 := by
    have := List.length_pos.2 hlast.1
    simp only [List.length_append]
    omega
  rw [← hstr2] at hfind hsub hlen
  unfold stringToVector
  simp only [hloop, hfind, hsub, hlen, ne_eq, not_false_eq_true, if_true]

/-! ## Reading one slot string back -/

theorem getD_append_offset (pre l : List Char) (j : Nat) (d : Char) :
    (pre ++ l).getD (pre.length + j) d = l.getD j d := by
  rw [List.getD_eq_getElem?_getD, List.getD_eq_getElem?_getD,
    List.getElem?_append_right (by omega)]
  simp

theorem find_zero_hit (tok rest : List Char) (c : Char) (h : c ∉ tok) :
    find (tok ++ c :: rest) c 0 = some tok.length := by
  simpa using find_append_hit [] tok rest c h

theorem find_zero_miss (tok : List Char) (c : Char) (h : c ∉ tok) :
    find tok c 0 = none := by
  simpa using find_append_miss [] tok c h

theorem toInt32_small (n : Nat) (h : n < 2 ^ 31) : toInt32 n = (n : Int) := by
  unfold toInt32
  have h1 : n % 2 ^ 32 = n := Nat.mod_eq_of_lt (by omega)
  simp only [h1]
  rw [if_pos h]

theorem weightChar_digit (w : Nat) (hw : w ≤ 9) :
    weightChar w ≠ 'S' ∧ 48 ≤ (weightChar w).toNat ∧ (weightChar w).toNat < 58 ∧
    (weightChar w).toNat - 48 = w := by
  interval_cases w <;> decide

theorem initServerFromString_member (s0 m : Server) (isLearner : Bool)
    (haddr : '#' ∉ m.strAddr) (hw : m.electionWeight ≤ 9) :
    initServerFromString s0 (renderMember m) isLearner
      = { s0 with
          strAddr := m.strAddr, electionWeight := m.electionWeight,
          forceSync := m.forceSync } := by
  obtain ⟨hS, h48, h58, hval⟩ := weightChar_digit m.electionWeight hw
  have hfind : ∀ rest : List Char,
      find (m.strAddr ++ '#' :: rest) '#' 0 = some m.strAddr.length :=
    fun rest => find_zero_hit m.strAddr rest '#' haddr
  cases hfs : m.forceSync with
  | false =>
    have hstr : renderMember m = m.strAddr ++ '#' :: [weightChar m.electionWeight] := by
      simp [renderMember, hfs]
    have hlen : (m.strAddr ++ '#' :: [weightChar m.electionWeight]).length
        = m.strAddr.length + 2 := by simp
    have hget : (m.strAddr ++ '#' :: [weightChar m.electionWeight]).getD
        (m.strAddr.length + 1) (Char.ofNat 0) = weightChar m.electionWeight := by
      rw [getD_append_offset]
      rfl
    rw [hstr]
    unfold initServerFromString
    simp only [hfind, hlen]
    have e1 : m.strAddr.length + 2 - m.strAddr.length - 1 = 1 := by omega
    have e2 : m.strAddr.length + 2 - 1 = m.strAddr.length + 1 := by omega
    have e3 : m.strAddr.length + 2 - (1 : Int).toNat = m.strAddr.length + 1 := by
      simp
    rw [e1, toInt32_small 1 (by decide)]
    simp only [Nat.cast_one, e2, e3, hget]
    simp [hS, h48, h58, hval]
  | true =>
    have hstr : renderMember m
        = m.strAddr ++ '#' :: [weightChar m.electionWeight, 'S'] := by
      simp [renderMember, hfs]
    have hlen : (m.strAddr ++ '#' :: [weightChar m.electionWeight, 'S']).length
        = m.strAddr.length + 3 := by simp
    have hget1 : (m.strAddr ++ '#' :: [weightChar m.electionWeight, 'S']).getD
        (m.strAddr.length + 1) (Char.ofNat 0) = weightChar m.electionWeight := by
      rw [getD_append_offset]
      rfl
    have hget2 : (m.strAddr ++ '#' :: [weightChar m.electionWeight, 'S']).getD
        (m.strAddr.length + 2) (Char.ofNat 0) = 'S' := by
      rw [getD_append_offset]
      rfl
    rw [hstr]
    unfold initServerFromString
    simp only [hfind, hlen]
    have e1 : m.strAddr.length + 3 - m.strAddr.length - 1 = 2 := by omega
    have e2 : m.strAddr.length + 3 - 1 = m.strAddr.length + 2 := by omega
    have e3 : m.strAddr.length + 3 - (2 : Int).toNat = m.strAddr.length + 1 := by
      simp
    rw [e1, toInt32_small 2 (by decide)]
    simp only [Nat.cast_ofNat, e2, e3, hget1, hget2]
    simp [h48, h58, hval]

theorem digit_not_invalid (a : Char) (h : ∃ k, k < 10 ∧ a = Nat.digitChar k) :
    ¬ (a.toNat < 48 ∨ a.toNat > 57) := by
  obtain ⟨k, hk, rfl⟩ := h
  have := digitChar_props k hk
  omega

theorem learnerSourceLoop_digits (addr digits : List Char) (hne : digits ≠ [])
    (hd : AllDigits digits) (hlen : digits.length ≤ 3) :
    learnerSourceLoop (addr ++ '$' :: digits) addr.length digits.length
      = digitsValue digits := by
  have hget : ∀ j, (addr ++ '$' :: digits).getD (addr.length + (j + 1)) (Char.ofNat 0)
      = digits.getD j (Char.ofNat 0) := by
    intro j
    rw [getD_append_offset]
    rfl
  have r1 : List.range 1 = [0] := rfl
  have r2 : List.range 2 = [0, 1] := rfl
  have r3 : List.range 3 = [0, 1, 2] := rfl
  rcases digits with _ | ⟨a, _ | ⟨b, _ | ⟨c, _ | ⟨d, t⟩⟩⟩⟩
  · exact absurd rfl hne
  · have ha := digit_not_invalid a (hd a (by simp))
    have g0 : (addr ++ '$' :: [a]).getD (addr.length + 1 - 0) (Char.ofNat 0) = a := hget 0
    show learnerSourceLoop (addr ++ '$' :: [a]) addr.length 1 = _
    simp only [learnerSourceLoop, r1, List.foldl_cons, List.foldl_nil, g0, if_neg ha,
      Bool.false_eq_true, if_false]
    simp [digitsValue]
  · have ha := digit_not_invalid a (hd a (by simp))
    have hb := digit_not_invalid b (hd b (by simp))
    have g0 : (addr ++ '$' :: [a, b]).getD (addr.length + 2 - 0) (Char.ofNat 0) = b := hget 1
    have g1 : (addr ++ '$' :: [a, b]).getD (addr.length + 2 - 1) (Char.ofNat 0) = a := hget 0
    show learnerSourceLoop (addr ++ '$' :: [a, b]) addr.length 2 = _
    simp only [learnerSourceLoop, r2, List.foldl_cons, List.foldl_nil, g0, g1, if_neg ha,
      if_neg hb, Bool.false_eq_true, if_false]
    simp [digitsValue]
    omega
  · have ha := digit_not_invalid a (hd a (by simp))
    have hb := digit_not_invalid b (hd b (by simp))
    have hc := digit_not_invalid c (hd c (by simp))
    have g0 : (addr ++ '$' :: [a, b, c]).getD (addr.length + 3 - 0) (Char.ofNat 0) = c :=
      hget 2
    have g1 : (addr ++ '$' :: [a, b, c]).getD (addr.length + 3 - 1) (Char.ofNat 0) = b :=
      hget 1
    have g2 : (addr ++ '$' :: [a, b, c]).getD (addr.length + 3 - 2) (Char.ofNat 0) = a :=
      hget 0
    show learnerSourceLoop (addr ++ '$' :: [a, b, c]) addr.length 3 = _
    simp only [learnerSourceLoop, r3, List.foldl_cons, List.foldl_nil, g0, g1, g2, if_neg ha,
      if_neg hb, if_neg hc, Bool.false_eq_true, if_false]
    simp [digitsValue]
    omega
  · simp at hlen

theorem initServerFromString_learner (s0 m : Server) (isLearner : Bool)
    (h1 : '#' ∉ m.strAddr) (h2 : '$' ∉ m.strAddr) (hsrc : m.learnerSource ≤ 999) :
    initServerFromString s0 (renderLearner m) isLearner
      = { s0 with
          strAddr := m.strAddr, learnerSource := m.learnerSource,
          forceSync := false, electionWeight := 5 } := by
  obtain ⟨hne, hall, hval, hlen⟩ := to_string_spec m.learnerSource
  have hlen3 : (to_string m.learnerSource).length ≤ 3 := hlen 3 (by decide) (by omega)
  have hpos : 0 < (to_string m.learnerSource).length := List.length_pos.2 hne
  have hdig := allDigits_not_mem _ hall
  have hmiss : find (renderLearner m) '#' 0 = none := by
    apply find_zero_miss
    simp only [renderLearner, List.mem_append, List.mem_cons, not_or]
    exact ⟨h1, by decide, hdig.2.2.2⟩
  have hhit : find (renderLearner m) '$' 0 = some m.strAddr.length :=
    find_zero_hit m.strAddr _ '$' h2
  have hsize : (renderLearner m).length
      = m.strAddr.length + 1 + (to_string m.learnerSource).length := by
    simp [renderLearner]
    omega
  have hloop := learnerSourceLoop_digits m.strAddr _ hne hall hlen3
  unfold initServerFromString
  simp only [hmiss, hhit, hsize]
  have e1 : m.strAddr.length + 1 + (to_string m.learnerSource).length
      - m.strAddr.length - 1 = (to_string m.learnerSource).length := by omega
  rw [e1, toInt32_small _ (by omega)]
  have hcond : ¬ (((to_string m.learnerSource).length : Int) > 3
      ∨ ((to_string m.learnerSource).length : Int) ≤ 0) := by omega
  simp only [if_neg hcond, Int.toNat_ofNat]
  have hr : renderLearner m = m.strAddr ++ '$' :: to_string m.learnerSource := rfl
  rw [hr, hloop, hval]
  simp

/-! ## Round trip of the membership string -/

theorem tokenOK_member (m : Server) (h : ValidMember m) : TokenOK (renderMember m) := by
  obtain ⟨⟨_, _, _, _, h5, h6⟩, hw⟩ := h
  obtain ⟨hS, h48, h58, _⟩ := weightChar_digit m.electionWeight hw
  have hsemi : weightChar m.electionWeight ≠ ';' := by
    intro hc; rw [hc] at h48 h58; revert h58; decide
  have hat : weightChar m.electionWeight ≠ '@' := by
    intro hc; rw [hc] at h48 h58; revert h58; decide
  have hdol : weightChar m.electionWeight ≠ '$' := by
    intro hc; rw [hc] at h48; revert h48; decide
  unfold TokenOK renderMember
  refine ⟨by simp, ?_, ?_, ?_⟩
  · cases m.forceSync <;> simp [h5, hsemi.symm]
  · cases m.forceSync <;> simp [h6, hat.symm]
  · cases m.forceSync
    · have : m.strAddr ++ ['#', weightChar m.electionWeight] ++ (if false = true then ['S'] else [])
          = (m.strAddr ++ ['#']) ++ [weightChar m.electionWeight] := by simp
      rw [this, List.getLast?_append]
      simp [hdol]
    · have : m.strAddr ++ ['#', weightChar m.electionWeight] ++ (if true = true then ['S'] else [])
          = (m.strAddr ++ ['#', weightChar m.electionWeight]) ++ ['S'] := by simp
      rw [this, List.getLast?_append]
      simp

theorem tokenOK_learner (m : Server) (h : ValidAddr m.strAddr) : TokenOK (renderLearner m) := by
  obtain ⟨_, _, _, _, h5, h6⟩ := h
  obtain ⟨hne, hall, _, _⟩ := to_string_spec m.learnerSource
  have hdig := allDigits_not_mem _ hall
  unfold TokenOK renderLearner
  refine ⟨by simp, ?_, ?_, ?_⟩
  · simp only [List.mem_append, List.mem_cons, not_or]
    exact ⟨h5, by decide, hdig.1⟩
  · simp only [List.mem_append, List.mem_cons, not_or]
    exact ⟨h6, by decide, hdig.2.1⟩
  · have : m.strAddr ++ '$' :: to_string m.learnerSource
        = (m.strAddr ++ ['$']) ++ to_string m.learnerSource := by simp
    rw [this, List.getLast?_append_of_ne_nil _ hne]
    intro hc
    exact hdig.2.2.1 (List.mem_of_getLast?_eq_some hc)

theorem tokenOK_zero : TokenOK ['0'] := by
  unfold TokenOK
  decide

theorem renderMember_ne_zero (m : Server) : renderMember m ≠ ['0'] := by
  intro h
  have : '#' ∈ renderMember m := by simp [renderMember]
  rw [h] at this
  revert this
  decide

theorem renderLearner_ne_zero (m : Server) : renderLearner m ≠ ['0'] := by
  intro h
  have : '$' ∈ renderLearner m := by simp [renderLearner]
  rw [h] at this
  revert this
  decide

theorem stringToVector_nil (cur : Nat) : stringToVector [] cur = some ([], cur) := rfl

/-- C5 (as stated, refuted): the learner `A` with source 1000 serializes to `A$1000`,
which `stringToVector` returns whole, and `initServerFromString` reads the source back
as 0. -/
theorem C5_roundtrip_counterexample :
    ValidAddr learner1000.strAddr ∧
    stringToVector (configToString [some learner1000] [] false) 0
      = some (["A$1000".toList], 0) ∧
    (initServerFromString (mkMember 0 [] 0 false) "A$1000".toList true).strAddr
      = learner1000.strAddr ∧
    (initServerFromString (mkMember 0 [] 0 false) "A$1000".toList true).learnerSource = 0 ∧
    learner1000.learnerSource = 1000 := by
  unfold ValidAddr
  decide

/-- C5 (amended): for a member list of valid members (address non-empty, not `0`, free
of `#`, `$`, `;`, `@`; weight in `0..9`) that holds the local address,
`stringToVector (configToString servers localAddr)` returns one string per slot, `0` for
a vacated slot, sets `currentIndex` to the 1-based position of the (last) slot with the
local address, and `initServerFromString` recovers address, weight and force-sync flag
of every member; for a learner list serialized with an empty local address the address
and the learner source of every learner are recovered, provided the source is at most
999 (three decimal digits). -/
theorem C5_roundtrip_amended :
    (∀ (servers : List ServerRef) (localAddr : List Char) (forceMember : Bool) (cur : Nat)
        (s0 : Server) (isLearner : Bool),
      (∀ m, some m ∈ servers → ValidMember m) →
      (∃ m, some m ∈ servers ∧ m.strAddr = localAddr) →
      servers.length ≤ UINT64_MAX →
      ∃ vec k,
        stringToVector (configToString servers localAddr forceMember) cur = some (vec, k) ∧
        vec.length = servers.length ∧ 1 ≤ k ∧ IsLastLocal servers localAddr (k - 1) ∧
        ∀ i : Nat,
          (servers[i]? = some none → vec[i]? = some ['0']) ∧
          (∀ m : Server, servers[i]? = some (some m) →
            ∃ str, vec[i]? = some str ∧ str ≠ ['0'] ∧
              (initServerFromString s0 str isLearner).strAddr = m.strAddr ∧
              (initServerFromString s0 str isLearner).electionWeight = m.electionWeight ∧
              (initServerFromString s0 str isLearner).forceSync = m.forceSync)) ∧
    (∀ (learners : List ServerRef) (cur : Nat) (s0 : Server) (isLearner : Bool),
      (∀ m, some m ∈ learners → ValidLearner m) →
      ∃ vec,
        stringToVector (configToString learners [] false) cur = some (vec, cur) ∧
        vec.length = learners.length ∧
        ∀ i : Nat,
          (learners[i]? = some none → vec[i]? = some ['0']) ∧
          (∀ m : Server, learners[i]? = some (some m) →
            ∃ str, vec[i]? = some str ∧ str ≠ ['0'] ∧
              (initServerFromString s0 str isLearner).strAddr = m.strAddr ∧
              (initServerFromString s0 str isLearner).learnerSource = m.learnerSource)) := by
  constructor
  · intro servers localAddr forceMember cur s0 isLearner hvalid hlocal hlen
    have hne : servers ≠ [] := by
      rintro rfl
      obtain ⟨m, hm, _⟩ := hlocal
      simp at hm
    have hla : localAddr ≠ [] := by
      obtain ⟨m, hm, rfl⟩ := hlocal
      exact (hvalid m hm).1.1
    obtain ⟨k, hk1, hk2, hlast, hstr⟩ :=
      (configToString_format.1 servers localAddr forceMember hne hla).1 hlocal
    have htok : ∀ t ∈ servers.map (renderSlot true), TokenOK t := by
      intro t ht
      obtain ⟨x, hx, rfl⟩ := List.mem_map.1 ht
      cases x with
      | none => exact tokenOK_zero
      | some m => exact tokenOK_member m (hvalid m hx)
    refine ⟨servers.map (renderSlot true), k, ?_, by simp, hk1, hlast, ?_⟩
    · rw [hstr]
      exact stringToVector_with_index _ (by simpa using hne) htok k (by omega) cur
    · intro i
      constructor
      · intro h
        simp [List.getElem?_map, h, renderSlot]
      · intro m h
        have hv := hvalid m (List.getElem?_mem h)
        refine ⟨renderMember m, by simp [List.getElem?_map, h, renderSlot],
          renderMember_ne_zero m, ?_⟩
        rw [initServerFromString_member s0 m isLearner hv.1.2.2.1 hv.2]
        exact ⟨rfl, rfl, rfl⟩
  · intro learners cur s0 isLearner hvalid
    by_cases hne : learners = []
    · subst hne
      exact ⟨[], stringToVector_nil cur, rfl, by simp⟩
    · have hstr := configToString_format.2.1 learners hne
      have htok : ∀ t ∈ learners.map (renderSlot false), TokenOK t := by
        intro t ht
        obtain ⟨x, hx, rfl⟩ := List.mem_map.1 ht
        cases x with
        | none => exact tokenOK_zero
        | some m => exact tokenOK_learner m (hvalid m hx).1
      refine ⟨learners.map (renderSlot false), ?_, by simp, ?_⟩
      · rw [hstr]
        exact stringToVector_no_index _ (by simpa using hne) htok cur
      · intro i
        constructor
        · intro h
          simp [List.getElem?_map, h, renderSlot]
        · intro m h
          have hv := hvalid m (List.getElem?_mem h)
          refine ⟨renderLearner m, by simp [List.getElem?_map, h, renderSlot],
            renderLearner_ne_zero m, ?_⟩
          rw [initServerFromString_learner s0 m isLearner hv.1.2.2.1 hv.1.2.2.2.1 hv.2]
          exact ⟨rfl, rfl⟩

theorem exampleServers_valid : ∀ m, some m ∈ exampleServers → ValidMember m := by
  intro m hm
  simp only [exampleServers, List.mem_cons, Option.some.injEq, List.mem_singleton,
    List.not_mem_nil, or_false] at hm
  unfold ValidMember ValidAddr
  rcases hm with rfl | rfl | rfl <;> decide

theorem exampleLearners_valid : ∀ m, some m ∈ [none, some learnerL] → ValidLearner m := by
  intro m hm
  simp only [List.mem_cons, Option.some.injEq, List.mem_singleton, List.not_mem_nil,
    or_false, false_or] at hm
  unfold ValidLearner ValidAddr
  rcases hm with hm | rfl
  · cases hm
  · decide

/-- C5 (amended) applied to `A#5, B#5S, C#9` with local address `A`, and to the learner
list `0, L$2`. -/
theorem C5_roundtrip_amended_witness :
    ((∀ m, some m ∈ exampleServers → ValidMember m) ∧
      (∃ m, some m ∈ exampleServers ∧ m.strAddr = ['A']) ∧
      exampleServers.length ≤ UINT64_MAX ∧
      ∃ vec k,
        stringToVector (configToString exampleServers ['A'] false) 0 = some (vec, k) ∧
        vec.length = exampleServers.length ∧ 1 ≤ k ∧ IsLastLocal exampleServers ['A'] (k - 1) ∧
        ∀ i : Nat,
          (exampleServers[i]? = some none → vec[i]? = some ['0']) ∧
          (∀ m : Server, exampleServers[i]? = some (some m) →
            ∃ str, vec[i]? = some str ∧ str ≠ ['0'] ∧
              (initServerFromString learnerL str false).strAddr = m.strAddr ∧
              (initServerFromString learnerL str false).electionWeight = m.electionWeight ∧
              (initServerFromString learnerL str false).forceSync = m.forceSync)) ∧
    ((∀ m, some m ∈ [none, some learnerL] → ValidLearner m) ∧
      ∃ vec,
        stringToVector (configToString [none, some learnerL] [] false) 0 = some (vec, 0) ∧
        vec.length = [none, some learnerL].length ∧
        ∀ i : Nat,
          (([none, some learnerL] : List ServerRef)[i]? = some none → vec[i]? = some ['0']) ∧
          (∀ m : Server, ([none, some learnerL] : List ServerRef)[i]? = some (some m) →
            ∃ str, vec[i]? = some str ∧ str ≠ ['0'] ∧
              (initServerFromString learner1000 str true).strAddr = m.strAddr ∧
              (initServerFromString learner1000 str true).learnerSource
                = m.learnerSource)) :=
  ⟨⟨exampleServers_valid, ⟨mkMember 1 ['A'] 5 false, by decide, rfl⟩, by decide,
      C5_roundtrip_amended.1 exampleServers ['A'] false 0 learnerL false exampleServers_valid
        ⟨mkMember 1 ['A'] 5 false, by decide, rfl⟩ (by decide)⟩,
    ⟨exampleLearners_valid,
      C5_roundtrip_amended.2 [none, some learnerL] 0 learner1000 true exampleLearners_valid⟩⟩

/-! ## Trimming of trailing vacated slots -/

theorem getLast?_eq_getElem?_pred (v : List ServerRef) :
    v.getLast? = v[v.length - 1]? := by
  rw [List.getLast?_eq_getElem?]

theorem trimLoop_spec (fuel : Nat) :
    ∀ v : List ServerRef, v.length ≤ fuel → IsTrimOf v (trimLoop fuel v) := by
  induction fuel with
  | zero =>
    intro v hv
    have : v = [] := List.length_eq_zero.1 (by omega)
    subst this
    exact ⟨0, rfl, le_rfl, by simp, by simp [trimLoop]⟩
  | succ fuel ih =>
    intro v hv
    unfold trimLoop
    by_cases hc : v.length > 0 ∧ v[v.length - 1]? = some none
    · rw [if_pos hc]
      obtain ⟨n, hn, hle, hdrop, hlast⟩ := ih (v.take (v.length - 1)) (by simp; omega)
      have hle2 : n ≤ v.length - 1 := by simpa using hle
      refine ⟨n, ?_, by omega, ?_, hlast⟩
      · rw [hn, List.take_take, Nat.min_eq_left hle2]
      · intro k hk1 hk2
        by_cases hk : k < v.length - 1
        · have := hdrop k hk1 (by simp; omega)
          rwa [List.getElem?_take_of_lt hk] at this
        · have : k = v.length - 1 := by omega
          rw [this]
          exact hc.2
    · rw [if_neg hc]
      refine ⟨v.length, by simp, le_rfl, fun k h1 h2 => by omega, ?_⟩
      intro hl
      rw [getLast?_eq_getElem?_pred] at hl
      apply hc
      refine ⟨?_, hl⟩
      rcases Nat.eq_zero_or_pos v.length with h0 | h0
      · have : v = [] := List.length_eq_zero.1 h0
        subst this
        simp at hl
      · exact h0

theorem trimTrailingNull_spec (v : List ServerRef) : IsTrimOf v (trimTrailingNull v) :=
  trimLoop_spec v.length v le_rfl

theorem trimUncheckedLoop_spec (fuel : Nat) :
    ∀ v : List ServerRef, v.length < fuel →
      ((∀ x ∈ v, x = none) → trimUncheckedLoop fuel v = none) ∧
      ((∃ x ∈ v, x ≠ none) → ∃ t, trimUncheckedLoop fuel v = some t ∧ IsTrimOf v t) := by
  induction fuel with
  | zero => intro v hv; omega
  | succ fuel ih =>
    intro v hv
    unfold trimUncheckedLoop
    by_cases h0 : v.length = 0
    · have : v = [] := List.length_eq_zero.1 h0
      subst this
      simp
    · rw [if_neg h0]
      by_cases hc : v[v.length - 1]? = some none
      · rw [if_pos hc]
        obtain ⟨ih1, ih2⟩ := ih (v.take (v.length - 1)) (by simp; omega)
        constructor
        · intro hall
          exact ih1 (fun x hx => hall x (List.mem_of_mem_take hx))
        · rintro ⟨x, hx, hxn⟩
          obtain ⟨k, hk⟩ := List.mem_iff_getElem?.1 hx
          have hklt : k < v.length := (List.getElem?_eq_some_iff.1 hk).1
          have hkne : k ≠ v.length - 1 := by
            intro he
            rw [he, hc] at hk
            cases hk
            exact hxn rfl
          have hk' : k < v.length - 1 := by omega
          obtain ⟨t, ht, n, hn, hle, hdrop, hlast⟩ := ih2 ⟨x, by
            rw [List.mem_iff_getElem?]
            exact ⟨k, by rw [List.getElem?_take_of_lt hk']; exact hk⟩, hxn⟩
          have hle2 : n ≤ v.length - 1 := by simpa using hle
          refine ⟨t, ht, n, ?_, by omega, ?_, hlast⟩
          · rw [hn, List.take_take, Nat.min_eq_left hle2]
          · intro j hj1 hj2
            by_cases hj : j < v.length - 1
            · have := hdrop j hj1 (by simp; omega)
              rwa [List.getElem?_take_of_lt hj] at this
            · have : j = v.length - 1 := by omega
              rw [this]
              exact hc
      · rw [if_neg hc]
        constructor
        · intro hall
          exfalso
          apply hc
          have hlt : v.length - 1 < v.length := by omega
          rw [List.getElem?_eq_getElem hlt]
          rw [hall _ (List.getElem_mem hlt)]
        · intro _
          refine ⟨v, rfl, v.length, by simp, le_rfl, fun k h1 h2 => by omega, ?_⟩
          rw [getLast?_eq_getElem?_pred]
          exact hc

theorem trimTrailingNullUnchecked_spec (v : List ServerRef) :
    ((∀ x ∈ v, x = none) → trimTrailingNullUnchecked v = none) ∧
    ((∃ x ∈ v, x ≠ none) → ∃ t, trimTrailingNullUnchecked v = some t ∧ IsTrimOf v t) :=
  trimUncheckedLoop_spec (v.length + 1) v (by omega)

theorem isTrimOf_getElem? (v t : List ServerRef) (h : IsTrimOf v t) (k : Nat) (m : Server) :
    t[k]? = some (some m) ↔ v[k]? = some (some m) := by
  obtain ⟨n, rfl, hle, hdrop, _⟩ := h
  by_cases hk : k < n
  · rw [List.getElem?_take_of_lt hk]
  · rw [List.getElem?_take_eq_none (by omega)]
    constructor
    · intro hc; cases hc
    · intro hc
      have hlt : k < v.length := (List.getElem?_eq_some_iff.1 hc).1
      rw [hdrop k (by omega) hlt] at hc
      cases hc

theorem isTrimOf_self (v : List ServerRef) (h : v.getLast? ≠ some none) : IsTrimOf v v :=
  ⟨v.length, by simp, le_rfl, fun k h1 h2 => by omega, h⟩

theorem isTrimOf_unique (v t : List ServerRef) (h : IsTrimOf v t)
    (hv : v.getLast? ≠ some none) : t = v := by
  obtain ⟨n, rfl, hle, hdrop, _⟩ := h
  by_cases hn : n = v.length
  · rw [hn, List.take_length]
  · exfalso
    apply hv
    rw [getLast?_eq_getElem?_pred]
    exact hdrop (v.length - 1) (by omega) (by omega)

/-! ## Searching a slot list -/

theorem findAddr_none (a : List Char) (v : List ServerRef) :
    findAddr a v = none ↔ ∀ s, some s ∈ v → s.strAddr ≠ a := by
  induction v with
  | nil => simp [findAddr]
  | cons x t ih =>
    cases x with
    | none => simp [findAddr, ih]
    | some s =>
      by_cases hs : s.strAddr = a
      · simp [findAddr, hs]
      · simp [findAddr, hs, ih]

theorem findAddr_some (a : List Char) (v : List ServerRef) (j : Nat) (s : Server)
    (h : findAddr a v = some (j, s)) : IsFirstWithAddr v a j s := by
  induction v generalizing j with
  | nil => simp [findAddr] at h
  | cons x t ih =>
    have hstep : (findAddr a t).map (fun r => (r.1 + 1, r.2)) = some (j, s) →
        IsFirstWithAddr (x :: t) a j s ∨ (∃ sx, x = some sx ∧ sx.strAddr = a) := by
      intro hm
      rw [Option.map_eq_some'] at hm
      obtain ⟨⟨j0, s0⟩, hf, he⟩ := hm
      simp only [Prod.mk.injEq] at he
      obtain ⟨rfl, rfl⟩ := he
      obtain ⟨h1, h2, h3⟩ := ih j0 hf
      by_cases hx : ∃ sx, x = some sx ∧ sx.strAddr = a
      · exact Or.inr hx
      · left
        refine ⟨by simpa using h1, h2, ?_⟩
        intro j2 s2 hj2 hg
        cases j2 with
        | zero =>
          simp only [List.getElem?_cons_zero, Option.some.injEq] at hg
          intro hc
          exact hx ⟨s2, hg, hc⟩
        | succ j2 =>
          simp only [List.getElem?_cons_succ] at hg
          exact h3 j2 s2 (by omega) hg
    cases x with
    | none =>
      rcases hstep h with h1 | ⟨sx, hsx, _⟩
      · exact h1
      · cases hsx
    | some sx =>
      by_cases hs : sx.strAddr = a
      · simp only [findAddr, hs, if_true, Option.some.injEq, Prod.mk.injEq] at h
        obtain ⟨rfl, rfl⟩ := h
        exact ⟨by simp, hs, fun j2 s2 hj2 _ => by omega⟩
      · simp only [findAddr, hs, if_false] at h
        rcases hstep h with h1 | ⟨sx2, hsx, hsa⟩
        · exact h1
        · cases hsx
          exact absurd hsa hs

theorem findAddr_exists (a : List Char) (v : List ServerRef)
    (h : ∃ s, some s ∈ v ∧ s.strAddr = a) :
    ∃ j s, findAddr a v = some (j, s) ∧ IsFirstWithAddr v a j s := by
  cases hf : findAddr a v with
  | none =>
    obtain ⟨s, hs, hsa⟩ := h
    exact absurd hsa ((findAddr_none a v).1 hf s hs)
  | some r =>
    obtain ⟨j, s⟩ := r
    exact ⟨j, s, rfl, findAddr_some a v j s hf⟩

theorem findId_some (id : Nat) (v : List ServerRef) (j : Nat) (s : Server)
    (h : findId id v = some (j, s)) : v[j]? = some (some s) ∧ s.serverId = id := by
  induction v generalizing j with
  | nil => simp [findId] at h
  | cons x t ih =>
    have hstep : (findId id t).map (fun r => (r.1 + 1, r.2)) = some (j, s) →
        (x :: t)[j]? = some (some s) ∧ s.serverId = id := by
      intro hm
      rw [Option.map_eq_some'] at hm
      obtain ⟨⟨j0, s0⟩, hf, he⟩ := hm
      simp only [Prod.mk.injEq] at he
      obtain ⟨rfl, rfl⟩ := he
      obtain ⟨h1, h2⟩ := ih j0 hf
      exact ⟨by simpa using h1, h2⟩
    cases x with
    | none => exact hstep h
    | some sx =>
      by_cases hs : sx.serverId = id
      · simp only [findId, hs, if_true, Option.some.injEq, Prod.mk.injEq] at h
        obtain ⟨rfl, rfl⟩ := h
        exact ⟨by simp, hs⟩
      · simp only [findId, hs, if_false] at h
        exact hstep h

/-! ## Placing a server in a slot list -/

theorem placeAt_cons_succ (x : ServerRef) (v : List ServerRef) (i : Nat) (y : ServerRef) :
    placeAt (x :: v) (i + 1) y = x :: placeAt v i y := by
  unfold placeAt
  by_cases h : i < v.length
  · simp [h]
  · simp [h]

theorem placeAt_getElem? (v : List ServerRef) (i : Nat) (x : ServerRef) (hi : i ≤ v.length)
    (k : Nat) : (placeAt v i x)[k]? = if k = i then some x else v[k]? := by
  unfold placeAt
  by_cases h : i < v.length
  · rw [if_pos h, List.getElem?_set]
    by_cases hk : k = i
    · subst hk
      simp [h]
    · have : ¬ i = k := fun e => hk e.symm
      simp [hk, this]
  · have hil : i = v.length := by omega
    rw [if_neg h]
    by_cases hk : k = i
    · subst hk
      rw [hil]
      simp
    · rw [if_neg hk]
      by_cases hkl : k < v.length
      · rw [List.getElem?_append_left hkl]
      · rw [List.getElem?_eq_none (by simp; omega), List.getElem?_eq_none (by omega)]

theorem placeAt_set (v : List ServerRef) (i : Nat) (x y : ServerRef) (hi : i ≤ v.length) :
    (placeAt v i x).set i y = placeAt v i y := by
  unfold placeAt
  by_cases h : i < v.length
  · simp [h]
  · have hil : i = v.length := by omega
    subst hil
    simp

theorem isLowestVacant_cons (x : ServerRef) (v : List ServerRef) (i : Nat) (hx : x ≠ none)
    (h : IsLowestVacant v i) : IsLowestVacant (x :: v) (i + 1) := by
  rcases h with ⟨h1, h2, h3⟩ | ⟨h1, h2⟩
  · left
    refine ⟨by simpa using h1, by simpa using h2, ?_⟩
    intro i2 hi2
    cases i2 with
    | zero => simpa using hx
    | succ i2 =>
      simpa using h3 i2 (by omega)
  · right
    refine ⟨by simp [h1], ?_⟩
    intro i2
    cases i2 with
    | zero => simpa using hx
    | succ i2 => simpa using h2 i2

theorem addServerLoop_spec (ns : Server) (useAppend : Bool) (servers : List ServerRef) :
    ∀ id : Nat, ∃ i, i ≤ servers.length ∧
      (useAppend = false → IsLowestVacant servers i) ∧
      (useAppend = true → i = servers.length) ∧
      (i < servers.length → servers[i]? = some none) ∧
      addServerLoop ns useAppend servers id
        = (placeAt servers i (some { ns with serverId := id + i + 1 }),
            { ns with serverId := id + i + 1 }) := by
  induction servers with
  | nil =>
    intro id
    refine ⟨0, le_rfl, fun _ => Or.inr ⟨rfl, by simp⟩, fun _ => rfl, by simp, ?_⟩
    simp [addServerLoop, placeAt]
  | cons it rest ih =>
    intro id
    by_cases hc : useAppend = false ∧ it = none
    · refine ⟨0, by simp, ?_, ?_, ?_, ?_⟩
      · intro _
        exact Or.inl ⟨by simp, by simp [hc.2], fun i2 h => by omega⟩
      · intro hu
        rw [hc.1] at hu
        cases hu
      · intro _
        simp [hc.2]
      · simp [addServerLoop, hc, placeAt]
    · obtain ⟨i, hi, h1, h2, h3, h4⟩ := ih (id + 1)
      refine ⟨i + 1, by simpa using hi, ?_, ?_, ?_, ?_⟩
      · intro hu
        have hx : it ≠ none := fun e => hc ⟨hu, e⟩
        exact isLowestVacant_cons it rest i hx (h1 hu)
      · intro hu
        simp [h2 hu]
      · intro hlt
        simpa using h3 (by simpa using hlt)
      · simp only [addServerLoop, hc, if_false, h4, placeAt_cons_succ]
        have : id + 1 + i + 1 = id + (i + 1) + 1 := by omega
        rw [this]

theorem addServer_spec (ns : Server) (useAppend : Bool) (servers : List ServerRef) :
    ∃ i, i ≤ servers.length ∧
      (useAppend = false → IsLowestVacant servers i) ∧
      (useAppend = true → i = servers.length) ∧
      (i < servers.length → servers[i]? = some none) ∧
      addServer servers ns useAppend
        = (placeAt servers i (some { ns with serverId := i + 1 }),
            { ns with serverId := i + 1 }) := by
  obtain ⟨i, h1, h2, h3, h4, h5⟩ := addServerLoop_spec ns useAppend servers 0
  refine ⟨i, h1, h2, h3, h4, ?_⟩
  unfold addServer
  rw [h5]
  simp

/-! ## Settled claims: membership changes -/

/-- The effect of `addMember` when a learner has the address. -/
theorem addMember_promotes (cfg : StableConfiguration) (addr : List Char)
    (h : ∃ s, some s ∈ cfg.learners ∧ s.strAddr = addr) :
    ∃ j srv i, IsFirstWithAddr cfg.learners addr j srv ∧ IsLowestVacant cfg.servers i ∧
      i ≤ cfg.servers.length ∧
      (addMember cfg addr).1 = 0 ∧
      (addMember cfg addr).2.servers
        = placeAt cfg.servers i
            (some { srv with
              serverId := i + 1, isLearner := false, forceSync := false,
              electionWeight := 5, appliedIndex := 0 }) ∧
      IsTrimOf (cfg.learners.set j none) (addMember cfg addr).2.learners ∧
      (addMember cfg addr).2.serversNum = (cfg.serversNum + 1) % 2 ^ 64 := by
  obtain ⟨j, srv, hf, hfirst⟩ := findAddr_exists addr cfg.learners h
  obtain ⟨i, hi, h1, _, _, h5⟩ := addServer_spec srv addServer_useAppend_default cfg.servers
  refine ⟨j, srv, i, hfirst, h1 rfl, hi, ?_, ?_, ?_, ?_⟩
  · simp [addMember, hf]
  · simp only [addMember, hf, h5, Nat.add_sub_cancel, placeAt_set _ _ _ _ hi]
    rfl
  · simp only [addMember, hf]
    exact trimTrailingNull_spec _
  · simp [addMember, hf]

/-- C7: when a learner slot holds a server with the address, `addMember` returns 0,
vacates the first such learner slot, puts the server into the lowest vacated member slot
or, without one, at the end of the member list, gives it that 1-based position as
`serverId`, resets `isLearner`, `forceSync`, `electionWeight = 5` and `appliedIndex = 0`,
adds one to the 64-bit member counter and leaves the learner list without a trailing
vacated slot. -/
theorem C7_addMember_promotes (cfg : StableConfiguration) (addr : List Char)
    (h : ∃ s, some s ∈ cfg.learners ∧ s.strAddr = addr) :
    ∃ j srv i, IsFirstWithAddr cfg.learners addr j srv ∧ IsLowestVacant cfg.servers i ∧
      (addMember cfg addr).1 = 0 ∧
      (addMember cfg addr).2.servers
        = placeAt cfg.servers i
            (some { srv with
              serverId := i + 1, isLearner := false, forceSync := false,
              electionWeight := 5, appliedIndex := 0 }) ∧
      IsTrimOf (cfg.learners.set j none) (addMember cfg addr).2.learners ∧
      (addMember cfg addr).2.learners.getLast? ≠ some none ∧
      (addMember cfg addr).2.serversNum = (cfg.serversNum + 1) % 2 ^ 64 ∧
      (cfg.serversNum < UINT64_MAX →
        (addMember cfg addr).2.serversNum = cfg.serversNum + 1) := by
  obtain ⟨j, srv, i, h1, h2, _, h3, h4, h5, h6⟩ := addMember_promotes cfg addr h
  refine ⟨j, srv, i, h1, h2, h3, h4, h5, ?_, h6, ?_⟩
  · obtain ⟨_, _, _, _, hl⟩ := h5
    exact hl
  · intro hlt
    rw [h6]
    apply Nat.mod_eq_of_lt
    unfold UINT64_MAX at hlt
    omega

/-- C7 applied to the configuration `A#5, 0, C#9` with the learner `L`. -/
theorem C7_addMember_promotes_witness :
    (∃ s, some s ∈ exampleConfiguration.learners ∧ s.strAddr = ['L']) ∧
    ∃ j srv i, IsFirstWithAddr exampleConfiguration.learners ['L'] j srv ∧
      IsLowestVacant exampleConfiguration.servers i ∧
      (addMember exampleConfiguration ['L']).1 = 0 ∧
      (addMember exampleConfiguration ['L']).2.servers
        = placeAt exampleConfiguration.servers i
            (some { srv with
              serverId := i + 1, isLearner := false, forceSync := false,
              electionWeight := 5, appliedIndex := 0 }) ∧
      IsTrimOf (exampleConfiguration.learners.set j none)
        (addMember exampleConfiguration ['L']).2.learners ∧
      (addMember exampleConfiguration ['L']).2.learners.getLast? ≠ some none ∧
      (addMember exampleConfiguration ['L']).2.serversNum
        = (exampleConfiguration.serversNum + 1) % 2 ^ 64 ∧
      (exampleConfiguration.serversNum < UINT64_MAX →
        (addMember exampleConfiguration ['L']).2.serversNum
          = exampleConfiguration.serversNum + 1) :=
  ⟨⟨learnerL, by decide, rfl⟩,
    C7_addMember_promotes exampleConfiguration ['L'] ⟨learnerL, by decide, rfl⟩⟩

theorem updateServer_none (cfg : StableConfiguration) (id : Nat) (f : Server → Server)
    (h : getServer cfg id = none) : updateServer cfg id f = cfg := by
  unfold updateServer
  rw [h]

theorem delLearners_single (cfg : StableConfiguration) (addr : List Char)
    (h : ∀ s, some s ∈ cfg.learners → s.strAddr ≠ addr) :
    delLearners cfg [addr] = { cfg with learners := trimTrailingNull cfg.learners } := by
  unfold delLearners
  simp only [List.foldl_cons, List.foldl_nil, (findAddr_none addr cfg.learners).2 h]

/-- C8 (as stated, refuted): on the learner list `L$2, 0` no learner has the address
`X`, yet `delLearners` with `X` removes the trailing vacated slot. -/
theorem C8_unknown_target_counterexample :
    trailingLearnerConfiguration.learners = [some learnerL, none] ∧
    learnerL.strAddr ≠ ['X'] ∧
    (delLearners trailingLearnerConfiguration [['X']]).learners = [some learnerL] ∧
    delLearners trailingLearnerConfiguration [['X']] ≠ trailingLearnerConfiguration := by
  decide

/-- C8 (amended): with an address that no learner has, `addMember` returns -1 and
changes nothing; with an address that no member has, `delMember` returns -1 and changes
nothing; `configureMember` and `configureLearner` with an id for which `getServer` is
null change nothing; `delLearners` with a single address that no learner has leaves the
members, the member counter and every learner untouched and only removes trailing
vacated learner slots (nothing changes when the list has none). -/
theorem C8_unknown_target_amended :
    (∀ (cfg : StableConfiguration) (addr : List Char),
      (∀ s, some s ∈ cfg.learners → s.strAddr ≠ addr) → addMember cfg addr = (-1, cfg)) ∧
    (∀ (cfg : StableConfiguration) (addr : List Char),
      (∀ s, some s ∈ cfg.servers → s.strAddr ≠ addr) → delMember cfg addr = some (-1, cfg)) ∧
    (∀ (cfg : StableConfiguration) (id : Nat) (forceSync : Bool) (electionWeight : Nat),
      getServer cfg id = none → configureMember cfg id forceSync electionWeight = (0, cfg)) ∧
    (∀ (cfg : StableConfiguration) (id source : Nat),
      getServer cfg id = none → configureLearner cfg id source = (0, cfg)) ∧
    (∀ (cfg : StableConfiguration) (addr : List Char),
      (∀ s, some s ∈ cfg.learners → s.strAddr ≠ addr) →
      (delLearners cfg [addr]).servers = cfg.servers ∧
      (delLearners cfg [addr]).serversNum = cfg.serversNum ∧
      IsTrimOf cfg.learners (delLearners cfg [addr]).learners ∧
      (∀ (k : Nat) (m : Server),
        (delLearners cfg [addr]).learners[k]? = some (some m)
          ↔ cfg.learners[k]? = some (some m)) ∧
      (cfg.learners.getLast? ≠ some none → delLearners cfg [addr] = cfg)) := by
  refine ⟨?_, ?_, ?_, ?_, ?_⟩
  · intro cfg addr h
    simp [addMember, (findAddr_none addr cfg.learners).2 h]
  · intro cfg addr h
    simp [delMember, (findAddr_none addr cfg.servers).2 h]
  · intro cfg id fs w h
    simp [configureMember, updateServer_none cfg id _ h]
  · intro cfg id src h
    simp [configureLearner, updateServer_none cfg id _ h]
  · intro cfg addr h
    rw [delLearners_single cfg addr h]
    have ht := trimTrailingNull_spec cfg.learners
    refine ⟨rfl, rfl, ht, fun k m => isTrimOf_getElem? _ _ ht k m, ?_⟩
    intro hl
    have := isTrimOf_unique _ _ ht hl
    simp only [this]

/-- C8 (amended) applied to the configuration `A#5, 0, C#9` with the learner `L` and
the unknown address `X` (unknown ids 2 and 500). -/
theorem C8_unknown_target_amended_witness :
    ((∀ s, some s ∈ exampleConfiguration.learners → s.strAddr ≠ ['X']) ∧
      addMember exampleConfiguration ['X'] = (-1, exampleConfiguration)) ∧
    ((∀ s, some s ∈ exampleConfiguration.servers → s.strAddr ≠ ['X']) ∧
      delMember exampleConfiguration ['X'] = some (-1, exampleConfiguration)) ∧
    (getServer exampleConfiguration 2 = none ∧
      configureMember exampleConfiguration 2 true 9 = (0, exampleConfiguration)) ∧
    (getServer exampleConfiguration 500 = none ∧
      configureLearner exampleConfiguration 500 1 = (0, exampleConfiguration)) ∧
    ((∀ s, some s ∈ exampleConfiguration.learners → s.strAddr ≠ ['X']) ∧
      (exampleConfiguration.learners.getLast? ≠ some none →
        delLearners exampleConfiguration [['X']] = exampleConfiguration)) :=
  have hl : ∀ s, some s ∈ exampleConfiguration.learners → s.strAddr ≠ ['X'] :=
    (findAddr_none ['X'] exampleConfiguration.learners).1 (by decide)
  have hs : ∀ s, some s ∈ exampleConfiguration.servers → s.strAddr ≠ ['X'] :=
    (findAddr_none ['X'] exampleConfiguration.servers).1 (by decide)
  ⟨⟨hl, C8_unknown_target_amended.1 exampleConfiguration ['X'] hl⟩,
    ⟨hs, C8_unknown_target_amended.2.1 exampleConfiguration ['X'] hs⟩,
    ⟨by decide, C8_unknown_target_amended.2.2.1 exampleConfiguration 2 true 9 (by decide)⟩,
    ⟨by decide, C8_unknown_target_amended.2.2.2.1 exampleConfiguration 500 1 (by decide)⟩,
    ⟨hl, (C8_unknown_target_amended.2.2.2.2 exampleConfiguration ['X'] hl).2.2.2.2⟩⟩

/-! ## Removing a member -/

/-- C9 (failing input): on the single-member configuration `A#5`, whose member list has
no trailing vacated slot and holds the address `A` with `serverId = 1`, the trimming loop
of `delMember` empties the vector and then reads `servers[servers.size() - 1]` out of
bounds, so no result is produced. -/
theorem C9_delMember_single_member :
    singleMemberConfiguration.servers = [some (mkMember 1 ['A'] 5 false)] ∧
    singleMemberConfiguration.servers.getLast? ≠ some none ∧
    singleMemberConfiguration.serversNum = 1 ∧
    delMember singleMemberConfiguration ['A'] = none := by
  decide

/-- The effect of `delMember` when a member has the address and another member stays:
under the positional-id invariant and without a trailing vacated slot it returns 0,
vacates the first slot with the address, subtracts one from the 64-bit member counter,
keeps every other member in its slot and leaves no trailing vacated slot. -/
theorem delMember_removes (cfg : StableConfiguration) (addr : List Char)
    (hpos : Positional 1 cfg.servers) (hlast : cfg.servers.getLast? ≠ some none)
    (i : Nat) (srv : Server) (hfirst : findAddr addr cfg.servers = some (i, srv))
    (hother : ∃ k m, k ≠ i ∧ cfg.servers[k]? = some (some m)) :
    ∃ cfg2, delMember cfg addr = some (0, cfg2) ∧
      IsTrimOf (cfg.servers.set i none) cfg2.servers ∧
      cfg2.learners = cfg.learners ∧
      cfg2.serversNum = (cfg.serversNum + 2 ^ 64 - 1) % 2 ^ 64 ∧
      (∀ (k : Nat) (m : Server), k ≠ i →
        (cfg2.servers[k]? = some (some m) ↔ cfg.servers[k]? = some (some m))) := by
  obtain ⟨hi, _, _⟩ := findAddr_some addr cfg.servers i srv hfirst
  have hilt : i < cfg.servers.length := (List.getElem?_eq_some_iff.1 hi).1
  have hid : srv.serverId = i + 1 := hpos i srv hi
  have hframe : ∀ (t : List ServerRef), IsTrimOf (cfg.servers.set i none) t →
      ∀ (k : Nat) (m : Server), k ≠ i →
        (t[k]? = some (some m) ↔ cfg.servers[k]? = some (some m)) := by
    intro t ht k m hk
    rw [isTrimOf_getElem? _ _ ht k m, List.getElem?_set_ne (fun e => hk e.symm)]
  unfold delMember
  simp only [hfirst, List.length_set]
  by_cases hc : srv.serverId = cfg.servers.length ∧ cfg.servers.length > 0
  · rw [if_pos hc]
    obtain ⟨k, m, hk, hkm⟩ := hother
    obtain ⟨t, ht, htrim⟩ := (trimTrailingNullUnchecked_spec (cfg.servers.set i none)).2
      ⟨some m, by
        rw [List.mem_iff_getElem?]
        exact ⟨k, by rw [List.getElem?_set_ne (fun e => hk e.symm)]; exact hkm⟩, by simp⟩
    rw [ht]
    exact ⟨_, rfl, htrim, rfl, rfl, hframe t htrim⟩
  · rw [if_neg hc]
    have hne : i ≠ cfg.servers.length - 1 := by
      intro he
      apply hc
      omega
    have htrim : IsTrimOf (cfg.servers.set i none) (cfg.servers.set i none) := by
      apply isTrimOf_self
      rw [getLast?_eq_getElem?_pred, List.length_set, List.getElem?_set_ne hne,
        ← getLast?_eq_getElem?_pred]
      exact hlast
    exact ⟨_, rfl, htrim, rfl, rfl, hframe _ htrim⟩

/-! ## The positional-id invariant -/

theorem positional_nil (off : Nat) : Positional off [] := by
  intro i m h
  simp at h

theorem positional_take (off : Nat) (v : List ServerRef) (n : Nat) (h : Positional off v) :
    Positional off (v.take n) := by
  intro i m hi
  by_cases hlt : i < n
  · rw [List.getElem?_take_of_lt hlt] at hi
    exact h i m hi
  · rw [List.getElem?_take_eq_none (by omega)] at hi
    cases hi

theorem positional_trim (off : Nat) (v t : List ServerRef) (ht : IsTrimOf v t)
    (h : Positional off v) : Positional off t := by
  obtain ⟨n, rfl, _⟩ := ht
  exact positional_take off v n h

theorem getElem?_set_same (v : List ServerRef) (i : Nat) (x : ServerRef) :
    (v.set i x)[i]? = some x ∨ (v.set i x)[i]? = none := by
  by_cases hlt : i < v.length
  · left
    exact List.getElem?_set_self hlt
  · right
    exact List.getElem?_eq_none (by simp; omega)

theorem positional_set_none (off : Nat) (v : List ServerRef) (i : Nat) (h : Positional off v) :
    Positional off (v.set i none) := by
  intro k m hk
  by_cases hki : i = k
  · subst hki
    rcases getElem?_set_same v i none with h1 | h1 <;> rw [h1] at hk <;> cases hk
  · rw [List.getElem?_set_ne hki] at hk
    exact h k m hk

theorem positional_set_some (off : Nat) (v : List ServerRef) (i : Nat) (x : Server)
    (hx : x.serverId = i + off) (h : Positional off v) :
    Positional off (v.set i (some x)) := by
  intro k m hk
  by_cases hki : i = k
  · subst hki
    rcases getElem?_set_same v i (some x) with h1 | h1 <;> rw [h1] at hk
    · simp only [Option.some.injEq] at hk
      rw [← hk]
      exact hx
    · cases hk
  · rw [List.getElem?_set_ne hki] at hk
    exact h k m hk

theorem positional_append (off : Nat) (v : List ServerRef) (x : ServerRef)
    (hx : ∀ m, x = some m → m.serverId = v.length + off) (h : Positional off v) :
    Positional off (v ++ [x]) := by
  intro k m hk
  by_cases hlt : k < v.length
  · rw [List.getElem?_append_left hlt] at hk
    exact h k m hk
  · rw [List.getElem?_append_right (by omega)] at hk
    have hk0 : k - v.length = 0 := by
      by_contra hne
      rw [List.getElem?_eq_none (by simp; omega)] at hk
      cases hk
    rw [hk0] at hk
    simp only [List.getElem?_cons_zero, Option.some.injEq] at hk
    have := hx m hk
    omega

theorem positional_placeAt (off : Nat) (v : List ServerRef) (i : Nat) (x : Server)
    (hi : i ≤ v.length) (hx : x.serverId = i + off) (h : Positional off v) :
    Positional off (placeAt v i (some x)) := by
  intro k m hk
  rw [placeAt_getElem? v i (some x) hi k] at hk
  split at hk
  · rename_i hki
    simp only [Option.some.injEq] at hk
    rw [← hk, hki]
    exact hx
  · exact h k m hk

theorem initServerFromString_serverId (s : Server) (str : List Char) (b : Bool) :
    (initServerFromString s str b).serverId = s.serverId := by
  unfold initServerFromString
  split
  · dsimp only
    split <;> rfl
  · split <;> rfl

theorem installConfig_fold (current : Nat) (localServer : Option Server)
    (strConfig : List (List Char)) :
    ∀ st : Nat × List ServerRef × Nat, st.1 = st.2.1.length → Positional 1 st.2.1 →
      Positional 1 (strConfig.foldl (installConfigStep current localServer) st).2.1 := by
  induction strConfig with
  | nil => intro st _ h; exact h
  | cons str rest ih =>
    intro st hlen hpos
    rw [List.foldl_cons]
    apply ih
    · unfold installConfigStep
      dsimp only
      split
      · simp [hlen]
      · split <;> simp [hlen]
    · unfold installConfigStep
      dsimp only
      split
      · exact positional_append 1 _ _ (fun m hm => by cases hm) hpos
      · split
        · apply positional_append 1 _ _ _ hpos
          intro m hm
          simp only [Option.some.injEq] at hm
          rw [← hm, initServerFromString_serverId, hlen]
          rfl
        · apply positional_append 1 _ _ _ hpos
          intro m hm
          simp only [Option.some.injEq] at hm
          rw [← hm, initServerFromString_serverId, hlen]

theorem installConfig_positional (cfg : StableConfiguration) (strConfig : List (List Char))
    (current : Nat) (localServer : Option Server) (h : Positional 101 cfg.learners) :
    PositionalIds (installConfig cfg strConfig current localServer) :=
  ⟨installConfig_fold current localServer strConfig (0, [], 0) rfl (positional_nil 1), h⟩

theorem addLearnersStep_positional (replaceAll : Bool) (st : Nat × List ServerRef)
    (str : List Char) (h : Positional 101 st.2) :
    Positional 101 (addLearnersStep replaceAll st str).2 := by
  unfold addLearnersStep
  dsimp only
  split
  · split
    · exact positional_set_none 101 _ _ h
    · exact positional_append 101 _ _ (fun m hm => by cases hm) h
  · obtain ⟨i, hi, _, _, _, h5⟩ := addServer_spec (Server_new 0) replaceAll st.2
    rw [h5]
    simp only [Nat.add_sub_cancel]
    rw [placeAt_set _ _ _ _ hi]
    apply positional_placeAt 101 _ _ _ hi _ h
    rw [initServerFromString_serverId]

theorem addLearners_fold (replaceAll : Bool) (strConfig : List (List Char)) :
    ∀ st : Nat × List ServerRef, Positional 101 st.2 →
      Positional 101 (strConfig.foldl (addLearnersStep replaceAll) st).2 := by
  induction strConfig with
  | nil => intro st h; exact h
  | cons str rest ih =>
    intro st h
    rw [List.foldl_cons]
    exact ih _ (addLearnersStep_positional replaceAll st str h)

theorem addLearners_positional (cfg : StableConfiguration) (strConfig : List (List Char))
    (replaceAll : Bool) (h : PositionalIds cfg) :
    PositionalIds (addLearners cfg strConfig replaceAll) := by
  unfold addLearners
  split
  · exact h
  · exact ⟨h.1, addLearners_fold replaceAll strConfig _ h.2⟩

theorem delLearners_fold (strConfig : List (List Char)) :
    ∀ learners : List ServerRef, Positional 101 learners →
      Positional 101 (strConfig.foldl
        (fun learners str =>
          match findAddr str learners with
          | some r => learners.set r.1 none
          | none => learners) learners) := by
  induction strConfig with
  | nil => intro l h; exact h
  | cons str rest ih =>
    intro l h
    rw [List.foldl_cons]
    apply ih
    split
    · exact positional_set_none 101 _ _ h
    · exact h

theorem delLearners_positional (cfg : StableConfiguration) (strConfig : List (List Char))
    (h : PositionalIds cfg) : PositionalIds (delLearners cfg strConfig) := by
  unfold delLearners
  exact ⟨h.1, positional_trim 101 _ _ (trimTrailingNull_spec _)
    (delLearners_fold strConfig cfg.learners h.2)⟩

theorem addMember_positional (cfg : StableConfiguration) (addr : List Char)
    (h : PositionalIds cfg) : PositionalIds (addMember cfg addr).2 := by
  by_cases hex : ∃ s, some s ∈ cfg.learners ∧ s.strAddr = addr
  · obtain ⟨j, srv, i, _, _, hi, _, hs, hl, _⟩ := addMember_promotes cfg addr hex
    constructor
    · rw [hs]
      exact positional_placeAt 1 _ _ _ hi rfl h.1
    · exact positional_trim 101 _ _ hl (positional_set_none 101 _ _ h.2)
  · have hnone : findAddr addr cfg.learners = none := by
      rw [findAddr_none]
      intro s hs hsa
      exact hex ⟨s, hs, hsa⟩
    simp only [addMember, hnone]
    exact h

theorem delMember_positional (cfg cfg2 : StableConfiguration) (addr : List Char) (ret : Int)
    (hd : delMember cfg addr = some (ret, cfg2)) (h : PositionalIds cfg) :
    PositionalIds cfg2 := by
  unfold delMember at hd
  split at hd
  · simp only [Option.some.injEq, Prod.mk.injEq] at hd
    rw [← hd.2]
    exact h
  · rename_i i server hf
    dsimp only at hd
    split at hd
    · have hspec := trimTrailingNullUnchecked_spec (cfg.servers.set i none)
      split at hd
      · cases hd
      · rename_i t ht
        simp only [Option.some.injEq, Prod.mk.injEq] at hd
        rw [← hd.2]
        have hex : ∃ x ∈ cfg.servers.set i none, x ≠ none := by
          by_contra hno
          have hall : ∀ x ∈ cfg.servers.set i none, x = none := by
            intro x hx
            by_contra hxn
            exact hno ⟨x, hx, hxn⟩
          rw [hspec.1 hall] at ht
          cases ht
        obtain ⟨t2, ht2, htrim⟩ := hspec.2 hex
        rw [ht] at ht2
        cases ht2
        exact ⟨positional_trim 1 _ _ htrim (positional_set_none 1 _ _ h.1), h.2⟩
    · simp only [Option.some.injEq, Prod.mk.injEq] at hd
      rw [← hd.2]
      exact ⟨positional_set_none 1 _ _ h.1, h.2⟩

theorem getServer_positional (cfg : StableConfiguration) (h : PositionalIds cfg) (id : Nat)
    (m : Server) (hg : getServer cfg id = some m) : m.serverId = id := by
  unfold getServer at hg
  split at hg
  · cases hg
  · rename_i h0
    split at hg
    · dsimp only at hg
      split at hg
      · have hm : cfg.servers[id - 1]? = some (some m) := by
          cases hq : cfg.servers[id - 1]? with
          | none => rw [hq] at hg; cases hg
          | some x =>
            rw [hq] at hg
            cases x with
            | none => simp [Option.join] at hg
            | some y =>
              simp only [Option.join, Option.some_bind] at hg
              exact congrArg some hg
        have := h.1 (id - 1) m hm
        omega
      · cases hg
    · rw [Option.map_eq_some'] at hg
      obtain ⟨⟨j, s⟩, hf, hs⟩ := hg
      simp only at hs
      subst hs
      exact (findId_some id cfg.learners j s hf).2

theorem updateServer_positional (cfg : StableConfiguration) (id : Nat) (f : Server → Server)
    (hf : ∀ s, (f s).serverId = s.serverId) (h : PositionalIds cfg) :
    PositionalIds (updateServer cfg id f) := by
  unfold updateServer
  split
  · exact h
  · rename_i server hg
    have hid := getServer_positional cfg h id server hg
    split
    · rename_i hlt
      refine ⟨positional_set_some 1 _ _ _ ?_ h.1, h.2⟩
      rw [hf, hid]
      have h0 : id ≠ 0 := by
        intro he
        subst he
        simp [getServer] at hg
      omega
    · split
      · exact h
      · rename_i r hfi
        obtain ⟨j, s⟩ := r
        have hj := findId_some id cfg.learners j s hfi
        have hs : s = server := by
          have hlt : ¬ id < 100 := by assumption
          have h0 : id ≠ 0 := by omega
          simp only [getServer, h0, hlt, if_false, hfi, Option.map_some'] at hg
          exact Option.some.inj hg
        subst hs
        refine ⟨h.1, positional_set_some 101 _ _ _ ?_ h.2⟩
        rw [hf]
        exact h.2 j s hj.1

theorem reachable_positional (cfg : StableConfiguration) (h : Reachable cfg) :
    PositionalIds cfg := by
  induction h with
  | install strConfig current localServer =>
    exact installConfig_positional _ _ _ _ (positional_nil 101)
  | reinstall cfg strConfig current localServer _ ih =>
    exact installConfig_positional _ _ _ _ ih.2
  | addLearners cfg strConfig replaceAll _ ih => exact addLearners_positional _ _ _ ih
  | delLearners cfg strConfig _ ih => exact delLearners_positional _ _ ih
  | addMember cfg strAddr _ ih => exact addMember_positional _ _ ih
  | delMember cfg cfg2 strAddr ret _ hd ih => exact delMember_positional _ _ _ _ hd ih
  | configureMember cfg serverId forceSync electionWeight _ ih =>
    exact updateServer_positional _ _ _ (fun _ => rfl) ih
  | configureLearner cfg serverId source _ ih =>
    exact updateServer_positional _ _ _ (fun _ => rfl) ih

/-- C10: in every configuration reachable from `installConfig` by `addMember`,
`delMember`, `configureMember` and `configureLearner` (and by `installConfig`,
`addLearners` and `delLearners`, which create and remove the learners) every non-null
member slot at 0-based position `i` holds a server with `serverId = i + 1` and every
non-null learner slot at 0-based position `j` holds a server with `serverId = j + 101`;
hence `getServer id` is null or a server whose `serverId` is `id`. -/
theorem C10_positional_ids (cfg : StableConfiguration) (h : Reachable cfg) :
    (∀ (i : Nat) (m : Server), cfg.servers[i]? = some (some m) → m.serverId = i + 1) ∧
    (∀ (j : Nat) (l : Server), cfg.learners[j]? = some (some l) → l.serverId = j + 101) ∧
    (∀ id : Nat, getServer cfg id = none ∨
      ∃ m, getServer cfg id = some m ∧ m.serverId = id) := by
  have hp := reachable_positional cfg h
  refine ⟨hp.1, hp.2, ?_⟩
  intro id
  cases hg : getServer cfg id with
  | none => exact Or.inl rfl
  | some m => exact Or.inr ⟨m, rfl, getServer_positional cfg hp id m hg⟩

/-- C10 applied to the configuration reached by installing `A#5, 0, C#9`, adding the
learner `L$2`, promoting `L` and reconfiguring member 2. -/
theorem C10_positional_ids_witness :
    Reachable (configureMember (addMember exampleConfiguration ['L']).2 2 true 7).2 ∧
    (∀ (i : Nat) (m : Server),
      (configureMember (addMember exampleConfiguration ['L']).2 2 true 7).2.servers[i]?
        = some (some m) → m.serverId = i + 1) ∧
    (∀ (j : Nat) (l : Server),
      (configureMember (addMember exampleConfiguration ['L']).2 2 true 7).2.learners[j]?
        = some (some l) → l.serverId = j + 101) ∧
    (∀ id : Nat,
      getServer (configureMember (addMember exampleConfiguration ['L']).2 2 true 7).2 id = none ∨
      ∃ m, getServer (configureMember (addMember exampleConfiguration ['L']).2 2 true 7).2 id
          = some m ∧ m.serverId = id) :=
  have hr : Reachable (configureMember (addMember exampleConfiguration ['L']).2 2 true 7).2 :=
    Reachable.configureMember _ 2 true 7
      (Reachable.addMember _ ['L']
        (Reachable.addLearners _ ["L$2".toList] false
          (Reachable.install ["A#5".toList, "0".toList, "C#9".toList] 1 none)))
  ⟨hr, C10_positional_ids _ hr⟩

/-! ## Weighted leader preference -/

theorem needWeightElection_iff (servers : List ServerRef) (w : Nat) :
    needWeightElection servers w = true ↔ ∃ m, some m ∈ servers ∧ m.electionWeight > w := by
  unfold needWeightElection
  rw [List.any_eq_true]
  constructor
  · rintro ⟨x, hx, hp⟩
    cases x with
    | none => simp at hp
    | some s => exact ⟨s, hx, by simpa using hp⟩
  · rintro ⟨m, hm, hw⟩
    exact ⟨some m, hm, by simpa using hw⟩

theorem getMaxWeightServerId_fold (baseEpoch : Nat) (servers : List ServerRef) :
    ∀ st : Nat × Nat,
      ((¬ ∃ m, some m ∈ servers ∧ m.lastAckEpoch > baseEpoch ∧ m.electionWeight > st.2) →
        servers.foldl (getMaxWeightServerIdStep baseEpoch) st = st) ∧
      ((∃ m, some m ∈ servers ∧ m.lastAckEpoch > baseEpoch ∧ m.electionWeight > st.2) →
        ∃ i m, IsFirstHeaviest servers baseEpoch i m ∧ m.electionWeight > st.2 ∧
          servers.foldl (getMaxWeightServerIdStep baseEpoch) st
            = (m.serverId, m.electionWeight)) := by
  induction servers with
  | nil =>
    intro st
    exact ⟨fun _ => rfl, fun ⟨m, hm, _⟩ => by simp at hm⟩
  | cons x t ih =>
    intro st
    by_cases hq : ∃ s, x = some s ∧ s.electionWeight > st.2 ∧ s.lastAckEpoch > baseEpoch
    · obtain ⟨s, rfl, hw, he⟩ := hq
      have hstep : getMaxWeightServerIdStep baseEpoch st (some s)
          = (s.serverId, s.electionWeight) := by
        simp [getMaxWeightServerIdStep, hw, he]
      obtain ⟨ih1, ih2⟩ := ih (s.serverId, s.electionWeight)
      constructor
      · intro hno
        exact absurd ⟨s, List.mem_cons_self _ _, he, hw⟩ hno
      · intro _
        rw [List.foldl_cons, hstep]
        by_cases hex : ∃ m, some m ∈ t ∧ m.lastAckEpoch > baseEpoch ∧
            m.electionWeight > s.electionWeight
        · obtain ⟨i, m, ⟨hi, hme, hmax, hfirst⟩, hmw, hres⟩ := ih2 hex
          have hmw2 : s.electionWeight < m.electionWeight := hmw
          refine ⟨i + 1, m, ⟨by simpa using hi, hme, ?_, ?_⟩, by omega, hres⟩
          · intro j m2 hj he2
            cases j with
            | zero =>
              simp only [List.getElem?_cons_zero, Option.some.injEq] at hj
              subst hj
              omega
            | succ j => exact hmax j m2 (by simpa using hj) he2
          · intro j m2 hlt hj he2
            cases j with
            | zero =>
              simp only [List.getElem?_cons_zero, Option.some.injEq] at hj
              subst hj
              exact hmw2
            | succ j => exact hfirst j m2 (by omega) (by simpa using hj) he2
        · refine ⟨0, s, ⟨by simp, he, ?_, fun j m2 hlt => by omega⟩, hw, ih1 hex⟩
          intro j m2 hj he2
          cases j with
          | zero =>
            simp only [List.getElem?_cons_zero, Option.some.injEq] at hj
            subst hj
            exact le_rfl
          | succ j =>
            by_contra hgt
            exact hex ⟨m2, List.getElem?_mem (by simpa using hj), he2, by omega⟩
    · have hstep : getMaxWeightServerIdStep baseEpoch st x = st := by
        cases x with
        | none => rfl
        | some s =>
          have : ¬ (s.electionWeight > st.2 ∧ s.lastAckEpoch > baseEpoch) :=
            fun h => hq ⟨s, rfl, h.1, h.2⟩
          simp only [getMaxWeightServerIdStep, this, if_false]
      have hx : ∀ s, x = some s → s.lastAckEpoch > baseEpoch → s.electionWeight ≤ st.2 := by
        intro s hs he
        by_contra hgt
        exact hq ⟨s, hs, by omega, he⟩
      obtain ⟨ih1, ih2⟩ := ih st
      rw [List.foldl_cons, hstep]
      constructor
      · intro hno
        apply ih1
        rintro ⟨m, hm, he, hw⟩
        exact hno ⟨m, List.mem_cons_of_mem _ hm, he, hw⟩
      · rintro ⟨m0, hm0, he0, hw0⟩
        have hin : some m0 ∈ t := by
          rcases List.mem_cons.1 hm0 with h | h
          · have := hx m0 h.symm he0
            omega
          · exact h
        obtain ⟨i, m, ⟨hi, hme, hmax, hfirst⟩, hmw, hres⟩ := ih2 ⟨m0, hin, he0, hw0⟩
        refine ⟨i + 1, m, ⟨by simpa using hi, hme, ?_, ?_⟩, hmw, hres⟩
        · intro j m2 hj he2
          cases j with
          | zero =>
            simp only [List.getElem?_cons_zero] at hj
            have := hx m2 (Option.some.inj hj) he2
            omega
          | succ j => exact hmax j m2 (by simpa using hj) he2
        · intro j m2 hlt hj he2
          cases j with
          | zero =>
            simp only [List.getElem?_cons_zero] at hj
            have := hx m2 (Option.some.inj hj) he2
            omega
          | succ j => exact hfirst j m2 (by omega) (by simpa using hj) he2

/-- The result of `getMaxWeightServerId`, by the existence of a member that has
acknowledged an epoch after `baseEpoch` and outweighs the local server. -/
theorem getMaxWeightServerId_spec (servers : List ServerRef) (baseEpoch : Nat)
    (localServer : Server) :
    ((¬ ∃ m, some m ∈ servers ∧ m.lastAckEpoch > baseEpoch ∧
          m.electionWeight > localServer.electionWeight) →
      getMaxWeightServerId servers baseEpoch localServer = localServer.serverId) ∧
    ((∃ m, some m ∈ servers ∧ m.lastAckEpoch > baseEpoch ∧
          m.electionWeight > localServer.electionWeight) →
      ∃ i m, IsFirstHeaviest servers baseEpoch i m ∧
        m.electionWeight > localServer.electionWeight ∧
        getMaxWeightServerId servers baseEpoch localServer = m.serverId) := by
  obtain ⟨h1, h2⟩ := getMaxWeightServerId_fold baseEpoch servers
    (localServer.serverId, localServer.electionWeight)
  unfold getMaxWeightServerId
  constructor
  · intro hno
    rw [h1 hno]
  · intro hex
    obtain ⟨i, m, hf, hw, hres⟩ := h2 hex
    exact ⟨i, m, hf, hw, by rw [hres]⟩

/-- C11 (as stated, refuted): the local server has id 1 and weight 5, and the only member
of `twinServers` carries the same id with weight 9 and has acknowledged an epoch after the
base epoch 1. The function returns the id 1, the local server's id, although a member with
`lastAckEpoch > baseEpoch` outweighs the local server. -/
theorem C11_local_id_counterexample :
    getMaxWeightServerId twinServers 1 (mkMember 1 ['A'] 5 false)
      = (mkMember 1 ['A'] 5 false).serverId
    ∧ ∃ m, some m ∈ twinServers ∧ m.lastAckEpoch > 1 ∧
        m.electionWeight > (mkMember 1 ['A'] 5 false).electionWeight :=
  ⟨by decide, { mkMember 1 ['A'] 9 false with lastAckEpoch := 3 },
    List.mem_singleton.2 rfl, by decide, by decide⟩

/-- C11 (amended): `getMaxWeightServerId` returns the local server's id when no non-null
member has both `lastAckEpoch > baseEpoch` and a weight above the local weight; otherwise
it returns the id of the lowest-position member among those with
`lastAckEpoch > baseEpoch` whose weight is the maximum over such members, a member that
outweighs the local server. When none of the members with `lastAckEpoch > baseEpoch` that
outweigh the local server carries the local server's id, the local id is returned exactly
in the first case. `needWeightElection w` is true iff some non-null member has a weight
above `w`. -/
theorem C11_weighted_preference (servers : List ServerRef) (baseEpoch : Nat)
    (localServer : Server) :
    ((¬ ∃ m, some m ∈ servers ∧ m.lastAckEpoch > baseEpoch ∧
          m.electionWeight > localServer.electionWeight) →
      getMaxWeightServerId servers baseEpoch localServer = localServer.serverId) ∧
    ((∃ m, some m ∈ servers ∧ m.lastAckEpoch > baseEpoch ∧
          m.electionWeight > localServer.electionWeight) →
      ∃ i m, IsFirstHeaviest servers baseEpoch i m ∧
        m.electionWeight > localServer.electionWeight ∧
        getMaxWeightServerId servers baseEpoch localServer = m.serverId) ∧
    ((∀ m, some m ∈ servers → m.lastAckEpoch > baseEpoch →
          m.electionWeight > localServer.electionWeight →
          m.serverId ≠ localServer.serverId) →
      (getMaxWeightServerId servers baseEpoch localServer = localServer.serverId ↔
        ¬ ∃ m, some m ∈ servers ∧ m.lastAckEpoch > baseEpoch ∧
            m.electionWeight > localServer.electionWeight)) ∧
    (∀ w, needWeightElection servers w = true ↔
      ∃ m, some m ∈ servers ∧ m.electionWeight > w) := by
  obtain ⟨h1, h2⟩ := getMaxWeightServerId_spec servers baseEpoch localServer
  refine ⟨h1, h2, ?_, needWeightElection_iff servers⟩
  intro hid
  refine ⟨?_, h1⟩
  intro hres hex
  obtain ⟨i, m, hf, hw, hm⟩ := h2 hex
  have hmem : some m ∈ servers := List.getElem?_mem hf.1
  exact hid m hmem hf.2.1 hw (by rw [← hm, hres])

/-- C11 (amended) applied to the members `A`, `B`, `C`, `D` and the local server `A`: with
base epoch 5 no member has acknowledged a later epoch and the local id 1 is returned;
with base epoch 1 the member `C` in slot 2 is preferred, and the id returned is not the
local one. -/
theorem C11_weighted_preference_witness :
    (¬ ∃ m, some m ∈ epochServers ∧ m.lastAckEpoch > 5 ∧ m.electionWeight > 5) ∧
    getMaxWeightServerId epochServers 5 { mkMember 1 ['A'] 5 false with lastAckEpoch := 3 } = 1 ∧
    (∃ m, some m ∈ epochServers ∧ m.lastAckEpoch > 1 ∧ m.electionWeight > 5) ∧
    (∃ i m, IsFirstHeaviest epochServers 1 i m ∧ m.electionWeight > 5 ∧
      getMaxWeightServerId epochServers 1 { mkMember 1 ['A'] 5 false with lastAckEpoch := 3 }
        = m.serverId) ∧
    getMaxWeightServerId epochServers 1 { mkMember 1 ['A'] 5 false with lastAckEpoch := 3 } = 3 ∧
    (∀ m, some m ∈ epochServers → m.lastAckEpoch > 1 → m.electionWeight > 5 →
      m.serverId ≠ 1) ∧
    (getMaxWeightServerId epochServers 1 { mkMember 1 ['A'] 5 false with lastAckEpoch := 3 }
        = 1 ↔
      ¬ ∃ m, some m ∈ epochServers ∧ m.lastAckEpoch > 1 ∧ m.electionWeight > 5) :=
  have hnone : ¬ ∃ m, some m ∈ epochServers ∧ m.lastAckEpoch > 5 ∧ m.electionWeight > 5 := by
    rintro ⟨m, hm, h1, h2⟩
    simp only [epochServers, List.mem_cons, Option.some.injEq, List.mem_singleton,
      List.not_mem_nil, or_false] at hm
    rcases hm with rfl | rfl | rfl | rfl <;> simp [mkMember] at h1 h2
  have hsome : ∃ m, some m ∈ epochServers ∧ m.lastAckEpoch > 1 ∧ m.electionWeight > 5 :=
    ⟨{ mkMember 3 ['C'] 7 false with lastAckEpoch := 4 }, by simp [epochServers],
      by decide, by decide⟩
  have hid : ∀ m, some m ∈ epochServers → m.lastAckEpoch > 1 → m.electionWeight > 5 →
      m.serverId ≠ 1 := by
    intro m hm h1 h2
    simp only [epochServers, List.mem_cons, Option.some.injEq, List.mem_singleton,
      List.not_mem_nil, or_false] at hm
    rcases hm with rfl | rfl | rfl | rfl <;> simp [mkMember] at h1 h2 ⊢
  ⟨hnone,
    (C11_weighted_preference epochServers 5
      { mkMember 1 ['A'] 5 false with lastAckEpoch := 3 }).1 hnone,
    hsome,
    (C11_weighted_preference epochServers 1
      { mkMember 1 ['A'] 5 false with lastAckEpoch := 3 }).2.1 hsome,
    by decide, hid,
    (C11_weighted_preference epochServers 1
      { mkMember 1 ['A'] 5 false with lastAckEpoch := 3 }).2.2.1 hid⟩

/-! ## Separators that follow a `$` -/

theorem find_bounds (str : List Char) (c : Char) (start stop : Nat)
    (h : find str c start = some stop) : start ≤ stop ∧ stop < str.length := by
  unfold find at h
  dsimp only at h
  split at h
  · rename_i hlt
    simp only [Option.some.injEq] at h
    rw [List.length_drop] at hlt
    omega
  · cases h

theorem stringToVectorLoop_total (str : List Char) (fuel : Nat) :
    ∀ (ret : List (List Char)) (start : Nat), start ≤ str.length → str.length < fuel + start →
      ∃ ret2 start2, stringToVectorLoop str fuel ret start = some (ret2, start2) := by
  induction fuel with
  | zero =>
    intro ret start h1 h2
    omega
  | succ fuel ih =>
    intro ret start hle h
    unfold stringToVectorLoop
    cases h1 : find str ';' start with
    | none => exact ⟨ret, start, rfl⟩
    | some stop =>
      have hb := find_bounds str ';' start stop h1
      dsimp only
      by_cases hc : stop > 1 ∧ str.getD (stop - 1) (Char.ofNat 0) = '$'
      · rw [if_pos hc]
        cases h2 : find str ';' (stop + 1) with
        | none => exact ⟨ret, start, rfl⟩
        | some stop2 =>
          have hb2 := find_bounds str ';' (stop + 1) stop2 h2
          exact ih (ret ++ [substr str start (some (stop2 - start))]) (stop2 + 1)
            (by omega) (by omega)
      · rw [if_neg hc]
        exact ih (ret ++ [substr str start (some (stop - start))]) (stop + 1)
          (by omega) (by omega)

theorem stringToVectorLoop_skip (pre a b rest : List Char) (ret : List (List Char))
    (fuel : Nat) (ha : ';' ∉ a) (hb : ';' ∉ b) (hpos : 1 < pre.length + (a.length + 1)) :
    stringToVectorLoop (pre ++ (a ++ '$' :: ';' :: (b ++ ';' :: rest))) (fuel + 1) ret pre.length
      = stringToVectorLoop (pre ++ (a ++ '$' :: ';' :: (b ++ ';' :: rest))) fuel
          (ret ++ [a ++ '$' :: ';' :: b]) (pre.length + (a.length + 2 + b.length) + 1) := by
  have ha2 : ';' ∉ a ++ ['$'] := by
    simp only [List.mem_append, List.mem_singleton, not_or]
    exact ⟨ha, by decide⟩
  have e1 : pre ++ (a ++ '$' :: ';' :: (b ++ ';' :: rest))
      = pre ++ ((a ++ ['$']) ++ ';' :: (b ++ ';' :: rest)) := by simp
  have e2 : pre ++ (a ++ '$' :: ';' :: (b ++ ';' :: rest))
      = (pre ++ (a ++ ['$', ';'])) ++ (b ++ ';' :: rest) := by simp
  have e3 : pre ++ (a ++ '$' :: ';' :: (b ++ ';' :: rest))
      = pre ++ ((a ++ '$' :: ';' :: b) ++ ';' :: rest) := by simp
  have hf1 : find (pre ++ (a ++ '$' :: ';' :: (b ++ ';' :: rest))) ';' pre.length
      = some (pre.length + (a.length + 1)) := by
    rw [e1]
    simpa using find_append_hit pre (a ++ ['$']) (b ++ ';' :: rest) ';' ha2
  have hd : (pre ++ (a ++ '$' :: ';' :: (b ++ ';' :: rest))).getD
      (pre.length + (a.length + 1) - 1) (Char.ofNat 0) = '$' := by
    rw [e1]
    have := getD_append_last pre (a ++ ['$']) (';' :: (b ++ ';' :: rest)) (Char.ofNat 0)
      (by simp)
    simpa using this
  have hf2 : find (pre ++ (a ++ '$' :: ';' :: (b ++ ';' :: rest))) ';'
      (pre.length + (a.length + 1) + 1) = some (pre.length + (a.length + 2 + b.length)) := by
    rw [e2]
    have := find_append_hit (pre ++ (a ++ ['$', ';'])) b rest ';' hb
    have hl : (pre ++ (a ++ ['$', ';'])).length = pre.length + (a.length + 1) + 1 := by
      simp only [List.length_append, List.length_cons, List.length_nil]
      omega
    rw [hl] at this
    rw [this]
    congr 1
    omega
  have hs : substr (pre ++ (a ++ '$' :: ';' :: (b ++ ';' :: rest))) pre.length
      (some (pre.length + (a.length + 2 + b.length) - pre.length)) = a ++ '$' :: ';' :: b := by
    rw [e3]
    have := substr_mid pre (a ++ '$' :: ';' :: b) (';' :: rest)
    have hl : (a ++ '$' :: ';' :: b).length = a.length + 2 + b.length := by
      simp only [List.length_append, List.length_cons]
      omega
    rw [hl] at this
    exact this
  rw [stringToVectorLoop]
  simp only [hf1, hpos, hd, gt_iff_lt, and_self, if_true, hf2, hs]

theorem stringToVectorLoop_skip_last (pre a b : List Char) (ret : List (List Char))
    (fuel : Nat) (ha : ';' ∉ a) (hb : ';' ∉ b) (hpos : 1 < pre.length + (a.length + 1)) :
    stringToVectorLoop (pre ++ (a ++ '$' :: ';' :: b)) (fuel + 1) ret pre.length
      = some (ret, pre.length) := by
  have ha2 : ';' ∉ a ++ ['$'] := by
    simp only [List.mem_append, List.mem_singleton, not_or]
    exact ⟨ha, by decide⟩
  have e1 : pre ++ (a ++ '$' :: ';' :: b) = pre ++ ((a ++ ['$']) ++ ';' :: b) := by simp
  have e2 : pre ++ (a ++ '$' :: ';' :: b) = (pre ++ (a ++ ['$', ';'])) ++ b := by simp
  have hf1 : find (pre ++ (a ++ '$' :: ';' :: b)) ';' pre.length
      = some (pre.length + (a.length + 1)) := by
    rw [e1]
    simpa using find_append_hit pre (a ++ ['$']) b ';' ha2
  have hd : (pre ++ (a ++ '$' :: ';' :: b)).getD
      (pre.length + (a.length + 1) - 1) (Char.ofNat 0) = '$' := by
    rw [e1]
    have := getD_append_last pre (a ++ ['$']) (';' :: b) (Char.ofNat 0) (by simp)
    simpa using this
  have hf2 : find (pre ++ (a ++ '$' :: ';' :: b)) ';' (pre.length + (a.length + 1) + 1)
      = none := by
    rw [e2]
    have := find_append_miss (pre ++ (a ++ ['$', ';'])) b ';' hb
    have hl : (pre ++ (a ++ ['$', ';'])).length = pre.length + (a.length + 1) + 1 := by
      simp only [List.length_append, List.length_cons, List.length_nil]
      omega
    rw [hl] at this
    exact this
  rw [stringToVectorLoop]
  simp only [hf1, hpos, hd, gt_iff_lt, and_self, if_true, hf2]

/-- C12 (as stated, refuted): in `$;5` the `;` directly follows `$` and still ends the
first element; in `M$;$;x` the second `;` directly follows `$` and ends the element;
in `a$@1` the `@` directly follows `$`, the index is left unchanged, and the last element
is `a$`, not the remainder `a$@1`. -/
theorem C12_separator_counterexample :
    stringToVector "$;5".toList 7 = some (["$".toList, "5".toList], 7) ∧
    stringToVector "M$;$;x".toList 7 = some (["M$;$".toList, "x".toList], 7) ∧
    stringToVector "a$@1".toList 7 = some (["a$".toList], 7) := by
  decide

theorem first_split (c : Char) (s : List Char) (h : c ∈ s) :
    ∃ a t, s = a ++ c :: t ∧ c ∉ a := by
  induction s with
  | nil => cases h
  | cons x xs ih =>
    by_cases hx : x = c
    · exact ⟨[], xs, by rw [hx]; rfl, by simp⟩
    · have hmem : c ∈ xs := by
        rcases List.mem_cons.1 h with h1 | h1
        · exact absurd h1.symm hx
        · exact h1
      obtain ⟨a, t, hs, ha⟩ := ih hmem
      refine ⟨x :: a, t, by rw [hs]; rfl, ?_⟩
      intro hc
      rcases List.mem_cons.1 hc with h1 | h1
      · exact hx h1.symm
      · exact ha h1

theorem cutAt_miss (c : Char) (s : List Char) (h : c ∉ s) : cutAt c s = none := by
  induction s with
  | nil => rfl
  | cons x xs ih =>
    have hx : ¬ x = c := fun e => h (by rw [e]; exact List.mem_cons_self _ _)
    have hxs : c ∉ xs := fun e => h (List.mem_cons_of_mem _ e)
    rw [cutAt, if_neg hx, ih hxs]

theorem cutAt_hit (c : Char) (a t : List Char) (h : c ∉ a) :
    cutAt c (a ++ c :: t) = some (a, t) := by
  induction a with
  | nil => simp [cutAt]
  | cons x xs ih =>
    have hx : ¬ x = c := fun e => h (by rw [e]; exact List.mem_cons_self _ _)
    have hxs : c ∉ xs := fun e => h (List.mem_cons_of_mem _ e)
    rw [List.cons_append, cutAt, if_neg hx, ih hxs]

theorem splitScan_run (a : List Char) (h : ';' ∉ a) :
    ∀ (pos : Nat) (cs acc : List Char) (skipped : Bool),
      splitScan pos (a ++ cs) acc skipped = splitScan (pos + a.length) cs (acc ++ a) skipped := by
  induction a with
  | nil =>
    intro pos cs acc skipped
    simp
  | cons x xs ih =>
    intro pos cs acc skipped
    have hx : ¬ x = ';' := fun e => h (by rw [e]; exact List.mem_cons_self _ _)
    have hxs : ';' ∉ xs := fun e => h (List.mem_cons_of_mem _ e)
    rw [List.cons_append, splitScan, if_neg hx, ih hxs]
    have e1 : pos + 1 + xs.length = pos + (x :: xs).length := by
      simp only [List.length_cons]
      omega
    have e2 : acc ++ [x] ++ xs = acc ++ x :: xs := by simp
    rw [e1, e2]

theorem splitScan_rest (a : List Char) (h : ';' ∉ a) (pos : Nat) (acc : List Char)
    (skipped : Bool) : splitScan pos a acc skipped = ([], acc ++ a) := by
  have := splitScan_run a h pos [] acc skipped
  rw [List.append_nil] at this
  rw [this, splitScan]

/-- The start of an element: the start of the string or the position after a `;`. -/
theorem dollar_before_iff (pre a rest : List Char)
    (hpre : pre = [] ∨ ∃ p, pre = p ++ [';']) :
    (pre.length + a.length > 1 ∧
        (pre ++ (a ++ rest)).getD (pre.length + a.length - 1) (Char.ofNat 0) = '$')
      ↔ (pre.length + a.length > 1 ∧ a.getLast? = some '$') := by
  by_cases ha : a = []
  · subst ha
    simp only [List.length_nil, Nat.add_zero, List.nil_append, List.getLast?_nil]
    constructor
    · rintro ⟨h1, h2⟩
      rcases hpre with hp | ⟨p, hp⟩
      · rw [hp] at h1
        simp at h1
      · exfalso
        have hne : p ++ [';'] ≠ [] := by simp
        have := getD_append_last [] (p ++ [';']) rest (Char.ofNat 0) hne
        simp only [List.nil_append, List.length_nil, Nat.zero_add] at this
        rw [hp] at h2
        rw [this] at h2
        simp at h2
    · rintro ⟨_, h2⟩
      cases h2
  · rw [getD_append_last pre a rest _ ha, List.getLast?_eq_getLast _ ha]
    simp

theorem stringToVectorLoop_scan (fuel : Nat) :
    ∀ (s pre : List Char) (ret : List (List Char)),
      (pre = [] ∨ ∃ p, pre = p ++ [';']) → s.length < fuel →
      ∃ consumed, s = consumed ++ (splitScan pre.length s [] false).2
        ∧ (pre ++ consumed = [] ∨ ∃ p, pre ++ consumed = p ++ [';'])
        ∧ stringToVectorLoop (pre ++ s) fuel ret pre.length
          = some (ret ++ (splitScan pre.length s [] false).1,
              pre.length + consumed.length) := by
  induction fuel with
  | zero =>
    intro s pre ret _ h
    omega
  | succ fuel ih =>
    intro s pre ret hpre hfuel
    by_cases hmem : ';' ∈ s
    · obtain ⟨a, t, hs, ha⟩ := first_split ';' s hmem
      subst hs
      have hfind := find_append_hit pre a t ';' ha
      have hcond := dollar_before_iff pre a (';' :: t) hpre
      have hrun : splitScan pre.length (a ++ ';' :: t) [] false
          = splitScan (pre.length + a.length) (';' :: t) a false := by
        rw [splitScan_run a ha, List.nil_append]
      have hlen : (a ++ ';' :: t).length = a.length + 1 + t.length := by
        simp only [List.length_append, List.length_cons]
        omega
      rw [hlen] at hfuel
      by_cases hc : pre.length + a.length > 1 ∧ a.getLast? = some '$'
      · have hc1 := hcond.2 hc
        have hscan : splitScan (pre.length + a.length) (';' :: t) a false
            = splitScan (pre.length + a.length + 1) t (a ++ [';']) true := by
          rw [splitScan, if_pos rfl, if_pos ⟨rfl, hc⟩]
        by_cases hmem2 : ';' ∈ t
        · obtain ⟨b, u, ht, hb⟩ := first_split ';' t hmem2
          subst ht
          have e2 : pre ++ (a ++ ';' :: (b ++ ';' :: u))
              = (pre ++ (a ++ [';'])) ++ (b ++ ';' :: u) := by simp
          have l2 : (pre ++ (a ++ [';'])).length = pre.length + a.length + 1 := by
            simp only [List.length_append, List.length_cons, List.length_nil]
            omega
          have hfind2 : find (pre ++ (a ++ ';' :: (b ++ ';' :: u))) ';'
              (pre.length + a.length + 1) = some (pre.length + a.length + 1 + b.length) := by
            have := find_append_hit (pre ++ (a ++ [';'])) b u ';' hb
            rw [l2, ← e2] at this
            exact this
          have e3 : pre ++ (a ++ ';' :: (b ++ ';' :: u))
              = pre ++ ((a ++ ';' :: b) ++ ';' :: u) := by simp
          have l3 : (a ++ ';' :: b).length = a.length + 1 + b.length := by
            simp only [List.length_append, List.length_cons]
            omega
          have hsub : substr (pre ++ (a ++ ';' :: (b ++ ';' :: u))) pre.length
              (some (pre.length + a.length + 1 + b.length - pre.length)) = a ++ ';' :: b := by
            have := substr_mid pre (a ++ ';' :: b) (';' :: u)
            rw [l3, ← e3] at this
            have e4 : pre.length + a.length + 1 + b.length - pre.length
                = pre.length + (a.length + 1 + b.length) - pre.length := by omega
            rw [e4]
            exact this
          have e5 : pre ++ (a ++ ';' :: (b ++ ';' :: u))
              = (pre ++ (a ++ ';' :: b ++ [';'])) ++ u := by simp
          have l5 : (pre ++ (a ++ ';' :: b ++ [';'])).length
              = pre.length + a.length + 1 + b.length + 1 := by
            simp only [List.length_append, List.length_cons, List.length_nil]
            omega
          have hlenu : u.length < fuel := by
            simp only [List.length_append, List.length_cons] at hfuel
            omega
          obtain ⟨consumed, hrem, hpre2, hloop⟩ := ih u (pre ++ (a ++ ';' :: b ++ [';']))
            (ret ++ [a ++ ';' :: b]) (Or.inr ⟨pre ++ (a ++ ';' :: b), by simp⟩) hlenu
          rw [l5, ← e5] at hloop
          have hscan2 : splitScan (pre.length + a.length + 1) (b ++ ';' :: u) (a ++ [';']) true
              = ((a ++ ';' :: b)
                  :: (splitScan (pre.length + a.length + 1 + b.length + 1) u [] false).1,
                (splitScan (pre.length + a.length + 1 + b.length + 1) u [] false).2) := by
            rw [splitScan_run b hb, splitScan, if_pos rfl, if_neg (by simp)]
            simp
          rw [l5] at hrem
          refine ⟨(a ++ ';' :: b ++ [';']) ++ consumed, ?_, ?_, ?_⟩
          · rw [hrun, hscan, hscan2]
            dsimp only
            rw [List.append_assoc, ← hrem]
            simp
          · rw [← List.append_assoc]
            exact hpre2
          · rw [stringToVectorLoop, hfind]
            dsimp only
            rw [if_pos hc1, hfind2]
            dsimp only
            rw [hsub, hloop, hrun, hscan, hscan2]
            dsimp only
            simp only [List.append_assoc, List.singleton_append, List.length_append,
              List.length_cons, List.length_nil, Option.some.injEq, Prod.mk.injEq, true_and]
            omega
        · have e2 : pre ++ (a ++ ';' :: t) = (pre ++ (a ++ [';'])) ++ t := by simp
          have l2 : (pre ++ (a ++ [';'])).length = pre.length + a.length + 1 := by
            simp only [List.length_append, List.length_cons, List.length_nil]
            omega
          have hfind2 : find (pre ++ (a ++ ';' :: t)) ';' (pre.length + a.length + 1)
              = none := by
            have := find_append_miss (pre ++ (a ++ [';'])) t ';' hmem2
            rw [l2, ← e2] at this
            exact this
          have hscan2 : splitScan (pre.length + a.length + 1) t (a ++ [';']) true
              = ([], a ++ ';' :: t) := by
            rw [splitScan_rest t hmem2]
            simp
          refine ⟨[], ?_, ?_, ?_⟩
          · rw [hrun, hscan, hscan2]
            rfl
          · rw [List.append_nil]
            exact hpre
          · rw [stringToVectorLoop, hfind]
            dsimp only
            rw [if_pos hc1, hfind2, hrun, hscan, hscan2]
            simp
      · have hc1 : ¬ (pre.length + a.length > 1 ∧
            (pre ++ (a ++ ';' :: t)).getD (pre.length + a.length - 1) (Char.ofNat 0) = '$') :=
          fun h => hc (hcond.1 h)
        have hscan : splitScan (pre.length + a.length) (';' :: t) a false
            = (a :: (splitScan (pre.length + a.length + 1) t [] false).1,
                (splitScan (pre.length + a.length + 1) t [] false).2) := by
          rw [splitScan, if_pos rfl, if_neg (fun h => hc h.2)]
        have e5 : pre ++ (a ++ ';' :: t) = (pre ++ (a ++ [';'])) ++ t := by simp
        have l5 : (pre ++ (a ++ [';'])).length = pre.length + a.length + 1 := by
          simp only [List.length_append, List.length_cons, List.length_nil]
          omega
        have hsub : substr (pre ++ (a ++ ';' :: t)) pre.length
            (some (pre.length + a.length - pre.length)) = a :=
          substr_mid pre a (';' :: t)
        obtain ⟨consumed, hrem, hpre2, hloop⟩ := ih t (pre ++ (a ++ [';']))
          (ret ++ [a]) (Or.inr ⟨pre ++ a, by simp⟩) (by omega)
        rw [l5, ← e5] at hloop
        rw [l5] at hrem
        refine ⟨(a ++ [';']) ++ consumed, ?_, ?_, ?_⟩
        · rw [hrun, hscan]
          dsimp only
          rw [List.append_assoc, ← hrem]
          simp
        · rw [← List.append_assoc]
          exact hpre2
        · rw [stringToVectorLoop, hfind]
          dsimp only
          rw [if_neg hc1]
          dsimp only
          rw [hsub, hloop, hrun, hscan]
          simp only [List.append_assoc, List.singleton_append, List.length_append,
            List.length_cons, List.length_nil, Option.some.injEq, Prod.mk.injEq, true_and]
          omega
    · have hfind := find_append_miss pre s ';' hmem
      have hscan := splitScan_rest s hmem pre.length [] false
      rw [List.nil_append] at hscan
      refine ⟨[], ?_, ?_, ?_⟩
      · rw [hscan]
        rfl
      · rw [List.append_nil]
        exact hpre
      · rw [stringToVectorLoop, hfind, hscan]
        simp

/-- For every string, `stringToVector` returns what `StringToVectorSpec` describes. -/
theorem stringToVector_meets_spec (str : List Char) (cur : Nat) :
    StringToVectorSpec str cur (stringToVector str cur) := by
  obtain ⟨consumed, hrem, hpre, hloop⟩ :=
    stringToVectorLoop_scan (str.length + 1) str [] [] (Or.inl rfl) (by omega)
  simp only [List.nil_append, List.length_nil, Nat.zero_add] at hrem hpre hloop
  obtain ⟨r, hr⟩ : ∃ r, r = splitScan 0 str [] false := ⟨_, rfl⟩
  rw [← hr] at hrem hloop
  have hlen : str.length - r.2.length = consumed.length := by
    have := congrArg List.length hrem
    rw [List.length_append] at this
    omega
  unfold StringToVectorSpec stringToVector
  dsimp only
  rw [hloop, ← hr, hlen]
  dsimp only
  by_cases hmem : '@' ∈ r.2
  · obtain ⟨a, t, hs, ha⟩ := first_split '@' r.2 hmem
    have hstr : str = consumed ++ (a ++ '@' :: t) := by rw [← hs]; exact hrem
    have hfind : find str '@' consumed.length = some (consumed.length + a.length) := by
      rw [hstr]
      exact find_append_hit consumed a t '@' ha
    have hcut : cutAt '@' r.2 = some (a, t) := by
      rw [hs]
      exact cutAt_hit '@' a t ha
    have hcond := dollar_before_iff consumed a ('@' :: t) hpre
    rw [← hstr] at hcond
    have hsub : substr str consumed.length (some (consumed.length + a.length - consumed.length))
        = a := by
      rw [hstr]
      exact substr_mid consumed a ('@' :: t)
    have hrest : substr str (consumed.length + a.length + 1) none = t := by
      have e : str = (consumed ++ (a ++ ['@'])) ++ t := by rw [hstr]; simp
      have l : (consumed ++ (a ++ ['@'])).length = consumed.length + a.length + 1 := by
        simp only [List.length_append, List.length_cons, List.length_nil]
        omega
      rw [← l, e]
      exact substr_tail _ _
    have hne : str.length ≠ 0 := by
      rw [hstr]
      simp
    rw [hfind, hcut]
    dsimp only
    rw [hsub, hrest]
    by_cases hc : consumed.length + a.length > 1 ∧ a.getLast? = some '$'
    · rw [if_pos (hcond.2 hc), if_pos hc, if_pos hne]
      exact ⟨a, rfl⟩
    · rw [if_neg (fun h => hc (hcond.1 h)), if_neg hc]
      cases stoull t <;> rfl
  · have hfind : find str '@' consumed.length = none := by
      rw [hrem]
      exact find_append_miss consumed r.2 '@' hmem
    have hcut : cutAt '@' r.2 = none := cutAt_miss '@' r.2 hmem
    have hsub : substr str consumed.length none = r.2 := by
      have := substr_tail consumed r.2
      rw [← hrem] at this
      exact this
    rw [hfind, hcut]
    dsimp only
    rw [hsub]
    by_cases he : str = []
    · rw [if_neg (by rw [he]; simp), if_neg (by simp [he])]
    · rw [if_pos (by intro h; exact he (List.length_eq_zero.1 h)), if_pos he]

theorem splitScan_tokens (ts : List (List Char))
    (htok : ∀ t ∈ ts, ';' ∉ t ∧ t.getLast? ≠ some '$') :
    ∀ (pos : Nat) (s : List Char),
      splitScan pos (joinTrailing ';' ts ++ s) [] false
        = (ts ++ (splitScan (pos + (joinTrailing ';' ts).length) s [] false).1,
            (splitScan (pos + (joinTrailing ';' ts).length) s [] false).2) := by
  induction ts with
  | nil =>
    intro pos s
    simp [joinTrailing]
  | cons t ts ih =>
    intro pos s
    have ht := htok t (List.mem_cons_self _ _)
    have e1 : joinTrailing ';' (t :: ts) ++ s = t ++ (';' :: (joinTrailing ';' ts ++ s)) := by
      simp [joinTrailing]
    have hno : ¬ (false = false ∧ pos + t.length > 1 ∧ t.getLast? = some '$') :=
      fun h => ht.2 h.2.2
    rw [e1, splitScan_run t ht.1, List.nil_append, splitScan, if_pos rfl, if_neg hno,
      ih (fun x hx => htok x (List.mem_cons_of_mem _ hx))]
    have e2 : pos + t.length + 1 + (joinTrailing ';' ts).length
        = pos + (joinTrailing ';' (t :: ts)).length := by
      simp only [joinTrailing, List.length_append, List.length_cons]
      omega
    rw [e2]
    rfl

/-- A vector that `StringToVectorSpec` allows starts with the elements that end at a
`;`. -/
theorem stringToVectorSpec_elements (str : List Char) (cur : Nat) (vec : List (List Char))
    (k : Nat) (h : StringToVectorSpec str cur (some (vec, k))) :
    vec = (splitScan 0 str [] false).1
      ∨ ∃ last, vec = (splitScan 0 str [] false).1 ++ [last] := by
  unfold StringToVectorSpec at h
  dsimp only at h
  split at h
  · simp only [Option.some.injEq, Prod.mk.injEq] at h
    rw [h.1]
    split
    · exact Or.inr ⟨_, rfl⟩
    · exact Or.inl rfl
  · split at h
    · obtain ⟨last, h⟩ := h
      simp only [Option.some.injEq, Prod.mk.injEq] at h
      exact Or.inr ⟨last, h.1⟩
    · rw [eq_comm, Option.map_eq_some'] at h
      obtain ⟨v, -, hv⟩ := h
      simp only [Prod.mk.injEq] at hv
      exact Or.inr ⟨_, hv.1.symm⟩

/-- C12 (amended): for every string, `stringToVector` returns what `StringToVectorSpec`
describes. In particular, after elements that do not end in `$`: a `;` that is the first
of its element, directly follows `$` and lies at a position above 1 stays inside the
returned element, which ends at the next `;` whatever precedes that one; the `;` at
position 1 of a string that begins with `$;` ends the element `$`; when no `;` follows
the kept one, the text from the start of the element is the last element; and when the
first `@` of the remainder directly follows `$` at a position above 1, the call returns
with `currentIndex` unchanged. -/
theorem C12_separator_amended :
    (∀ (str : List Char) (cur : Nat), StringToVectorSpec str cur (stringToVector str cur)) ∧
    (∀ (ts : List (List Char)) (a b rest : List Char) (cur : Nat) (vec : List (List Char))
        (k : Nat),
      (∀ t ∈ ts, ';' ∉ t ∧ t.getLast? ≠ some '$') → ';' ∉ a → ';' ∉ b →
      1 < (joinTrailing ';' ts).length + (a.length + 1) →
      stringToVector (joinTrailing ';' ts ++ (a ++ '$' :: ';' :: (b ++ ';' :: rest))) cur
        = some (vec, k) →
      ∃ more, vec = ts ++ (a ++ '$' :: ';' :: b) :: more) ∧
    (∀ (rest : List Char) (cur : Nat) (vec : List (List Char)) (k : Nat),
      stringToVector ('$' :: ';' :: rest) cur = some (vec, k) →
      ∃ more, vec = ['$'] :: more) ∧
    (∀ (ts : List (List Char)) (a b : List Char) (cur : Nat),
      (∀ t ∈ ts, ';' ∉ t ∧ t.getLast? ≠ some '$') → ';' ∉ a → ';' ∉ b →
      '@' ∉ a → '@' ∉ b → 1 < (joinTrailing ';' ts).length + (a.length + 1) →
      stringToVector (joinTrailing ';' ts ++ (a ++ '$' :: ';' :: b)) cur
        = some (ts ++ [a ++ '$' :: ';' :: b], cur)) ∧
    (∀ (ts : List (List Char)) (a t : List Char) (cur : Nat),
      (∀ t ∈ ts, ';' ∉ t ∧ t.getLast? ≠ some '$') → ';' ∉ a → '@' ∉ a → ';' ∉ t →
      1 < (joinTrailing ';' ts).length + (a.length + 1) →
      ∃ vec, stringToVector (joinTrailing ';' ts ++ (a ++ '$' :: '@' :: t)) cur
        = some (vec, cur)) := by
  refine ⟨stringToVector_meets_spec, ?_, ?_, ?_, ?_⟩
  · intro ts a b rest cur vec k htok ha hb hpos h
    have hspec := stringToVector_meets_spec
      (joinTrailing ';' ts ++ (a ++ '$' :: ';' :: (b ++ ';' :: rest))) cur
    rw [h] at hspec
    have ha2 : ';' ∉ a ++ ['$'] := by
      simp only [List.mem_append, List.mem_singleton, not_or]
      exact ⟨ha, by decide⟩
    have e1 : a ++ '$' :: ';' :: (b ++ ';' :: rest)
        = (a ++ ['$']) ++ (';' :: (b ++ ';' :: rest)) := by simp
    have hc : false = false ∧ 0 + (joinTrailing ';' ts).length + (a ++ ['$']).length > 1
        ∧ ([] ++ (a ++ ['$'])).getLast? = some '$' := by
      refine ⟨rfl, ?_, by simp⟩
      simp only [List.length_append, List.length_cons, List.length_nil]
      omega
    have hscan : (splitScan 0
        (joinTrailing ';' ts ++ (a ++ '$' :: ';' :: (b ++ ';' :: rest))) [] false).1
        = ts ++ (a ++ '$' :: ';' :: b)
          :: (splitScan (0 + (joinTrailing ';' ts).length + (a ++ ['$']).length + 1
                + b.length + 1) rest [] false).1 := by
      rw [splitScan_tokens ts htok, e1, splitScan_run _ ha2, splitScan, if_pos rfl, if_pos hc,
        splitScan_run b hb, splitScan, if_pos rfl, if_neg (by simp)]
      simp
    rcases stringToVectorSpec_elements _ cur vec k hspec with hv | ⟨last, hv⟩
    · rw [hv, hscan]
      exact ⟨_, rfl⟩
    · rw [hv, hscan, List.append_assoc, List.cons_append]
      exact ⟨_, rfl⟩
  · intro rest cur vec k h
    have hspec := stringToVector_meets_spec ('$' :: ';' :: rest) cur
    rw [h] at hspec
    have hscan : (splitScan 0 ('$' :: ';' :: rest) [] false).1
        = ['$'] :: (splitScan 2 rest [] false).1 := by
      rw [splitScan, if_neg (by decide), splitScan, if_pos rfl, if_neg (by simp)]
      rfl
    rcases stringToVectorSpec_elements _ cur vec k hspec with hv | ⟨last, hv⟩
    · rw [hv, hscan]
      exact ⟨_, rfl⟩
    · rw [hv, hscan, List.cons_append]
      exact ⟨_, rfl⟩
  · intro ts a b cur htok ha hb ha2 hb2 hpos
    have hspec := stringToVector_meets_spec
      (joinTrailing ';' ts ++ (a ++ '$' :: ';' :: b)) cur
    have hs : ';' ∉ a ++ ['$'] := by
      simp only [List.mem_append, List.mem_singleton, not_or]
      exact ⟨ha, by decide⟩
    have e1 : a ++ '$' :: ';' :: b = (a ++ ['$']) ++ (';' :: b) := by simp
    have hc : false = false ∧ 0 + (joinTrailing ';' ts).length + (a ++ ['$']).length > 1
        ∧ ([] ++ (a ++ ['$'])).getLast? = some '$' := by
      refine ⟨rfl, ?_, by simp⟩
      simp only [List.length_append, List.length_cons, List.length_nil]
      omega
    have hscan : splitScan 0 (joinTrailing ';' ts ++ (a ++ '$' :: ';' :: b)) [] false
        = (ts, a ++ '$' :: ';' :: b) := by
      rw [splitScan_tokens ts htok, e1, splitScan_run _ hs, splitScan, if_pos rfl, if_pos hc,
        splitScan_rest b hb]
      simp
    have hat : '@' ∉ a ++ '$' :: ';' :: b := by
      simp only [List.mem_append, List.mem_cons, not_or]
      exact ⟨ha2, by decide, by decide, hb2⟩
    have hne : joinTrailing ';' ts ++ (a ++ '$' :: ';' :: b) ≠ [] := by simp
    unfold StringToVectorSpec at hspec
    dsimp only at hspec
    rw [hscan] at hspec
    dsimp only at hspec
    rw [cutAt_miss '@' _ hat] at hspec
    dsimp only at hspec
    rw [if_pos hne] at hspec
    exact hspec
  · intro ts a t cur htok ha ha2 ht hpos
    have hspec := stringToVector_meets_spec
      (joinTrailing ';' ts ++ (a ++ '$' :: '@' :: t)) cur
    have hs : ';' ∉ a ++ '$' :: '@' :: t := by
      simp only [List.mem_append, List.mem_cons, not_or]
      exact ⟨ha, by decide, by decide, ht⟩
    have hscan : splitScan 0 (joinTrailing ';' ts ++ (a ++ '$' :: '@' :: t)) [] false
        = (ts, a ++ '$' :: '@' :: t) := by
      rw [splitScan_tokens ts htok, splitScan_rest _ hs]
      simp
    have hat : '@' ∉ a ++ ['$'] := by
      simp only [List.mem_append, List.mem_singleton, not_or]
      exact ⟨ha2, by decide⟩
    have e1 : a ++ '$' :: '@' :: t = (a ++ ['$']) ++ '@' :: t := by simp
    have hcut : cutAt '@' (a ++ '$' :: '@' :: t) = some (a ++ ['$'], t) := by
      rw [e1]
      exact cutAt_hit '@' _ t hat
    have hc : (joinTrailing ';' ts ++ (a ++ '$' :: '@' :: t)).length
          - (a ++ '$' :: '@' :: t).length + (a ++ ['$']).length > 1
        ∧ (a ++ ['$']).getLast? = some '$' := by
      refine ⟨?_, by simp⟩
      simp only [List.length_append, List.length_cons, List.length_nil]
      omega
    unfold StringToVectorSpec at hspec
    dsimp only at hspec
    rw [hscan] at hspec
    dsimp only at hspec
    rw [hcut] at hspec
    dsimp only at hspec
    rw [if_pos hc] at hspec
    obtain ⟨last, hlast⟩ := hspec
    exact ⟨_, hlast⟩

/-- C12 (amended) applied to `A#5;M$;$;x;y` (after the element `A#5`, the first `;` of the
second element follows `$` and stays inside it; the next `;` ends it although it follows
`$` as well), to `A#5;L$;7` (no `;` after the kept one) and to `A#5;a$@1` (the index
stays). -/
theorem C12_separator_amended_witness :
    stringToVector "A#5;M$;$;x;y".toList 7
      = some (["A#5".toList, "M$;$".toList, "x".toList, "y".toList], 7) ∧
    (∃ more, ["A#5".toList, "M$;$".toList, "x".toList, "y".toList]
      = ["A#5".toList] ++ ("M".toList ++ '$' :: ';' :: "$".toList) :: more) ∧
    stringToVector (joinTrailing ';' ["A#5".toList] ++ ("L".toList ++ '$' :: ';' :: "7".toList)) 3
      = some (["A#5".toList] ++ ["L".toList ++ '$' :: ';' :: "7".toList], 3) ∧
    ∃ vec, stringToVector (joinTrailing ';' ["A#5".toList]
        ++ ("a".toList ++ '$' :: '@' :: "1".toList)) 7 = some (vec, 7) :=
  have htok : ∀ t ∈ ["A#5".toList], ';' ∉ t ∧ t.getLast? ≠ some '$' := by
    intro t ht
    rw [List.mem_singleton.1 ht]
    exact ⟨by decide, by decide⟩
  have heval : stringToVector "A#5;M$;$;x;y".toList 7
      = some (["A#5".toList, "M$;$".toList, "x".toList, "y".toList], 7) := by decide
  ⟨heval,
    C12_separator_amended.2.1 ["A#5".toList] "M".toList "$".toList "x;y".toList 7 _ 7 htok
      (by decide) (by decide) (by decide) heval,
    C12_separator_amended.2.2.2.1 ["A#5".toList] "L".toList "7".toList 3 htok
      (by decide) (by decide) (by decide) (by decide) (by decide),
    C12_separator_amended.2.2.2.2 ["A#5".toList] "a".toList "1".toList 7 htok
      (by decide) (by decide) (by decide) (by decide)⟩

/-! ## Checksums and four-byte fields -/

theorem xor_cancel_right (x m : Nat) : (x ^^^ m) ^^^ m = x := by
  rw [Nat.xor_assoc, Nat.xor_self, Nat.xor_zero]

theorem my_checksum_append (c : Nat) (a b : List Nat) :
    my_checksum c (a ++ b) = my_checksum (my_checksum c a) b := by
  unfold my_checksum
  rw [List.foldl_append, xor_cancel_right]

theorem my_checksum_nil (c : Nat) : my_checksum c [] = c := by
  unfold my_checksum
  exact xor_cancel_right c _

theorem int4storeBytes_mod (v : Nat) : int4storeBytes (v % 2 ^ 32) = int4storeBytes v := by
  unfold int4storeBytes
  have h1 : v % 2 ^ 32 % 256 = v % 256 := by omega
  have h2 : v % 2 ^ 32 / 256 % 256 = v / 256 % 256 := by omega
  have h3 : v % 2 ^ 32 / 65536 % 256 = v / 65536 % 256 := by omega
  have h4 : v % 2 ^ 32 / 16777216 % 256 = v / 16777216 % 256 := by omega
  rw [h1, h2, h3, h4]

theorem int4store_mod (p : List Nat) (off v : Nat) :
    int4store p off (v % 2 ^ 32) = int4store p off v := by
  unfold int4store
  rw [int4storeBytes_mod]

theorem length_int4storeBytes (v : Nat) : (int4storeBytes v).length = 4 := rfl

theorem length_int4store (p : List Nat) (off v : Nat) (h : off + 4 ≤ p.length) :
    (int4store p off v).length = p.length := by
  unfold int4store
  simp only [List.length_append, List.length_take, List.length_drop, length_int4storeBytes]
  omega

theorem getD_take_of_lt (p : List Nat) (n i : Nat) (h : i < n) :
    (p.take n).getD i 0 = p.getD i 0 := by
  rw [List.getD_eq_getElem?_getD, List.getD_eq_getElem?_getD, List.getElem?_take_of_lt h]

theorem uint4korr_take (p : List Nat) (n off : Nat) (h : off + 4 ≤ n) :
    uint4korr (p.take n) off = uint4korr p off := by
  unfold uint4korr
  rw [getD_take_of_lt p n off (by omega), getD_take_of_lt p n (off + 1) (by omega),
    getD_take_of_lt p n (off + 2) (by omega), getD_take_of_lt p n (off + 3) (by omega)]

theorem uint4korr_append (p q : List Nat) (off : Nat) (h : off + 4 ≤ p.length) :
    uint4korr (p ++ q) off = uint4korr p off := by
  have hg : ∀ i, i < p.length → (p ++ q).getD i 0 = p.getD i 0 := by
    intro i hi
    rw [List.getD_eq_getElem?_getD, List.getD_eq_getElem?_getD, List.getElem?_append_left hi]
  unfold uint4korr
  rw [hg off (by omega), hg (off + 1) (by omega), hg (off + 2) (by omega),
    hg (off + 3) (by omega)]

theorem length_emittedHeader (hc footer : Bool) (endPos : Nat) (e : List Nat)
    (h : LOG_EVENT_HEADER_LEN ≤ e.length) :
    (emittedHeader hc footer endPos e).length = LOG_EVENT_HEADER_LEN := by
  have h19 : (e.take LOG_EVENT_HEADER_LEN).length = LOG_EVENT_HEADER_LEN := by
    rw [List.length_take]
    omega
  unfold emittedHeader
  rw [length_int4store]
  · split
    · rw [length_int4store, h19]
      rw [h19]
      decide
    · exact h19
  · split
    · rw [length_int4store, h19]
      · decide
      · rw [h19]
        decide
    · rw [h19]
      decide

/-! ## One event through `write` -/

theorem writeLoop_succ (fuel : Nat) (st : WriteState) (buf : List Nat) (h : buf ≠ []) :
    writeLoop (fuel + 1) st buf
      = match writeStep st buf with
        | none => none
        | some r => writeLoop fuel r.1 r.2 := by
  cases buf with
  | nil => exact absurd rfl h
  | cons b bs => rfl

theorem writeStep_header (hc footer : Bool) (p : Nat) (h out : List Nat) (crc : Option Nat)
    (e rest : List Nat) (hh : h.length = LOG_EVENT_HEADER_LEN) (hwf : WellFormedEvent e)
    (hlen : (e ++ rest).length < 2 ^ 32) :
    writeStep { w := cleanWriter hc footer true p h, ostream := out, out_crc := crc } (e ++ rest)
      = some
          ({ w :=
              { cleanWriter hc footer true ((p + emittedAdvance hc footer e) % 2 ^ 32)
                  (emittedHeader hc footer ((p + emittedAdvance hc footer e) % 2 ^ 32) e) with
                checksum :=
                  if hc then
                    my_checksum 0
                      (emittedHeader hc footer ((p + emittedAdvance hc footer e) % 2 ^ 32) e)
                  else my_checksum 0 []
                event_len := e.length - LOG_EVENT_HEADER_LEN },
             ostream := out
               ++ emittedHeader hc footer ((p + emittedAdvance hc footer e) % 2 ^ 32) e,
             out_crc := crc },
            e.drop LOG_EVENT_HEADER_LEN ++ rest) := by
  obtain ⟨hgt, hfield⟩ := hwf
  have hgt2 : 19 < e.length := hgt
  have hh2 : h.length = 19 := hh
  have hel : e.length < 2 ^ 32 := by
    rw [List.length_append] at hlen
    omega
  have hlen2 : e.length + rest.length < 4294967296 := by
    rw [List.length_append] at hlen
    omega
  have hmod : (e.length + rest.length) % 4294967296 = e.length + rest.length :=
    Nat.mod_eq_of_lt hlen2
  have hmin : min 19 (e.length + rest.length) = 19 := by omega
  have htake : (e ++ rest).take 19 = e.take 19 := by
    rw [List.take_append_of_le_length (by omega)]
  have hdrop : (e ++ rest).drop 19 = e.drop 19 ++ rest := by
    rw [List.drop_append_of_le_length (by omega)]
  have hhdrop : h.drop 19 = [] := List.drop_eq_nil_of_le (by omega)
  have hfield2 : uint4korr (e.take 19) EVENT_LEN_OFFSET = e.length := by
    rw [uint4korr_take e 19 EVENT_LEN_OFFSET (by decide), hfield]
  have hemod : e.length % 4294967296 = e.length := Nat.mod_eq_of_lt (by omega)
  have hev : (e.length + 4294967296 - 19) % 4294967296 = e.length - 19 := by omega
  have h19 : (e.take 19).length = 19 := by
    rw [List.length_take]
    omega
  have hl1 : ∀ v, (int4store (e.take 19) LOG_POS_OFFSET v).length = 19 := by
    intro v
    rw [length_int4store _ _ _ (by rw [h19]; decide), h19]
  have hl2 : ∀ v u,
      (int4store (int4store (e.take 19) EVENT_LEN_OFFSET u) LOG_POS_OFFSET v).length = 19 := by
    intro v u
    have : (int4store (e.take 19) EVENT_LEN_OFFSET u).length = 19 := by
      rw [length_int4store _ _ _ (by rw [h19]; decide), h19]
    rw [length_int4store _ _ _ (by rw [this]; decide), this]
  have hev2 : (e.length + 4294967277) % 4294967296 = e.length - 19 := by omega
  have ht1 : ∀ v, (int4store (e.take 19) LOG_POS_OFFSET v).take 19
      = int4store (e.take 19) LOG_POS_OFFSET v :=
    fun v => List.take_of_length_le (by rw [hl1])
  have ht2 : ∀ v u,
      (int4store (int4store (e.take 19) EVENT_LEN_OFFSET u) LOG_POS_OFFSET v).take 19
        = int4store (int4store (e.take 19) EVENT_LEN_OFFSET u) LOG_POS_OFFSET v :=
    fun v u => List.take_of_length_le (by rw [hl2])
  have hm4 : ∀ (q : List Nat) (off v : Nat),
      int4store q off (v % 4294967296) = int4store q off v := int4store_mod
  cases hc <;> cases footer <;>
    simp [writeStep, update_header, emittedHeader, emittedAdvance, LOG_EVENT_HEADER_LEN,
      BINLOG_CHECKSUM_LEN, my_checksum_nil, cleanWriter, hmod, hmin, htake, hdrop, hhdrop,
      hfield2, hemod, hev, hev2, hgt2.le, ht1, ht2, hm4, hl1, hl2, Nat.add_assoc]

theorem writeStep_body (hc footer : Bool) (p : Nat) (h out : List Nat) (crc : Option Nat)
    (e rest : List Nat) (c1 : Nat) (hgt : LOG_EVENT_HEADER_LEN < e.length)
    (hfoot : hc = true → footer = true → LOG_EVENT_HEADER_LEN + BINLOG_CHECKSUM_LEN ≤ e.length)
    (hel : e.length < 2 ^ 32) :
    writeStep
        { w := { cleanWriter hc footer true p h with
                  checksum := c1, event_len := e.length - LOG_EVENT_HEADER_LEN },
          ostream := out, out_crc := crc } (e.drop LOG_EVENT_HEADER_LEN ++ rest)
      = some
          ({ w := { cleanWriter hc footer true p h with
                      checksum := if hc then my_checksum 0 [] else c1 },
             ostream := out ++ emittedBody hc footer e
               ++ (if hc then int4storeBytes (my_checksum c1 (emittedBody hc footer e)) else []),
             out_crc := if hc then some (my_checksum c1 (emittedBody hc footer e)) else crc },
            rest) := by
  have hgt2 : 19 < e.length := hgt
  have hel2 : e.length < 4294967296 := hel
  have hne : e.length - 19 ≠ 0 := by omega
  have hmin : min (e.length - 19 + rest.length) (e.length - 19) = e.length - 19 := by omega
  have hev : (e.length - 19 + 4294967296 - (e.length - 19) % 4294967296) % 4294967296 = 0 := by
    omega
  have hd : (e.drop 19).length = e.length - 19 := List.length_drop 19 e
  have htake : (e.drop 19 ++ rest).take (e.length - 19) = e.drop 19 := by
    rw [List.take_append_of_le_length (by omega), List.take_of_length_le (by omega)]
  have hdrop : (e.drop 19 ++ rest).drop (e.length - 19) = rest := by
    rw [List.drop_append_of_le_length (by omega), List.drop_eq_nil_of_le (by omega)]
    rfl
  cases hc
  · cases footer <;>
      simp [writeStep, cleanWriter, emittedBody, LOG_EVENT_HEADER_LEN, BINLOG_CHECKSUM_LEN,
        hne, hmin, hev, htake, hdrop]
  · cases footer
    · simp [writeStep, cleanWriter, emittedBody, LOG_EVENT_HEADER_LEN, BINLOG_CHECKSUM_LEN,
        hne, hmin, hev, htake, hdrop, my_checksum_nil]
    · have h23 : 23 ≤ e.length := hfoot rfl rfl
      have hwb : (e.length - 19 + 18446744073709551616 - 4) % 18446744073709551616
          = e.length - 23 := by omega
      have hwb2 : (e.length - 23 + 4) % 18446744073709551616 = e.length - 19 := by omega
      have hwb3 : (e.length - 19 + 18446744073709551612) % 18446744073709551616
          = e.length - 23 := by omega
      have hwb4 : (e.length - 19 + 18446744073709551612 + 4) % 18446744073709551616
          = e.length - 19 := by omega
      have hev4 : (e.length - 19 + 4294967296 - (e.length - 19) % 4294967296) % 4294967296
          = 0 := hev
      have hle : e.length - 23 ≤ e.length - 19 + rest.length := by omega
      have htake2 : (e.drop 19 ++ rest).take (e.length - 23)
          = (e.drop 19).take (e.length - 19 - 4) := by
        rw [List.take_append_of_le_length (by omega)]
        congr 1
      simp [writeStep, cleanWriter, emittedBody, LOG_EVENT_HEADER_LEN, BINLOG_CHECKSUM_LEN,
        hne, hmin, hev, hdrop, my_checksum_nil, hwb, hwb2, hwb3, hwb4, hle, htake2]

/-- One complete event through the loop of `write`. -/
theorem writeLoop_event (hc footer : Bool) (p : Nat) (h out : List Nat) (crc : Option Nat)
    (e rest : List Nat) (fuel : Nat) (hh : h.length = LOG_EVENT_HEADER_LEN)
    (hwf : WellFormedEvent e)
    (hfoot : hc = true → footer = true → LOG_EVENT_HEADER_LEN + BINLOG_CHECKSUM_LEN ≤ e.length)
    (hlen : (e ++ rest).length < 2 ^ 32) :
    writeLoop (fuel + 2)
        { w := cleanWriter hc footer true p h, ostream := out, out_crc := crc } (e ++ rest)
      = writeLoop fuel
          { w := cleanWriter hc footer true ((p + emittedAdvance hc footer e) % 2 ^ 32)
              (emittedHeader hc footer ((p + emittedAdvance hc footer e) % 2 ^ 32) e),
            ostream := out
              ++ emittedEvent hc footer ((p + emittedAdvance hc footer e) % 2 ^ 32) e,
            out_crc :=
              if hc then
                some (emittedCrc hc footer ((p + emittedAdvance hc footer e) % 2 ^ 32) e)
              else crc }
          rest := by
  have hgt : LOG_EVENT_HEADER_LEN < e.length := hwf.1
  have hgt2 : 19 < e.length := hgt
  have hel : e.length < 2 ^ 32 := by
    rw [List.length_append] at hlen
    omega
  have hne1 : e ++ rest ≠ [] := by
    intro hc
    have := congrArg List.length hc
    simp at this
    rw [this.1] at hgt2
    simp at hgt2
  have hne2 : e.drop LOG_EVENT_HEADER_LEN ++ rest ≠ [] := by
    intro hc
    have := congrArg List.length hc
    simp [LOG_EVENT_HEADER_LEN] at this
    omega
  rw [writeLoop_succ (fuel + 1) _ _ hne1, writeStep_header hc footer p h out crc e rest hh hwf hlen]
  dsimp only
  rw [writeLoop_succ fuel _ _ hne2]
  have hb := writeStep_body hc footer ((p + emittedAdvance hc footer e) % 2 ^ 32)
    (emittedHeader hc footer ((p + emittedAdvance hc footer e) % 2 ^ 32) e)
    (out ++ emittedHeader hc footer ((p + emittedAdvance hc footer e) % 2 ^ 32) e) crc e rest
    (if hc then
      my_checksum 0 (emittedHeader hc footer ((p + emittedAdvance hc footer e) % 2 ^ 32) e)
    else my_checksum 0 []) hgt hfoot hel
  rw [hb]
  dsimp only
  congr 1
  cases hc
  · simp [emittedEvent, cleanWriter]
  · simp [emittedEvent, emittedCrc, cleanWriter, my_checksum_append]

theorem length_flatten_ge (events : List (List Nat)) (hwf : ∀ e ∈ events, WellFormedEvent e) :
    2 * events.length ≤ events.flatten.length := by
  induction events with
  | nil => simp
  | cons e es ih =>
    have h1 : LOG_EVENT_HEADER_LEN < e.length := (hwf e (List.mem_cons_self _ _)).1
    have h2 : 19 < e.length := h1
    have h3 := ih (fun x hx => hwf x (List.mem_cons_of_mem _ hx))
    simp only [List.flatten_cons, List.length_append, List.length_cons]
    omega

/-- A sequence of complete events through the loop of `write`. -/
theorem writeLoop_events (hc footer : Bool) (P : Nat) (events : List (List Nat))
    (hwf : ∀ e ∈ events, WellFormedEvent e)
    (hfoot : hc = true → footer = true →
      ∀ e ∈ events, LOG_EVENT_HEADER_LEN + BINLOG_CHECKSUM_LEN ≤ e.length)
    (hlen : events.flatten.length < 2 ^ 32) :
    ∀ (sum : Nat) (h out : List Nat) (crc : Option Nat) (fuel : Nat),
      h.length = LOG_EVENT_HEADER_LEN → 2 * events.length ≤ fuel →
      ∃ (h2 : List Nat) (crc2 : Option Nat),
        writeLoop fuel
            { w := cleanWriter hc footer true ((P + sum) % 2 ^ 32) h, ostream := out,
              out_crc := crc } events.flatten
          = some
              { w := cleanWriter hc footer true
                  ((P + (sum + emittedTotal hc footer events)) % 2 ^ 32) h2,
                ostream := out ++ emittedStream hc footer P sum events, out_crc := crc2 } := by
  induction events with
  | nil =>
    intro sum h out crc fuel _ _
    refine ⟨h, crc, ?_⟩
    cases fuel <;> simp [writeLoop, emittedTotal, emittedStream]
  | cons e es ih =>
    intro sum h out crc fuel hh hfuel
    have hwe : WellFormedEvent e := hwf e (List.mem_cons_self _ _)
    have hwes : ∀ x ∈ es, WellFormedEvent x := fun x hx => hwf x (List.mem_cons_of_mem _ hx)
    have hfe : hc = true → footer = true →
        LOG_EVENT_HEADER_LEN + BINLOG_CHECKSUM_LEN ≤ e.length :=
      fun a b => hfoot a b e (List.mem_cons_self _ _)
    have hfes : hc = true → footer = true →
        ∀ x ∈ es, LOG_EVENT_HEADER_LEN + BINLOG_CHECKSUM_LEN ≤ x.length :=
      fun a b x hx => hfoot a b x (List.mem_cons_of_mem _ hx)
    have hlen1 : (e ++ es.flatten).length < 2 ^ 32 := by
      simpa [List.flatten_cons] using hlen
    have hlen2 : es.flatten.length < 2 ^ 32 := by
      rw [List.length_append] at hlen1
      omega
    obtain ⟨f, rfl⟩ : ∃ f, fuel = f + 2 := by
      refine ⟨fuel - 2, ?_⟩
      simp only [List.length_cons] at hfuel
      omega
    have hf : 2 * es.length ≤ f := by
      simp only [List.length_cons] at hfuel
      omega
    rw [List.flatten_cons,
      writeLoop_event hc footer ((P + sum) % 2 ^ 32) h out crc e es.flatten f hh hwe hfe hlen1]
    have hpos : ((P + sum) % 2 ^ 32 + emittedAdvance hc footer e) % 2 ^ 32
        = (P + (sum + emittedAdvance hc footer e)) % 2 ^ 32 := by
      omega
    rw [hpos]
    obtain ⟨h2, crc2, hres⟩ := ih hwes hfes hlen2 (sum + emittedAdvance hc footer e)
      (emittedHeader hc footer ((P + (sum + emittedAdvance hc footer e)) % 2 ^ 32) e)
      (out ++ emittedEvent hc footer ((P + (sum + emittedAdvance hc footer e)) % 2 ^ 32) e)
      (if hc then
        some (emittedCrc hc footer ((P + (sum + emittedAdvance hc footer e)) % 2 ^ 32) e)
      else crc) f (length_emittedHeader hc footer _ e (Nat.le_of_lt hwe.1)) hf
    refine ⟨h2, crc2, ?_⟩
    rw [hres]
    simp [emittedStream, emittedTotal, List.append_assoc, Nat.add_assoc]

theorem new_eq_cleanWriter (hc footer : Bool) (P : Nat) :
    Consensuslog_event_writer.new hc P true footer
      = cleanWriter hc footer true ((P + 0) % 2 ^ 32) (List.replicate LOG_EVENT_HEADER_LEN 0) := by
  simp [Consensuslog_event_writer.new, cleanWriter]

/-- A single `write` of a sequence of complete events, for any pair of flags. -/
theorem write_events (hc footer : Bool) (P : Nat) (events : List (List Nat))
    (hwf : ∀ e ∈ events, WellFormedEvent e)
    (hfoot : hc = true → footer = true →
      ∀ e ∈ events, LOG_EVENT_HEADER_LEN + BINLOG_CHECKSUM_LEN ≤ e.length)
    (hlen : events.flatten.length < 2 ^ 32) :
    ∃ st, write (Consensuslog_event_writer.new hc P true footer) [] events.flatten = some st
      ∧ st.ostream = emittedStream hc footer P 0 events
      ∧ st.w.checksum = st.w.initial_checksum
      ∧ st.w.header_len = 0 ∧ st.w.event_len = 0
      ∧ st.w.end_log_pos = (P + emittedTotal hc footer events) % 2 ^ 32 := by
  obtain ⟨h2, crc2, hres⟩ := writeLoop_events hc footer P events hwf hfoot hlen 0
    (List.replicate LOG_EVENT_HEADER_LEN 0) [] none events.flatten.length
    (by simp) (length_flatten_ge events hwf)
  refine ⟨{ w := cleanWriter hc footer true
              ((P + (0 + emittedTotal hc footer events)) % 2 ^ 32) h2,
            ostream := [] ++ emittedStream hc footer P 0 events, out_crc := crc2 }, ?_, ?_⟩
  · unfold write
    rw [new_eq_cleanWriter]
    exact hres
  · simp [cleanWriter]

/-- A single `write` of a concatenation of events, each longer than its
`LOG_EVENT_HEADER_LEN`-byte header and carrying its own byte length in the length field,
returns. With `have_checksum = true` and `have_footer = false` the stream receives, per
event, the header with the length field set to `L_i + 4` and the end-offset field set to
`(P + sum over j <= i of (L_j + 4)) mod 2^32`, the unchanged body, and the CRC32 of the
emitted header and body; with `have_checksum = false` it receives the events with only
the end-offset field rewritten to `(P + sum over j <= i of L_j) mod 2^32`. In both cases
the writer ends with the running checksum at its initial value, between two events. The
input is shorter than `2^32` bytes, the range of the `uint32` the header branch uses. -/
theorem write_emits_events_below_4G (P : Nat) (events : List (List Nat))
    (hwf : ∀ e ∈ events, WellFormedEvent e) (hlen : events.flatten.length < 2 ^ 32) :
    (∃ st, write (Consensuslog_event_writer.new true P true false) [] events.flatten = some st
      ∧ st.ostream = emittedStream true false P 0 events
      ∧ st.w.checksum = st.w.initial_checksum
      ∧ st.w.header_len = 0 ∧ st.w.event_len = 0
      ∧ st.w.end_log_pos = (P + (events.map (fun e => e.length + 4)).sum) % 2 ^ 32)
    ∧ ∀ footer : Bool,
      ∃ st, write (Consensuslog_event_writer.new false P true footer) [] events.flatten = some st
        ∧ st.ostream = emittedStream false footer P 0 events
        ∧ st.w.checksum = st.w.initial_checksum
        ∧ st.w.header_len = 0 ∧ st.w.event_len = 0
        ∧ st.w.end_log_pos = (P + (events.map List.length).sum) % 2 ^ 32 := by
  constructor
  · obtain ⟨st, h1, h2, h3, h4, h5, h6⟩ := write_events true false P events hwf
      (fun _ h => by cases h) hlen
    refine ⟨st, h1, h2, h3, h4, h5, ?_⟩
    rw [h6]
    have hfun : emittedAdvance true false = fun e : List Nat => e.length + 4 := by
      funext e
      simp [emittedAdvance, BINLOG_CHECKSUM_LEN]
    rw [emittedTotal, hfun]
  · intro footer
    obtain ⟨st, h1, h2, h3, h4, h5, h6⟩ := write_events false footer P events hwf
      (fun h => by cases h) hlen
    refine ⟨st, h1, h2, h3, h4, h5, ?_⟩
    rw [h6]
    have hfun : emittedAdvance false footer = List.length := by
      funext e
      simp [emittedAdvance]
    rw [emittedTotal, hfun]

theorem wellFormed_smallEvent : WellFormedEvent smallEvent :=
  ⟨by decide, by decide⟩

/-- Two copies of the 25-byte event `smallEvent` written at offset 100. -/
theorem write_emits_events_example :
    (∀ e ∈ [smallEvent, smallEvent], WellFormedEvent e) ∧
    [smallEvent, smallEvent].flatten.length < 2 ^ 32 ∧
    ((∃ st, write (Consensuslog_event_writer.new true 100 true false) []
          [smallEvent, smallEvent].flatten = some st
      ∧ st.ostream = emittedStream true false 100 0 [smallEvent, smallEvent]
      ∧ st.w.checksum = st.w.initial_checksum
      ∧ st.w.header_len = 0 ∧ st.w.event_len = 0
      ∧ st.w.end_log_pos
          = (100 + ([smallEvent, smallEvent].map (fun e => e.length + 4)).sum) % 2 ^ 32)
    ∧ ∀ footer : Bool,
      ∃ st, write (Consensuslog_event_writer.new false 100 true footer) []
          [smallEvent, smallEvent].flatten = some st
        ∧ st.ostream = emittedStream false footer 100 0 [smallEvent, smallEvent]
        ∧ st.w.checksum = st.w.initial_checksum
        ∧ st.w.header_len = 0 ∧ st.w.event_len = 0
        ∧ st.w.end_log_pos = (100 + ([smallEvent, smallEvent].map List.length).sum) % 2 ^ 32) :=
  have hwf : ∀ e ∈ [smallEvent, smallEvent], WellFormedEvent e := by
    intro e he
    simp only [List.mem_cons, List.mem_singleton, List.not_mem_nil, or_false, or_self] at he
    rw [he]
    exact wellFormed_smallEvent
  ⟨hwf, by decide, write_emits_events_below_4G 100 [smallEvent, smallEvent] hwf (by decide)⟩

/-! ## Chunks that end inside the checksum footer -/

set_option maxRecDepth 100000 in
/-- C14: with `have_checksum = have_footer = true` the 25-byte event `smallEvent` written
in one call puts 25 bytes on the stream, while the same bytes cut after byte 23 do not:
the second call sees `event_len = 2`, takes `write_bytes = 2`, subtracts
`BINLOG_CHECKSUM_LEN` from it and reads beyond the two bytes it was given. The first
call has by then put the first two footer bytes on the stream as if they were body. -/
theorem C14_chunked_footer_write :
    (write (Consensuslog_event_writer.new true 100 true true) [] smallEvent).map
        (fun st => (st.ostream.length, st.w.header_len, st.w.event_len, st.w.end_log_pos))
      = some (25, 0, 0, 125)
    ∧ (write (Consensuslog_event_writer.new true 100 true true) [] (smallEvent.take 23)).map
        (fun st => (st.ostream, st.w.header_len, st.w.event_len))
      = some ([1, 2, 3, 4, 5, 6, 7, 8, 9, 25, 0, 0, 0, 125, 0, 0, 0, 0, 0, 65, 66, 0, 0], 0, 2)
    ∧ (write (Consensuslog_event_writer.new true 100 true true) [] (smallEvent.take 23)).bind
        (fun st => write st.w st.ostream (smallEvent.drop 23))
      = none := by
  decide

/-! ## One event through `revise_buffer` -/

theorem reviseLoop_succ (fuel : Nat) (st : ReviseState) (buf : List Nat) (h : buf ≠ []) :
    reviseLoop (fuel + 1) st buf
      = match reviseStep st buf with
        | none => none
        | some r => reviseLoop fuel r.1 r.2 := by
  cases buf with
  | nil => exact absurd rfl h
  | cons b bs => rfl

theorem reviseStep_header (hc footer : Bool) (p hl : Nat) (h rev : List Nat) (crc : Option Nat)
    (e rest : List Nat) (hwf : WellFormedEvent e) (hel : e.length < 2 ^ 32) :
    reviseStep
        { w := { cleanWriter hc footer false p h with header_len := hl },
          revised := rev, out_crc := crc } (e ++ rest)
      = some
          ({ w := { cleanWriter hc footer false ((p + emittedAdvance hc footer e) % 2 ^ 32) h with
                      header_len := LOG_EVENT_HEADER_LEN
                      checksum :=
                        if hc then
                          my_checksum 0
                            (emittedHeader hc footer
                              ((p + emittedAdvance hc footer e) % 2 ^ 32) e)
                        else my_checksum 0 []
                      event_len := e.length - LOG_EVENT_HEADER_LEN },
             revised := rev
               ++ emittedHeader hc footer ((p + emittedAdvance hc footer e) % 2 ^ 32) e,
             out_crc := crc },
            e.drop LOG_EVENT_HEADER_LEN ++ rest) := by
  obtain ⟨hgt, hfield⟩ := hwf
  have hgt2 : 19 < e.length := hgt
  have hel2 : e.length < 4294967296 := hel
  have hnlt : ¬ e.length + rest.length < 19 := by omega
  have htake : (e ++ rest).take 19 = e.take 19 := by
    rw [List.take_append_of_le_length (by omega)]
  have hdrop : (e ++ rest).drop 19 = e.drop 19 ++ rest := by
    rw [List.drop_append_of_le_length (by omega)]
  have hfield2 : uint4korr (e.take 19) EVENT_LEN_OFFSET = e.length := by
    rw [uint4korr_take e 19 EVENT_LEN_OFFSET (by decide), hfield]
  have hemod : e.length % 4294967296 = e.length := Nat.mod_eq_of_lt (by omega)
  have hev : (e.length + 4294967296 - 19) % 4294967296 = e.length - 19 := by omega
  have hev2 : (e.length + 4294967277) % 4294967296 = e.length - 19 := by omega
  have h19 : (e.take 19).length = 19 := by
    rw [List.length_take]
    omega
  have hl1 : ∀ v, (int4store (e.take 19) LOG_POS_OFFSET v).length = 19 := by
    intro v
    rw [length_int4store _ _ _ (by rw [h19]; decide), h19]
  have hl2 : ∀ v u,
      (int4store (int4store (e.take 19) EVENT_LEN_OFFSET u) LOG_POS_OFFSET v).length = 19 := by
    intro v u
    have hu : (int4store (e.take 19) EVENT_LEN_OFFSET u).length = 19 := by
      rw [length_int4store _ _ _ (by rw [h19]; decide), h19]
    rw [length_int4store _ _ _ (by rw [hu]; decide), hu]
  have ht1 : ∀ v, (int4store (e.take 19) LOG_POS_OFFSET v).take 19
      = int4store (e.take 19) LOG_POS_OFFSET v :=
    fun v => List.take_of_length_le (by rw [hl1])
  have ht2 : ∀ v u,
      (int4store (int4store (e.take 19) EVENT_LEN_OFFSET u) LOG_POS_OFFSET v).take 19
        = int4store (int4store (e.take 19) EVENT_LEN_OFFSET u) LOG_POS_OFFSET v :=
    fun v u => List.take_of_length_le (by rw [hl2])
  have hm4 : ∀ (q : List Nat) (off v : Nat),
      int4store q off (v % 4294967296) = int4store q off v := int4store_mod
  cases hc <;> cases footer <;>
    simp [reviseStep, update_header, emittedHeader, emittedAdvance, LOG_EVENT_HEADER_LEN,
      BINLOG_CHECKSUM_LEN, my_checksum_nil, cleanWriter, hnlt, htake, hdrop,
      hfield2, hemod, hev, hev2, hgt2.le, ht1, ht2, hm4, hl1, hl2, Nat.add_assoc]
theorem int4store_append (a rest : List Nat) (n v : Nat) (ha : a.length = n + 4) :
    int4store (a ++ rest) n v = a.take n ++ int4storeBytes v ++ rest := by
  unfold int4store
  rw [List.take_append_of_le_length (by omega), List.drop_append_of_le_length (by omega),
    List.drop_eq_nil_of_le (by omega), List.nil_append]

theorem take_int4store (a rest : List Nat) (n v : Nat) (ha : a.length = n + 4) :
    (int4store (a ++ rest) n v).take (n + 4) = a.take n ++ int4storeBytes v := by
  rw [int4store_append a rest n v ha]
  have hl : (a.take n ++ int4storeBytes v).length = n + 4 := by
    rw [List.length_append, List.length_take, length_int4storeBytes]
    omega
  rw [List.take_append_of_le_length (by omega), List.take_of_length_le (by omega)]

theorem drop_int4store (a rest : List Nat) (n v : Nat) (ha : a.length = n + 4) :
    (int4store (a ++ rest) n v).drop (n + 4) = rest := by
  rw [int4store_append a rest n v ha]
  have hl : (a.take n ++ int4storeBytes v).length = n + 4 := by
    rw [List.length_append, List.length_take, length_int4storeBytes]
    omega
  rw [List.drop_append_of_le_length (by omega), List.drop_eq_nil_of_le (by omega),
    List.nil_append]

theorem reviseStep_body (hc footer : Bool) (p : Nat) (h rev : List Nat) (crc : Option Nat)
    (e rest : List Nat) (c1 : Nat) (hgt : LOG_EVENT_HEADER_LEN < e.length)
    (hfoot : hc = true → footer = true → LOG_EVENT_HEADER_LEN + BINLOG_CHECKSUM_LEN ≤ e.length)
    (hel : e.length < 2 ^ 32) :
    reviseStep
        { w := { cleanWriter hc footer false p h with
                  header_len := LOG_EVENT_HEADER_LEN,
                  checksum := c1, event_len := e.length - LOG_EVENT_HEADER_LEN },
          revised := rev, out_crc := crc } (e.drop LOG_EVENT_HEADER_LEN ++ rest)
      = some
          ({ w := { cleanWriter hc footer false p h with
                      header_len := LOG_EVENT_HEADER_LEN,
                      checksum := if hc then my_checksum 0 [] else c1 },
             revised := rev ++ emittedBody hc footer e
               ++ (if hc = true ∧ footer = true then
                     int4storeBytes (my_checksum c1 (emittedBody hc footer e))
                   else []),
             out_crc := if hc then some (my_checksum c1 (emittedBody hc footer e)) else crc },
            rest) := by
  have hgt2 : 19 < e.length := hgt
  have hel2 : e.length < 4294967296 := hel
  have hne : e.length - 19 ≠ 0 := by omega
  have hmin : min (e.length - 19 + rest.length) (e.length - 19) = e.length - 19 := by omega
  have hev : (e.length - 19 + 4294967296 - (e.length - 19) % 4294967296) % 4294967296 = 0 := by
    omega
  have hd : (e.drop 19).length = e.length - 19 := List.length_drop 19 e
  have htake : (e.drop 19 ++ rest).take (e.length - 19) = e.drop 19 := by
    rw [List.take_append_of_le_length (by omega), List.take_of_length_le (by omega)]
  have hdrop : (e.drop 19 ++ rest).drop (e.length - 19) = rest := by
    rw [List.drop_append_of_le_length (by omega), List.drop_eq_nil_of_le (by omega)]
    rfl
  cases hc
  · cases footer <;>
      simp [reviseStep, cleanWriter, emittedBody, LOG_EVENT_HEADER_LEN, BINLOG_CHECKSUM_LEN,
        hne, hmin, hev, htake, hdrop]
  · cases footer
    · simp [reviseStep, cleanWriter, emittedBody, LOG_EVENT_HEADER_LEN, BINLOG_CHECKSUM_LEN,
        hne, hmin, hev, htake, hdrop, my_checksum_nil]
    · have h23 : 23 ≤ e.length := hfoot rfl rfl
      have hwb : (e.length - 19 + 18446744073709551616 - 4) % 18446744073709551616
          = e.length - 23 := by omega
      have hwb2 : (e.length - 23 + 4) % 18446744073709551616 = e.length - 19 := by omega
      have hwb3 : (e.length - 19 + 18446744073709551612) % 18446744073709551616
          = e.length - 23 := by omega
      have hwb4 : (e.length - 19 + 18446744073709551612 + 4) % 18446744073709551616
          = e.length - 19 := by omega
      have hle : e.length - 23 ≤ e.length - 19 + rest.length := by omega
      have hle2 : e.length - 23 + 4 ≤ e.length - 19 + rest.length := by omega
      have htake2 : (e.drop 19 ++ rest).take (e.length - 23)
          = (e.drop 19).take (e.length - 19 - 4) := by
        rw [List.take_append_of_le_length (by omega)]
        congr 1
      have hn4 : e.length - 19 = e.length - 23 + 4 := by omega
      have hd4 : (e.drop 19).length = e.length - 23 + 4 := by rw [hd, hn4]
      have hstore : ∀ v, (int4store (e.drop 19 ++ rest) (e.length - 23) v).take (e.length - 19)
          = (e.drop 19).take (e.length - 19 - 4) ++ int4storeBytes v := by
        intro v
        rw [hn4, take_int4store _ _ _ _ hd4]
        congr 2
      have hstore2 : ∀ v, (int4store (e.drop 19 ++ rest) (e.length - 23) v).drop (e.length - 19)
          = rest := by
        intro v
        rw [hn4, drop_int4store _ _ _ _ hd4]
      simp [reviseStep, cleanWriter, emittedBody, LOG_EVENT_HEADER_LEN, BINLOG_CHECKSUM_LEN,
        hne, hmin, hev, hdrop, my_checksum_nil, hwb, hwb2, hwb3, hwb4, hle, hle2, htake2,
        hstore, hstore2]

/-- One complete event through the loop of `revise_buffer`. -/
theorem reviseLoop_event (hc footer : Bool) (p hl : Nat) (h rev : List Nat) (crc : Option Nat)
    (e rest : List Nat) (fuel : Nat) (hwf : WellFormedEvent e)
    (hfoot : hc = true → footer = true → LOG_EVENT_HEADER_LEN + BINLOG_CHECKSUM_LEN ≤ e.length)
    (hel : e.length < 2 ^ 32) :
    reviseLoop (fuel + 2)
        { w := { cleanWriter hc footer false p h with header_len := hl },
          revised := rev, out_crc := crc } (e ++ rest)
      = reviseLoop fuel
          { w := { cleanWriter hc footer false ((p + emittedAdvance hc footer e) % 2 ^ 32) h with
                    header_len := LOG_EVENT_HEADER_LEN },
            revised := rev
              ++ revisedEvent hc footer ((p + emittedAdvance hc footer e) % 2 ^ 32) e,
            out_crc :=
              if hc then
                some (emittedCrc hc footer ((p + emittedAdvance hc footer e) % 2 ^ 32) e)
              else crc }
          rest := by
  have hgt : LOG_EVENT_HEADER_LEN < e.length := hwf.1
  have hgt2 : 19 < e.length := hgt
  have hne1 : e ++ rest ≠ [] := by
    intro hc
    have := congrArg List.length hc
    simp at this
    rw [this.1] at hgt2
    simp at hgt2
  have hne2 : e.drop LOG_EVENT_HEADER_LEN ++ rest ≠ [] := by
    intro hc
    have := congrArg List.length hc
    simp [LOG_EVENT_HEADER_LEN] at this
    omega
  rw [reviseLoop_succ (fuel + 1) _ _ hne1, reviseStep_header hc footer p hl h rev crc e rest hwf hel]
  dsimp only
  rw [reviseLoop_succ fuel _ _ hne2]
  have hb := reviseStep_body hc footer ((p + emittedAdvance hc footer e) % 2 ^ 32) h
    (rev ++ emittedHeader hc footer ((p + emittedAdvance hc footer e) % 2 ^ 32) e) crc e rest
    (if hc then
      my_checksum 0 (emittedHeader hc footer ((p + emittedAdvance hc footer e) % 2 ^ 32) e)
    else my_checksum 0 []) hgt hfoot hel
  rw [hb]
  dsimp only
  congr 1
  cases hc
  · simp [revisedEvent, cleanWriter]
  · cases footer <;> simp [revisedEvent, emittedCrc, cleanWriter, my_checksum_append]

/-- A sequence of complete events through the loop of `revise_buffer`. -/
theorem reviseLoop_events (hc footer : Bool) (P : Nat) (h : List Nat)
    (events : List (List Nat))
    (hwf : ∀ e ∈ events, WellFormedEvent e)
    (hfoot : hc = true → footer = true →
      ∀ e ∈ events, LOG_EVENT_HEADER_LEN + BINLOG_CHECKSUM_LEN ≤ e.length)
    (hel : ∀ e ∈ events, e.length < 2 ^ 32) :
    ∀ (sum hl : Nat) (rev : List Nat) (crc : Option Nat) (fuel : Nat),
      2 * events.length ≤ fuel →
      ∃ (hl2 : Nat) (crc2 : Option Nat),
        reviseLoop fuel
            { w := { cleanWriter hc footer false ((P + sum) % 2 ^ 32) h with header_len := hl },
              revised := rev, out_crc := crc } events.flatten
          = some
              { w := { cleanWriter hc footer false
                        ((P + (sum + emittedTotal hc footer events)) % 2 ^ 32) h with
                        header_len := hl2 },
                revised := rev ++ revisedStream hc footer P sum events, out_crc := crc2 } := by
  induction events with
  | nil =>
    intro sum hl rev crc fuel _
    refine ⟨hl, crc, ?_⟩
    cases fuel <;> simp [reviseLoop, emittedTotal, revisedStream]
  | cons e es ih =>
    intro sum hl rev crc fuel hfuel
    have hwe : WellFormedEvent e := hwf e (List.mem_cons_self _ _)
    have hwes : ∀ x ∈ es, WellFormedEvent x := fun x hx => hwf x (List.mem_cons_of_mem _ hx)
    have hfe : hc = true → footer = true →
        LOG_EVENT_HEADER_LEN + BINLOG_CHECKSUM_LEN ≤ e.length :=
      fun a b => hfoot a b e (List.mem_cons_self _ _)
    have hfes : hc = true → footer = true →
        ∀ x ∈ es, LOG_EVENT_HEADER_LEN + BINLOG_CHECKSUM_LEN ≤ x.length :=
      fun a b x hx => hfoot a b x (List.mem_cons_of_mem _ hx)
    have hele : e.length < 2 ^ 32 := hel e (List.mem_cons_self _ _)
    have heles : ∀ x ∈ es, x.length < 2 ^ 32 := fun x hx => hel x (List.mem_cons_of_mem _ hx)
    obtain ⟨f, rfl⟩ : ∃ f, fuel = f + 2 := by
      refine ⟨fuel - 2, ?_⟩
      simp only [List.length_cons] at hfuel
      omega
    have hf : 2 * es.length ≤ f := by
      simp only [List.length_cons] at hfuel
      omega
    rw [List.flatten_cons,
      reviseLoop_event hc footer ((P + sum) % 2 ^ 32) hl h rev crc e es.flatten f hwe hfe hele]
    have hpos : ((P + sum) % 2 ^ 32 + emittedAdvance hc footer e) % 2 ^ 32
        = (P + (sum + emittedAdvance hc footer e)) % 2 ^ 32 := by
      omega
    rw [hpos]
    obtain ⟨hl2, crc2, hres⟩ := ih hwes hfes heles (sum + emittedAdvance hc footer e)
      LOG_EVENT_HEADER_LEN
      (rev ++ revisedEvent hc footer ((P + (sum + emittedAdvance hc footer e)) % 2 ^ 32) e)
      (if hc then
        some (emittedCrc hc footer ((P + (sum + emittedAdvance hc footer e)) % 2 ^ 32) e)
      else crc) f hf
    refine ⟨hl2, crc2, ?_⟩
    rw [hres]
    simp [revisedStream, emittedTotal, List.append_assoc, Nat.add_assoc]

/-- A single `revise_buffer` of a sequence of complete events, for any pair of flags. -/
theorem revise_events (hc footer : Bool) (P : Nat) (events : List (List Nat))
    (hwf : ∀ e ∈ events, WellFormedEvent e)
    (hfoot : hc = true → footer = true →
      ∀ e ∈ events, LOG_EVENT_HEADER_LEN + BINLOG_CHECKSUM_LEN ≤ e.length)
    (hel : ∀ e ∈ events, e.length < 2 ^ 32) :
    ∃ st, revise_buffer (Consensuslog_event_writer.new hc P false footer) events.flatten
        = some st
      ∧ st.revised = revisedStream hc footer P 0 events
      ∧ st.w.checksum = st.w.initial_checksum
      ∧ st.w.event_len = 0
      ∧ st.w.end_log_pos = (P + emittedTotal hc footer events) % 2 ^ 32 := by
  obtain ⟨hl2, crc2, hres⟩ := reviseLoop_events hc footer P
    (List.replicate LOG_EVENT_HEADER_LEN 0) events hwf hfoot hel 0 0 [] none
    events.flatten.length (length_flatten_ge events hwf)
  refine ⟨{ w := { cleanWriter hc footer false
                    ((P + (0 + emittedTotal hc footer events)) % 2 ^ 32)
                    (List.replicate LOG_EVENT_HEADER_LEN 0) with header_len := hl2 },
            revised := [] ++ revisedStream hc footer P 0 events, out_crc := crc2 }, ?_, ?_⟩
  · unfold revise_buffer
    have hn : Consensuslog_event_writer.new hc P false footer
        = { cleanWriter hc footer false ((P + 0) % 2 ^ 32)
              (List.replicate LOG_EVENT_HEADER_LEN 0) with header_len := 0 } := by
      simp [Consensuslog_event_writer.new, cleanWriter]
    rw [hn]
    exact hres
  · simp [cleanWriter]

/-! ## Events that end in a footer -/

theorem footerEvent_wellFormed (e : List Nat) (h : FooterEvent e) : WellFormedEvent e := by
  obtain ⟨h1, _, h3⟩ := h
  have h23 : 19 + 4 ≤ e.length := h1
  exact ⟨show 19 < e.length by omega, h3⟩

theorem revisedEvent_footer (endPos : Nat) (e : List Nat)
    (h : LOG_EVENT_HEADER_LEN + BINLOG_CHECKSUM_LEN ≤ e.length) :
    revisedEvent true true endPos e = footerRevised endPos e := by
  have h23 : 19 + 4 ≤ e.length := h
  have hpre : emittedHeader true true endPos e ++ emittedBody true true e
      = int4store (e.take (e.length - BINLOG_CHECKSUM_LEN)) LOG_POS_OFFSET endPos := by
    have hsplit : e.take (e.length - 4) = e.take 19 ++ (e.drop 19).take (e.length - 19 - 4) := by
      have h1 : e.length - 4 = 19 + (e.length - 19 - 4) := by omega
      rw [h1, List.take_add]
    have h19 : (e.take 19).length = 15 + 4 := by
      rw [List.length_take]
      omega
    simp only [emittedHeader, emittedBody, LOG_EVENT_HEADER_LEN, BINLOG_CHECKSUM_LEN,
      LOG_POS_OFFSET]
    rw [hsplit]
    have hA : int4store (e.take 19) 13 endPos
        = (e.take 19).take 13 ++ int4storeBytes endPos ++ (e.take 19).drop 17 := rfl
    have hB : int4store (e.take 19 ++ (e.drop 19).take (e.length - 19 - 4)) 13 endPos
        = (e.take 19).take 13 ++ int4storeBytes endPos
          ++ ((e.take 19).drop 17 ++ (e.drop 19).take (e.length - 19 - 4)) := by
      unfold int4store
      rw [List.take_append_of_le_length (by omega), List.drop_append_of_le_length (by omega)]
    simp only [hA, hB, List.append_assoc, and_self, and_false, if_true, if_false,
      Bool.true_eq_false]
  unfold revisedEvent footerRevised emittedCrc
  rw [hpre]
  simp

theorem revisedStream_footer (P : Nat) (events : List (List Nat))
    (h : ∀ e ∈ events, LOG_EVENT_HEADER_LEN + BINLOG_CHECKSUM_LEN ≤ e.length) :
    ∀ sum, revisedStream true true P sum events = footerRevisedStream P sum events := by
  induction events with
  | nil => intro sum; rfl
  | cons e es ih =>
    intro sum
    have hadv : emittedAdvance true true e = e.length := by simp [emittedAdvance]
    simp only [revisedStream, footerRevisedStream, hadv]
    rw [revisedEvent_footer _ e (h e (List.mem_cons_self _ _)),
      ih (fun x hx => h x (List.mem_cons_of_mem _ hx))]

theorem emittedStream_footer (P : Nat) (events : List (List Nat)) :
    ∀ sum, emittedStream true true P sum events = revisedStream true true P sum events := by
  induction events with
  | nil => intro sum; rfl
  | cons e es ih =>
    intro sum
    simp only [emittedStream, revisedStream, ih]
    simp [emittedEvent, revisedEvent]

theorem length_footerRevised (endPos : Nat) (e : List Nat)
    (h : LOG_EVENT_HEADER_LEN + BINLOG_CHECKSUM_LEN ≤ e.length) :
    (footerRevised endPos e).length = e.length := by
  have h23 : 19 + 4 ≤ e.length := h
  have ht : (e.take (e.length - 4)).length = e.length - 4 := by
    rw [List.length_take]
    omega
  unfold footerRevised
  simp only [BINLOG_CHECKSUM_LEN, LOG_POS_OFFSET]
  rw [List.length_append, length_int4storeBytes,
    length_int4store _ _ _ (by rw [ht]; omega), ht]
  omega

theorem length_footerRevisedStream (P : Nat) (events : List (List Nat))
    (h : ∀ e ∈ events, LOG_EVENT_HEADER_LEN + BINLOG_CHECKSUM_LEN ≤ e.length) :
    ∀ sum, (footerRevisedStream P sum events).length = events.flatten.length := by
  induction events with
  | nil => intro sum; rfl
  | cons e es ih =>
    intro sum
    simp only [footerRevisedStream, List.flatten_cons, List.length_append]
    rw [length_footerRevised _ e (h e (List.mem_cons_self _ _)),
      ih (fun x hx => h x (List.mem_cons_of_mem _ hx))]

/-- On a buffer that is a concatenation of complete events, each ending in a
four-byte footer, `revise_buffer` with `have_checksum = have_footer = true` and start
offset `P` returns (no stream is involved), keeps the length of the buffer, sets the
end-offset field of event `i` to `(P + sum over j <= i of L_j) mod 2^32` and its last four
bytes to the CRC32 of all revised bytes before them, and leaves every other byte as it
was. A buffer shorter than `2^32` bytes ends up equal to the stream `write` emits for the
same input with the same flags. -/
theorem revise_buffer_in_place (P : Nat) (events : List (List Nat))
    (hev : ∀ e ∈ events, FooterEvent e) :
    ∃ st, revise_buffer (Consensuslog_event_writer.new true P false true) events.flatten
        = some st
      ∧ st.revised = footerRevisedStream P 0 events
      ∧ st.revised.length = events.flatten.length
      ∧ (events.flatten.length < 2 ^ 32 →
          ∃ st2, write (Consensuslog_event_writer.new true P true true) [] events.flatten
              = some st2
            ∧ st2.ostream = st.revised) := by
  have hwf : ∀ e ∈ events, WellFormedEvent e := fun e he => footerEvent_wellFormed e (hev e he)
  have hfoot : ∀ e ∈ events, LOG_EVENT_HEADER_LEN + BINLOG_CHECKSUM_LEN ≤ e.length :=
    fun e he => (hev e he).1
  have hel : ∀ e ∈ events, e.length < 2 ^ 32 := fun e he => (hev e he).2.1
  obtain ⟨st, h1, h2, -, -, -⟩ := revise_events true true P events hwf (fun _ _ => hfoot) hel
  have h3 : st.revised = footerRevisedStream P 0 events := by
    rw [h2, revisedStream_footer P events hfoot]
  refine ⟨st, h1, h3, ?_, ?_⟩
  · rw [h3, length_footerRevisedStream P events hfoot]
  · intro hlen
    obtain ⟨st2, g1, g2, -⟩ := write_events true true P events hwf (fun _ _ => hfoot) hlen
    refine ⟨st2, g1, ?_⟩
    rw [g2, h2, emittedStream_footer]

theorem footerEvent_smallEvent : FooterEvent smallEvent :=
  ⟨by decide, by decide, by decide⟩

/-- Two copies of the 25-byte event `smallEvent` revised for offset 100. -/
theorem revise_buffer_in_place_example :
    (∀ e ∈ [smallEvent, smallEvent], FooterEvent e) ∧
    [smallEvent, smallEvent].flatten.length < 2 ^ 32 ∧
    ∃ st, revise_buffer (Consensuslog_event_writer.new true 100 false true)
          [smallEvent, smallEvent].flatten = some st
      ∧ st.revised = footerRevisedStream 100 0 [smallEvent, smallEvent]
      ∧ st.revised.length = [smallEvent, smallEvent].flatten.length
      ∧ ([smallEvent, smallEvent].flatten.length < 2 ^ 32 →
          ∃ st2, write (Consensuslog_event_writer.new true 100 true true) []
                [smallEvent, smallEvent].flatten = some st2
            ∧ st2.ostream = st.revised) :=
  have hev : ∀ e ∈ [smallEvent, smallEvent], FooterEvent e := by
    intro e he
    simp only [List.mem_cons, List.mem_singleton, List.not_mem_nil, or_false, or_self] at he
    rw [he]
    exact footerEvent_smallEvent
  ⟨hev, by decide, revise_buffer_in_place 100 [smallEvent, smallEvent] hev⟩

/-! ## The batch loop of `large_event_flush` -/

/-- The pair `(start_pos, end_pos)` of iteration `i` for the split size `S` and the total
length `T`. -/
theorem batchRanges_from (S T : Nat) (hb : T + S < 2 ^ 64) (N : Nat) (hN : T ≤ N * S)
    (hlt : ∀ k, k < N → k * S < T) :
    ∀ (n k fuel : Nat), k + n = N → n ≤ fuel →
      batchRanges S T fuel (min (k * S) T) (min ((k + 1) * S) T)
        = some ((List.range' k n).map (fun i => (i * S, min ((i + 1) * S) T))) := by
  intro n
  induction n with
  | zero =>
    intro k fuel hk _
    have hkN : k = N := by omega
    have hmin : min (k * S) T = T := by
      rw [hkN]
      exact Nat.min_eq_right hN
    unfold batchRanges
    rw [hmin]
    simp
  | succ n ih =>
    intro k fuel hk hfuel
    obtain ⟨f, rfl⟩ : ∃ f, fuel = f + 1 := ⟨fuel - 1, by omega⟩
    have hkS : k * S < T := hlt k (by omega)
    have hmin : min (k * S) T = k * S := Nat.min_eq_left (Nat.le_of_lt hkS)
    have hk2 : (k + 1 + 1) * S = (k + 1) * S + S := Nat.succ_mul (k + 1) S
    have hnext : (if (min ((k + 1) * S) T + S) % 2 ^ 64 > T then T
        else (min ((k + 1) * S) T + S) % 2 ^ 64) = min ((k + 1 + 1) * S) T := by
      have hle : min ((k + 1) * S) T ≤ T := Nat.min_le_right _ _
      have hmod : (min ((k + 1) * S) T + S) % 2 ^ 64 = min ((k + 1) * S) T + S :=
        Nat.mod_eq_of_lt (by omega)
      rw [hmod, hk2]
      have hS : 0 < S := by
        rcases Nat.eq_zero_or_pos S with h0 | h0
        · rw [h0] at hkS
          simp at hkS
          have := hlt k (by omega)
          rw [h0] at hN
          omega
        · exact h0
      by_cases hc : (k + 1) * S ≤ T
      · rw [Nat.min_eq_left hc]
        by_cases hc2 : (k + 1) * S + S > T
        · rw [if_pos hc2, Nat.min_eq_right (by omega)]
        · rw [if_neg hc2, Nat.min_eq_left (by omega)]
      · rw [Nat.min_eq_right (by omega), if_pos (by omega), Nat.min_eq_right (by omega)]
    rw [batchRanges, hmin, if_pos hkS, hnext, ih (k + 1) f (by omega) (by omega)]
    simp [List.range'_succ]

theorem ceil_bounds (S T : Nat) (hS : 0 < S) :
    T ≤ (T + S - 1) / S * S ∧ ∀ k, k < (T + S - 1) / S → k * S < T := by
  have h1 := Nat.div_add_mod (T + S - 1) S
  have h2 := Nat.mod_lt (T + S - 1) hS
  have hc : S * ((T + S - 1) / S) = (T + S - 1) / S * S := Nat.mul_comm _ _
  constructor
  · omega
  · intro k hk
    have h3 : (k + 1) * S ≤ (T + S - 1) / S * S := Nat.mul_le_mul_right S hk
    have h4 : (k + 1) * S = k * S + S := Nat.succ_mul k S
    omega

theorem batchRanges_spec (S T : Nat) (hS : 0 < S) (hT : S ≤ T) (hb : T + S < 2 ^ 64) :
    batchRanges S T T 0 S
      = some ((List.range ((T + S - 1) / S)).map (fun i => (i * S, min ((i + 1) * S) T))) := by
  obtain ⟨hN, hlt⟩ := ceil_bounds S T hS
  have hle : (T + S - 1) / S ≤ T := by
    rcases Nat.eq_zero_or_pos ((T + S - 1) / S) with h0 | h0
    · omega
    · have h1 := hlt ((T + S - 1) / S - 1) (by omega)
      have h2 : (T + S - 1) / S - 1 ≤ ((T + S - 1) / S - 1) * S :=
        Nat.le_mul_of_pos_right _ hS
      omega
  have h := batchRanges_from S T hb ((T + S - 1) / S) hN hlt ((T + S - 1) / S) 0 T
    (by omega) hle
  have e0 : min (0 * S) T = 0 := by simp
  have e1 : min ((0 + 1) * S) T = S := by
    rw [Nat.zero_add, Nat.one_mul]
    exact Nat.min_eq_left hT
  rw [e0, e1] at h
  rw [h, List.range_eq_range']

theorem sum_sizes_from (S T N : Nat) (hN : T ≤ N * S) (hlt : ∀ k, k < N → k * S < T) :
    ∀ (n k : Nat), k + n = N →
      (((List.range' k n).map (fun i => (i * S, min ((i + 1) * S) T))).map
          (fun r : Nat × Nat => r.2 - r.1)).sum = T - min (k * S) T := by
  intro n
  induction n with
  | zero =>
    intro k hk
    have hkN : k = N := by omega
    rw [hkN, Nat.min_eq_right hN]
    simp
  | succ n ih =>
    intro k hk
    have hkS : k * S < T := hlt k (by omega)
    have h4 : (k + 1) * S = k * S + S := Nat.succ_mul k S
    have hi := ih (k + 1) (by omega)
    simp only [List.range'_succ, List.map_cons, List.sum_cons]
    rw [hi, Nat.min_eq_left (Nat.le_of_lt hkS)]
    have hm : min ((k + 1) * S) T ≤ T := Nat.min_le_right _ _
    have hm2 : k * S ≤ min ((k + 1) * S) T := by
      rw [h4]
      exact Nat.le_min.mpr ⟨by omega, by omega⟩
    omega

/-- The frames of a run of the batch loop carry the sizes `end_pos - start_pos` of its
iterations. -/
theorem flushLoop_batch_sizes (env : FlushEnv) (total_size : Nat) (temp_buf : List Nat)
    (ev_crc event_len total_event_len : Nat) (have_checksum : Bool) :
    ∀ (ranges : List (Nat × Nat)) (st st2 : FlushState),
      flushLoop env total_size temp_buf ev_crc event_len total_event_len have_checksum
          ranges st = some st2 →
      st2.frames.map LogFrame.batch_size
        = st.frames.map LogFrame.batch_size
          ++ ranges.map (fun r => (r.2 + 2 ^ 64 - r.1) % 2 ^ 64) := by
  intro ranges
  induction ranges with
  | nil =>
    intro st st2 h
    simp only [flushLoop, Option.some.injEq] at h
    rw [← h]
    simp
  | cons r rs ih =>
    intro st st2 h
    rw [flushLoop] at h
    cases hb : flushBatch env total_size temp_buf ev_crc event_len total_event_len
        have_checksum st r.1 r.2 with
    | none =>
      rw [hb] at h
      cases h
    | some st1 =>
      rw [hb] at h
      have h1 := ih st1 st2 h
      rw [h1]
      unfold flushBatch at hb
      dsimp only at hb
      split at hb
      · cases hb
      · split at hb
        · cases hb
        · simp only [Option.some.injEq] at hb
          rw [← hb]
          simp only [List.map_append, List.map_cons, List.map_nil, List.append_assoc,
            List.singleton_append]
          congr 2
          unfold batchFrame
          dsimp only
          split <;> rfl

/-- C16: for a split size `S > 0` and a total length `T > S` (with `T + S` in the range of
`ulonglong`) the batch loop of `large_event_flush` ends after `N = ceil(T / S) >= 2`
iterations; iteration `i` covers `[i * S, (i + 1) * S)`, the last one `[(N - 1) * S, T)`,
so every batch but the last has `S` bytes, the last has `T - (N - 1) * S` bytes (between
1 and `S`), the batches are consecutive and their sizes sum to `T`. A run of
`large_event_flush` that returns has produced one frame per iteration, with these sizes. -/
theorem C16_batch_loop (S T : Nat) (hS : 0 < S) (hT : S < T) (hb : T + S < 2 ^ 64) :
    ∃ ranges, batchRanges S T T 0 S = some ranges
      ∧ ranges.length = (T + S - 1) / S
      ∧ 2 ≤ ranges.length
      ∧ (ranges.length - 1) * S < T ∧ T ≤ ranges.length * S
      ∧ (∀ (i : Nat) (r : Nat × Nat), ranges[i]? = some r →
          r.1 = i * S ∧ r.2 = (if i + 1 = ranges.length then T else (i + 1) * S))
      ∧ (∀ (i : Nat) (r : Nat × Nat), ranges[i]? = some r → i + 1 < ranges.length →
          r.2 - r.1 = S)
      ∧ (∀ r : Nat × Nat, ranges[ranges.length - 1]? = some r →
          r.2 - r.1 = T - (ranges.length - 1) * S ∧ 1 ≤ r.2 - r.1 ∧ r.2 - r.1 ≤ S)
      ∧ (ranges.map (fun r : Nat × Nat => r.2 - r.1)).sum = T
      ∧ ∀ (env : FlushEnv) (total_size : Nat) (ev : List Nat) (event_len : Nat)
          (have_checksum : Bool) (total_batch_size : Nat) (buffer : List Nat)
          (current_index : Nat) (first_event_in_file : Bool) (st : FlushState),
          env.opt_consensus_large_event_split_size = S →
          large_event_flush env total_size ev event_len T have_checksum total_batch_size
              buffer current_index first_event_in_file = some st →
          st.frames.map LogFrame.batch_size
            = ranges.map (fun r : Nat × Nat => r.2 - r.1) := by
  obtain ⟨hN, hlt⟩ := ceil_bounds S T hS
  have hspec := batchRanges_spec S T hS (Nat.le_of_lt hT) hb
  have hlen : ((List.range ((T + S - 1) / S)).map
      (fun i => (i * S, min ((i + 1) * S) T))).length = (T + S - 1) / S := by simp
  have h2 : 2 ≤ (T + S - 1) / S := by
    rcases Nat.lt_or_ge ((T + S - 1) / S) 2 with hlt2 | hge
    · have : (T + S - 1) / S * S ≤ 1 * S := Nat.mul_le_mul_right S (by omega)
      omega
    · exact hge
  have hlast : ((T + S - 1) / S - 1) * S < T := hlt _ (by omega)
  have hget : ∀ (i : Nat) (r : Nat × Nat),
      ((List.range ((T + S - 1) / S)).map (fun i => (i * S, min ((i + 1) * S) T)))[i]?
        = some r → i < (T + S - 1) / S ∧ r = (i * S, min ((i + 1) * S) T) := by
    intro i r hr
    rw [List.getElem?_map] at hr
    rcases Nat.lt_or_ge i ((T + S - 1) / S) with hi | hi
    · rw [List.getElem?_range hi] at hr
      simp only [Option.map_some', Option.some.injEq] at hr
      exact ⟨hi, hr.symm⟩
    · rw [List.getElem?_eq_none (by simpa using hi)] at hr
      cases hr
  have hend : ∀ i, i < (T + S - 1) / S →
      min ((i + 1) * S) T = if i + 1 = (T + S - 1) / S then T else (i + 1) * S := by
    intro i hi
    by_cases hc : i + 1 = (T + S - 1) / S
    · rw [if_pos hc, hc]
      exact Nat.min_eq_right hN
    · rw [if_neg hc]
      exact Nat.min_eq_left (Nat.le_of_lt (hlt (i + 1) (by omega)))
  refine ⟨_, hspec, hlen, ?_, ?_, ?_, ?_, ?_, ?_, ?_, ?_⟩
  · rw [hlen]
    exact h2
  · rw [hlen]
    exact hlast
  · rw [hlen]
    exact hN
  · intro i r hr
    obtain ⟨hi, rfl⟩ := hget i r hr
    rw [hlen]
    exact ⟨rfl, hend i hi⟩
  · intro i r hr hi2
    obtain ⟨hi, rfl⟩ := hget i r hr
    rw [hlen] at hi2
    have h4 : (i + 1) * S = i * S + S := Nat.succ_mul i S
    dsimp only
    rw [hend i hi, if_neg (by omega)]
    omega
  · intro r hr
    rw [hlen] at hr ⊢
    obtain ⟨hi, rfl⟩ := hget _ r hr
    have h4 : ((T + S - 1) / S - 1 + 1) * S = ((T + S - 1) / S - 1) * S + S :=
      Nat.succ_mul _ S
    have h5 : (T + S - 1) / S - 1 + 1 = (T + S - 1) / S := by omega
    dsimp only
    rw [hend _ hi, if_pos h5]
    rw [h5] at h4
    omega
  · have hs := sum_sizes_from S T ((T + S - 1) / S) hN hlt ((T + S - 1) / S) 0 (by omega)
    rw [← List.range_eq_range'] at hs
    rw [hs]
    simp
  · intro env total_size ev event_len have_checksum total_batch_size buffer current_index
      first_event_in_file st henv hrun
    unfold large_event_flush at hrun
    rw [henv] at hrun
    split at hrun
    · cases hrun
    · split at hrun
      · cases hrun
      · rw [hspec] at hrun
        dsimp only at hrun
        have hsz := flushLoop_batch_sizes _ _ _ _ _ _ _ _ _ _ hrun
        rw [hsz]
        simp only [List.map_nil, List.nil_append, List.map_map]
        apply List.map_congr_left
        intro i hi
        have hi2 : i < (T + S - 1) / S := List.mem_range.mp hi
        have h4 : (i + 1) * S = i * S + S := Nat.succ_mul i S
        have hle1 : i * S < T := hlt i hi2
        have hm : min ((i + 1) * S) T ≤ T := Nat.min_le_right _ _
        have hm2 : i * S ≤ min ((i + 1) * S) T := by
          rw [h4]
          exact Nat.le_min.mpr ⟨by omega, by omega⟩
        simp only [Function.comp]
        omega

/-- C16 applied to the split size 16 and the total length 32 of the 28-byte event
`event28` with its checksum: two batches of 16 bytes, and a run that returns two frames
of 16 bytes. -/
theorem C16_batch_loop_witness :
    (0 < 16) ∧ (16 < 32) ∧ (32 + 16 < 2 ^ 64) ∧
    batchRanges 16 32 32 0 16 = some [(0, 16), (16, 32)] ∧
    (large_event_flush env16 32 event28 28 32 true 0 (List.replicate 16 0) 7 false).isSome
      = true ∧
    ∀ st, large_event_flush env16 32 event28 28 32 true 0 (List.replicate 16 0) 7 false
        = some st →
      st.frames.map LogFrame.batch_size = [16, 16] :=
  ⟨by decide, by decide, by decide, by decide, by decide,
    match C16_batch_loop 16 32 (by decide) (by decide) (by decide) with
    | ⟨ranges, h1, _, _, _, _, _, _, _, _, h10⟩ => by
      intro st hst
      have hr : ranges = [(0, 16), (16, 32)] := by
        have h2 : batchRanges 16 32 32 0 16 = some [(0, 16), (16, 32)] := by decide
        rw [h2] at h1
        exact (Option.some.inj h1).symm
      have h := h10 env16 32 event28 28 true 0 (List.replicate 16 0) 7 false st rfl hst
      rw [h, hr]
      rfl⟩

/-! ## The frames of a split event -/

set_option maxRecDepth 100000 in
/-- C17: the 28-byte event `event28` with checksums enabled (total length 32) and a split
size of 16 gives two batch buffers to the log cache. The second starts with the checksum
`211 255 138 55`, which `memcpy(buffer, &ev_crc, 4)` puts at offset 0 of the buffer over
the bytes `0 0 0 65` of the event, and ends in `0 8 4 0`, left from the first batch; the
concatenation is not the revised event followed by its checksum, which is what the binlog
file receives with the final frame. With checksums disabled the two batch buffers (16 and
12 bytes) concatenate to the revised event. -/
theorem C17_final_batch_buffer :
    (large_event_flush env16 32 event28 28 32 true 0 (List.replicate 16 0) 7 false).map
        (fun st => ((st.frames.map LogFrame.cache_buffer).flatten,
          st.frames.map LogFrame.payload))
      = some
          ([1, 2, 3, 4, 5, 6, 7, 8, 9, 32, 0, 0, 0, 8, 4, 0,
            211, 255, 138, 55, 66, 67, 68, 69, 70, 71, 72, 73, 0, 8, 4, 0],
           [List.replicate 23 0,
            [1, 2, 3, 4, 5, 6, 7, 8, 9, 32, 0, 0, 0, 8, 4, 0,
             0, 0, 0, 65, 66, 67, 68, 69, 70, 71, 72, 73, 211, 255, 138, 55]])
    ∧ (large_event_flush env16 28 event28 28 28 false 0 (List.replicate 16 0) 7 false).map
        (fun st => ((st.frames.map LogFrame.cache_buffer).flatten,
          st.frames.map LogFrame.payload))
      = some
          ([1, 2, 3, 4, 5, 6, 7, 8, 9, 28, 0, 0, 0, 4, 4, 0,
            0, 0, 0, 65, 66, 67, 68, 69, 70, 71, 72, 73],
           [List.replicate 23 0,
            [1, 2, 3, 4, 5, 6, 7, 8, 9, 28, 0, 0, 0, 4, 4, 0,
             0, 0, 0, 65, 66, 67, 68, 69, 70, 71, 72, 73]]) := by
  decide

set_option maxRecDepth 100000 in
/-- C18, as stated, fails on `event28` with checksums enabled and a split size of 16: the
trailer written after the final frame is `211 255 138 55`, the CRC32 `931856339` of the
whole revised event, but the checksum recorded in the final frame's consensus log header
is `1151728824`, the CRC32 of the final batch buffer. -/
theorem C18_header_checksum_counterexample :
    (large_event_flush env16 32 event28 28 32 true 0 (List.replicate 16 0) 7 false).map
        (fun st => st.frames.map
          (fun fr => (fr.flag.blob_end, fr.checksum, my_checksum 0 fr.cache_buffer,
            fr.payload.drop 28)))
      = some [(false, 3306329633, 3306329633, []),
              (true, 1151728824, 1151728824, [211, 255, 138, 55])]
    ∧ (revise_buffer (Consensuslog_event_writer.new true 1000 false false) event28).map
        (fun rs => (my_checksum 0 rs.revised, int4storeBytes (my_checksum 0 rs.revised)))
      = some (931856339, [211, 255, 138, 55]) := by
  decide

set_option maxRecDepth 100000 in
/-- C19, as stated, fails on `event28` with checksums enabled (framed length 32) and a
split size of 16: the second of the two frames is flagged `BLOB_END` without `BLOB`, and
the frames carry the indices 7 and 8. -/
theorem C19_frames_counterexample :
    (large_event_flush env16 32 event28 28 32 true 0 (List.replicate 16 0) 7 false).map
        (fun st => st.frames.map (fun fr => (fr.flag, fr.index, fr.cache_index)))
      = some
          [(FLAG_LARGE_TRX.or (FLAG_BLOB.or FLAG_BLOB_START), 7, 7),
           (FLAG_LARGE_TRX_END.or FLAG_BLOB_END, 8, 8)]
    ∧ (FLAG_LARGE_TRX_END.or FLAG_BLOB_END).blob = false := by
  decide

theorem length_memcpy (dst src : List Nat) (off n : Nat) (b : List Nat)
    (h : memcpy dst src off n = some b) : b.length = dst.length := by
  unfold memcpy at h
  split at h
  · rename_i hc
    simp only [Option.some.injEq] at h
    rw [← h, List.length_append, List.length_take, List.length_drop, List.length_drop]
    omega
  · cases h

theorem memcpy_isSome (dst src : List Nat) (off n : Nat) (h1 : off + n ≤ src.length)
    (h2 : n ≤ dst.length) : ∃ b, memcpy dst src off n = some b := by
  unfold memcpy
  rw [if_pos ⟨h1, h2⟩]
  exact ⟨_, rfl⟩

theorem fillBatchBuffer_ok (buffer temp_buf : List Nat) (ev_crc T : Nat) (hc : Bool)
    (r : Nat × Nat) (hr : RangeOK temp_buf T hc buffer.length r) :
    ∃ b, fillBatchBuffer buffer temp_buf ev_crc T hc r.1 r.2 = some b
      ∧ b.length = buffer.length := by
  obtain ⟨h1, h2, h3, h4, h5⟩ := hr
  have hbs : (r.2 + 2 ^ 64 - r.1) % 2 ^ 64 = r.2 - r.1 := by omega
  unfold fillBatchBuffer
  dsimp only
  rw [hbs]
  by_cases hfin : r.2 = T ∧ hc = true
  · rw [if_pos hfin]
    obtain ⟨h6, h7⟩ := h4 hfin.1 hfin.2
    have h6b : 4 ≤ r.2 - r.1 := h6
    have h7b : r.2 - 4 ≤ temp_buf.length := h7
    have hbs2 : (r.2 - r.1 + 2 ^ 64 - BINLOG_CHECKSUM_LEN) % 2 ^ 64 = r.2 - r.1 - 4 := by
      simp only [BINLOG_CHECKSUM_LEN]
      omega
    rw [hbs2]
    obtain ⟨b1, hb1⟩ := memcpy_isSome buffer temp_buf r.1 (r.2 - r.1 - 4) (by omega) (by omega)
    have hl1 := length_memcpy _ _ _ _ _ hb1
    obtain ⟨b2, hb2⟩ := memcpy_isSome b1 (int4storeBytes ev_crc) 0 BINLOG_CHECKSUM_LEN
      (by rw [length_int4storeBytes]; decide)
      (by rw [hl1]; simp only [BINLOG_CHECKSUM_LEN]; omega)
    have hl2 := length_memcpy _ _ _ _ _ hb2
    refine ⟨b2, ?_, by rw [hl2, hl1]⟩
    rw [hb1]
    exact hb2
  · rw [if_neg hfin]
    obtain ⟨b1, hb1⟩ := memcpy_isSome buffer temp_buf r.1 (r.2 - r.1)
      (by have := h5 hfin; omega) h3
    exact ⟨b1, hb1, length_memcpy _ _ _ _ _ hb1⟩

theorem batchFrame_for (env : FlushEnv) (temp_buf : List Nat) (ev_crc L T : Nat) (hc : Bool)
    (total_size tbs : Nat) (first : Bool) (idx : Nat) (buffer : List Nat)
    (start_pos end_pos : Nat) :
    FrameFor env temp_buf ev_crc L T hc idx start_pos end_pos
      (batchFrame env temp_buf ev_crc L T hc
        (batchFlag total_size T tbs first start_pos end_pos) idx buffer start_pos end_pos) := by
  unfold FrameFor batchFrame batchFlag
  by_cases h1 : end_pos = T <;> by_cases h2 : start_pos = 0 <;>
    by_cases h3 : tbs = total_size <;> cases first <;>
    simp [h1, h2, h3, Consensus_log_event_flag.or, FLAG_LARGE_TRX, FLAG_LARGE_TRX_END,
      FLAG_BLOB, FLAG_BLOB_START, FLAG_BLOB_END, FLAG_ROTATE, FLAG_NONE]

theorem flushBatch_ok (env : FlushEnv) (total_size : Nat) (temp_buf : List Nat)
    (ev_crc L T : Nat) (hc : Bool) (st : FlushState) (r : Nat × Nat)
    (hL : L ≤ temp_buf.length) (hr : RangeOK temp_buf T hc st.buffer.length r) :
    ∃ st2 fr, flushBatch env total_size temp_buf ev_crc L T hc st r.1 r.2 = some st2
      ∧ st2.buffer.length = st.buffer.length
      ∧ st2.current_index = st.current_index + 1
      ∧ st2.frames = st.frames ++ [fr]
      ∧ FrameFor env temp_buf ev_crc L T hc st.current_index r.1 r.2 fr := by
  obtain ⟨b, hb, hbl⟩ := fillBatchBuffer_ok st.buffer temp_buf ev_crc T hc r hr
  obtain ⟨h1, h2, h3, -, -⟩ := hr
  have hbs : (r.2 + 2 ^ 64 - r.1) % 2 ^ 64 = r.2 - r.1 := by omega
  have hcond : ¬ ((r.2 + 2 ^ 64 - r.1) % 2 ^ 64 > b.length ∨ L > temp_buf.length) := by
    rw [hbs, hbl]
    omega
  unfold flushBatch
  dsimp only
  rw [hb]
  dsimp only
  rw [if_neg hcond]
  exact ⟨_, _, rfl, hbl, rfl, rfl, batchFrame_for _ _ _ _ _ _ _ _ _ _ _ _ _⟩

theorem flushLoop_ok (env : FlushEnv) (total_size : Nat) (temp_buf : List Nat)
    (ev_crc L T : Nat) (hc : Bool) (hL : L ≤ temp_buf.length) :
    ∀ (ranges : List (Nat × Nat)) (st : FlushState),
      (∀ r ∈ ranges, RangeOK temp_buf T hc st.buffer.length r) →
      ∃ st2 frs, flushLoop env total_size temp_buf ev_crc L T hc ranges st = some st2
        ∧ st2.frames = st.frames ++ frs
        ∧ FramesFor env temp_buf ev_crc L T hc st.current_index ranges frs := by
  intro ranges
  induction ranges with
  | nil =>
    intro st _
    exact ⟨st, [], rfl, by simp, trivial⟩
  | cons r rs ih =>
    intro st hok
    obtain ⟨st1, fr, h1, h2, h3, h4, h5⟩ := flushBatch_ok env total_size temp_buf ev_crc L T hc
      st r hL (hok r (List.mem_cons_self _ _))
    obtain ⟨st2, frs, g1, g2, g3⟩ := ih st1 (by
      intro x hx
      rw [h2]
      exact hok x (List.mem_cons_of_mem _ hx))
    refine ⟨st2, fr :: frs, ?_, ?_, ?_⟩
    · rw [flushLoop, h1]
      exact g1
    · rw [g2, h4]
      simp
    · rw [h3] at g3
      exact ⟨h5, g3⟩

theorem framesFor_length (env : FlushEnv) (temp_buf : List Nat) (ev_crc L T : Nat) (hc : Bool) :
    ∀ (ranges : List (Nat × Nat)) (frs : List LogFrame) (idx : Nat),
      FramesFor env temp_buf ev_crc L T hc idx ranges frs → frs.length = ranges.length := by
  intro ranges
  induction ranges with
  | nil =>
    intro frs idx h
    cases frs with
    | nil => rfl
    | cons f fs => exact absurd h (by simp [FramesFor])
  | cons r rs ih =>
    intro frs idx h
    cases frs with
    | nil => exact absurd h (by simp [FramesFor])
    | cons f fs =>
      simp only [FramesFor] at h
      simp [ih fs (idx + 1) h.2]

theorem framesFor_get (env : FlushEnv) (temp_buf : List Nat) (ev_crc L T : Nat) (hc : Bool) :
    ∀ (ranges : List (Nat × Nat)) (frs : List LogFrame) (idx i : Nat) (fr : LogFrame),
      FramesFor env temp_buf ev_crc L T hc idx ranges frs → frs[i]? = some fr →
      ∃ r, ranges[i]? = some r ∧ FrameFor env temp_buf ev_crc L T hc (idx + i) r.1 r.2 fr := by
  intro ranges
  induction ranges with
  | nil =>
    intro frs idx i fr h hfr
    cases frs with
    | nil => simp at hfr
    | cons f fs => exact absurd h (by simp [FramesFor])
  | cons r rs ih =>
    intro frs idx i fr h hfr
    cases frs with
    | nil => simp at hfr
    | cons f fs =>
      simp only [FramesFor] at h
      cases i with
      | zero =>
        simp only [List.getElem?_cons_zero, Option.some.injEq] at hfr
        rw [← hfr]
        exact ⟨r, by simp, h.1⟩
      | succ j =>
        simp only [List.getElem?_cons_succ] at hfr
        obtain ⟨r2, hr2, hf2⟩ := ih fs (idx + 1) j fr h.2 hfr
        refine ⟨r2, by simpa using hr2, ?_⟩
        have e : idx + 1 + j = idx + (j + 1) := by omega
        rw [← e]
        exact hf2

theorem length_revisedEvent_nofooter (hc : Bool) (endPos : Nat) (e : List Nat)
    (h : LOG_EVENT_HEADER_LEN ≤ e.length) :
    (revisedEvent hc false endPos e).length = e.length := by
  have h19 : 19 ≤ e.length := h
  unfold revisedEvent
  rw [List.length_append, List.length_append, length_emittedHeader hc false endPos e h]
  simp [emittedBody, LOG_EVENT_HEADER_LEN]
  omega

/-- A single event through `revise_buffer`, with the value stored through `out_crc`. -/
theorem revise_one (hc footer : Bool) (P : Nat) (e : List Nat) (hwf : WellFormedEvent e)
    (hfoot : hc = true → footer = true → LOG_EVENT_HEADER_LEN + BINLOG_CHECKSUM_LEN ≤ e.length)
    (hel : e.length < 2 ^ 32) :
    ∃ w, revise_buffer (Consensuslog_event_writer.new hc P false footer) e
      = some
          { w := w,
            revised := revisedEvent hc footer ((P + emittedAdvance hc footer e) % 2 ^ 32) e,
            out_crc :=
              if hc then
                some (emittedCrc hc footer ((P + emittedAdvance hc footer e) % 2 ^ 32) e)
              else none } := by
  have hgt : 19 < e.length := hwf.1
  obtain ⟨f, hf⟩ : ∃ f, e.length = f + 2 := ⟨e.length - 2, by omega⟩
  have hn : Consensuslog_event_writer.new hc P false footer
      = { cleanWriter hc footer false (P % 2 ^ 32)
            (List.replicate LOG_EVENT_HEADER_LEN 0) with header_len := 0 } := by
    simp [Consensuslog_event_writer.new, cleanWriter]
  have hpos : (P % 2 ^ 32 + emittedAdvance hc footer e) % 2 ^ 32
      = (P + emittedAdvance hc footer e) % 2 ^ 32 := by omega
  have h := reviseLoop_event hc footer (P % 2 ^ 32) 0 (List.replicate LOG_EVENT_HEADER_LEN 0)
    [] none e [] f hwf hfoot hel
  rw [List.append_nil, hpos] at h
  refine ⟨{ cleanWriter hc footer false ((P + emittedAdvance hc footer e) % 2 ^ 32)
              (List.replicate LOG_EVENT_HEADER_LEN 0) with
              header_len := LOG_EVENT_HEADER_LEN }, ?_⟩
  unfold revise_buffer
  rw [hn, hf, h]
  cases f <;> simp [reviseLoop]

/-- The frames of `large_event_flush` for a complete event whose last batch has room for
the checksum. -/
theorem large_event_flush_ok (env : FlushEnv) (total_size : Nat) (ev : List Nat) (hc : Bool)
    (tbs : Nat) (buffer : List Nat) (idx : Nat) (first : Bool) (S T : Nat)
    (henv : env.opt_consensus_large_event_split_size = S)
    (hTdef : T = ev.length + (if hc then BINLOG_CHECKSUM_LEN else 0))
    (hwf : WellFormedEvent ev) (hel : ev.length < 2 ^ 32)
    (hS : 0 < S) (hT : S ≤ T) (hb : T + S < 2 ^ 64) (hbuf : buffer.length = S)
    (hlast : hc = true → BINLOG_CHECKSUM_LEN ≤ T - ((T + S - 1) / S - 1) * S) :
    ∃ st, large_event_flush env total_size ev ev.length T hc tbs buffer idx first = some st
      ∧ FramesFor env
          (revisedEvent hc false
            ((env.event_start_pos + emittedAdvance hc false ev) % 2 ^ 32) ev)
          (if hc then
            emittedCrc hc false
              ((env.event_start_pos + emittedAdvance hc false ev) % 2 ^ 32) ev
          else 0)
          ev.length T hc idx
          ((List.range ((T + S - 1) / S)).map (fun i => (i * S, min ((i + 1) * S) T)))
          st.frames := by
  obtain ⟨hN, hlt⟩ := ceil_bounds S T hS
  obtain ⟨w, hrev⟩ := revise_one hc false env.event_start_pos ev hwf (fun _ h => by cases h) hel
  have hlen := length_revisedEvent_nofooter hc
    ((env.event_start_pos + emittedAdvance hc false ev) % 2 ^ 32) ev (Nat.le_of_lt hwf.1)
  have hcrc : (if hc then
        some (emittedCrc hc false
          ((env.event_start_pos + emittedAdvance hc false ev) % 2 ^ 32) ev)
      else none).getD 0
      = (if hc then
          emittedCrc hc false
            ((env.event_start_pos + emittedAdvance hc false ev) % 2 ^ 32) ev
        else 0) := by
    cases hc <;> rfl
  have hok : ∀ r ∈ (List.range ((T + S - 1) / S)).map (fun i => (i * S, min ((i + 1) * S) T)),
      RangeOK
        (revisedEvent hc false
          ((env.event_start_pos + emittedAdvance hc false ev) % 2 ^ 32) ev)
        T hc buffer.length r := by
    intro r hr
    rw [List.mem_map] at hr
    obtain ⟨i, hi, rfl⟩ := hr
    have hi2 : i < (T + S - 1) / S := List.mem_range.mp hi
    have h4 : (i + 1) * S = i * S + S := Nat.succ_mul i S
    have hle1 : i * S < T := hlt i hi2
    have hm : min ((i + 1) * S) T ≤ T := Nat.min_le_right _ _
    have hm2 : i * S ≤ min ((i + 1) * S) T := by
      rw [h4]
      exact Nat.le_min.mpr ⟨by omega, by omega⟩
    have hm3 : min ((i + 1) * S) T ≤ i * S + S := by
      rw [← h4]
      exact Nat.min_le_left _ _
    have hfinal : min ((i + 1) * S) T = T → i + 1 = (T + S - 1) / S := by
      intro he
      rcases Nat.lt_or_ge (i + 1) ((T + S - 1) / S) with hlt2 | hge
      · have := hlt (i + 1) hlt2
        have : min ((i + 1) * S) T = (i + 1) * S := Nat.min_eq_left (by omega)
        omega
      · omega
    have hnonfinal : min ((i + 1) * S) T ≠ T →
        min ((i + 1) * S) T ≤ ((T + S - 1) / S - 1) * S := by
      intro hne
      have hlt3 : (i + 1) * S < T := by
        rcases Nat.lt_or_ge ((i + 1) * S) T with h | h
        · exact h
        · exact absurd (Nat.min_eq_right h) hne
      have hi3 : i + 1 ≤ (T + S - 1) / S - 1 := by
        rcases Nat.lt_or_ge (i + 1) ((T + S - 1) / S) with h | h
        · omega
        · have h5 : (T + S - 1) / S = i + 1 := by omega
          rw [h5] at hN
          omega
      have := Nat.mul_le_mul_right S hi3
      have : min ((i + 1) * S) T ≤ (i + 1) * S := Nat.min_le_left _ _
      omega
    refine ⟨hm2, by omega, by rw [hbuf]; dsimp only; omega, ?_, ?_⟩
    · intro he hct
      dsimp only at he ⊢
      have hi4 := hfinal he
      have hl := hlast hct
      have h5 : (T + S - 1) / S - 1 = i := by omega
      rw [h5] at hl
      rw [hlen, he]
      rw [hct] at hTdef
      simp only [if_true] at hTdef
      simp only [BINLOG_CHECKSUM_LEN] at hl hTdef ⊢
      omega
    · intro hn
      dsimp only at hn ⊢
      rw [hlen]
      cases hc with
      | false =>
        simp only [Bool.false_eq_true, if_false, Nat.add_zero] at hTdef
        omega
      | true =>
        have hne : min ((i + 1) * S) T ≠ T := fun he => hn ⟨he, rfl⟩
        have h6 := hnonfinal hne
        have hl := hlast rfl
        simp only [if_true] at hTdef
        simp only [BINLOG_CHECKSUM_LEN] at hl hTdef
        omega
  obtain ⟨st2, frs, g1, g2, g3⟩ := flushLoop_ok env total_size
    (revisedEvent hc false ((env.event_start_pos + emittedAdvance hc false ev) % 2 ^ 32) ev)
    (if hc then
      emittedCrc hc false ((env.event_start_pos + emittedAdvance hc false ev) % 2 ^ 32) ev
    else 0)
    ev.length T hc (by rw [hlen])
    ((List.range ((T + S - 1) / S)).map (fun i => (i * S, min ((i + 1) * S) T)))
    { buffer := buffer, total_batch_size := tbs, current_index := idx,
      first_event_in_file := first, frames := [] } hok
  refine ⟨st2, ?_, ?_⟩
  · unfold large_event_flush
    rw [if_neg (by omega), List.take_of_length_le (Nat.le_refl _), hrev]
    dsimp only
    rw [henv, batchRanges_spec S T hS hT hb]
    dsimp only
    rw [List.drop_eq_nil_of_le (Nat.le_refl _), List.append_nil, hcrc]
    exact g1
  · rw [g2]
    exact g3

/-- C18 (amended): for a complete event with checksums enabled whose last batch holds at
least the four checksum bytes, `large_event_flush` returns; the final frame (flagged
`BLOB_END`) is followed in the file by the whole revised event and the CRC32 of the whole
revised event, while the checksum recorded in the consensus log header of every frame,
the final one included, is the CRC32 of that frame's own batch buffer when
`opt_consensus_checksum` is set and 0 otherwise. -/
theorem C18_final_frame_checksums (env : FlushEnv) (total_size : Nat) (ev : List Nat)
    (tbs : Nat) (buffer : List Nat) (idx : Nat) (first : Bool)
    (hwf : WellFormedEvent ev) (hel : ev.length < 2 ^ 32)
    (hS : 0 < env.opt_consensus_large_event_split_size)
    (hT : env.opt_consensus_large_event_split_size < ev.length + BINLOG_CHECKSUM_LEN)
    (hb : ev.length + BINLOG_CHECKSUM_LEN + env.opt_consensus_large_event_split_size < 2 ^ 64)
    (hbuf : buffer.length = env.opt_consensus_large_event_split_size)
    (hlast : BINLOG_CHECKSUM_LEN
      ≤ ev.length + BINLOG_CHECKSUM_LEN
        - ((ev.length + BINLOG_CHECKSUM_LEN + env.opt_consensus_large_event_split_size - 1)
            / env.opt_consensus_large_event_split_size - 1)
          * env.opt_consensus_large_event_split_size) :
    ∃ st revised,
      large_event_flush env total_size ev ev.length (ev.length + BINLOG_CHECKSUM_LEN) true
          tbs buffer idx first = some st
      ∧ (revise_buffer
            (Consensuslog_event_writer.new true env.event_start_pos false false) ev).map
          ReviseState.revised = some revised
      ∧ (∃ last, st.frames.getLast? = some last ∧ last.flag.blob_end = true
          ∧ last.payload = revised ++ int4storeBytes (my_checksum 0 revised))
      ∧ ∀ fr ∈ st.frames,
          fr.checksum
            = (if env.opt_consensus_checksum then my_checksum 0 fr.cache_buffer else 0) := by
  obtain ⟨hN, hlt⟩ := ceil_bounds env.opt_consensus_large_event_split_size
    (ev.length + BINLOG_CHECKSUM_LEN) hS
  obtain ⟨st, hrun, hfr⟩ := large_event_flush_ok env total_size ev true tbs buffer idx first
    env.opt_consensus_large_event_split_size (ev.length + BINLOG_CHECKSUM_LEN) rfl rfl hwf hel
    hS (Nat.le_of_lt hT) hb hbuf (fun _ => hlast)
  obtain ⟨w, hrev⟩ := revise_one true false env.event_start_pos ev hwf
    (fun _ h => by cases h) hel
  have hlen := length_revisedEvent_nofooter true
    ((env.event_start_pos + emittedAdvance true false ev) % 2 ^ 32) ev (Nat.le_of_lt hwf.1)
  have hflen := framesFor_length _ _ _ _ _ _ _ _ _ hfr
  rw [List.length_map, List.length_range] at hflen
  have hNpos : 0 < (ev.length + BINLOG_CHECKSUM_LEN
      + env.opt_consensus_large_event_split_size - 1)
      / env.opt_consensus_large_event_split_size := by
    rcases Nat.eq_zero_or_pos ((ev.length + BINLOG_CHECKSUM_LEN
      + env.opt_consensus_large_event_split_size - 1)
      / env.opt_consensus_large_event_split_size) with h0 | h0
    · rw [h0] at hN
      simp only [BINLOG_CHECKSUM_LEN] at hN
      omega
    · exact h0
  refine ⟨st, _, hrun, by rw [hrev]; rfl, ?_, ?_⟩
  · have hex : ∃ last, st.frames[st.frames.length - 1]? = some last := by
      have hlt2 : st.frames.length - 1 < st.frames.length := by omega
      exact ⟨st.frames[st.frames.length - 1], List.getElem?_eq_getElem hlt2⟩
    obtain ⟨last, hl⟩ := hex
    obtain ⟨r, hr, hfor⟩ := framesFor_get _ _ _ _ _ _ _ _ _ _ _ hfr hl
    rw [hflen, List.getElem?_map, List.getElem?_range (by omega)] at hr
    simp only [Option.map_some', Option.some.injEq] at hr
    have hsucc : ((ev.length + BINLOG_CHECKSUM_LEN
        + env.opt_consensus_large_event_split_size - 1)
        / env.opt_consensus_large_event_split_size - 1 + 1)
        = (ev.length + BINLOG_CHECKSUM_LEN
        + env.opt_consensus_large_event_split_size - 1)
        / env.opt_consensus_large_event_split_size := by omega
    have hend : r.2 = ev.length + BINLOG_CHECKSUM_LEN := by
      rw [← hr]
      dsimp only
      rw [hsucc]
      exact Nat.min_eq_right hN
    obtain ⟨-, -, -, h4, -, -, -, h8, -⟩ := hfor
    refine ⟨last, by rw [List.getLast?_eq_getElem?]; exact hl, ?_, ?_⟩
    · rw [h4, hend]
      simp
    · rw [h8, if_pos hend, ← hlen, List.take_length]
      simp [emittedCrc, revisedEvent]
  · intro fr hmem
    obtain ⟨i, hi⟩ := List.mem_iff_getElem?.mp hmem
    obtain ⟨r, -, hfor⟩ := framesFor_get _ _ _ _ _ _ _ _ _ _ _ hfr hi
    exact hfor.2.2.1

/-- C18 (amended) applied to `event28` with a split size of 16. -/
theorem C18_final_frame_checksums_witness :
    WellFormedEvent event28 ∧
    ∃ st revised,
      large_event_flush env16 32 event28 event28.length (event28.length + BINLOG_CHECKSUM_LEN)
          true 0 (List.replicate 16 0) 7 false = some st
      ∧ (revise_buffer
            (Consensuslog_event_writer.new true env16.event_start_pos false false)
            event28).map ReviseState.revised = some revised
      ∧ (∃ last, st.frames.getLast? = some last ∧ last.flag.blob_end = true
          ∧ last.payload = revised ++ int4storeBytes (my_checksum 0 revised))
      ∧ ∀ fr ∈ st.frames,
          fr.checksum
            = (if env16.opt_consensus_checksum then my_checksum 0 fr.cache_buffer else 0) :=
  ⟨⟨by decide, by decide⟩,
    C18_final_frame_checksums env16 32 event28 0 (List.replicate 16 0) 7 false
      ⟨by decide, by decide⟩ (by decide) (by decide) (by decide) (by decide) (by decide)
      (by decide)⟩

/-- C19 (amended): an event whose framed length with checksum enabled is exactly twice
the split size goes through `large_event_flush` as exactly two frames; the first is
flagged `BLOB` and `BLOB_START` and not `BLOB_END`, the second is flagged `BLOB_END` and
neither `BLOB` nor `BLOB_START`, each carries `LARGE_TRX` or `LARGE_TRX_END`, and the two
frames carry the consecutive indices `k` and `k + 1`, in the consensus log event as well
as in the log cache. -/
theorem C19_two_frames (env : FlushEnv) (total_size : Nat) (ev : List Nat)
    (tbs : Nat) (buffer : List Nat) (k : Nat) (first : Bool)
    (hwf : WellFormedEvent ev) (hel : ev.length < 2 ^ 32)
    (h2 : ev.length + BINLOG_CHECKSUM_LEN = 2 * env.opt_consensus_large_event_split_size)
    (hbuf : buffer.length = env.opt_consensus_large_event_split_size) :
    ∃ st f1 f2,
      large_event_flush env total_size ev ev.length (ev.length + BINLOG_CHECKSUM_LEN) true
          tbs buffer k first = some st
      ∧ st.frames = [f1, f2]
      ∧ f1.flag.blob = true ∧ f1.flag.blob_start = true ∧ f1.flag.blob_end = false
      ∧ f2.flag.blob = false ∧ f2.flag.blob_start = false ∧ f2.flag.blob_end = true
      ∧ f1.flag.large_trx = !f1.flag.large_trx_end
      ∧ f2.flag.large_trx = !f2.flag.large_trx_end
      ∧ f1.index = k ∧ f2.index = k + 1
      ∧ f1.cache_index = k ∧ f2.cache_index = k + 1 := by
  have hgt : 19 < ev.length := hwf.1
  have h2b : ev.length + 4 = 2 * env.opt_consensus_large_event_split_size := h2
  have hel2 : ev.length < 4294967296 := hel
  have hS : 0 < env.opt_consensus_large_event_split_size := by omega
  have hN : (ev.length + BINLOG_CHECKSUM_LEN + env.opt_consensus_large_event_split_size - 1)
      / env.opt_consensus_large_event_split_size = 2 := by
    apply Nat.div_eq_of_lt_le
    · simp only [BINLOG_CHECKSUM_LEN]
      omega
    · simp only [BINLOG_CHECKSUM_LEN]
      omega
  obtain ⟨st, hrun, hfr⟩ := large_event_flush_ok env total_size ev true tbs buffer k first
    env.opt_consensus_large_event_split_size (ev.length + BINLOG_CHECKSUM_LEN) rfl rfl hwf hel
    hS (by simp only [BINLOG_CHECKSUM_LEN]; omega) (by simp only [BINLOG_CHECKSUM_LEN]; omega)
    hbuf (by
      intro _
      rw [hN]
      simp only [BINLOG_CHECKSUM_LEN]
      omega)
  rw [hN] at hfr
  have hranges : (List.range 2).map
      (fun i => (i * env.opt_consensus_large_event_split_size,
        min ((i + 1) * env.opt_consensus_large_event_split_size)
          (ev.length + BINLOG_CHECKSUM_LEN)))
      = [(0, env.opt_consensus_large_event_split_size),
         (env.opt_consensus_large_event_split_size, ev.length + BINLOG_CHECKSUM_LEN)] := by
    have e1 : min ((0 + 1) * env.opt_consensus_large_event_split_size)
        (ev.length + BINLOG_CHECKSUM_LEN) = env.opt_consensus_large_event_split_size := by
      rw [Nat.zero_add, Nat.one_mul]
      exact Nat.min_eq_left (by simp only [BINLOG_CHECKSUM_LEN]; omega)
    have e2 : min ((1 + 1) * env.opt_consensus_large_event_split_size)
        (ev.length + BINLOG_CHECKSUM_LEN) = ev.length + BINLOG_CHECKSUM_LEN := by
      exact Nat.min_eq_right (by simp only [BINLOG_CHECKSUM_LEN]; omega)
    simp only [List.range_succ, List.range_zero, List.nil_append, List.map_append,
      List.map_cons, List.map_nil, List.singleton_append, Nat.zero_mul, Nat.one_mul, e1, e2]
  rw [hranges] at hfr
  cases hf : st.frames with
  | nil =>
    rw [hf] at hfr
    exact absurd hfr (by simp [FramesFor])
  | cons f1 rest =>
    cases rest with
    | nil =>
      rw [hf] at hfr
      exact absurd hfr (by simp [FramesFor])
    | cons f2 rest2 =>
      cases rest2 with
      | cons f3 rest3 =>
        rw [hf] at hfr
        exact absurd hfr (by simp [FramesFor])
      | nil =>
        rw [hf] at hfr
        simp only [FramesFor] at hfr
        obtain ⟨⟨a1, a2, -, a4, a5, a6, a7, -, -⟩, ⟨b1, b2, -, b4, b5, b6, b7, -, -⟩, -⟩ := hfr
        have hne : env.opt_consensus_large_event_split_size
            ≠ ev.length + BINLOG_CHECKSUM_LEN := by
          simp only [BINLOG_CHECKSUM_LEN]
          omega
        refine ⟨st, f1, f2, hrun, hf, ?_, ?_, ?_, ?_, ?_, ?_, a7, b7, a1, b1, a2, b2⟩
        · rw [a5]
          simp [hne]
        · rw [a6]
          simp [hne]
        · rw [a4]
          simp [hne]
        · rw [b5]
          simp
        · rw [b6]
          simp
        · rw [b4]
          simp

/-- C19 (amended) applied to `event28` (framed length 32) with a split size of 16 at the
index 7. -/
theorem C19_two_frames_witness :
    WellFormedEvent event28 ∧
    event28.length + BINLOG_CHECKSUM_LEN = 2 * env16.opt_consensus_large_event_split_size ∧
    ∃ st f1 f2,
      large_event_flush env16 32 event28 event28.length (event28.length + BINLOG_CHECKSUM_LEN)
          true 0 (List.replicate 16 0) 7 false = some st
      ∧ st.frames = [f1, f2]
      ∧ f1.flag.blob = true ∧ f1.flag.blob_start = true ∧ f1.flag.blob_end = false
      ∧ f2.flag.blob = false ∧ f2.flag.blob_start = false ∧ f2.flag.blob_end = true
      ∧ f1.flag.large_trx = !f1.flag.large_trx_end
      ∧ f2.flag.large_trx = !f2.flag.large_trx_end
      ∧ f1.index = 7 ∧ f2.index = 7 + 1
      ∧ f1.cache_index = 7 ∧ f2.cache_index = 7 + 1 :=
  ⟨⟨by decide, by decide⟩, by decide,
    C19_two_frames env16 32 event28 0 (List.replicate 16 0) 7 false
      ⟨by decide, by decide⟩ (by decide) (by decide) (by decide)⟩

/-! ## The frames of a large transaction -/

theorem length_emittedEvent_nofooter (hc : Bool) (endPos : Nat) (e : List Nat)
    (h : LOG_EVENT_HEADER_LEN ≤ e.length) :
    (emittedEvent hc false endPos e).length = emittedAdvance hc false e := by
  have h19 : 19 ≤ e.length := h
  unfold emittedEvent
  rw [List.length_append, List.length_append, length_emittedHeader hc false endPos e h]
  cases hc <;> simp [emittedBody, emittedAdvance, LOG_EVENT_HEADER_LEN, BINLOG_CHECKSUM_LEN,
    length_int4storeBytes] <;> omega

/-- A single event through `write` on a writer that is between two events. -/
theorem write_one (hc footer : Bool) (p : Nat) (h out : List Nat) (e : List Nat)
    (hh : h.length = LOG_EVENT_HEADER_LEN) (hwf : WellFormedEvent e)
    (hfoot : hc = true → footer = true → LOG_EVENT_HEADER_LEN + BINLOG_CHECKSUM_LEN ≤ e.length)
    (hel : e.length < 2 ^ 32) :
    ∃ crc, write (cleanWriter hc footer true p h) out e
      = some
          { w := cleanWriter hc footer true ((p + emittedAdvance hc footer e) % 2 ^ 32)
              (emittedHeader hc footer ((p + emittedAdvance hc footer e) % 2 ^ 32) e),
            ostream := out
              ++ emittedEvent hc footer ((p + emittedAdvance hc footer e) % 2 ^ 32) e,
            out_crc := crc } := by
  have hgt : 19 < e.length := hwf.1
  obtain ⟨f, hf⟩ : ∃ f, e.length = f + 2 := ⟨e.length - 2, by omega⟩
  have h := writeLoop_event hc footer p h out none e [] f hh hwf hfoot
    (by rw [List.append_nil]; exact hel)
  rw [List.append_nil] at h
  refine ⟨if hc then
      some (emittedCrc hc footer ((p + emittedAdvance hc footer e) % 2 ^ 32) e)
    else none, ?_⟩
  unfold write
  rw [hf, h]
  cases f <;> simp [writeLoop]

theorem emittedAdvance_nofooter (hc : Bool) (e : List Nat) :
    emittedAdvance hc false e = e.length + (if hc then BINLOG_CHECKSUM_LEN else 0) := by
  cases hc <;> simp [emittedAdvance]

/-- One event that stays within the limit through the body of the loop of
`large_trx_flush`. -/
theorem large_trx_flush_event_inv (env : TrxEnv) (total_size : Nat) (hc : Bool)
    (done : List (List Nat)) (st : TrxState) (e : List Nat)
    (hinv : TrxInv env hc done st) (hwf : WellFormedEvent e) (hel : e.length < 2 ^ 32)
    (hmax : emittedAdvance hc false e ≤ env.opt_consensus_max_log_size) :
    ∃ st2, large_trx_flush_event env total_size hc st e = some st2
      ∧ TrxInv env hc (done ++ [e]) st2 := by
  obtain ⟨⟨p, h, hw, hh⟩, groups, cur, i1, i2, i3, i4, i5, i6, i7, i8, i9⟩ := hinv
  have hadv := emittedAdvance_nofooter hc e
  have hfield : uint4korr e EVENT_LEN_OFFSET = e.length := hwf.2
  have hnotlarge : ¬ (e.length + (if hc then BINLOG_CHECKSUM_LEN else 0)
      > env.opt_consensus_max_log_size) := by
    rw [← hadv]
    omega
  have hlenle : ¬ (e.length > e.length) := by omega
  have hlen_em : ∀ q, (emittedEvent hc false q e).length = emittedAdvance hc false e :=
    fun q => length_emittedEvent_nofooter hc q e (Nat.le_of_lt hwf.1)
  unfold large_trx_flush_event
  simp only [hfield]
  by_cases hflush : st.log_cache.length > 0
      ∧ st.log_cache.length + (e.length + (if hc then BINLOG_CHECKSUM_LEN else 0))
        > env.opt_consensus_max_log_size
  · rw [if_pos hflush]
    simp only [large_trx_flush_log_cache, if_neg hnotlarge, if_neg hlenle, if_true,
      List.take_length, hw]
    obtain ⟨q, hq⟩ : ∃ q, q
        = (p + (env.consensus_log_event_length + if hc then BINLOG_CHECKSUM_LEN else 0))
          % 2 ^ 32 := ⟨_, rfl⟩
    obtain ⟨crc, hwr⟩ := write_one hc false q h [] e hh hwf (fun _ hf => by cases hf) hel
    have hw2 : ({ cleanWriter hc false true p h with
        end_log_pos := ((cleanWriter hc false true p h).end_log_pos
          + (env.consensus_log_event_length + if hc then BINLOG_CHECKSUM_LEN else 0))
            % 2 ^ 32 } : Consensuslog_event_writer)
        = cleanWriter hc false true q h := by
      rw [hq]
      rfl
    rw [hw2, hwr]
    obtain ⟨q2, hq2⟩ : ∃ q2, q2 = (q + emittedAdvance hc false e) % 2 ^ 32 := ⟨_, rfl⟩
    rw [← hq2]
    refine ⟨_, rfl, ?_⟩
    unfold TrxInv
    dsimp only
    refine ⟨⟨q2, emittedHeader hc false q2 e, rfl,
      length_emittedHeader hc false q2 e (Nat.le_of_lt hwf.1)⟩, ?_⟩
    refine ⟨groups ++ [cur], [emittedEvent hc false q2 e], ?_, ?_, ?_, ?_, ?_, ?_, ?_, ?_, ?_⟩
    · simp [i1, i2]
    · simp
    · intro g hg
      rcases List.mem_append.mp hg with hg1 | hg1
      · exact i3 g hg1
      · rw [List.mem_singleton.mp hg1]
        exact i4
    · simp
    · have e1 : (groups ++ [cur]).flatten ++ [emittedEvent hc false q2 e]
          = (groups.flatten ++ cur) ++ [emittedEvent hc false q2 e] := by simp
      rw [e1]
      exact List.rel_append i5 (List.Forall₂.cons ⟨q2, rfl⟩ List.Forall₂.nil)
    · rw [List.nil_append, hlen_em]
      rw [hadv]
      have : 19 < e.length := hwf.1
      omega
    · rw [List.nil_append, hlen_em]
      exact hmax
    · intro fr hfr
      rcases List.mem_append.mp hfr with h1 | h1
      · exact i8 fr h1
      · rw [List.mem_singleton.mp h1]
        dsimp only
        refine ⟨?_, ?_, i7⟩
        · cases st.first_event_in_file <;>
            simp [Consensus_log_event_flag.or, FLAG_LARGE_TRX, FLAG_ROTATE, FLAG_NONE]
        · cases st.first_event_in_file <;>
            simp [Consensus_log_event_flag.or, FLAG_LARGE_TRX, FLAG_ROTATE, FLAG_NONE]
    · rw [List.nil_append, hlen_em]
      simp only [List.map_append, List.sum_append, List.map_cons, List.map_nil, List.sum_cons,
        List.sum_nil, i9]
      omega
  · rw [if_neg hflush]
    simp only [if_neg hnotlarge, if_neg hlenle, List.take_length, hw]
    have hfit : st.log_cache.length + emittedAdvance hc false e
        ≤ env.opt_consensus_max_log_size := by
      rw [hadv]
      omega
    have hwcase : ∃ q, (if st.fisrt_event_in_batch = true then
          ({ cleanWriter hc false true p h with
            end_log_pos := ((cleanWriter hc false true p h).end_log_pos
              + (env.consensus_log_event_length + if hc then BINLOG_CHECKSUM_LEN else 0))
                % 2 ^ 32 } : Consensuslog_event_writer)
        else cleanWriter hc false true p h) = cleanWriter hc false true q h := by
      cases st.fisrt_event_in_batch
      · exact ⟨p, rfl⟩
      · exact ⟨_, rfl⟩
    obtain ⟨q, hq⟩ := hwcase
    obtain ⟨crc, hwr⟩ := write_one hc false q h st.log_cache e hh hwf
      (fun _ hf => by cases hf) hel
    rw [hq, hwr]
    obtain ⟨q2, hq2⟩ : ∃ q2, q2 = (q + emittedAdvance hc false e) % 2 ^ 32 := ⟨_, rfl⟩
    rw [← hq2]
    refine ⟨_, rfl, ?_⟩
    unfold TrxInv
    dsimp only
    refine ⟨⟨q2, emittedHeader hc false q2 e, rfl,
      length_emittedHeader hc false q2 e (Nat.le_of_lt hwf.1)⟩, ?_⟩
    refine ⟨groups, cur ++ [emittedEvent hc false q2 e], i1, ?_, i3, ?_, ?_, ?_, ?_, i8, ?_⟩
    · simp [i2]
    · simp
    · rw [← List.append_assoc]
      exact List.rel_append i5 (List.Forall₂.cons ⟨q2, rfl⟩ List.Forall₂.nil)
    · rw [List.length_append]
      omega
    · rw [List.length_append, hlen_em]
      exact hfit
    · rw [List.length_append, hlen_em]
      simp only [List.map_append, List.sum_append, List.map_cons, List.map_nil, List.sum_cons,
        List.sum_nil, i9]
      omega

theorem large_trx_flush_loop_inv (env : TrxEnv) (total_size : Nat) (hc : Bool) :
    ∀ (events done : List (List Nat)) (st : TrxState),
      TrxInv env hc done st →
      (∀ e ∈ events, WellFormedEvent e ∧ e.length < 2 ^ 32
        ∧ emittedAdvance hc false e ≤ env.opt_consensus_max_log_size) →
      ∃ st2, large_trx_flush_loop env total_size hc events st = some st2
        ∧ TrxInv env hc (done ++ events) st2 := by
  intro events
  induction events with
  | nil =>
    intro done st hinv _
    exact ⟨st, rfl, by rw [List.append_nil]; exact hinv⟩
  | cons e es ih =>
    intro done st hinv hev
    obtain ⟨h1, h2, h3⟩ := hev e (List.mem_cons_self _ _)
    obtain ⟨st1, g1, g2⟩ := large_trx_flush_event_inv env total_size hc done st e hinv h1 h2 h3
    obtain ⟨st2, k1, k2⟩ := ih (done ++ [e]) st1 g2
      (fun x hx => hev x (List.mem_cons_of_mem _ hx))
    refine ⟨st2, ?_, ?_⟩
    · rw [large_trx_flush_loop, g1]
      exact k1
    · rw [List.append_assoc] at k2
      exact k2
/-- C20: for a transaction whose events (the gtid event included) are complete and each
within `opt_consensus_max_log_size` with its checksum, while their total is above it,
`large_trx_flush` returns at least two frames; every frame but the last is flagged
`LARGE_TRX` and not `LARGE_TRX_END`, the last is flagged `LARGE_TRX_END` and not
`LARGE_TRX`; each payload is a non-empty group of complete events as the writer emits
them, of at most `opt_consensus_max_log_size` bytes; and the groups, in order, are the
events of the transaction, so the payloads concatenate to the whole transaction
payload. -/
theorem C20_large_trx_frames (env : TrxEnv) (total_size : Nat) (hc : Bool) (gtid : List Nat)
    (events : List (List Nat)) (binlog_pos current_index : Nat) (first_event_in_file : Bool)
    (hev : ∀ e ∈ gtid :: events, WellFormedEvent e ∧ e.length < 2 ^ 32
      ∧ e.length + (if hc then BINLOG_CHECKSUM_LEN else 0) ≤ env.opt_consensus_max_log_size)
    (htotal : env.opt_consensus_max_log_size
      < ((gtid :: events).map
          (fun e => e.length + (if hc then BINLOG_CHECKSUM_LEN else 0))).sum) :
    ∃ st, large_trx_flush env total_size hc gtid events binlog_pos current_index
          first_event_in_file = some st
      ∧ 2 ≤ st.frames.length
      ∧ (∀ (i : Nat) (fr : LogFrame), st.frames[i]? = some fr →
          fr.flag.large_trx = decide (i + 1 < st.frames.length)
          ∧ fr.flag.large_trx_end = decide (i + 1 = st.frames.length))
      ∧ (∀ fr ∈ st.frames, fr.payload.length ≤ env.opt_consensus_max_log_size)
      ∧ ∃ groups : List (List (List Nat)),
          st.frames.map LogFrame.payload = groups.map List.flatten
          ∧ (∀ g ∈ groups, g ≠ [])
          ∧ List.Forall₂ (EmittedAs hc) (gtid :: events) groups.flatten := by
  have hfun : (fun e : List Nat => e.length + (if hc then BINLOG_CHECKSUM_LEN else 0))
      = emittedAdvance hc false := by
    funext e
    rw [emittedAdvance_nofooter]
  rw [hfun] at htotal
  have hev2 : ∀ e ∈ gtid :: events, WellFormedEvent e ∧ e.length < 2 ^ 32
      ∧ emittedAdvance hc false e ≤ env.opt_consensus_max_log_size := by
    intro e he
    obtain ⟨h1, h2, h3⟩ := hev e he
    exact ⟨h1, h2, by rw [emittedAdvance_nofooter]; exact h3⟩
  obtain ⟨hg1, hg2, hg3⟩ := hev2 gtid (List.mem_cons_self _ _)
  obtain ⟨q, hq⟩ : ∃ q, q = (binlog_pos
      + (env.consensus_log_event_length + if hc then BINLOG_CHECKSUM_LEN else 0) + 0)
      % 2 ^ 32 := ⟨_, rfl⟩
  obtain ⟨crc, hwr⟩ := write_one hc false q (List.replicate LOG_EVENT_HEADER_LEN 0) [] gtid
    (by simp) hg1 (fun _ hf => by cases hf) hg2
  obtain ⟨q2, hq2⟩ : ∃ q2, q2 = (q + emittedAdvance hc false gtid) % 2 ^ 32 := ⟨_, rfl⟩
  rw [← hq2] at hwr
  have hlen_g : (emittedEvent hc false q2 gtid).length = emittedAdvance hc false gtid :=
    length_emittedEvent_nofooter hc q2 gtid (Nat.le_of_lt hg1.1)
  have hpos_g : 0 < emittedAdvance hc false gtid := by
    rw [emittedAdvance_nofooter]
    have : 19 < gtid.length := hg1.1
    omega
  have hinv0 : TrxInv env hc [gtid]
      { consensus_writer := cleanWriter hc false true q2 (emittedHeader hc false q2 gtid),
        log_cache := [] ++ emittedEvent hc false q2 gtid,
        fisrt_event_in_batch := false, total_batch_size := 0,
        current_index := current_index, first_event_in_file := first_event_in_file,
        binlog_pos := binlog_pos, frames := [] } := by
    refine ⟨⟨q2, _, rfl, length_emittedHeader hc false q2 gtid (Nat.le_of_lt hg1.1)⟩,
      [], [emittedEvent hc false q2 gtid], ?_, ?_, ?_, ?_, ?_, ?_, ?_, ?_, ?_⟩
    · rfl
    · simp
    · intro g hg
      cases hg
    · simp
    · exact List.Forall₂.cons ⟨q2, rfl⟩ List.Forall₂.nil
    · rw [List.nil_append, hlen_g]
      exact hpos_g
    · rw [List.nil_append, hlen_g]
      exact hg3
    · intro fr hfr
      cases hfr
    · rw [List.nil_append, hlen_g]
      simp
  obtain ⟨st1, hloop, hinv1⟩ := large_trx_flush_loop_inv env total_size hc events [gtid] _ hinv0
    (fun e he => hev2 e (List.mem_cons_of_mem _ he))
  obtain ⟨-, groups, cur, i1, i2, i3, i4, i5, i6, i7, i8, i9⟩ := hinv1
  have hframes_pos : 0 < st1.frames.length := by
    rcases Nat.eq_zero_or_pos st1.frames.length with h0 | h0
    · have hnil : st1.frames = [] := List.length_eq_zero.mp h0
      rw [hnil] at i9
      simp only [List.map_nil, List.sum_nil, Nat.zero_add] at i9
      have e1 : [gtid] ++ events = gtid :: events := rfl
      rw [e1] at i9
      omega
    · exact h0
  refine ⟨{ large_trx_flush_log_cache env hc st1 FLAG_LARGE_TRX_END with log_cache := [] },
    ?_, ?_, ?_, ?_, ?_⟩
  · unfold large_trx_flush
    dsimp only
    rw [new_eq_cleanWriter, ← hq, hwr]
    dsimp only
    rw [hloop]
    dsimp only
    rw [if_pos i6]
  · simp only [large_trx_flush_log_cache, List.length_append, List.length_singleton]
    omega
  · intro i fr hfr
    simp only [large_trx_flush_log_cache, List.length_append, List.length_singleton] at hfr ⊢
    rcases Nat.lt_or_ge i st1.frames.length with hi | hi
    · rw [List.getElem?_append_left hi] at hfr
      obtain ⟨a1, a2, -⟩ := i8 fr (List.getElem?_mem hfr)
      rw [a1, a2]
      simp
      omega
    · rw [List.getElem?_append_right hi] at hfr
      rcases Nat.eq_zero_or_pos (i - st1.frames.length) with h0 | h0
      · rw [h0] at hfr
        simp only [List.getElem?_cons_zero, Option.some.injEq] at hfr
        have hi2 : i = st1.frames.length := by omega
        rw [← hfr, hi2]
        cases st1.first_event_in_file <;>
          simp [Consensus_log_event_flag.or, FLAG_LARGE_TRX_END, FLAG_ROTATE, FLAG_NONE]
      · obtain ⟨j, hj⟩ : ∃ j, i - st1.frames.length = j + 1 :=
          ⟨i - st1.frames.length - 1, by omega⟩
        rw [hj] at hfr
        simp at hfr
  · intro fr hfr
    simp only [large_trx_flush_log_cache] at hfr
    rcases List.mem_append.mp hfr with h1 | h1
    · exact (i8 fr h1).2.2
    · rw [List.mem_singleton.mp h1]
      exact i7
  · refine ⟨groups ++ [cur], ?_, ?_, ?_⟩
    · simp [large_trx_flush_log_cache, i1, i2]
    · intro g hg
      rcases List.mem_append.mp hg with hg1 | hg1
      · exact i3 g hg1
      · rw [List.mem_singleton.mp hg1]
        exact i4
    · have e1 : (groups ++ [cur]).flatten = groups.flatten ++ cur := by simp
      rw [e1]
      exact i5

/-- C20 applied to a limit of 60 bytes and the events of 25, 25, 28 and 25 bytes with
their checksums (29 + 29 + 32 + 29 bytes): three frames of 58, 32 and 29 bytes. -/
theorem C20_large_trx_frames_witness :
    (∀ e ∈ smallEvent :: [smallEvent, event28, smallEvent],
      WellFormedEvent e ∧ e.length < 2 ^ 32
      ∧ e.length + (if true then BINLOG_CHECKSUM_LEN else 0)
          ≤ env60.opt_consensus_max_log_size) ∧
    (large_trx_flush env60 119 true smallEvent [smallEvent, event28, smallEvent] 4 7
        false).map (fun st => st.frames.map (fun fr => fr.payload.length))
      = some [58, 32, 29] ∧
    ∃ st, large_trx_flush env60 119 true smallEvent [smallEvent, event28, smallEvent] 4 7
          false = some st
      ∧ 2 ≤ st.frames.length
      ∧ (∀ (i : Nat) (fr : LogFrame), st.frames[i]? = some fr →
          fr.flag.large_trx = decide (i + 1 < st.frames.length)
          ∧ fr.flag.large_trx_end = decide (i + 1 = st.frames.length))
      ∧ (∀ fr ∈ st.frames, fr.payload.length ≤ env60.opt_consensus_max_log_size)
      ∧ ∃ groups : List (List (List Nat)),
          st.frames.map LogFrame.payload = groups.map List.flatten
          ∧ (∀ g ∈ groups, g ≠ [])
          ∧ List.Forall₂ (EmittedAs true) (smallEvent :: [smallEvent, event28, smallEvent])
              groups.flatten :=
  have hev : ∀ e ∈ smallEvent :: [smallEvent, event28, smallEvent],
      WellFormedEvent e ∧ e.length < 2 ^ 32
      ∧ e.length + (if true then BINLOG_CHECKSUM_LEN else 0)
          ≤ env60.opt_consensus_max_log_size := by
    intro e he
    simp only [List.mem_cons, List.mem_singleton, List.not_mem_nil, or_false] at he
    rcases he with rfl | rfl | rfl | rfl
    · exact ⟨⟨by decide, by decide⟩, by decide, by decide⟩
    · exact ⟨⟨by decide, by decide⟩, by decide, by decide⟩
    · exact ⟨⟨by decide, by decide⟩, by decide, by decide⟩
    · exact ⟨⟨by decide, by decide⟩, by decide, by decide⟩
  ⟨hev, by decide,
    C20_large_trx_frames env60 119 true smallEvent [smallEvent, event28, smallEvent] 4 7 false
      hev (by decide)⟩

/-! ## Role transitions -/

/-- C25, as stated, fails for an event `LEADER` that reaches a worker which is being
stopped on an instance that is not a log-type instance: `wait_follower_upgraded` returns
0 before it changes anything, so the event is processed without error while the status
stays `RELAY_LOG_WORKING` and the term stays 3 instead of 5. -/
theorem C25_leader_event_counterexample :
    stoppingFollower.consensus_state_change_queue
      = [{ state := StateType.LEADER, term := 5, index := 10 }]
    ∧ run_consensus_stage_change_step quietEnv stoppingFollower
      = some (0, { stoppingFollower with consensus_state_change_queue := [] })
    ∧ stoppingFollower.status = Consensus_Log_System_Status.RELAY_LOG_WORKING
    ∧ stoppingFollower.current_term = 3 := by
  decide

/-- C25 (amended): the worker takes the event at the front of the queue, and requests
are added at the back. When the event is processed without error: `LEADER` makes the
status `BINLOG_WORKING` and the term the event's term, unless the worker is being stopped
on an instance that is not a log-type instance, in which case only the queue changes; an
event other than `LEADER` on a log owner makes the status `RELAY_LOG_WORKING` and the
term the event's term; an event that is neither `LEADER` nor `CANDIDATE` on a log
follower changes only the term; `CANDIDATE` on a log follower changes nothing. -/
theorem C25_role_transitions (env : StateEnv) (p : ConsensusStateProcess)
    (ev : ConsensusStateChange) (rest : List ConsensusStateChange)
    (hq : p.consensus_state_change_queue = ev :: rest) :
    (∀ (q : ConsensusStateProcess) (e : ConsensusStateChange),
      (add_state_change_request q e).consensus_state_change_queue
        = q.consensus_state_change_queue ++ [e])
    ∧ ∃ r, run_consensus_stage_change_step env p = some r
      ∧ r.2.consensus_state_change_queue = rest
      ∧ (r.1 = 0 →
        (ev.state = StateType.LEADER →
          ¬ (env.opt_cluster_log_type_instance = false
              ∧ p.consensus_state_change_is_running = false) →
          r.2.status = Consensus_Log_System_Status.BINLOG_WORKING
            ∧ r.2.current_term = ev.term)
        ∧ (ev.state = StateType.LEADER →
          env.opt_cluster_log_type_instance = false
            ∧ p.consensus_state_change_is_running = false →
          r.2 = { p with consensus_state_change_queue := rest })
        ∧ (ev.state ≠ StateType.LEADER →
          p.status = Consensus_Log_System_Status.BINLOG_WORKING →
          r.2.status = Consensus_Log_System_Status.RELAY_LOG_WORKING
            ∧ r.2.current_term = ev.term)
        ∧ (ev.state ≠ StateType.LEADER → ev.state ≠ StateType.CANDIDATE →
          p.status = Consensus_Log_System_Status.RELAY_LOG_WORKING →
          r.2 = { p with consensus_state_change_queue := rest, current_term := ev.term })
        ∧ (ev.state = StateType.CANDIDATE →
          p.status = Consensus_Log_System_Status.RELAY_LOG_WORKING →
          r.2 = { p with consensus_state_change_queue := rest })) := by
  refine ⟨fun q e => rfl, ?_⟩
  have hget : get_stage_change_from_queue p
      = some (ev, { p with consensus_state_change_queue := rest }) := by
    unfold get_stage_change_from_queue
    rw [hq]
  unfold run_consensus_stage_change_step
  rw [hget]
  dsimp only
  by_cases hL : ev.state = StateType.LEADER
  · rw [if_neg (by simpa using hL)]
    refine ⟨_, rfl, ?_, ?_⟩
    · unfold wait_follower_upgraded wait_follower_upgraded_end ConsensusStateProcess.call
      dsimp only
      split_ifs <;> rfl
    · intro herr
      refine ⟨?_, ?_, fun h => absurd hL h, fun h => absurd hL h, ?_⟩
      · intro _ hrun
        unfold wait_follower_upgraded wait_follower_upgraded_end ConsensusStateProcess.call
          at herr ⊢
        dsimp only at herr ⊢
        rw [if_neg hrun] at herr ⊢
        split_ifs at herr ⊢ <;> first | exact ⟨rfl, rfl⟩ | (simp at herr)
      · intro _ hrun
        unfold wait_follower_upgraded
        dsimp only
        rw [if_pos hrun]
      · intro hC
        rw [hC] at hL
        cases hL
  · rw [if_pos hL]
    by_cases hB : p.status = Consensus_Log_System_Status.BINLOG_WORKING
    · rw [if_pos hB]
      refine ⟨_, rfl, ?_, ?_⟩
      · unfold wait_leader_degraded wait_leader_degraded_end ConsensusStateProcess.call
        dsimp only
        split_ifs <;> rfl
      · intro herr
        refine ⟨fun h => absurd h hL, fun h => absurd h hL, ?_, ?_, ?_⟩
        · intro _ _
          unfold wait_leader_degraded wait_leader_degraded_end ConsensusStateProcess.call
            at herr ⊢
          dsimp only at herr ⊢
          split_ifs at herr ⊢ <;> first | exact ⟨rfl, rfl⟩ | (simp at herr)
        · intro _ _ hR
          rw [hB] at hR
          cases hR
        · intro _ hR
          rw [hB] at hR
          cases hR
    · rw [if_neg hB]
      by_cases hC : ev.state = StateType.CANDIDATE
      · rw [if_neg (by simpa using hC)]
        refine ⟨_, rfl, rfl, ?_⟩
        intro _
        exact ⟨fun h => absurd h hL, fun h => absurd h hL, fun _ h => absurd h hB,
          fun _ h => absurd hC h, fun _ _ => rfl⟩
      · rw [if_pos hC]
        refine ⟨_, rfl, rfl, ?_⟩
        intro _
        exact ⟨fun h => absurd h hL, fun h => absurd h hL, fun _ h => absurd h hB,
          fun _ _ _ => rfl, fun h => absurd h hC⟩

/-- C25 (amended) applied to the log owner `runningOwner` after a request `FOLLOWER` with
term 5 in surroundings in which no call fails: the owner becomes a log follower with
term 5. -/
theorem C25_role_transitions_witness :
    (add_state_change_request runningOwner
        { state := StateType.FOLLOWER, term := 5, index := 10 }).consensus_state_change_queue
      = [{ state := StateType.FOLLOWER, term := 5, index := 10 }]
    ∧ (run_consensus_stage_change_step quietEnv
        (add_state_change_request runningOwner
          { state := StateType.FOLLOWER, term := 5, index := 10 })).map
        (fun r => (r.1, r.2.status, r.2.current_term))
      = some (0, Consensus_Log_System_Status.RELAY_LOG_WORKING, 5)
    ∧ ∃ r, run_consensus_stage_change_step quietEnv
        (add_state_change_request runningOwner
          { state := StateType.FOLLOWER, term := 5, index := 10 }) = some r
      ∧ r.2.consensus_state_change_queue = [] :=
  ⟨by decide, by decide,
    match (C25_role_transitions quietEnv
      (add_state_change_request runningOwner
        { state := StateType.FOLLOWER, term := 5, index := 10 })
      { state := StateType.FOLLOWER, term := 5, index := 10 } [] (by decide)).2 with
    | ⟨r, h1, h2, _⟩ => ⟨r, h1, h2⟩⟩

/-- C26: `is_state_machine_ready()` is true exactly when the status is `BINLOG_WORKING`
and the driver's term equals `current_term`; so it is false on every log follower, and
false whenever the driver's term is greater than `current_term`. -/
theorem C26_is_state_machine_ready (p : ConsensusStateProcess) (driver_term : Nat) :
    (is_state_machine_ready p driver_term = true ↔
      p.status = Consensus_Log_System_Status.BINLOG_WORKING ∧ driver_term = p.current_term)
    ∧ (p.status = Consensus_Log_System_Status.RELAY_LOG_WORKING →
        is_state_machine_ready p driver_term = false)
    ∧ (p.current_term < driver_term → is_state_machine_ready p driver_term = false) := by
  unfold is_state_machine_ready
  refine ⟨by simp, ?_, ?_⟩
  · intro h
    simp [h]
  · intro h
    have hne : driver_term ≠ p.current_term := by omega
    simp [hne]

/-- C26 applied to the log follower `stoppingFollower` (term 3) and the driver term 5,
and to the log owner `runningOwner` (term 3) and the driver term 3. -/
theorem C26_is_state_machine_ready_witness :
    stoppingFollower.status = Consensus_Log_System_Status.RELAY_LOG_WORKING
    ∧ stoppingFollower.current_term < 5
    ∧ is_state_machine_ready stoppingFollower 5 = false
    ∧ is_state_machine_ready runningOwner 3 = true :=
  ⟨by decide, by decide,
    (C26_is_state_machine_ready stoppingFollower 5).2.1 (by decide),
    (C26_is_state_machine_ready runningOwner 3).1.mpr ⟨by decide, by decide⟩⟩

/-- On every path of `wait_follower_upgraded`, and on every path of
`wait_leader_degraded` but the one that leaves at the first `flush_info`, each of the
three locks is released as often as it was acquired and never before it was acquired. -/
theorem balanced_paths (env : StateEnv) (p : ConsensusStateProcess) (term index : Nat)
    (hp : p.calls = []) :
    (lockDepth LockEvent.channel_map_rdlock LockEvent.channel_map_unlock
        (wait_follower_upgraded env p term index).2.calls 0 = some 0
      ∧ lockDepth LockEvent.channel_wrlock LockEvent.channel_unlock
        (wait_follower_upgraded env p term index).2.calls 0 = some 0
      ∧ lockDepth LockEvent.status_wrlock LockEvent.status_unlock
        (wait_follower_upgraded env p term index).2.calls 0 = some 0
      ∧ (wait_follower_upgraded env p term index).2.calls.count
          LockEvent.enable_all_prefetch_channels
        = (wait_follower_upgraded env p term index).2.calls.count
          LockEvent.disable_all_prefetch_channels)
    ∧ (¬ (env.opt_cluster_log_type_instance = false ∧ env.flush_info_error = true) →
      lockDepth LockEvent.channel_map_rdlock LockEvent.channel_map_unlock
        (wait_leader_degraded env p term index).2.calls 0 = some 0
      ∧ lockDepth LockEvent.channel_wrlock LockEvent.channel_unlock
        (wait_leader_degraded env p term index).2.calls 0 = some 0
      ∧ lockDepth LockEvent.status_wrlock LockEvent.status_unlock
        (wait_leader_degraded env p term index).2.calls 0 = some 0
      ∧ (wait_leader_degraded env p term index).2.calls.count
          LockEvent.enable_all_prefetch_channels
        = (wait_leader_degraded env p term index).2.calls.count
          LockEvent.disable_all_prefetch_channels) := by
  constructor
  · unfold wait_follower_upgraded wait_follower_upgraded_end ConsensusStateProcess.call
    dsimp only
    split_ifs <;> simp only [hp, List.nil_append, List.cons_append] <;> decide
  · intro hne
    unfold wait_leader_degraded wait_leader_degraded_end ConsensusStateProcess.call
    dsimp only
    rw [if_neg hne]
    split_ifs <;> simp only [hp, List.nil_append, List.cons_append] <;> decide

/-- C29: when `flush_info` fails in `wait_leader_degraded` on an instance that is not a
log-type instance, the function jumps to `end` before it has taken the channel-map read
lock and the channel write lock, and `end` releases both: the calls are
`disable_all_prefetch_channels`, `channel_unlock`, `channel_map.unlock`,
`enable_all_prefetch_channels`, and the function returns 1. -/
theorem C29_leader_degraded_first_exit :
    wait_leader_degraded { quietEnv with flush_info_error := true } runningOwner 5 10
      = (1, { runningOwner with
              calls := [LockEvent.disable_all_prefetch_channels, LockEvent.channel_unlock,
                LockEvent.channel_map_unlock, LockEvent.enable_all_prefetch_channels] })
    ∧ lockDepth LockEvent.channel_wrlock LockEvent.channel_unlock
        (wait_leader_degraded { quietEnv with flush_info_error := true }
          runningOwner 5 10).2.calls 0 = none
    ∧ lockDepth LockEvent.channel_map_rdlock LockEvent.channel_map_unlock
        (wait_leader_degraded { quietEnv with flush_info_error := true }
          runningOwner 5 10).2.calls 0 = none := by
  decide

/-! ## Loops that run off their buffer -/

/-- C27: in the configuration `A#5, B#5`, removing `A` vacates slot 0 and keeps the list
(`A` is not in the last slot); removing `B`, which then occupies the last slot while the
other slot is vacated, enters the trimming loop, which shrinks the list to size 0 and
reads `servers[servers.size() - 1]` on the empty list: no result is produced. -/
theorem C27_trimming_loop_last_slot :
    (delMember twoMemberConfiguration ['A']).map (fun r => (r.1, r.2.servers))
      = some (0, [none, some (mkMember 2 ['B'] 5 false)])
    ∧ (delMember twoMemberConfiguration ['A']).bind (fun r => delMember r.2 ['B']) = none
    ∧ trimTrailingNullUnchecked [(none : ServerRef), none] = none := by
  decide

set_option maxRecDepth 100000 in
/-- C28: for the 29-byte event `event29` with checksums enabled (total length 33) and a
split size of 16 the batches are `[0, 16)`, `[16, 32)` and `[32, 33)`: the final batch
starts at 32, which is not below the event length 29, and holds one byte of the
four-byte checksum. Its `batch_size - BINLOG_CHECKSUM_LEN` wraps, so the copy into the
batch buffer leaves every buffer, also when four more bytes follow the event in memory,
and the batch before it reads three bytes beyond the event. -/
theorem C28_final_batch_assertion :
    batchRanges 16 33 33 0 16 = some [(0, 16), (16, 32), (32, 33)]
    ∧ event29.length = 29 ∧ ¬ (32 < event29.length)
    ∧ fillBatchBuffer (List.replicate 16 0) (event29 ++ [0, 0, 0, 0]) 0 33 true 32 33 = none
    ∧ fillBatchBuffer (List.replicate 16 0) event29 0 33 true 16 32 = none
    ∧ large_event_flush env16 33 event29 29 33 true 0 (List.replicate 16 0) 7 false
      = none := by
  decide

/-! ## Slices of a split event -/

theorem fetch_slice (pre payload post : List Nat) (a b : Nat) (hab : a ≤ b)
    (hb : b ≤ payload.length) (h32 : b - a < 2 ^ 32) (h64 : pre.length + b < 2 ^ 64) :
    fetch_binlog_by_offset (pre ++ payload ++ post) (pre.length + a) (pre.length + b)
      = some ((payload.drop a).take (b - a)) := by
  unfold fetch_binlog_by_offset
  by_cases he : pre.length + a = pre.length + b
  · rw [if_pos he]
    have : b - a = 0 := by omega
    rw [this, List.take_zero]
  · rw [if_neg he]
    have hsize : (pre.length + b + 2 ^ 64 - (pre.length + a)) % 2 ^ 64 % 2 ^ 32 = b - a := by
      omega
    dsimp only
    rw [hsize]
    have hlen : pre.length + a + (b - a) ≤ (pre ++ payload ++ post).length := by
      simp only [List.length_append]
      omega
    rw [if_pos hlen]
    have hdrop : (pre ++ payload ++ post).drop (pre.length + a)
        = payload.drop a ++ post := by
      rw [List.append_assoc, List.drop_append, List.drop_append_of_le_length (by omega)]
    rw [hdrop, List.take_append_of_le_length (by rw [List.length_drop]; omega)]

/-- The bytes between the positions of iteration `k` are the slice `k`. -/
theorem fetch_blobSlice (pre payload post : List Nat) (S k : Nat) (hS32 : S < 2 ^ 32)
    (h64 : pre.length + payload.length < 2 ^ 64) :
    fetch_binlog_by_offset (pre ++ payload ++ post)
        (pre.length + min (k * S) payload.length)
        (pre.length + min ((k + 1) * S) payload.length)
      = some (blobSlice payload S k) := by
  have h4 : (k + 1) * S = k * S + S := Nat.succ_mul k S
  have hm1 : min (k * S) payload.length ≤ min ((k + 1) * S) payload.length := by
    rw [h4]
    exact Nat.le_min.mpr ⟨by have := Nat.min_le_left (k * S) payload.length; omega,
      Nat.min_le_right _ _⟩
  have hm2 : min ((k + 1) * S) payload.length ≤ payload.length := Nat.min_le_right _ _
  have hm3 : min ((k + 1) * S) payload.length - min (k * S) payload.length ≤ S := by
    have := Nat.min_le_left ((k + 1) * S) payload.length
    rcases Nat.le_total (k * S) payload.length with h | h
    · rw [Nat.min_eq_left h]
      omega
    · rw [Nat.min_eq_right h]
      omega
  rw [fetch_slice pre payload post _ _ hm1 hm2 (by omega) (by omega)]
  unfold blobSlice
  rcases Nat.le_total (k * S) payload.length with h | h
  · rw [Nat.min_eq_left h]
  · rw [Nat.min_eq_right h, List.drop_eq_nil_of_le (Nat.le_refl _),
      List.drop_eq_nil_of_le h]
    simp

theorem nextBlobEnd_eq (P L S k : Nat) (h64 : P + L + S < 2 ^ 64) :
    nextBlobEnd S (P + L) (P + min ((k + 1) * S) L) = P + min ((k + 1 + 1) * S) L := by
  have h4 : (k + 1 + 1) * S = (k + 1) * S + S := Nat.succ_mul (k + 1) S
  have hle : min ((k + 1) * S) L ≤ L := Nat.min_le_right _ _
  unfold nextBlobEnd
  have hmod : (P + min ((k + 1) * S) L + S) % 2 ^ 64 = P + min ((k + 1) * S) L + S :=
    Nat.mod_eq_of_lt (by omega)
  rw [hmod, h4]
  rcases Nat.le_total ((k + 1) * S) L with h | h
  · rw [Nat.min_eq_left h]
    by_cases hc : P + (k + 1) * S + S > P + L
    · rw [if_pos hc, Nat.min_eq_right (by omega)]
    · rw [if_neg hc, Nat.min_eq_left (by omega)]
      omega
  · rw [Nat.min_eq_right h, Nat.min_eq_right (by omega)]
    by_cases hc : P + L + S > P + L
    · rw [if_pos hc]
    · rw [if_neg hc]
      omega

theorem prefetchBlobLoop_from (pre payload post : List Nat) (S w si : Nat)
    (interrupt : Nat → Bool) (hS32 : S < 2 ^ 32)
    (h64 : pre.length + payload.length + S < 2 ^ 64) :
    ∀ (idxs : List Nat) (k : Nat),
      ∃ result,
        prefetchBlobLoop (pre ++ payload ++ post) S (pre.length + payload.length) w si
            interrupt idxs (pre.length + min (k * S) payload.length)
            (pre.length + min ((k + 1) * S) payload.length) = some result
        ∧ result.Sublist
            (List.zipWith (fun idx i => (idx, blobSlice payload S i)) idxs
              (List.range' k idxs.length))
        ∧ ((∀ idx ∈ idxs, idx + w ≥ si) → (∀ idx ∈ idxs, interrupt idx = false) →
            result = List.zipWith (fun idx i => (idx, blobSlice payload S i)) idxs
              (List.range' k idxs.length)) := by
  intro idxs
  induction idxs with
  | nil =>
    intro k
    exact ⟨[], rfl, by simp, fun _ _ => by simp⟩
  | cons idx rest ih =>
    intro k
    obtain ⟨r, hr1, hr2, hr3⟩ := ih (k + 1)
    have hfetch := fetch_blobSlice pre payload post S k hS32 (by omega)
    have hnext := nextBlobEnd_eq pre.length payload.length S k h64
    have hz : List.zipWith (fun idx i => (idx, blobSlice payload S i)) (idx :: rest)
        (List.range' k (idx :: rest).length)
        = (idx, blobSlice payload S k)
          :: List.zipWith (fun idx i => (idx, blobSlice payload S i)) rest
              (List.range' (k + 1) rest.length) := by
      simp [List.range'_succ]
    rw [hz]
    unfold prefetchBlobLoop
    rw [hnext, hr1]
    by_cases hwin : idx + w ≥ si
    · rw [if_pos hwin, hfetch]
      dsimp only
      by_cases hint : interrupt idx = true
      · rw [if_pos hint]
        refine ⟨_, rfl, ?_, ?_⟩
        · exact List.Sublist.cons₂ _ (List.nil_sublist _)
        · intro _ hno
          have := hno idx (List.mem_cons_self _ _)
          rw [this] at hint
          cases hint
      · rw [if_neg hint]
        refine ⟨_, rfl, ?_, ?_⟩
        · exact List.Sublist.cons₂ _ hr2
        · intro hw2 hno
          rw [hr3 (fun x hx => hw2 x (List.mem_cons_of_mem _ hx))
            (fun x hx => hno x (List.mem_cons_of_mem _ hx))]
    · rw [if_neg hwin]
      refine ⟨r, rfl, List.Sublist.cons _ hr2, ?_⟩
      intro hw2 _
      exact absurd (hw2 idx (List.mem_cons_self _ _)) hwin

theorem readBlobLoop_from (pre payload post : List Nat) (S c : Nat) (hS32 : S < 2 ^ 32)
    (h64 : pre.length + payload.length + S < 2 ^ 64) :
    ∀ (idxs : List Nat) (k j : Nat), idxs[j]? = some c →
      (∀ j2, j2 < j → idxs[j2]? ≠ some c) →
      readBlobLoop (pre ++ payload ++ post) S (pre.length + payload.length) c idxs
          (pre.length + min (k * S) payload.length)
          (pre.length + min ((k + 1) * S) payload.length)
        = some (some (blobSlice payload S (k + j))) := by
  intro idxs
  induction idxs with
  | nil =>
    intro k j hj _
    simp at hj
  | cons idx rest ih =>
    intro k j hj hfirst
    have hfetch := fetch_blobSlice pre payload post S k hS32 (by omega)
    have hnext := nextBlobEnd_eq pre.length payload.length S k h64
    unfold readBlobLoop
    cases j with
    | zero =>
      simp only [List.getElem?_cons_zero, Option.some.injEq] at hj
      rw [if_pos hj, hfetch]
      rfl
    | succ j2 =>
      have hne : idx ≠ c := by
        intro he
        exact hfirst 0 (by omega) (by simp [he])
      rw [if_neg hne, hnext]
      simp only [List.getElem?_cons_succ] at hj
      have := ih (k + 1) j2 hj (by
        intro j3 hj3
        have h := hfirst (j3 + 1) (by omega)
        simpa using h)
      rw [this]
      congr 3
      omega

theorem blobSlice_eq_take (payload : List Nat) (S i : Nat) :
    blobSlice payload S i = (payload.drop (i * S)).take S := by
  have h4 : (i + 1) * S = i * S + S := Nat.succ_mul i S
  unfold blobSlice
  rcases Nat.le_total ((i + 1) * S) payload.length with h | h
  · rw [Nat.min_eq_left h]
    congr 1
    omega
  · rw [Nat.min_eq_right h]
    rw [List.take_of_length_le (by rw [List.length_drop]),
      List.take_of_length_le (by rw [List.length_drop]; omega)]

theorem flatten_blobSlices (payload : List Nat) (S : Nat) :
    ∀ (m k : Nat),
      ((List.range' k m).map (blobSlice payload S)).flatten
        = (payload.drop (k * S)).take (m * S) := by
  intro m
  induction m with
  | zero =>
    intro k
    simp
  | succ m ih =>
    intro k
    have h4 : (k + 1) * S = k * S + S := Nat.succ_mul k S
    have h5 : (m + 1) * S = S + m * S := by rw [Nat.succ_mul, Nat.add_comm]
    simp only [List.range'_succ, List.map_cons, List.flatten_cons]
    rw [ih (k + 1), blobSlice_eq_take, h4, h5, List.take_add, ← List.drop_drop]

/-- C30: for a blob sequence of `n` indices whose final frame stores a payload of `L`
bytes at `[start_pos, end_pos)` with `(n - 1) * S < L <= n * S` and `S <= L`, the slicing
loop of `prefetch_logs_of_file` offers the indices in order, each with the slice
`[i * S, min ((i + 1) * S, L))` of the payload for its position `i` (an index outside
the window is skipped and `INTERRUPT` ends the loop; with neither, all `n` pairs are
offered), and the loop of `read_log_by_consensus_index` fetches that slice for the index
at position `i`; the slices have `min ((i + 1) * S, L) - i * S <= S` bytes, concatenate
to the payload, and their bounds are those of the batch loop of `large_event_flush` for
the same `L` and `S`. -/
theorem C30_blob_reslicing (pre payload post : List Nat) (S n : Nat) (indices : List Nat)
    (window_size start_index : Nat) (interrupt : Nat → Bool)
    (hn : indices.length = n) (hSL : S ≤ payload.length)
    (h1 : (n - 1) * S < payload.length) (h2 : payload.length ≤ n * S)
    (h64 : pre.length + payload.length + S < 2 ^ 64) (hS32 : S < 2 ^ 32)
    (hnd : indices.Nodup) :
    (∃ result,
      prefetchBlob (pre ++ payload ++ post) S pre.length (pre.length + payload.length)
          window_size start_index interrupt indices = some result
      ∧ result.Sublist
          (List.zipWith (fun idx i => (idx, blobSlice payload S i)) indices (List.range n))
      ∧ ((∀ idx ∈ indices, idx + window_size ≥ start_index) →
          (∀ idx ∈ indices, interrupt idx = false) →
          result = List.zipWith (fun idx i => (idx, blobSlice payload S i)) indices
            (List.range n)))
    ∧ (∀ (i idx : Nat), indices[i]? = some idx →
        readBlob (pre ++ payload ++ post) S pre.length (pre.length + payload.length) idx
            indices = some (some (blobSlice payload S i)))
    ∧ (∀ i, i < n →
        (blobSlice payload S i).length = min ((i + 1) * S) payload.length - i * S
        ∧ (blobSlice payload S i).length ≤ S)
    ∧ ((List.range n).map (blobSlice payload S)).flatten = payload
    ∧ batchRanges S payload.length payload.length 0 S
        = some ((List.range n).map (fun i => (i * S, min ((i + 1) * S) payload.length))) := by
  have hS : 0 < S := by
    rcases Nat.eq_zero_or_pos S with h0 | h0
    · rw [h0, Nat.mul_zero] at h1 h2
      omega
    · exact h0
  have hnpos : 0 < n := by
    rcases Nat.eq_zero_or_pos n with h0 | h0
    · rw [h0, Nat.zero_mul] at h2
      omega
    · exact h0
  have hstart : pre.length = pre.length + min (0 * S) payload.length := by simp
  have hend : (pre.length + S) % 2 ^ 64 = pre.length + min ((0 + 1) * S) payload.length := by
    rw [Nat.zero_add, Nat.one_mul, Nat.min_eq_left hSL]
    exact Nat.mod_eq_of_lt (by omega)
  refine ⟨?_, ?_, ?_, ?_, ?_⟩
  · obtain ⟨r, hr1, hr2, hr3⟩ := prefetchBlobLoop_from pre payload post S window_size
      start_index interrupt hS32 h64 indices 0
    rw [hn, ← List.range_eq_range'] at hr2 hr3
    refine ⟨r, ?_, hr2, hr3⟩
    unfold prefetchBlob
    rw [hend]
    nth_rewrite 2 [hstart]
    exact hr1
  · intro i idx hi
    have hfirst : ∀ j2, j2 < i → indices[j2]? ≠ some idx := by
      intro j2 hj2 hc
      have hi2 : i < indices.length := by
        rcases Nat.lt_or_ge i indices.length with h | h
        · exact h
        · rw [List.getElem?_eq_none h] at hi
          cases hi
      have hj3 : j2 < indices.length := by omega
      rw [List.getElem?_eq_getElem hi2] at hi
      rw [List.getElem?_eq_getElem hj3] at hc
      have heq : indices[j2] = indices[i] := by
        rw [Option.some.inj hc, Option.some.inj hi]
      have := (List.Nodup.getElem_inj_iff hnd).mp heq
      omega
    have h := readBlobLoop_from pre payload post S idx hS32 h64 indices 0 i hi hfirst
    have hi0 : 0 + i = i := Nat.zero_add i
    rw [hi0] at h
    unfold readBlob
    rw [hend]
    nth_rewrite 2 [hstart]
    exact h
  · intro i hi
    have h4 : (i + 1) * S = i * S + S := Nat.succ_mul i S
    have hiS : i * S < payload.length := by
      have : i * S ≤ (n - 1) * S := Nat.mul_le_mul_right S (by omega)
      omega
    have hlen : (blobSlice payload S i).length
        = min ((i + 1) * S) payload.length - i * S := by
      unfold blobSlice
      rw [List.length_take, List.length_drop]
      have := Nat.min_le_right ((i + 1) * S) payload.length
      omega
    refine ⟨hlen, ?_⟩
    rw [hlen]
    have := Nat.min_le_left ((i + 1) * S) payload.length
    omega
  · have h := flatten_blobSlices payload S n 0
    rw [← List.range_eq_range', Nat.zero_mul, List.drop_zero,
      List.take_of_length_le h2] at h
    exact h
  · have hN : (payload.length + S - 1) / S = n := by
      apply Nat.div_eq_of_lt_le
      · have h5 : (n - 1 + 1) * S = (n - 1) * S + S := Nat.succ_mul (n - 1) S
        have h6 : n - 1 + 1 = n := by omega
        rw [h6] at h5
        omega
      · have h5 : (n + 1) * S = n * S + S := Nat.succ_mul n S
        omega
    rw [batchRanges_spec S payload.length hS hSL (by omega), hN]

/-- C30 applied to a payload of 40 bytes that follows 3 bytes in the file, the split
size 16 and the indices 11, 12, 13: slices of 16, 16 and 8 bytes. -/
theorem C30_blob_reslicing_witness :
    [11, 12, 13].length = 3 ∧ 16 ≤ (List.range 40).length
    ∧ (3 - 1) * 16 < (List.range 40).length ∧ (List.range 40).length ≤ 3 * 16
    ∧ [11, 12, 13].Nodup
    ∧ prefetchBlob ([9, 9, 9] ++ List.range 40 ++ [7, 7]) 16 3 43 100 5 (fun _ => false)
        [11, 12, 13]
      = some [(11, List.range 16), (12, List.range' 16 16), (13, List.range' 32 8)]
    ∧ (∀ (i idx : Nat), [11, 12, 13][i]? = some idx →
        readBlob ([9, 9, 9] ++ List.range 40 ++ [7, 7]) 16 [9, 9, 9].length
            ([9, 9, 9].length + (List.range 40).length) idx [11, 12, 13]
          = some (some (blobSlice (List.range 40) 16 i)))
    ∧ ((List.range 3).map (blobSlice (List.range 40) 16)).flatten = List.range 40 :=
  ⟨by decide, by decide, by decide, by decide, by decide, by decide,
    (C30_blob_reslicing [9, 9, 9] (List.range 40) [7, 7] 16 3 [11, 12, 13] 100 5
      (fun _ => false) (by decide) (by decide) (by decide) (by decide) (by decide)
      (by decide) (by decide)).2.1,
    (C30_blob_reslicing [9, 9, 9] (List.range 40) [7, 7] 16 3 [11, 12, 13] 100 5
      (fun _ => false) (by decide) (by decide) (by decide) (by decide) (by decide)
      (by decide) (by decide)).2.2.2.1⟩

/-! ## Capacity rejection -/

/-- C21: when large transactions are disabled and `total_size` exceeds
`opt_consensus_max_log_size`, `write_cache_consensus_log` returns 0 with the transaction
marked for rollback and `consensus_error = CSS_LOG_TOO_LARGE`, and the log (frames,
current index, file position) is as before. When `total_size` is within the limit, a
call that returns leaves `consensus_error` as it was or sets it to
`CSS_LEADERSHIP_CHANGE`. As long as the sum stays in the range of `ulonglong`,
`total_size` is the cache length plus the gtid event length plus four bytes per event and
for the gtid event when checksums are enabled. -/
theorem C21_capacity_rejection (env : TrxEnv) (opt_consensus_large_trx : Bool)
    (log_term driver_term : Nat) (thd : ThdContext) (log : CommitLog) (gtid : List Nat)
    (gtid_event_length : Nat) (events : List (List Nat)) (event_counter : Nat)
    (have_checksum : Bool) :
    (opt_consensus_large_trx = false →
      totalSize events.flatten.length gtid_event_length event_counter have_checksum
        > env.opt_consensus_max_log_size →
      write_cache_consensus_log env opt_consensus_large_trx log_term driver_term thd log
          gtid gtid_event_length events event_counter have_checksum
        = some (0, { thd with transaction_rollback := true,
                              consensus_error := Consensus_error.CSS_LOG_TOO_LARGE }, log))
    ∧ (totalSize events.flatten.length gtid_event_length event_counter have_checksum
        ≤ env.opt_consensus_max_log_size →
      ∀ r, write_cache_consensus_log env opt_consensus_large_trx log_term driver_term thd
          log gtid gtid_event_length events event_counter have_checksum = some r →
        r.2.1.consensus_error = thd.consensus_error
          ∨ r.2.1.consensus_error = Consensus_error.CSS_LEADERSHIP_CHANGE)
    ∧ (events.flatten.length + gtid_event_length
          + (if have_checksum then (event_counter + 1) * 4 else 0) < 2 ^ 64 →
      totalSize events.flatten.length gtid_event_length event_counter have_checksum
        = events.flatten.length + gtid_event_length
          + (if have_checksum then (event_counter + 1) * 4 else 0)) := by
  refine ⟨?_, ?_, ?_⟩
  · intro hoff hlarge
    unfold write_cache_consensus_log
    dsimp only
    rw [if_pos ⟨hoff, decide_eq_true hlarge⟩]
  · intro hsmall r hr
    have hnot : ¬ (totalSize events.flatten.length gtid_event_length event_counter
        have_checksum > env.opt_consensus_max_log_size) := by omega
    unfold write_cache_consensus_log at hr
    dsimp only at hr
    rw [if_neg (fun h => hnot (of_decide_eq_true h.2))] at hr
    split at hr
    · simp only [Option.some.injEq] at hr
      rw [← hr]
      exact Or.inr rfl
    · rw [if_pos (decide_eq_false hnot)] at hr
      split at hr
      · cases hr
      · split at hr
        · cases hr
        · simp only [Option.some.injEq] at hr
          rw [← hr]
          exact Or.inl rfl
  · intro hlt
    unfold totalSize
    cases have_checksum
    · simp only [Bool.false_eq_true, if_false, Nat.add_zero] at hlt ⊢
      exact Nat.mod_eq_of_lt hlt
    · simp only [if_true, BINLOG_CHECKSUM_LEN] at hlt ⊢
      omega

/-- C21 applied to a limit of 60 bytes and a transaction of 25 + 78 bytes in four events
with checksums (119 bytes): rejected with large transactions disabled; and to one of 25 +
25 bytes in two events (58 bytes): not rejected. -/
theorem C21_capacity_rejection_witness :
    totalSize [smallEvent, event28, smallEvent].flatten.length 25 3 true
      > env60.opt_consensus_max_log_size
    ∧ write_cache_consensus_log env60 false 3 3 thd3 log7 smallEvent 25
        [smallEvent, event28, smallEvent] 3 true
      = some (0, { thd3 with transaction_rollback := true,
                             consensus_error := Consensus_error.CSS_LOG_TOO_LARGE }, log7)
    ∧ totalSize [smallEvent].flatten.length 25 1 true ≤ env60.opt_consensus_max_log_size
    ∧ (write_cache_consensus_log env60 false 3 3 thd3 log7 smallEvent 25 [smallEvent] 1
        true).map (fun r => (r.2.1.consensus_error, r.2.2.current_index))
      = some (Consensus_error.CSS_NONE, 8) :=
  ⟨by decide,
    (C21_capacity_rejection env60 false 3 3 thd3 log7 smallEvent 25
      [smallEvent, event28, smallEvent] 3 true).1 rfl (by decide),
    by decide, by decide⟩

/-! ## Appends and the current index -/

theorem appendToLast_append_singleton (frames : List FileFrame) (fr : FileFrame)
    (bytes : List Nat) :
    appendToLast (frames ++ [fr]) bytes
      = frames ++ [{ fr with payload := fr.payload ++ bytes }] := by
  induction frames with
  | nil => rfl
  | cons f fs ih =>
    cases fs with
    | nil => rfl
    | cons f2 fs2 =>
      have : f :: f2 :: fs2 ++ [fr] = f :: (f2 :: (fs2 ++ [fr])) := rfl
      rw [this, appendToLast]
      have h2 : f2 :: (fs2 ++ [fr]) = (f2 :: fs2) ++ [fr] := rfl
      rw [h2, ih]
      rfl

theorem frameWritten_write (env : AppendEnv) (st s : LogStore)
    (flag : Consensus_log_event_flag) (term length checksum : Nat) (bytes : List Nat)
    (hf : s.frames = st.frames) (hc : s.current_index = st.current_index)
    (hs : s.sync_index = st.sync_index) :
    FrameWritten st
      (binlog_write (write_consensus_log_event env s flag term length checksum) bytes) := by
  refine ⟨hs, ⟨{ flag := flag, term := term, index := s.current_index, length := length,
                 checksum := checksum, payload := bytes }, ?_, hc⟩, ?_⟩
  · unfold binlog_write write_consensus_log_event
    dsimp only
    rw [appendToLast_append_singleton, hf]
    rfl
  · unfold binlog_write write_consensus_log_event
    dsimp only
    rw [hc]

theorem frameWritten_cache (st st2 : LogStore) (cache : List Nat) (h : FrameWritten st st2) :
    FrameWritten st { st2 with log_cache := cache } := h

/-- A call of `append_consensue_log_entry` that returns without error has written exactly
one frame, built with the current index, and has incremented the current index; one that
returns an error has written none. The sync index is not touched. -/
theorem append_entry_frames (env : AppendEnv) (st : LogStore) (log : ConsensusLogEntry)
    (r : EntryResult) (h : append_consensue_log_entry env st log = some r) :
    r.store.sync_index = st.sync_index
    ∧ (r.error = 0 → FrameWritten st r.store)
    ∧ (r.error ≠ 0 →
        r.store.frames = st.frames ∧ r.store.current_index = st.current_index) := by
  have key : ∀ (x : LogStore) (b : Bool) (l : ConsensusLogEntry), FrameWritten st x →
      ({ error := 0, store := x, add_cache := b, log := l } : EntryResult).store.sync_index
        = st.sync_index
      ∧ (({ error := 0, store := x, add_cache := b, log := l } : EntryResult).error = 0 →
          FrameWritten st
            ({ error := 0, store := x, add_cache := b, log := l } : EntryResult).store)
      ∧ (({ error := 0, store := x, add_cache := b, log := l } : EntryResult).error ≠ 0 →
          ({ error := 0, store := x, add_cache := b, log := l } : EntryResult).store.frames
            = st.frames
          ∧ ({ error := 0, store := x, add_cache := b, log := l }
              : EntryResult).store.current_index = st.current_index) :=
    fun x b l hx => ⟨hx.1, fun _ => hx, fun h0 => absurd rfl h0⟩
  unfold append_consensue_log_entry at h
  dsimp only at h
  split at h
  · split at h
    · cases h
    · split at h
      · simp only [Option.some.injEq] at h
        rw [← h]
        refine ⟨rfl, fun h0 => ?_, fun _ => ⟨rfl, rfl⟩⟩
        have h1 : (1 : Int) = 0 := h0
        cases h1
      · simp only [Option.some.injEq] at h
        rw [← h]
        exact key _ _ _ (frameWritten_write env st _ _ _ _ _ _ rfl rfl rfl)
  · split at h
    · split at h
      · cases h
      · simp only [Option.some.injEq] at h
        rw [← h]
        refine key _ _ _ (frameWritten_write env st _ _ _ _ _ _ ?_ ?_ ?_)
        · dsimp only
          split <;> rfl
        · dsimp only
          split <;> rfl
        · dsimp only
          split <;> rfl
    · split at h
      · split at h
        · cases h
        · simp only [Option.some.injEq] at h
          rw [← h]
          exact key _ _ _
            (frameWritten_cache st _ _ (frameWritten_write env st _ _ _ _ _ _ rfl rfl rfl))
      · split at h
        · cases h
        · simp only [Option.some.injEq] at h
          rw [← h]
          exact key _ _ _ (frameWritten_write env st _ _ _ _ _ _ rfl rfl rfl)


theorem set_sync_index_if_greater_fields (st : LogStore) (index : Nat) :
    (set_sync_index_if_greater st index).current_index = st.current_index
    ∧ (set_sync_index_if_greater st index).frames = st.frames
    ∧ st.sync_index ≤ (set_sync_index_if_greater st index).sync_index := by
  unfold set_sync_index_if_greater
  split
  · exact ⟨rfl, rfl, by dsimp only; omega⟩
  · exact ⟨rfl, rfl, Nat.le_refl _⟩

theorem add_cache_fields (st : LogStore) (b : Bool) (entry : Nat × List Nat) :
    (if b = true then { st with fifo_cache := st.fifo_cache ++ [entry] } else st).current_index
      = st.current_index
    ∧ (if b = true then { st with fifo_cache := st.fifo_cache ++ [entry] } else st).frames
      = st.frames
    ∧ (if b = true then { st with fifo_cache := st.fifo_cache ++ [entry] } else st).sync_index
      = st.sync_index := by
  cases b <;> exact ⟨rfl, rfl, rfl⟩

/-- A plain entry whose buffer is a concatenation of complete events with footers goes
through `append_consensue_log_entry` without error. -/
theorem append_entry_plain (env : AppendEnv) (st : LogStore) (log : ConsensusLogEntry)
    (events : List (List Nat)) (houter : log.outer = false) (hblob : log.flag.blob = false)
    (hend : log.flag.blob_end = false) (hbuf : log.buffer = events.flatten)
    (hev : ∀ e ∈ events, FooterEvent e) :
    ∃ r, append_consensue_log_entry env st log = some r ∧ r.error = 0 := by
  obtain ⟨rs, hrs, -⟩ := revise_events env.binlog_checksum true
    (st.binlog_pos + (env.consensus_log_event_length
      + (if env.binlog_checksum then BINLOG_CHECKSUM_LEN else 0)))
    events (fun e he => footerEvent_wellFormed e (hev e he))
    (fun _ _ e he => (hev e he).1) (fun e he => (hev e he).2.1)
  unfold append_consensue_log_entry
  dsimp only
  rw [houter, hblob, hend, hbuf, hrs]
  exact ⟨_, rfl, rfl⟩

/-- C22: with a current index of at least 1, `append_consensus_log` stores 0 through
`index` exactly when `with_check` is set and the term of the consensus log differs from
the entry's term, or the entry's index is neither 0 nor the current index; in that case
it returns 0 and the store (current index, sync index, file) is as before. In every
other case a call that returns has stored the current index of before the call, and a
plain entry made of complete events with footers does return, without error. -/
theorem C22_append_mismatch (env : AppendEnv) (st : LogStore) (log : ConsensusLogEntry)
    (with_check : Bool) (hidx : 1 ≤ st.current_index) :
    (((with_check = true ∧ st.log_term ≠ log.term)
        ∨ (log.index ≠ 0 ∧ log.index ≠ st.current_index)) →
      append_consensus_log env st log with_check
        = some { error := 0, index := 0, store := st })
    ∧ (¬ ((with_check = true ∧ st.log_term ≠ log.term)
          ∨ (log.index ≠ 0 ∧ log.index ≠ st.current_index)) →
      (∀ r, append_consensus_log env st log with_check = some r →
        r.index = st.current_index ∧ r.index ≠ 0)
      ∧ ∀ events : List (List Nat), log.outer = false → log.flag.blob = false →
          log.flag.blob_end = false → log.buffer = events.flatten →
          (∀ e ∈ events, FooterEvent e) →
          ∃ r, append_consensus_log env st log with_check = some r ∧ r.error = 0
            ∧ r.index = st.current_index) := by
  constructor
  · intro hmis
    unfold append_consensus_log
    by_cases hterm : with_check = true ∧ st.log_term ≠ log.term
    · rw [if_pos hterm]
    · rw [if_neg hterm]
      rcases hmis with h | h
      · exact absurd h hterm
      · dsimp only
        rw [if_pos ⟨fun he => h.2 he.symm, h.1⟩]
  · intro hok
    have hterm : ¬ (with_check = true ∧ st.log_term ≠ log.term) := fun h => hok (Or.inl h)
    have hindex : ¬ (st.current_index ≠ log.index ∧ log.index ≠ 0) :=
      fun h => hok (Or.inr ⟨h.2, fun he => h.1 he.symm⟩)
    constructor
    · intro r hr
      unfold append_consensus_log at hr
      rw [if_neg hterm] at hr
      dsimp only at hr
      rw [if_neg hindex] at hr
      split at hr
      · cases hr
      · split at hr
        · simp only [Option.some.injEq] at hr
          rw [← hr]
          exact ⟨rfl, by dsimp only; omega⟩
        · simp only [Option.some.injEq] at hr
          rw [← hr]
          exact ⟨rfl, by dsimp only; omega⟩
    · intro events houter hblob hend hbuf hev
      obtain ⟨re, hre, herr⟩ := append_entry_plain env st log events houter hblob hend hbuf hev
      unfold append_consensus_log
      rw [if_neg hterm]
      dsimp only
      rw [if_neg hindex, hre]
      dsimp only
      rw [if_neg (by rw [herr]; decide)]
      exact ⟨_, rfl, rfl, rfl⟩

set_option maxRecDepth 100000 in
/-- C22 applied to the store `store5` (term 3, current index 5): an entry of term 4 with
`with_check` and an entry with index 9 are refused, the plain entry `plainEntry` is
appended at index 5. -/
theorem C22_append_mismatch_witness :
    1 ≤ store5.current_index
    ∧ append_consensus_log appendEnv store5 { plainEntry with term := 4 } true
      = some { error := 0, index := 0, store := store5 }
    ∧ append_consensus_log appendEnv store5 { plainEntry with index := 9 } false
      = some { error := 0, index := 0, store := store5 }
    ∧ (append_consensus_log appendEnv store5 plainEntry true).map
        (fun r => (r.error, r.index, r.store.current_index, r.store.sync_index))
      = some (0, 5, 6, 5) :=
  ⟨by decide,
    (C22_append_mismatch appendEnv store5 { plainEntry with term := 4 } true (by decide)).1
      (Or.inl ⟨rfl, by decide⟩),
    (C22_append_mismatch appendEnv store5 { plainEntry with index := 9 } false (by decide)).1
      (Or.inr ⟨by decide, by decide⟩),
    by decide⟩

/-- C24: when `consensus_truncate_log(k)` succeeds for an index `k >= 1`, the current
index is `k` and the sync index is `k - 1`; an append with entry index 0 or `k` that
then returns without error and with an index other than 0 returns the index `k` and
leaves the current index at `k + 1`, and a plain entry of the log's term made of complete
events with footers is appended in this way. -/
theorem C24_truncate_then_append (env : AppendEnv) (st st1 : LogStore) (k : Nat)
    (offset : Option Nat) (hk : 1 ≤ k) (hk64 : k < 2 ^ 64)
    (ht : consensus_truncate_log st k offset false = some st1) :
    st1.current_index = k ∧ st1.sync_index = k - 1
    ∧ (∀ (log : ConsensusLogEntry) (with_check : Bool) (r : AppendResult),
        log.index = 0 ∨ log.index = k →
        append_consensus_log env st1 log with_check = some r → r.error = 0 → r.index ≠ 0 →
        r.index = k ∧ r.store.current_index = k + 1)
    ∧ (∀ (log : ConsensusLogEntry) (with_check : Bool) (events : List (List Nat)),
        log.index = 0 ∨ log.index = k → log.term = st1.log_term →
        log.outer = false → log.flag.blob = false → log.flag.blob_end = false →
        log.buffer = events.flatten → (∀ e ∈ events, FooterEvent e) →
        ∃ r, append_consensus_log env st1 log with_check = some r ∧ r.error = 0
          ∧ r.index = k ∧ r.store.current_index = k + 1) := by
  have hst1 : st1.current_index = k ∧ st1.sync_index = k - 1 := by
    unfold consensus_truncate_log at ht
    cases offset with
    | none => cases ht
    | some n =>
      simp only [Bool.false_eq_true, if_false, Option.some.injEq] at ht
      rw [← ht]
      exact ⟨rfl, by dsimp only; omega⟩
  have hstep : ∀ (log : ConsensusLogEntry) (with_check : Bool) (r : AppendResult),
      append_consensus_log env st1 log with_check = some r → r.error = 0 → r.index ≠ 0 →
      r.index = k ∧ r.store.current_index = k + 1 := by
    intro log with_check r hr herr hne
    unfold append_consensus_log at hr
    split at hr
    · simp only [Option.some.injEq] at hr
      rw [← hr] at hne
      exact absurd rfl hne
    · dsimp only at hr
      split at hr
      · simp only [Option.some.injEq] at hr
        rw [← hr] at hne
        exact absurd rfl hne
      · split at hr
        · cases hr
        · rename_i re hre
          obtain ⟨-, hz, -⟩ := append_entry_frames env st1 log re hre
          split at hr
          · simp only [Option.some.injEq] at hr
            rw [← hr] at herr
            rename_i hne2
            exact absurd herr hne2
          · rename_i hz2
            have hz3 : re.error = 0 := by
              by_contra hc
              exact hz2 hc
            obtain ⟨-, -, hcur⟩ := hz hz3
            simp only [Option.some.injEq] at hr
            rw [← hr]
            refine ⟨hst1.1, ?_⟩
            dsimp only
            rw [(set_sync_index_if_greater_fields _ _).1, (add_cache_fields _ _ _).1, hcur,
              hst1.1]
  refine ⟨hst1.1, hst1.2, fun log wc r _ => hstep log wc r, ?_⟩
  intro log with_check events hidx hterm houter hblob hend hbuf hev
  have hok : ¬ ((with_check = true ∧ st1.log_term ≠ log.term)
      ∨ (log.index ≠ 0 ∧ log.index ≠ st1.current_index)) := by
    rw [hst1.1]
    rintro (h | h)
    · exact h.2 hterm.symm
    · rcases hidx with h0 | h0
      · exact h.1 h0
      · exact h.2 h0
  have hterm2 : ¬ (with_check = true ∧ st1.log_term ≠ log.term) := fun h => hok (Or.inl h)
  have hindex : ¬ (st1.current_index ≠ log.index ∧ log.index ≠ 0) :=
    fun h => hok (Or.inr ⟨h.2, fun he => h.1 he.symm⟩)
  obtain ⟨re, hre, herr⟩ := append_entry_plain env st1 log events houter hblob hend hbuf hev
  have hres : ∃ r, append_consensus_log env st1 log with_check = some r ∧ r.error = 0
      ∧ r.index = st1.current_index := by
    unfold append_consensus_log
    rw [if_neg hterm2]
    dsimp only
    rw [if_neg hindex, hre]
    dsimp only
    rw [if_neg (by rw [herr]; decide)]
    exact ⟨_, rfl, rfl, rfl⟩
  obtain ⟨r, hr, herr2, hri⟩ := hres
  have hne : r.index ≠ 0 := by
    rw [hri, hst1.1]
    omega
  exact ⟨r, hr, herr2, (hstep log with_check r hr herr2 hne).1,
    (hstep log with_check r hr herr2 hne).2⟩

set_option maxRecDepth 100000 in
/-- C24 applied to `store5` truncated to index 3 (two frames stay) and the plain entry
`plainEntry`: the append returns index 3 and leaves the current index at 4. -/
theorem C24_truncate_then_append_witness :
    consensus_truncate_log store5 3 (some 2) false
      = some { store5 with frames := store5.frames.take 2, sync_index := 2,
                           current_index := 3 }
    ∧ ((consensus_truncate_log store5 3 (some 2) false).bind
        (fun st1 => append_consensus_log appendEnv st1 plainEntry true)).map
        (fun r => (r.error, r.index, r.store.current_index,
          r.store.frames.map FileFrame.index))
      = some (0, 3, 4, [1, 2, 3])
    ∧ { store5 with frames := store5.frames.take 2, sync_index := 2,
                    current_index := 3 }.current_index = 3 :=
  ⟨by decide, by decide,
    (C24_truncate_then_append appendEnv store5
      { store5 with frames := store5.frames.take 2, sync_index := 2, current_index := 3 }
      3 (some 2) (by decide) (by decide) (by decide)).1⟩


/-! ## Indices of the frames written -/

theorem range'_append_range' (a m n : Nat) :
    List.range' a m ++ List.range' (a + m) n = List.range' a (m + n) := by
  rw [show a + m = a + 1 * m by omega, List.range'_append, Nat.add_comm]

theorem framesAdded_refl (frames : List LogFrame) (index : Nat) :
    FramesAdded frames index frames index :=
  ⟨[], by simp, rfl, rfl⟩

theorem framesAdded_trans (f1 f2 f3 : List LogFrame) (i1 i2 i3 : Nat)
    (h12 : FramesAdded f1 i1 f2 i2) (h23 : FramesAdded f2 i2 f3 i3) :
    FramesAdded f1 i1 f3 i3 := by
  obtain ⟨a, ha1, ha2, ha3⟩ := h12
  obtain ⟨b, hb1, hb2, hb3⟩ := h23
  refine ⟨a ++ b, by rw [hb1, ha1, List.append_assoc], ?_, ?_⟩
  · rw [List.map_append, ha2, hb2, ha3, List.length_append, range'_append_range']
  · rw [hb3, ha3, List.length_append, Nat.add_assoc]

theorem framesAdded_one (frames : List LogFrame) (index : Nat) (fr : LogFrame)
    (h : fr.index = index) : FramesAdded frames index (frames ++ [fr]) (index + 1) :=
  ⟨[fr], rfl, by simp [h], rfl⟩

theorem batchFrame_index (env : FlushEnv) (temp_buf : List Nat) (ev_crc L T : Nat) (hc : Bool)
    (flag : Consensus_log_event_flag) (idx : Nat) (buffer : List Nat) (s e : Nat) :
    (batchFrame env temp_buf ev_crc L T hc flag idx buffer s e).index = idx := by
  unfold batchFrame
  dsimp only
  split <;> rfl

theorem flushLoop_framesAdded (env : FlushEnv) (total_size : Nat) (temp_buf : List Nat)
    (ev_crc L T : Nat) (hc : Bool) :
    ∀ (ranges : List (Nat × Nat)) (st st2 : FlushState),
      flushLoop env total_size temp_buf ev_crc L T hc ranges st = some st2 →
      FramesAdded st.frames st.current_index st2.frames st2.current_index := by
  intro ranges
  induction ranges with
  | nil =>
    intro st st2 h
    simp only [flushLoop, Option.some.injEq] at h
    rw [← h]
    exact framesAdded_refl _ _
  | cons r rs ih =>
    intro st st2 h
    rw [flushLoop] at h
    cases hb : flushBatch env total_size temp_buf ev_crc L T hc st r.1 r.2 with
    | none =>
      rw [hb] at h
      cases h
    | some st1 =>
      rw [hb] at h
      have h1 := ih st1 st2 h
      have h0 : FramesAdded st.frames st.current_index st1.frames st1.current_index := by
        unfold flushBatch at hb
        dsimp only at hb
        split at hb
        · cases hb
        · split at hb
          · cases hb
          · simp only [Option.some.injEq] at hb
            rw [← hb]
            exact framesAdded_one _ _ _ (batchFrame_index _ _ _ _ _ _ _ _ _ _ _)
      exact framesAdded_trans _ _ _ _ _ _ h0 h1

theorem large_event_flush_framesAdded (env : FlushEnv) (total_size : Nat) (ev : List Nat)
    (L T : Nat) (hc : Bool) (tbs : Nat) (buffer : List Nat) (idx : Nat) (first : Bool)
    (fs : FlushState)
    (h : large_event_flush env total_size ev L T hc tbs buffer idx first = some fs) :
    FramesAdded [] idx fs.frames fs.current_index := by
  unfold large_event_flush at h
  split at h
  · cases h
  · split at h
    · cases h
    · dsimp only at h
      split at h
      · cases h
      · exact flushLoop_framesAdded _ _ _ _ _ _ _ _ _ _ h

theorem framesAdded_nil (idx : Nat) (frames : List LogFrame) (index2 : Nat)
    (h : FramesAdded [] idx frames index2) :
    frames.map LogFrame.index = List.range' idx frames.length ∧ index2 = idx + frames.length := by
  obtain ⟨frs, h1, h2, h3⟩ := h
  rw [List.nil_append] at h1
  rw [h1]
  exact ⟨h2, h3⟩

theorem framesAdded_prepend (pre : List LogFrame) (idx : Nat) (frames : List LogFrame)
    (index2 : Nat) (h : FramesAdded [] idx frames index2) :
    FramesAdded pre idx (pre ++ frames) index2 := by
  obtain ⟨frs, h1, h2, h3⟩ := h
  rw [List.nil_append] at h1
  exact ⟨frs, by rw [h1], h2, h3⟩

theorem large_trx_flush_log_cache_framesAdded (env : TrxEnv) (hc : Bool) (st : TrxState)
    (flag : Consensus_log_event_flag) :
    FramesAdded st.frames st.current_index
      (large_trx_flush_log_cache env hc st flag).frames
      (large_trx_flush_log_cache env hc st flag).current_index :=
  framesAdded_one _ _ _ rfl

theorem framesAdded_ite (c : Prop) [Decidable c] (frames : List LogFrame) (index : Nat)
    (a b : TrxState) (ha : FramesAdded frames index a.frames a.current_index)
    (hb : FramesAdded frames index b.frames b.current_index) :
    FramesAdded frames index (if c then a else b).frames (if c then a else b).current_index := by
  split <;> assumption

theorem large_trx_flush_event_framesAdded (env : TrxEnv) (total_size : Nat) (hc : Bool)
    (st st2 : TrxState) (ev : List Nat)
    (h : large_trx_flush_event env total_size hc st ev = some st2) :
    FramesAdded st.frames st.current_index st2.frames st2.current_index := by
  unfold large_trx_flush_event at h
  dsimp only at h
  generalize (if hc = true then BINLOG_CHECKSUM_LEN else 0) = foot at h
  have hs1 : ∀ c : Prop, ∀ _ : Decidable c,
      FramesAdded st.frames st.current_index
        (if c then
          { large_trx_flush_log_cache env hc
              { st with total_batch_size := (st.total_batch_size + st.log_cache.length) % 2 ^ 64 }
              FLAG_LARGE_TRX with
            fisrt_event_in_batch := true, log_cache := [] }
        else st).frames
        (if c then
          { large_trx_flush_log_cache env hc
              { st with total_batch_size := (st.total_batch_size + st.log_cache.length) % 2 ^ 64 }
              FLAG_LARGE_TRX with
            fisrt_event_in_batch := true, log_cache := [] }
        else st).current_index := by
    intro c _
    exact framesAdded_ite _ _ _ _ _
      (large_trx_flush_log_cache_framesAdded env hc
        { st with total_batch_size := (st.total_batch_size + st.log_cache.length) % 2 ^ 64 }
        FLAG_LARGE_TRX)
      (framesAdded_refl _ _)
  have hs1a := hs1 (st.log_cache.length > 0
      ∧ st.log_cache.length + (uint4korr ev EVENT_LEN_OFFSET + foot)
        > env.opt_consensus_max_log_size) inferInstance
  generalize (if st.log_cache.length > 0
      ∧ st.log_cache.length + (uint4korr ev EVENT_LEN_OFFSET + foot)
        > env.opt_consensus_max_log_size then
          ({ large_trx_flush_log_cache env hc
              { st with total_batch_size := (st.total_batch_size + st.log_cache.length) % 2 ^ 64 }
              FLAG_LARGE_TRX with
            fisrt_event_in_batch := true, log_cache := [] } : TrxState)
        else st) = s1 at h hs1a
  split at h
  · split at h
    · cases h
    · split at h
      · cases h
      · rename_i fs hfs
        simp only [Option.some.injEq] at h
        rw [← h]
        have hadd := large_event_flush_framesAdded _ _ _ _ _ _ _ _ _ _ _ hfs
        exact framesAdded_trans _ _ _ _ _ _ hs1a (framesAdded_prepend s1.frames _ _ _ hadd)
  · split at h
    · cases h
    · split at h
      · cases h
      · simp only [Option.some.injEq] at h
        rw [← h]
        exact hs1a

theorem large_trx_flush_loop_framesAdded (env : TrxEnv) (total_size : Nat) (hc : Bool) :
    ∀ (events : List (List Nat)) (st st2 : TrxState),
      large_trx_flush_loop env total_size hc events st = some st2 →
      FramesAdded st.frames st.current_index st2.frames st2.current_index := by
  intro events
  induction events with
  | nil =>
    intro st st2 h
    simp only [large_trx_flush_loop, Option.some.injEq] at h
    rw [← h]
    exact framesAdded_refl _ _
  | cons e es ih =>
    intro st st2 h
    rw [large_trx_flush_loop] at h
    cases hb : large_trx_flush_event env total_size hc st e with
    | none =>
      rw [hb] at h
      cases h
    | some st1 =>
      rw [hb] at h
      exact framesAdded_trans _ _ _ _ _ _
        (large_trx_flush_event_framesAdded env total_size hc st st1 e hb) (ih st1 st2 h)

theorem large_trx_flush_framesAdded (env : TrxEnv) (total_size : Nat) (hc : Bool)
    (gtid : List Nat) (events : List (List Nat)) (binlog_pos idx : Nat) (first : Bool)
    (ts : TrxState)
    (h : large_trx_flush env total_size hc gtid events binlog_pos idx first = some ts) :
    FramesAdded [] idx ts.frames ts.current_index := by
  unfold large_trx_flush at h
  dsimp only at h
  split at h
  · cases h
  · split at h
    · cases h
    · rename_i st hloop
      have h1 := large_trx_flush_loop_framesAdded env total_size hc events _ st hloop
      dsimp only at h1
      split at h
      · simp only [Option.some.injEq] at h
        rw [← h]
        exact framesAdded_trans _ _ _ _ _ _ h1
          (large_trx_flush_log_cache_framesAdded env hc st FLAG_LARGE_TRX_END)
      · simp only [Option.some.injEq] at h
        rw [← h]
        exact h1


theorem storeAdvance_refl (st : LogStore) : StoreAdvance st st :=
  ⟨[], by simp, rfl, rfl, Nat.le_refl _⟩

theorem storeAdvance_trans (s1 s2 s3 : LogStore) (h12 : StoreAdvance s1 s2)
    (h23 : StoreAdvance s2 s3) : StoreAdvance s1 s3 := by
  obtain ⟨a, ha1, ha2, ha3, ha4⟩ := h12
  obtain ⟨b, hb1, hb2, hb3, hb4⟩ := h23
  refine ⟨a ++ b, by rw [hb1, ha1, List.append_assoc], ?_, ?_, Nat.le_trans ha4 hb4⟩
  · rw [List.map_append, ha2, hb2, ha3, List.length_append, range'_append_range']
  · rw [hb3, ha3, List.length_append, Nat.add_assoc]

theorem storeAdvance_of_fields (st st2 : LogStore) (hf : st2.frames = st.frames)
    (hc : st2.current_index = st.current_index) (hs : st.sync_index ≤ st2.sync_index) :
    StoreAdvance st st2 :=
  ⟨[], by rw [hf, List.append_nil], rfl, by rw [hc]; rfl, hs⟩

theorem storeAdvance_of_frameWritten (st st2 : LogStore) (h : FrameWritten st st2) :
    StoreAdvance st st2 := by
  obtain ⟨hs, ⟨fr, hfr, hidx⟩, hc⟩ := h
  exact ⟨[fr], hfr, by simp [hidx], hc, by rw [hs]⟩

/-- A call of `append_consensue_log_entry` that returns, with or without error, has only
added frames carrying the current index of their time. -/
theorem append_entry_advance (env : AppendEnv) (st : LogStore) (log : ConsensusLogEntry)
    (r : EntryResult) (h : append_consensue_log_entry env st log = some r) :
    StoreAdvance st r.store := by
  obtain ⟨hs, h0, h1⟩ := append_entry_frames env st log r h
  by_cases he : r.error = 0
  · exact storeAdvance_of_frameWritten _ _ (h0 he)
  · exact storeAdvance_of_fields _ _ (h1 he).1 (h1 he).2 (by rw [hs])

theorem add_cache_advance (st : LogStore) (b : Bool) (entry : Nat × List Nat) :
    StoreAdvance st
      (if b = true then { st with fifo_cache := st.fifo_cache ++ [entry] } else st) := by
  obtain ⟨h1, h2, h3⟩ := add_cache_fields st b entry
  exact storeAdvance_of_fields _ _ h2 h1 (by rw [h3])

theorem set_sync_index_if_greater_advance (st : LogStore) (index : Nat) :
    StoreAdvance st (set_sync_index_if_greater st index) := by
  obtain ⟨h1, h2, h3⟩ := set_sync_index_if_greater_fields st index
  exact storeAdvance_of_fields _ _ h2 h1 h3

theorem append_consensus_log_advance (env : AppendEnv) (st : LogStore)
    (log : ConsensusLogEntry) (with_check : Bool) (r : AppendResult)
    (h : append_consensus_log env st log with_check = some r) : StoreAdvance st r.store := by
  unfold append_consensus_log at h
  split at h
  · simp only [Option.some.injEq] at h
    rw [← h]
    exact storeAdvance_refl st
  · dsimp only at h
    split at h
    · simp only [Option.some.injEq] at h
      rw [← h]
      exact storeAdvance_refl st
    · split at h
      · cases h
      · rename_i re hre
        have hadv := append_entry_advance env st log re hre
        split at h
        · simp only [Option.some.injEq] at h
          rw [← h]
          exact hadv
        · simp only [Option.some.injEq] at h
          rw [← h]
          exact storeAdvance_trans _ _ _ hadv
            (storeAdvance_trans _ _ _ (add_cache_advance re.store re.add_cache _)
              (set_sync_index_if_greater_advance _ _))

theorem append_multi_loop_advance (env : AppendEnv) :
    ∀ (logs : List ConsensusLogEntry) (ms ms2 : MultiState),
      append_multi_loop env logs ms = some ms2 → StoreAdvance ms.store ms2.store := by
  intro logs
  induction logs with
  | nil =>
    intro ms ms2 h
    simp only [append_multi_loop, Option.some.injEq] at h
    rw [← h]
    exact storeAdvance_refl _
  | cons log rest ih =>
    intro ms ms2 h
    rw [append_multi_loop] at h
    split at h
    · simp only [Option.some.injEq] at h
      rw [← h]
      exact storeAdvance_refl _
    · dsimp only at h
      split at h
      · cases h
      · rename_i re hre
        have hadv := append_entry_advance env ms.store log re hre
        split at h
        · simp only [Option.some.injEq] at h
          rw [← h]
          exact hadv
        · have h2 := ih _ ms2 h
          exact storeAdvance_trans _ _ _ hadv
            (storeAdvance_trans _ _ _ (add_cache_advance re.store re.add_cache _) h2)

theorem append_multi_consensus_logs_advance (env : AppendEnv) (st : LogStore)
    (logs : List ConsensusLogEntry) (ms : MultiState)
    (h : append_multi_consensus_logs env st logs = some ms) : StoreAdvance st ms.store := by
  unfold append_multi_consensus_logs at h
  split at h
  · cases h
  · rename_i ms1 hms1
    have hadv := append_multi_loop_advance env logs _ ms1 hms1
    split at h
    · simp only [Option.some.injEq] at h
      rw [← h]
      exact hadv
    · simp only [Option.some.injEq] at h
      rw [← h]
      exact storeAdvance_trans _ _ _ hadv (set_sync_index_if_greater_advance _ _)

theorem runAppendCall_advance (env : AppendEnv) (st st2 : LogStore) (call : AppendCall)
    (h : runAppendCall env st call = some st2) : StoreAdvance st st2 := by
  cases call with
  | single log with_check =>
    simp only [runAppendCall, Option.map_eq_some'] at h
    obtain ⟨r, hr, hst⟩ := h
    rw [← hst]
    exact append_consensus_log_advance env st log with_check r hr
  | multi logs =>
    simp only [runAppendCall, Option.map_eq_some'] at h
    obtain ⟨r, hr, hst⟩ := h
    rw [← hst]
    exact append_multi_consensus_logs_advance env st logs r hr

/-- Any sequence of calls of `append_consensus_log` and `append_multi_consensus_logs` that
returns has only added frames, each carrying the current index of its time, which it
incremented by one, and has not decreased the sync index. -/
theorem runAppendCalls_advance (env : AppendEnv) :
    ∀ (calls : List AppendCall) (st st2 : LogStore),
      runAppendCalls env calls st = some st2 → StoreAdvance st st2 := by
  intro calls
  induction calls with
  | nil =>
    intro st st2 h
    simp only [runAppendCalls, Option.some.injEq] at h
    rw [← h]
    exact storeAdvance_refl _
  | cons call rest ih =>
    intro st st2 h
    rw [runAppendCalls] at h
    split at h
    · cases h
    · rename_i st1 hst1
      exact storeAdvance_trans _ _ _ (runAppendCall_advance env st st1 call hst1)
        (ih st1 st2 h)

/-- Frames with consecutive indices ending just below the current index stay so when
frames are added that carry the current index of their time. -/
theorem consecutive_storeAdvance (st st2 : LogStore)
    (hcons : ConsecutiveIndices (st.frames.map FileFrame.index) st.current_index)
    (hadv : StoreAdvance st st2) :
    ConsecutiveIndices (st2.frames.map FileFrame.index) st2.current_index := by
  obtain ⟨frs, hf, hidx, hc, -⟩ := hadv
  obtain ⟨hlen, hrange⟩ := hcons
  rw [List.length_map] at hlen hrange
  unfold ConsecutiveIndices
  rw [List.length_map, hf, List.map_append, List.length_append, hc, hidx]
  refine ⟨by omega, ?_⟩
  have e1 : st.current_index + frs.length - (st.frames.length + frs.length)
      = st.current_index - st.frames.length := by omega
  have e2 : st.current_index = (st.current_index - st.frames.length) + st.frames.length := by
    omega
  have e3 : List.range' st.current_index frs.length
      = List.range' (st.current_index - st.frames.length + st.frames.length) frs.length := by
    rw [← e2]
  rw [e1, hrange, e3, range'_append_range']

/-- With `opt_consensus_checksum` set, a call of `append_consensue_log_entry` for a
cluster-info entry that returns has returned 1 and has written no frame. -/
theorem cluster_info_branch_checksum (env : AppendEnv) (st : LogStore)
    (log : ConsensusLogEntry) (r : EntryResult) (hck : env.opt_consensus_checksum = true)
    (houter : log.outer = true) (h : append_consensue_log_entry env st log = some r) :
    r.error = 1 ∧ r.store.frames = st.frames ∧ r.store.current_index = st.current_index := by
  unfold append_consensue_log_entry at h
  dsimp only at h
  rw [if_pos houter] at h
  split at h
  · cases h
  · rw [if_pos hck] at h
    simp only [Option.some.injEq] at h
    rw [← h]
    exact ⟨rfl, rfl, rfl⟩


set_option maxRecDepth 100000 in
/-- With `opt_consensus_checksum` set, `append_consensue_log_entry` for the
cluster-info entry `clusterInfoEntry` on the store `store5` returns 1 and writes no frame:
the file still holds the frames 1 to 4 and the current index is still 5, and
`append_consensus_log` returns 1 with 5 stored through `index`. Without
`opt_consensus_checksum` the same entry is written as the frame with index 5 and the
current index becomes 6. -/
theorem cluster_info_branch_example :
    (append_consensue_log_entry checksumEnv store5 clusterInfoEntry).map
        (fun r => (r.error, r.store.frames, r.store.current_index))
      = some (1, store5.frames, 5)
    ∧ (append_consensus_log checksumEnv store5 clusterInfoEntry true).map
        (fun r => (r.error, r.index, r.store.frames.map FileFrame.index,
          r.store.current_index, r.store.sync_index))
      = some (1, 5, [1, 2, 3, 4], 5, 4)
    ∧ (append_consensue_log_entry appendEnv store5 clusterInfoEntry).map
        (fun r => (r.error, r.store.frames.map FileFrame.index, r.store.current_index))
      = some (0, [1, 2, 3, 4, 5], 6) := by
  decide


theorem flushBatch_one_frame (env : FlushEnv) (total_size : Nat) (temp_buf : List Nat)
    (ev_crc L T : Nat) (hc : Bool) (st st1 : FlushState) (s e : Nat)
    (h : flushBatch env total_size temp_buf ev_crc L T hc st s e = some st1) :
    (∃ fr, st1.frames = st.frames ++ [fr] ∧ fr.index = st.current_index)
    ∧ st1.current_index = st.current_index + 1 := by
  unfold flushBatch at h
  dsimp only at h
  split at h
  · cases h
  · split at h
    · cases h
    · simp only [Option.some.injEq] at h
      rw [← h]
      exact ⟨⟨_, rfl, batchFrame_index _ _ _ _ _ _ _ _ _ _ _⟩, rfl⟩

/-- C23: `write_consensus_log_event` builds its frame with the current index and then
increments the current index by one. A call of `append_consensue_log_entry` that returns
without error, in whichever branch, has written exactly one such frame and left the sync
index alone, and a plain entry made of complete events with footers does return without
error. Every batch of `large_event_flush` and every flush of the log cache in
`large_trx_flush` writes exactly one frame, built with the current index, and increments
the current index by one; the frames of a returning `large_event_flush` or
`large_trx_flush` that started at the index `idx` carry the indices `idx, idx + 1, ...`
in order, and the current index ends right after the last. Hence any sequence of calls of `append_consensus_log` and
`append_multi_consensus_logs` that returns has only added frames whose indices run from
the old current index up to just below the new one, the sync index has not decreased,
and frames that carried consecutive indices up to the current index still do. -/
theorem C23_index_monotonicity (env : AppendEnv) :
    (∀ (st : LogStore) (flag : Consensus_log_event_flag) (term length checksum : Nat),
      (write_consensus_log_event env st flag term length checksum).frames
        = st.frames ++ [{ flag := flag, term := term, index := st.current_index,
                          length := length, checksum := checksum, payload := [] }]
      ∧ (write_consensus_log_event env st flag term length checksum).current_index
        = st.current_index + 1)
    ∧ (∀ (st : LogStore) (log : ConsensusLogEntry) (r : EntryResult),
        append_consensue_log_entry env st log = some r → r.error = 0 →
        r.store.sync_index = st.sync_index
        ∧ (∃ fr, r.store.frames = st.frames ++ [fr] ∧ fr.index = st.current_index)
        ∧ r.store.current_index = st.current_index + 1)
    ∧ (∀ (st : LogStore) (log : ConsensusLogEntry) (events : List (List Nat)),
        log.outer = false → log.flag.blob = false → log.flag.blob_end = false →
        log.buffer = events.flatten → (∀ e ∈ events, FooterEvent e) →
        ∃ r, append_consensue_log_entry env st log = some r ∧ r.error = 0)
    ∧ (∀ (fenv : FlushEnv) (total_size : Nat) (temp_buf : List Nat) (ev_crc L T : Nat)
        (hc : Bool) (st st1 : FlushState) (s e : Nat),
        flushBatch fenv total_size temp_buf ev_crc L T hc st s e = some st1 →
        (∃ fr, st1.frames = st.frames ++ [fr] ∧ fr.index = st.current_index)
        ∧ st1.current_index = st.current_index + 1)
    ∧ (∀ (fenv : FlushEnv) (total_size : Nat) (ev : List Nat) (L T : Nat) (hc : Bool)
        (tbs : Nat) (buffer : List Nat) (idx : Nat) (first : Bool) (fs : FlushState),
        large_event_flush fenv total_size ev L T hc tbs buffer idx first = some fs →
        fs.frames.map LogFrame.index = List.range' idx fs.frames.length
        ∧ fs.current_index = idx + fs.frames.length)
    ∧ (∀ (tenv : TrxEnv) (hc : Bool) (st : TrxState) (flag : Consensus_log_event_flag),
        (∃ fr, (large_trx_flush_log_cache tenv hc st flag).frames = st.frames ++ [fr]
          ∧ fr.index = st.current_index)
        ∧ (large_trx_flush_log_cache tenv hc st flag).current_index = st.current_index + 1)
    ∧ (∀ (tenv : TrxEnv) (total_size : Nat) (hc : Bool) (gtid : List Nat)
        (events : List (List Nat)) (binlog_pos idx : Nat) (first : Bool) (ts : TrxState),
        large_trx_flush tenv total_size hc gtid events binlog_pos idx first = some ts →
        ts.frames.map LogFrame.index = List.range' idx ts.frames.length
        ∧ ts.current_index = idx + ts.frames.length)
    ∧ (∀ (calls : List AppendCall) (st st2 : LogStore),
        runAppendCalls env calls st = some st2 →
        (∃ frs : List FileFrame, st2.frames = st.frames ++ frs
          ∧ frs.map FileFrame.index = List.range' st.current_index frs.length
          ∧ st2.current_index = st.current_index + frs.length)
        ∧ st.sync_index ≤ st2.sync_index
        ∧ (ConsecutiveIndices (st.frames.map FileFrame.index) st.current_index →
            ConsecutiveIndices (st2.frames.map FileFrame.index) st2.current_index)) := by
  refine ⟨?_, ?_, ?_, ?_, ?_, ?_, ?_, ?_⟩
  · intro st flag term length checksum
    exact ⟨rfl, rfl⟩
  · intro st log r h h0
    exact (append_entry_frames env st log r h).2.1 h0
  · intro st log events houter hblob hend hbuf hev
    exact append_entry_plain env st log events houter hblob hend hbuf hev
  · intro fenv total_size temp_buf ev_crc L T hc st st1 s e h
    exact flushBatch_one_frame fenv total_size temp_buf ev_crc L T hc st st1 s e h
  · intro fenv total_size ev L T hc tbs buffer idx first fs h
    exact framesAdded_nil idx fs.frames fs.current_index
      (large_event_flush_framesAdded fenv total_size ev L T hc tbs buffer idx first fs h)
  · intro tenv hc st flag
    exact ⟨⟨_, rfl, rfl⟩, rfl⟩
  · intro tenv total_size hc gtid events binlog_pos idx first ts h
    exact framesAdded_nil idx ts.frames ts.current_index
      (large_trx_flush_framesAdded tenv total_size hc gtid events binlog_pos idx first ts h)
  · intro calls st st2 h
    have hadv := runAppendCalls_advance env calls st st2 h
    refine ⟨?_, ?_, fun hcons => consecutive_storeAdvance st st2 hcons hadv⟩
    · obtain ⟨frs, h1, h2, h3, -⟩ := hadv
      exact ⟨frs, h1, h2, h3⟩
    · obtain ⟨frs, -, -, -, h4⟩ := hadv
      exact h4

set_option maxRecDepth 100000 in
/-- C23 applied to the store `store5` (frames 1 to 4, current index 5, sync index 4) and
the calls `sampleCalls`, which pass through the plain, `BLOB`, `BLOB_END` and cluster-info
branches: the file then holds the frames 1 to 8, the current index is 9 and the sync
index 8. The plain entry alone is written as the frame 5; the event `event28` split at 16
bytes from the index 7 gives the frames 7 and 8, and the transaction of C20 from the index
7 gives frames with consecutive indices from 7 on. -/
theorem C23_index_monotonicity_witness :
    ConsecutiveIndices (store5.frames.map FileFrame.index) store5.current_index
    ∧ (runAppendCalls appendEnv sampleCalls store5).map
        (fun s => (s.frames.map FileFrame.index, s.current_index, s.sync_index))
      = some ([1, 2, 3, 4, 5, 6, 7, 8], 9, 8)
    ∧ (∃ st2, runAppendCalls appendEnv sampleCalls store5 = some st2
      ∧ store5.sync_index ≤ st2.sync_index
      ∧ ConsecutiveIndices (st2.frames.map FileFrame.index) st2.current_index)
    ∧ (∃ r, append_consensue_log_entry appendEnv store5 plainEntry = some r ∧ r.error = 0
      ∧ (∃ fr, r.store.frames = store5.frames ++ [fr] ∧ fr.index = store5.current_index)
      ∧ r.store.current_index = store5.current_index + 1)
    ∧ (∃ fs, large_event_flush env16 32 event28 event28.length
          (event28.length + BINLOG_CHECKSUM_LEN) true 0 (List.replicate 16 0) 7 false = some fs
      ∧ fs.frames.length = 2
      ∧ fs.frames.map LogFrame.index = List.range' 7 fs.frames.length
      ∧ fs.current_index = 7 + fs.frames.length)
    ∧ (∃ ts, large_trx_flush env60 119 true smallEvent [smallEvent, event28, smallEvent] 4 7
          false = some ts
      ∧ ts.frames.length = 3
      ∧ ts.frames.map LogFrame.index = List.range' 7 ts.frames.length
      ∧ ts.current_index = 7 + ts.frames.length) := by
  have hcons : ConsecutiveIndices (store5.frames.map FileFrame.index) store5.current_index :=
    ⟨by decide, by decide⟩
  have hsome : (runAppendCalls appendEnv sampleCalls store5).isSome = true := by decide
  obtain ⟨st2, h⟩ := Option.isSome_iff_exists.mp hsome
  have hthm := (C23_index_monotonicity appendEnv).2.2.2.2.2.2.2 sampleCalls store5 st2 h
  obtain ⟨r, hr, hr0⟩ := (C23_index_monotonicity appendEnv).2.2.1 store5 plainEntry
    [smallEvent] rfl rfl rfl (by simp [plainEntry])
    (fun e he => by rw [List.mem_singleton.1 he]; exact footerEvent_smallEvent)
  have hfr := (C23_index_monotonicity appendEnv).2.1 store5 plainEntry r hr hr0
  have hfsome : (large_event_flush env16 32 event28 event28.length
      (event28.length + BINLOG_CHECKSUM_LEN) true 0 (List.replicate 16 0) 7 false).isSome
        = true := by decide
  obtain ⟨fs, hfs⟩ := Option.isSome_iff_exists.mp hfsome
  have hfl : (large_event_flush env16 32 event28 event28.length
      (event28.length + BINLOG_CHECKSUM_LEN) true 0 (List.replicate 16 0) 7 false).map
        (fun x => x.frames.length) = some 2 := by decide
  have hfidx := (C23_index_monotonicity appendEnv).2.2.2.2.1 env16 32 event28 event28.length
    (event28.length + BINLOG_CHECKSUM_LEN) true 0 (List.replicate 16 0) 7 false fs hfs
  have htsome : (large_trx_flush env60 119 true smallEvent [smallEvent, event28, smallEvent]
      4 7 false).isSome = true := by decide
  obtain ⟨ts, hts⟩ := Option.isSome_iff_exists.mp htsome
  have htl : (large_trx_flush env60 119 true smallEvent [smallEvent, event28, smallEvent]
      4 7 false).map (fun x => x.frames.length) = some 3 := by decide
  have htidx := (C23_index_monotonicity appendEnv).2.2.2.2.2.2.1 env60 119 true smallEvent
    [smallEvent, event28, smallEvent] 4 7 false ts hts
  rw [hfs] at hfl
  rw [hts] at htl
  exact ⟨hcons, by decide, ⟨st2, h, hthm.2.1, hthm.2.2 hcons⟩,
    ⟨r, hr, hr0, hfr.2.1, hfr.2.2⟩,
    ⟨fs, hfs, Option.some.inj hfl, hfidx.1, hfidx.2⟩,
    ⟨ts, hts, Option.some.inj htl, htidx.1, htidx.2⟩⟩


/-! ## A write of `2 ^ 32` bytes -/

theorem length_flatten_replicate (n : Nat) (l : List Nat) :
    (List.replicate n l).flatten.length = n * l.length := by
  induction n with
  | zero => simp
  | succ n ih =>
    rw [List.replicate_succ, List.flatten_cons, List.length_append, ih, Nat.succ_mul,
      Nat.add_comm]

/-- Between two events, or with a header partly read, an iteration of `write` on a rest
whose length is a multiple of `2 ^ 32` copies no byte: `std::min<uint32>` truncates the
length to 0, and the state and the rest stay as they are. -/
theorem writeStep_stall (st : WriteState) (buffer : List Nat) (hev : st.w.event_len = 0)
    (hh : st.w.header_len < LOG_EVENT_HEADER_LEN) (hlen : buffer.length % 2 ^ 32 = 0) :
    writeStep st buffer = some (st, buffer) := by
  obtain ⟨⟨f1, f2, f3, f4, f5, f6, f7, f8, f9⟩, o, c⟩ := st
  dsimp only at hev hh
  subst hev
  have hne : ¬ (f8 = LOG_EVENT_HEADER_LEN) := by omega
  unfold writeStep
  simp only [if_true, hlen, Nat.min_zero, List.take_zero, List.append_nil,
    Nat.add_zero, List.take_append_drop, List.drop_zero, if_neg hne]

/-- The loop of `write` on such a rest does not end, whatever the fuel. -/
theorem writeLoop_stall (st : WriteState) (buffer : List Nat) (hev : st.w.event_len = 0)
    (hh : st.w.header_len < LOG_EVENT_HEADER_LEN) (hlen : buffer.length % 2 ^ 32 = 0)
    (hne : buffer ≠ []) : ∀ fuel, writeLoop fuel st buffer = none := by
  intro fuel
  induction fuel with
  | zero =>
    cases buffer with
    | nil => exact absurd rfl hne
    | cons b bs => rfl
  | succ fuel ih =>
    cases buffer with
    | nil => exact absurd rfl hne
    | cons b bs =>
      rw [writeLoop, writeStep_stall st (b :: bs) hev hh hlen]
      exact ih

theorem length_events4G : events4G.flatten.length = 2 ^ 32 := by
  unfold events4G
  rw [length_flatten_replicate]
  decide

theorem events4G_ne_nil : events4G.flatten ≠ [] := by
  intro h
  have := length_events4G
  rw [h] at this
  exact absurd this (by decide)

theorem footerEvent_event32 : FooterEvent event32 :=
  ⟨by decide, by decide, by decide⟩

theorem footerEvent_events4G : ∀ e ∈ events4G, FooterEvent e := by
  intro e he
  rw [List.eq_of_mem_replicate he]
  exact footerEvent_event32

theorem write_events4G (have_checksum have_footer : Bool) (P : Nat) (ostream : List Nat) :
    ∀ fuel, writeLoop fuel
      { w := Consensuslog_event_writer.new have_checksum P true have_footer,
        ostream := ostream, out_crc := none } events4G.flatten = none :=
  writeLoop_stall _ _ rfl (by show 0 < LOG_EVENT_HEADER_LEN; decide)
    (by rw [length_events4G]; decide) events4G_ne_nil

/-- C13: the buffer `events4G.flatten` is a concatenation of `2 ^ 27` events of 32 bytes,
each with its byte length in the length field: `2 ^ 32` bytes. A `write` of it, with
`have_checksum` set or not, copies no byte and does not return: in the first iteration
`std::min<uint32>(LOG_EVENT_HEADER_LEN - header_len, length)` is 0, and the state is the
same in every later one, whatever the number of iterations. -/
theorem C13_write_stalls :
    (∀ e ∈ events4G, WellFormedEvent e)
    ∧ events4G.flatten.length = 2 ^ 32
    ∧ writeStep
        { w := Consensuslog_event_writer.new true 0 true false, ostream := [],
          out_crc := none } events4G.flatten
      = some ({ w := Consensuslog_event_writer.new true 0 true false, ostream := [],
                out_crc := none }, events4G.flatten)
    ∧ (∀ fuel, writeLoop fuel
        { w := Consensuslog_event_writer.new true 0 true false, ostream := [],
          out_crc := none } events4G.flatten = none)
    ∧ write (Consensuslog_event_writer.new true 0 true false) [] events4G.flatten = none
    ∧ write (Consensuslog_event_writer.new false 0 true false) [] events4G.flatten = none :=
  ⟨fun e he => footerEvent_wellFormed e (footerEvent_events4G e he), length_events4G,
    writeStep_stall _ _ rfl (by decide) (by rw [length_events4G]; decide),
    write_events4G true false 0 [], write_events4G true false 0 [] _,
    write_events4G false false 0 [] _⟩

/-- C15: the buffer `events4G.flatten` of `2 ^ 32` bytes is a concatenation of complete
events that end in a four-byte footer. `revise_buffer` with
`have_checksum = have_footer = true` returns on it and leaves the revised buffer of the
same length, but `write` with the same flags emits nothing for this input and does not
return, so there is no stream that the revised buffer could equal. -/
theorem C15_write_stalls_on_buffer :
    (∀ e ∈ events4G, FooterEvent e)
    ∧ (∃ st, revise_buffer (Consensuslog_event_writer.new true 0 false true) events4G.flatten
          = some st
        ∧ st.revised = footerRevisedStream 0 0 events4G
        ∧ st.revised.length = 2 ^ 32)
    ∧ write (Consensuslog_event_writer.new true 0 true true) [] events4G.flatten = none
    ∧ ¬ ∃ st2, write (Consensuslog_event_writer.new true 0 true true) [] events4G.flatten
        = some st2 := by
  have hev := footerEvent_events4G
  have hfoot : ∀ e ∈ events4G, LOG_EVENT_HEADER_LEN + BINLOG_CHECKSUM_LEN ≤ e.length :=
    fun e he => (hev e he).1
  obtain ⟨st, h1, h2, -, -, -⟩ := revise_events true true 0 events4G
    (fun e he => footerEvent_wellFormed e (hev e he)) (fun _ _ => hfoot)
    (fun e he => (hev e he).2.1)
  have h3 : st.revised = footerRevisedStream 0 0 events4G := by
    rw [h2, revisedStream_footer 0 events4G hfoot]
  have hw : write (Consensuslog_event_writer.new true 0 true true) [] events4G.flatten = none :=
    write_events4G true true 0 [] _
  refine ⟨hev, ⟨st, h1, h3, ?_⟩, hw, ?_⟩
  · rw [h3, length_footerRevisedStream 0 events4G hfoot, length_events4G]
  · rintro ⟨st2, h⟩
    rw [hw] at h
    cases h

end alisql
